import Mathlib

/-!
# Threading: distance and slope angle over a grid of heights

A shallow embedding of the three coursework programs

* `cw1Part1.cpp`: one pass over the whole grid,
* `cw1Part2.cpp`: the grid is processed in batches of `ROWS_TO_PROCESS` rows,
* `cw1Part3.cpp`: the rows are split between `NUM_THREADS` POSIX threads.

Conventions of the embedding.

* The macros `ARRAY_HEIGHT`, `ARRAY_WIDTH`, `NUM_THREADS` and `ROWS_TO_PROCESS`
  are parameters `H`, `W`, `N` and `rowsPerBatch`, so that statements range
  over every configuration and not only over the shipped one.
* A C `int` is an `Int`.  No counter of the programs leaves the range of a
  32 bit integer for the shipped constants (the largest value reached is
  `ARRAY_WIDTH * ARRAY_HEIGHT = 50000000`).  The namespace `Machine` repeats
  the driver of `cw1Part2` with its counters as `int`s of 32 bits.
* In the programs of the namespaces `cw1Part1`, `cw1Part2` and `cw1Part3` a
  `float` or `double` is a real number: the arithmetic is exact, `sqrt` is
  `Real.sqrt` and `asin` is `Real.arcsin`.  The namespace `Floating` repeats
  the kernels and the loops of `cw1Part1` and `cw1Part3`, and the loader, in
  the arithmetic of IEEE 754: a `float` is a number of `binary32`, a `double`
  one of `binary64`, and every operation rounds to the nearest number of its
  format, ties to even, with overflow to an infinity and with NaN.
* A `float**` matrix is a function from a row (`Int`, the type of
  `currentRow`) and a column (`Nat`, the loop counter `j` starts at zero and
  counts up) to a real number.  The contents of freshly allocated matrices
  are arbitrary and appear as the initial value of the state.
* `clock()` readings are parameters.
* In `main` of `cw1Part3` the threads are run one after the other in the
  order of their creation.  The section on the threads step by step lets
  them take their steps in any order instead.
* A file is the list of its characters; `rand()` and `std::stof` are
  parameters of the generator and of the loader, and `Floating.stof` is
  `std::stof` on the numerals that `strtof` reads.
-/

namespace Threading

/-! ## Constants shared by the three programs -/

/-- The macro `HORIZONTAL_POINT_DIST`, an `int` literal. -/
def HORIZONTAL_POINT_DIST : Int := 50

/-- The macro `DEGREES_PER_RADIAN`, the decimal literal `57.2958`. -/
def DEGREES_PER_RADIAN : ℚ := 57.2958

/-- The macro `CLOCKS_PER_SEC` of `<time.h>`; POSIX fixes it to one million. -/
def CLOCKS_PER_SEC : Int := 1000000

/-- The conversion `(float)ticks / (float)CLOCKS_PER_SEC`. -/
def seconds (ticks : Int) : ℚ := (ticks : ℚ) / (CLOCKS_PER_SEC : ℚ)

/-! ## The matrices -/

/-- A `float**` matrix; `m i j` is `m[i][j]`. -/
abbrev Matrix := Int → Nat → ℝ

/-- The store `m[i][j] = v`. -/
def Matrix.set (m : Matrix) (i : Int) (j : Nat) (v : ℝ) : Matrix :=
  fun i2 j2 => if i2 = i ∧ j2 = j then v else m i2 j2

/-- The three matrices the programs work on (`struct Arrays` of `cw1Part2`,
the three pointer members of `struct ThreadData` of `cw1Part3`, the three
locals of `main` in `cw1Part1`).  The field `stores` is a ghost log: every
execution of the loop body appends the cell `(currentRow, j)` whose distance
and angle it has just stored. -/
structure Arrays where
  mainArray : Matrix
  distanceArray : Matrix
  angleArray : Matrix
  stores : List (Int × Nat)

/-- The column compared with column `j`:
`int nextColumn = j + 1; if (j == ARRAY_WIDTH - 1) nextColumn = 0;`. -/
def nextColumn (W : Nat) (j : Nat) : Nat :=
  if (j : Int) = (W : Int) - 1 then 0 else j + 1

/-! ## cw1Part3: the row partition computed by `main` -/

namespace cw1Part3

/-- The members `currentRow`, `rowsToProcess` and `timeTaken` of
`struct ThreadData`; the three matrix pointers of the struct all point to the
shared matrices, which are the `Arrays` value passed along with it. -/
structure ThreadData where
  currentRow : Int
  rowsToProcess : Int
  timeTaken : ℚ
deriving DecidableEq

/-- The loop of `main` that fills `data[i]` and creates thread `i`, for the
`n` threads still to create.  `rowsToProcess` is the local of `main`,
`currentRow` and `remainderRows` are its two running locals.  `timeTaken` is
not initialised by `main`; it is written by the thread before it is read, and
it is `0` here. -/
def createLoop (rowsToProcess : Int) : Nat → Int → Int → List ThreadData
  | 0, _, _ => []
  | n + 1, currentRow, remainderRows =>
    if remainderRows ≠ 0 then
      { currentRow := currentRow, rowsToProcess := rowsToProcess + 1, timeTaken := 0 } ::
        createLoop rowsToProcess n (currentRow + (rowsToProcess + 1)) (remainderRows - 1)
    else
      { currentRow := currentRow, rowsToProcess := rowsToProcess, timeTaken := 0 } ::
        createLoop rowsToProcess n (currentRow + rowsToProcess) remainderRows

/-- The array `data` as `main` hands it to the threads:
`rowsToProcess = ARRAY_HEIGHT / NUM_THREADS`,
`remainderRows = ARRAY_HEIGHT % NUM_THREADS`, `currentRow = 0`, then the
creation loop.  Only meaningful for `N ≠ 0` (see `main`). -/
def threadData (H N : Nat) : List ThreadData :=
  createLoop (Int.tdiv H N) N 0 (Int.tmod H N)

/-! ## cw1Part3: the thread function and `main` -/

/-- One execution of the body of the column loop of `processRows`, at row
`currentRow` and column `j`. -/
noncomputable def cellBody (W : Nat) (a : Arrays) (currentRow : Int) (j : Nat) : Arrays :=
  let nextColumn := nextColumn W j
  let verticalDist := a.mainArray currentRow nextColumn - a.mainArray currentRow j
  let hypotenuse := Real.sqrt ((verticalDist * verticalDist) +
    ((HORIZONTAL_POINT_DIST * HORIZONTAL_POINT_DIST : Int) : ℝ))
  { a with
    distanceArray := a.distanceArray.set currentRow j hypotenuse
    angleArray := a.angleArray.set currentRow j
      ((DEGREES_PER_RADIAN : ℝ) * Real.arcsin (verticalDist / hypotenuse))
    stores := a.stores ++ [(currentRow, j)] }

/-- The loop `for (int j = 0; j < ARRAY_WIDTH; j++)` of `processRows`. -/
noncomputable def forLoop (W : Nat) (a : Arrays) (currentRow : Int) : Arrays :=
  (List.range W).foldl (fun acc j => cellBody W acc currentRow j) a

/-- The loop `while (currentRow < ARRAY_HEIGHT && rowsToProcess != 0)` of
`processRows`.  The first argument bounds the number of iterations; the loop
is started with `ARRAY_HEIGHT - currentRow` of them, which it cannot exceed
because `currentRow` grows by one in each iteration. -/
noncomputable def whileLoop (H W : Nat) : Nat → Arrays → Int → Int → Arrays
  | 0, a, _, _ => a
  | fuel + 1, a, currentRow, rowsToProcess =>
    if currentRow < (H : Int) ∧ rowsToProcess ≠ 0 then
      whileLoop H W fuel (forLoop W a currentRow) (currentRow + 1) (rowsToProcess - 1)
    else a

/-- What a thread leaves behind: the shared matrices, its `ThreadData`, and
whether it ended with `return (void*)threadData` (`returned = true`) or with
`pthread_exit(NULL)` after the out of bounds message (`returned = false`). -/
structure ThreadResult where
  arrays : Arrays
  threadData : ThreadData
  returned : Bool

/-- The thread function `processRows`.  `t` holds the two readings of
`clock()`, at the start and at the end of the thread. -/
noncomputable def processRows (H W : Nat) (t : Int × Int) (arrays : Arrays)
    (threadData : ThreadData) : ThreadResult :=
  let currentRow := threadData.currentRow
  let rowsToProcess := threadData.rowsToProcess
  if currentRow ≥ (H : Int) then
    { arrays := arrays, threadData := threadData, returned := false }
  else
    { arrays := whileLoop H W ((H : Int) - currentRow).toNat arrays currentRow rowsToProcess
      threadData := { threadData with timeTaken := seconds (t.2 - t.1) }
      returned := true }

/-- The threads run one after the other, thread `i` on `data[i]`; the result
lists what each of them left behind, the matrices being handed from one to
the next. -/
noncomputable def runThreads (H W : Nat) (clk : Nat → Int × Int) :
    Nat → List ThreadData → Arrays → List ThreadResult
  | _, [], _ => []
  | i, d :: ds, a =>
    processRows H W (clk i) a d ::
      runThreads H W clk (i + 1) ds (processRows H W (clk i) a d).arrays

/-- The matrices after the threads of `runThreads` have run. -/
noncomputable def runThreadsArrays (H W : Nat) (clk : Nat → Int × Int) :
    Nat → List ThreadData → Arrays → Arrays
  | _, [], a => a
  | i, d :: ds, a => runThreadsArrays H W clk (i + 1) ds (processRows H W (clk i) a d).arrays

/-- What `main` does that can be observed, in program order. -/
inductive Event
  | printError
  | setupMainArray
  | allocDistanceArray
  | allocAngleArray
  | printAllocTime (t : ℚ)
  | create (i : Nat) (d : ThreadData)
  | printUpToJoin (t : ℚ)
  | join (i : Nat)
  | printThreadTime (i : Nat) (t : ℚ)
  | printJoinTime (t : ℚ)
  | deleteArrays
  | printTotal (t : ℚ)
deriving DecidableEq

/-- How `main` ends: with a `return`, in the division
`ARRAY_HEIGHT / NUM_THREADS` by zero, or in the dereference
`((ThreadData*)threadReturnVal)->timeTaken` of the `NULL` a thread has passed
to `pthread_exit`. -/
inductive Termination
  | exit (code : Int)
  | divideByZero
  | nullDereference
deriving DecidableEq

/-- The readings of `clock()` in `main`, in program order, and in thread `i`. -/
structure Clock where
  start : Int
  afterAlloc : Int
  afterCreate : Int
  afterJoin : Int
  atEnd : Int
  thread : Nat → Int × Int

/-- The observable result of `main`.  `arrays` is `none` as long as the
matrices have not been allocated; `data` is the array `data` as the threads
receive it. -/
structure MainResult where
  termination : Termination
  events : List Event
  arrays : Option Arrays
  data : List ThreadData

/-- The `pthread_create` events of the creation loop. -/
def createEvents : Nat → List ThreadData → List Event
  | _, [] => []
  | i, d :: ds => Event.create i d :: createEvents (i + 1) ds

/-- The loop of `main` that joins the threads and prints their times; it
stops at the first thread that has returned `NULL`. -/
def joinLoop : Nat → List ThreadResult → List Event × Bool
  | _, [] => ([], true)
  | i, r :: rs =>
    if r.returned then
      (Event.join i :: Event.printThreadTime i r.threadData.timeTaken :: (joinLoop (i + 1) rs).1,
        (joinLoop (i + 1) rs).2)
    else ([Event.join i], false)

/-- The function `main` of `cw1Part3.cpp`.  `mainArray` is what
`setupMainArray` reads from the file, `distance0` and `angle0` are the
contents of the two freshly allocated result matrices. -/
noncomputable def main (H W N : Nat) (clk : Clock) (mainArray distance0 angle0 : Matrix) :
    MainResult :=
  if N > H then
    { termination := Termination.exit 1, events := [Event.printError], arrays := none, data := [] }
  else
    let arrays : Arrays :=
      { mainArray := mainArray, distanceArray := distance0, angleArray := angle0, stores := [] }
    let allocEvents := [Event.setupMainArray, Event.allocDistanceArray, Event.allocAngleArray,
      Event.printAllocTime (seconds (clk.afterAlloc - clk.start))]
    if N = 0 then
      { termination := Termination.divideByZero, events := allocEvents, arrays := some arrays,
        data := [] }
    else
      let data := threadData H N
      let results := runThreads H W clk.thread 0 data arrays
      let final := runThreadsArrays H W clk.thread 0 data arrays
      let threadCreationTime := clk.afterCreate - clk.start
      let upToJoin := allocEvents ++ createEvents 0 data ++
        [Event.printUpToJoin (seconds threadCreationTime)]
      if (joinLoop 0 results).2 then
        { termination := Termination.exit 0
          events := upToJoin ++ (joinLoop 0 results).1 ++
            [Event.printJoinTime (seconds (clk.afterJoin - threadCreationTime)),
             Event.deleteArrays, Event.printTotal (seconds (clk.atEnd - clk.start))]
          arrays := some final, data := data }
      else
        { termination := Termination.nullDereference
          events := upToJoin ++ (joinLoop 0 results).1
          arrays := some final, data := data }

end cw1Part3

/-! ## cw1Part1: the single pass -/

namespace cw1Part1

/-- One execution of the body of the column loop of `main`, at row `i` and
column `j`. -/
noncomputable def cellBody (W : Nat) (a : Arrays) (i : Int) (j : Nat) : Arrays :=
  let nextColumn := nextColumn W j
  let verticalDist := a.mainArray i nextColumn - a.mainArray i j
  let hypotenuse := Real.sqrt (verticalDist ^ 2 + (HORIZONTAL_POINT_DIST : ℝ) ^ 2)
  { a with
    distanceArray := a.distanceArray.set i j hypotenuse
    angleArray := a.angleArray.set i j
      ((DEGREES_PER_RADIAN : ℝ) * Real.arcsin (verticalDist / hypotenuse))
    stores := a.stores ++ [(i, j)] }

/-- The loop `for (int j = 0; j < ARRAY_WIDTH; j++)` of `main`. -/
noncomputable def forLoop (W : Nat) (a : Arrays) (i : Int) : Arrays :=
  (List.range W).foldl (fun acc j => cellBody W acc i j) a

/-- The loop nest of `main`: `for (int i = 0; i < ARRAY_HEIGHT; i++)` around
the column loop.  The result is the state of the matrices when the loops are
left; `main` then frees them, prints the time and returns `0`. -/
noncomputable def main (H W : Nat) (mainArray distance0 angle0 : Matrix) : Arrays :=
  (List.range H).foldl (fun acc (i : Nat) => forLoop W acc (i : Int))
    { mainArray := mainArray, distanceArray := distance0, angleArray := angle0, stores := [] }

end cw1Part1

/-! ## cw1Part2: the batched pass -/

namespace cw1Part2

/-- The matrices and the two counters of `processRows` that the column loop
changes. -/
structure Locals where
  arrays : Arrays
  rowsToProcess : Int
  rowsProcessed : Int

/-- One execution of the body of the column loop of `processRows`, at row
`currentRow` and column `j`; the statements `rowsProcessed++` and
`rowsToProcess--` are part of this body. -/
noncomputable def cellBody (W : Nat) (s : Locals) (currentRow : Int) (j : Nat) : Locals :=
  let nextColumn := nextColumn W j
  let verticalDist := s.arrays.mainArray currentRow nextColumn - s.arrays.mainArray currentRow j
  let hypotenuse := Real.sqrt (verticalDist ^ 2 + (HORIZONTAL_POINT_DIST : ℝ) ^ 2)
  { arrays :=
      { s.arrays with
        distanceArray := s.arrays.distanceArray.set currentRow j hypotenuse
        angleArray := s.arrays.angleArray.set currentRow j
          ((DEGREES_PER_RADIAN : ℝ) * Real.arcsin (verticalDist / hypotenuse))
        stores := s.arrays.stores ++ [(currentRow, j)] }
    rowsToProcess := s.rowsToProcess - 1
    rowsProcessed := s.rowsProcessed + 1 }

/-- The loop `for (int j = 0; j < ARRAY_WIDTH; j++)` of `processRows`. -/
noncomputable def forLoop (W : Nat) (s : Locals) (currentRow : Int) : Locals :=
  (List.range W).foldl (fun acc j => cellBody W acc currentRow j) s

/-- The loop `while (currentRow < ARRAY_HEIGHT && rowsToProcess != 0)` of
`processRows`, bounded like the one of `cw1Part3`. -/
noncomputable def whileLoop (H W : Nat) : Nat → Locals → Int → Locals
  | 0, s, _ => s
  | fuel + 1, s, currentRow =>
    if currentRow < (H : Int) ∧ s.rowsToProcess ≠ 0 then
      whileLoop H W fuel (forLoop W s currentRow) (currentRow + 1)
    else s

/-- The function `processRows`: `none` is the bare `throw` of the bounds
check, otherwise the matrices after the call and the returned
`rowsProcessed`. -/
noncomputable def processRows (H W : Nat) (arrays : Arrays) (currentRow rowsToProcess : Int) :
    Option (Arrays × Int) :=
  if currentRow ≥ (H : Int) then none
  else
    let s := whileLoop H W ((H : Int) - currentRow).toNat
      { arrays := arrays, rowsToProcess := rowsToProcess, rowsProcessed := 0 } currentRow
    some (s.arrays, s.rowsProcessed)

/-- How a run of the driver loop of `main` ends. -/
inductive Outcome
  | finished (a : Arrays)
  | terminated
  | outOfFuel

/-- The loop `while (currentRow < ARRAY_HEIGHT) currentRow += processRows(...)`
of `main`, for at most `fuel` calls of `processRows`. -/
noncomputable def mainLoop (H W : Nat) (rowsPerBatch : Int) : Nat → Arrays → Int → Outcome
  | 0, a, currentRow => if currentRow < (H : Int) then Outcome.outOfFuel else Outcome.finished a
  | fuel + 1, a, currentRow =>
    if currentRow < (H : Int) then
      match processRows H W a currentRow rowsPerBatch with
      | none => Outcome.terminated
      | some r => mainLoop H W rowsPerBatch fuel r.1 (currentRow + r.2)
    else Outcome.finished a

/-- The function `main` of `cw1Part2.cpp` up to the end of its driver loop,
which starts at `currentRow = 0`. -/
noncomputable def main (H W : Nat) (rowsPerBatch : Int) (fuel : Nat)
    (mainArray distance0 angle0 : Matrix) : Outcome :=
  mainLoop H W rowsPerBatch fuel
    { mainArray := mainArray, distanceArray := distance0, angleArray := angle0, stores := [] } 0

end cw1Part2

/-! ## Auxiliary notions for the statements -/

namespace cw1Part3

/-- The row ranges of `ds` follow one another without gap or overlap, the
first one starting at row `s`. -/
def Contiguous : Int → List ThreadData → Prop
  | _, [] => True
  | s, d :: ds => d.currentRow = s ∧ Contiguous (s + d.rowsToProcess) ds

/-- The sum of the `rowsToProcess` members of `ds`. -/
def totalRows (ds : List ThreadData) : Int :=
  (ds.map ThreadData.rowsToProcess).sum

/-- Row `r` lies in the range `[currentRow, currentRow + rowsToProcess)` of `d`. -/
def ThreadData.owns (d : ThreadData) (r : Int) : Prop :=
  d.currentRow ≤ r ∧ r < d.currentRow + d.rowsToProcess

instance (d : ThreadData) (r : Int) : Decidable (d.owns r) := by
  unfold ThreadData.owns
  infer_instance

end cw1Part3

/-- The cells of `k` full rows starting at row `lo`, in the order in which
the two nested loops visit them. -/
def rowCells (W : Nat) : Int → Nat → List (Int × Nat)
  | _, 0 => []
  | lo, k + 1 => (List.range W).map (fun j => (lo, j)) ++ rowCells W (lo + 1) k

namespace cw1Part3

/-- The value the loop body of cw1Part3 stores into `distanceArray[i][j]`,
as a function of the height matrix `h`. -/
noncomputable def hypotenuseAt (W : Nat) (h : Matrix) (i : Int) (j : Nat) : ℝ :=
  Real.sqrt (((h i (nextColumn W j) - h i j) * (h i (nextColumn W j) - h i j)) +
    ((HORIZONTAL_POINT_DIST * HORIZONTAL_POINT_DIST : Int) : ℝ))

/-- The value the loop body of cw1Part3 stores into `angleArray[i][j]`, as a
function of the height matrix `h`. -/
noncomputable def angleAt (W : Nat) (h : Matrix) (i : Int) (j : Nat) : ℝ :=
  (DEGREES_PER_RADIAN : ℝ) *
    Real.arcsin ((h i (nextColumn W j) - h i j) / hypotenuseAt W h i j)

end cw1Part3

namespace cw1Part2

/-- The number of iterations of the row loop of `processRows` of cw1Part2
when `n` rows are left before the end of the array and `rowsToProcess` is `r`
at the head of the loop: the column loop lowers the counter by `W` in each
row, and the row loop stops in front of the first row at which it finds the
counter equal to zero. -/
def rowsDone (W : Nat) : Nat → Int → Nat
  | 0, _ => 0
  | n + 1, r => if r ≠ 0 then rowsDone W n (r - (W : Int)) + 1 else 0

end cw1Part2

/-! ## The arithmetic of the loop bodies -/

namespace cw1Part3

/-- The arithmetic of the loop body of `processRows` of cw1Part3, with the
macro `HORIZONTAL_POINT_DIST` as the parameter `hs`: from the height of the
cell and the height of the next column to the pair of `hypotenuse` and of the
angle that the body stores. -/
noncomputable def kernel (hs : ℝ) (height next : ℝ) : ℝ × ℝ :=
  let verticalDist := next - height
  let hypotenuse := Real.sqrt ((verticalDist * verticalDist) + (hs * hs))
  (hypotenuse, (DEGREES_PER_RADIAN : ℝ) * Real.arcsin (verticalDist / hypotenuse))

end cw1Part3

namespace cw1Part1

/-- The arithmetic of the loop body of `main` of cw1Part1 (and, letter for
letter, of `processRows` of cw1Part2), with the macro `HORIZONTAL_POINT_DIST`
as the parameter `hs`. -/
noncomputable def kernel (hs : ℝ) (height next : ℝ) : ℝ × ℝ :=
  let verticalDist := next - height
  let hypotenuse := Real.sqrt (verticalDist ^ 2 + hs ^ 2)
  (hypotenuse, (DEGREES_PER_RADIAN : ℝ) * Real.arcsin (verticalDist / hypotenuse))

end cw1Part1

namespace cw1Part3

/-- The cells each thread of `runThreads` has stored, thread by thread: what
the thread has appended to the ghost log of stores. -/
noncomputable def threadStores (H W : Nat) (clk : Nat → Int × Int) :
    Nat → List ThreadData → Arrays → List (List (Int × Nat))
  | _, [], _ => []
  | i, d :: ds, a =>
    (processRows H W (clk i) a d).arrays.stores.drop a.stores.length ::
      threadStores H W clk (i + 1) ds (processRows H W (clk i) a d).arrays

end cw1Part3

/-! ## The loader `setupMainArray` and the generator of its input -/

/-- How a call of `setupMainArray` can end without a matrix:
`endOfFile`, `inFile.get()` has reached the end of the file inside the loop
`while (character != '\n')`, which from then on appends the end of file
character to a string for ever; `outOfBounds`, an append to
`numbersAsStrings[i][columnIndex]` with `columnIndex ≥ ARRAY_WIDTH`;
`invalidArgument`, `stof` has thrown and nothing catches the exception. -/
inductive LoadError
  | endOfFile
  | outOfBounds
  | invalidArgument
deriving DecidableEq

namespace Loader

/-- The statement `numbersAsStrings[i][columnIndex] += character` on the row
`numbersAsStrings[i]`. -/
def appendChar (row : Nat → List Char) (columnIndex : Nat) (character : Char) :
    Nat → List Char :=
  fun k => if k = columnIndex then row k ++ [character] else row k

/-- The loop `while (character != '\n')` of `setupMainArray` on one row of
strings.  The first argument is what is left of the file, its head being the
`character` that `inFile.get()` has just returned; the result is the row of
strings and what is left of the file after the newline. -/
def rowLoop (W : Nat) : List Char → Nat → (Nat → List Char) →
    Except LoadError ((Nat → List Char) × List Char)
  | [], _, _ => Except.error LoadError.endOfFile
  | character :: rest, columnIndex, row =>
    if character ≠ '\n' then
      if character ≠ ' ' then
        if columnIndex < W then rowLoop W rest columnIndex (appendChar row columnIndex character)
        else Except.error LoadError.outOfBounds
      else rowLoop W rest (columnIndex + 1) row
    else Except.ok (row, rest)

/-- The loop `for (int i = 0; i < ARRAY_HEIGHT; i++)` that reads the file, for
the `n` rows from row `i` on. -/
def readRows (W : Nat) : Nat → Nat → List Char → (Nat → Nat → List Char) →
    Except LoadError (Nat → Nat → List Char)
  | 0, _, _, numbersAsStrings => Except.ok numbersAsStrings
  | n + 1, i, inFile, numbersAsStrings =>
    match rowLoop W inFile 0 (numbersAsStrings i) with
    | Except.error e => Except.error e
    | Except.ok r =>
      readRows W n (i + 1) r.2 (fun k => if k = i then r.1 else numbersAsStrings k)

/-- The loop `for (int j = 0; j < ARRAY_WIDTH; j++)` of the conversion, for
the `n` cells of row `i` from column `j` on:
`mainArray[i][j] = stof(numbersAsStrings[i][j])`. -/
def convertCells (stof : List Char → Option ℝ) (numbersAsStrings : Nat → Nat → List Char)
    (i : Nat) : Nat → Nat → Matrix → Except LoadError Matrix
  | 0, _, mainArray => Except.ok mainArray
  | n + 1, j, mainArray =>
    match stof (numbersAsStrings i j) with
    | none => Except.error LoadError.invalidArgument
    | some v => convertCells stof numbersAsStrings i n (j + 1) (mainArray.set (i : Int) j v)

/-- The loop `for (int i = 0; i < ARRAY_HEIGHT; i++)` of the conversion, for
the `n` rows from row `i` on. -/
def convertRows (stof : List Char → Option ℝ) (W : Nat)
    (numbersAsStrings : Nat → Nat → List Char) : Nat → Nat → Matrix → Except LoadError Matrix
  | 0, _, mainArray => Except.ok mainArray
  | n + 1, i, mainArray =>
    match convertCells stof numbersAsStrings i W 0 mainArray with
    | Except.error e => Except.error e
    | Except.ok m => convertRows stof W numbersAsStrings n (i + 1) m

end Loader

/-- The function `setupMainArray` (the same text in cw1Part1 and cw1Part2).
`stof` is the library function `std::stof`, with `none` for a throw;
`inFile` is the text of `array.txt`; `mainArray` is the content of the
freshly allocated matrix.  The strings of `numbersAsStrings` start empty. -/
def setupMainArray (stof : List Char → Option ℝ) (H W : Nat) (inFile : List Char)
    (mainArray : Matrix) : Except LoadError Matrix :=
  match Loader.readRows W H 0 inFile (fun _ _ => []) with
  | Except.error e => Except.error e
  | Except.ok numbersAsStrings => Loader.convertRows stof W numbersAsStrings H 0 mainArray

/-! ### The parts of a numeral that `std::stof` reads -/

/-- The white space that `std::stof` skips in front of a number. -/
def isSpaceChar (c : Char) : Bool :=
  c = ' ' || c = '\t' || c = '\n' || c = '\r' || c.toNat = 11 || c.toNat = 12

/-- The number that a string of decimal digits denotes. -/
def natOfDigits (ds : List Char) : Nat :=
  ds.foldl (fun n c => 10 * n + (c.toNat - '0'.toNat)) 0

/-- The sign in front of a numeral and what follows it. -/
def splitSign : List Char → Bool × List Char
  | '-' :: r => (true, r)
  | '+' :: r => (false, r)
  | s => (false, s)

/-! ### The generator `generateRandomNumberFile.cpp` -/

namespace generateRandomNumberFile

/-- The text `outFile << n` writes for an `int` `n ≥ 0`: its decimal digits. -/
def decimal (n : Nat) : List Char :=
  if n = 0 then ['0'] else (Nat.digits 10 n).reverse.map Nat.digitChar

/-- The statement
`outFile << randomNumber[0] << "." << randomNumber[1] << " "`. -/
def cellText (r0 r1 : Nat) : List Char :=
  decimal r0 ++ ['.'] ++ decimal r1 ++ [' ']

/-- The function `main` of the generator: the text it writes to `array.txt`.
`rand k` is what the call number `k` of `rand()` returns. -/
def main (H W : Nat) (rand : Nat → Nat) : List Char :=
  (List.range H).flatMap (fun i =>
    (List.range W).flatMap (fun j =>
      cellText (rand (2 * (i * W + j)) % 999 + 1) (rand (2 * (i * W + j) + 1) % 999 + 1)) ++
    ['\n'])

end generateRandomNumberFile

namespace Loader

/-- The format of one line of `array.txt`: every token followed by one space,
then a newline. -/
def rowText (tokens : List (List Char)) : List Char :=
  tokens.flatMap (fun t => t ++ [' ']) ++ ['\n']

/-- A token without a space and without a newline. -/
def cleanToken (t : List Char) : Prop := ' ' ∉ t ∧ '\n' ∉ t

instance (t : List Char) : Decidable (cleanToken t) := by
  unfold cleanToken
  infer_instance

/-- A well-formed decimal: digits, a point, digits. -/
def isDecimal (s : List Char) : Prop :=
  ∃ p q : List Char, s = p ++ '.' :: q ∧ p ≠ [] ∧ q ≠ [] ∧
    (∀ c ∈ p, c.isDigit = true) ∧ (∀ c ∈ q, c.isDigit = true)

end Loader

namespace generateRandomNumberFile

/-- The token that `cellText` writes in front of its space. -/
def token (r0 r1 : Nat) : List Char :=
  decimal r0 ++ '.' :: decimal r1

/-- The token of cell `(i, j)` in the file that `main` writes. -/
def cellToken (W : Nat) (rand : Nat → Nat) (i j : Nat) : List Char :=
  token (rand (2 * (i * W + j)) % 999 + 1) (rand (2 * (i * W + j) + 1) % 999 + 1)

/-- The tokens of the file that `main` writes, line by line. -/
def fileTokens (H W : Nat) (rand : Nat → Nat) : List (List (List Char)) :=
  (List.range H).map (fun i => (List.range W).map (fun j => cellToken W rand i j))

end generateRandomNumberFile

/-! ## cw1Part3: the threads step by step -/

namespace cw1Part3

/-- Where a thread stands in `processRows`: before the bounds check; at the
test of the `while` loop, with the values of its two locals; at the test of
the `for` loop, with the value of its counter `j` as well; or at its end,
left by `return` (`returned = true`) or by `pthread_exit` (`false`). -/
inductive Pc
  | start
  | rowHead (currentRow rowsToProcess : Int)
  | cell (currentRow rowsToProcess : Int) (j : Nat)
  | done (returned : Bool)

/-- The cell of the distance matrix and of the angle matrix that the next
step of a thread at `pc` stores to, if that step stores at all.  The thread
function accesses the two matrices in no other way: it never reads them. -/
def Pc.store (W : Nat) : Pc → Option (Int × Nat)
  | Pc.cell c _ j => if j < W then some (c, j) else none
  | _ => none

/-- One step of a thread running `processRows` on its `ThreadData`: the
bounds check, a test of the `while` loop, or a test of the `for` loop
followed, if passed, by one execution of the loop body. -/
noncomputable def threadStep (H W : Nat) (d : ThreadData) : Pc → Arrays → Option (Pc × Arrays)
  | Pc.start, a =>
    if d.currentRow ≥ (H : Int) then some (Pc.done false, a)
    else some (Pc.rowHead d.currentRow d.rowsToProcess, a)
  | Pc.rowHead currentRow rowsToProcess, a =>
    if currentRow < (H : Int) ∧ rowsToProcess ≠ 0 then
      some (Pc.cell currentRow rowsToProcess 0, a)
    else some (Pc.done true, a)
  | Pc.cell currentRow rowsToProcess j, a =>
    if j < W then some (Pc.cell currentRow rowsToProcess (j + 1), cellBody W a currentRow j)
    else some (Pc.rowHead (currentRow + 1) (rowsToProcess - 1), a)
  | Pc.done _, _ => none

/-- A state of the concurrent run: where each thread stands, and the shared
matrices. -/
structure Config where
  pcs : List Pc
  arrays : Arrays

/-- One step of the concurrent run: some thread `k` that has not ended takes
its next step.  The label is the store of that step, with the thread that
performs it. -/
inductive Step (H W : Nat) (data : List ThreadData) :
    Config → Option (Nat × (Int × Nat)) → Config → Prop
  | thread (k : Nat) (d : ThreadData) (pc pc2 : Pc) (s : Config) (a2 : Arrays) :
    data[k]? = some d → s.pcs[k]? = some pc → threadStep H W d pc s.arrays = some (pc2, a2) →
    Step H W data s ((Pc.store W pc).map (fun c => (k, c)))
      { pcs := s.pcs.set k pc2, arrays := a2 }

/-- An interleaving of the threads: a finite sequence of steps, taken by the
threads in any order, with the list of the stores performed, in order. -/
inductive Run (H W : Nat) (data : List ThreadData) :
    Config → List (Nat × (Int × Nat)) → Config → Prop
  | refl (s : Config) : Run H W data s [] s
  | step (s s2 s3 : Config) (tr : List (Nat × (Int × Nat))) (label : Option (Nat × (Int × Nat))) :
    Run H W data s tr s2 → Step H W data s2 label s3 → Run H W data s (tr ++ label.toList) s3

/-- What the values of the locals of a thread at `pc` have to do with its
`ThreadData`. -/
def Pc.inv (H : Nat) (d : ThreadData) : Pc → Prop
  | Pc.start => True
  | Pc.rowHead c r =>
    d.currentRow ≤ c ∧ c + r = d.currentRow + d.rowsToProcess ∧ 0 ≤ r
  | Pc.cell c r _ =>
    d.currentRow ≤ c ∧ c + r = d.currentRow + d.rowsToProcess ∧ 0 < r ∧ c < (H : Int)
  | Pc.done _ => True

end cw1Part3

namespace cw1Part2

/-- The calls of `processRows` that the driver loop of `main` makes, at most
`fuel` of them, in order: the argument `currentRow` of each call and the value
the call returns (`none` for the `throw` of the bounds check, which ends the
run). -/
noncomputable def mainLoopCalls (H W : Nat) (rowsPerBatch : Int) :
    Nat → Arrays → Int → List (Int × Option Int)
  | 0, _, _ => []
  | fuel + 1, a, currentRow =>
    if currentRow < (H : Int) then
      match processRows H W a currentRow rowsPerBatch with
      | none => [(currentRow, none)]
      | some r =>
        (currentRow, some r.2) :: mainLoopCalls H W rowsPerBatch fuel r.1 (currentRow + r.2)
    else []

end cw1Part2

/-! ## cw1Part2 with `int` as a 32 bit machine integer -/

/-- The value an `int` of 32 bits holds when a computation should give `x`:
`x` itself when `-2147483648 ≤ x ≤ INT_MAX`, and otherwise the number of that
range that differs from `x` by a multiple of `2 ^ 32` (the two's complement
wrap-around of the usual machine code; the C++ standard leaves the behaviour
on such an overflow undefined). -/
def wrapInt (x : Int) : Int := (x + 2147483648) % 4294967296 - 2147483648

namespace Machine

namespace cw1Part2

/-- One execution of the body of the column loop of `processRows` of
cw1Part2, the counters `rowsProcessed` and `rowsToProcess` being `int`s of 32
bits. -/
noncomputable def cellBody (W : Nat) (s : Threading.cw1Part2.Locals) (currentRow : Int)
    (j : Nat) : Threading.cw1Part2.Locals :=
  let nextColumn := nextColumn W j
  let verticalDist := s.arrays.mainArray currentRow nextColumn - s.arrays.mainArray currentRow j
  let hypotenuse := Real.sqrt (verticalDist ^ 2 + (HORIZONTAL_POINT_DIST : ℝ) ^ 2)
  { arrays :=
      { s.arrays with
        distanceArray := s.arrays.distanceArray.set currentRow j hypotenuse
        angleArray := s.arrays.angleArray.set currentRow j
          ((DEGREES_PER_RADIAN : ℝ) * Real.arcsin (verticalDist / hypotenuse))
        stores := s.arrays.stores ++ [(currentRow, j)] }
    rowsToProcess := wrapInt (s.rowsToProcess - 1)
    rowsProcessed := wrapInt (s.rowsProcessed + 1) }

/-- The loop `for (int j = 0; j < ARRAY_WIDTH; j++)` of `processRows`. -/
noncomputable def forLoop (W : Nat) (s : Threading.cw1Part2.Locals) (currentRow : Int) :
    Threading.cw1Part2.Locals :=
  (List.range W).foldl (fun acc j => cellBody W acc currentRow j) s

/-- The loop `while (currentRow < ARRAY_HEIGHT && rowsToProcess != 0)` of
`processRows`, with `currentRow++` on an `int` of 32 bits. -/
noncomputable def whileLoop (H W : Nat) :
    Nat → Threading.cw1Part2.Locals → Int → Threading.cw1Part2.Locals
  | 0, s, _ => s
  | fuel + 1, s, currentRow =>
    if currentRow < (H : Int) ∧ s.rowsToProcess ≠ 0 then
      whileLoop H W fuel (forLoop W s currentRow) (wrapInt (currentRow + 1))
    else s

/-- The function `processRows` of cw1Part2 on `int`s of 32 bits: `none` is
the bare `throw` of the bounds check, otherwise the matrices after the call
and the returned `rowsProcessed`. -/
noncomputable def processRows (H W : Nat) (arrays : Arrays) (currentRow rowsToProcess : Int) :
    Option (Arrays × Int) :=
  if currentRow ≥ (H : Int) then none
  else
    let s := whileLoop H W ((H : Int) - currentRow).toNat
      { arrays := arrays, rowsToProcess := rowsToProcess, rowsProcessed := 0 } currentRow
    some (s.arrays, s.rowsProcessed)

/-- The loop `while (currentRow < ARRAY_HEIGHT) currentRow += processRows(...)`
of `main` on `int`s of 32 bits, for at most `fuel` calls of `processRows`. -/
noncomputable def mainLoop (H W : Nat) (rowsPerBatch : Int) :
    Nat → Arrays → Int → Threading.cw1Part2.Outcome
  | 0, a, currentRow =>
    if currentRow < (H : Int) then Threading.cw1Part2.Outcome.outOfFuel
    else Threading.cw1Part2.Outcome.finished a
  | fuel + 1, a, currentRow =>
    if currentRow < (H : Int) then
      match processRows H W a currentRow rowsPerBatch with
      | none => Threading.cw1Part2.Outcome.terminated
      | some r => mainLoop H W rowsPerBatch fuel r.1 (wrapInt (currentRow + r.2))
    else Threading.cw1Part2.Outcome.finished a

/-- The calls of `processRows` that this driver loop makes, at most `fuel` of
them, in order: the argument `currentRow` of each call and the value the call
returns (`none` for the `throw` of the bounds check, which ends the run). -/
noncomputable def mainLoopCalls (H W : Nat) (rowsPerBatch : Int) :
    Nat → Arrays → Int → List (Int × Option Int)
  | 0, _, _ => []
  | fuel + 1, a, currentRow =>
    if currentRow < (H : Int) then
      match processRows H W a currentRow rowsPerBatch with
      | none => [(currentRow, none)]
      | some r =>
        (currentRow, some r.2) ::
          mainLoopCalls H W rowsPerBatch fuel r.1 (wrapInt (currentRow + r.2))
    else []

/-- The function `main` of `cw1Part2.cpp` up to the end of its driver loop,
which starts at `currentRow = 0`, on `int`s of 32 bits. -/
noncomputable def main (H W : Nat) (rowsPerBatch : Int) (fuel : Nat)
    (mainArray distance0 angle0 : Matrix) : Threading.cw1Part2.Outcome :=
  mainLoop H W rowsPerBatch fuel
    { mainArray := mainArray, distanceArray := distance0, angleArray := angle0, stores := [] } 0

end cw1Part2

end Machine

/-! ## IEEE 754 floating-point arithmetic -/

/-- A binary floating-point format: significands of `prec` bits, the
exponents of the normal numbers from `emin` to `emax`. -/
structure FloatFormat where
  prec : Nat
  emin : Int
  emax : Int

/-- The format of `float`. -/
def binary32 : FloatFormat := { prec := 24, emin := -126, emax := 127 }

/-- The format of `double`. -/
def binary64 : FloatFormat := { prec := 53, emin := -1022, emax := 1023 }

/-- A datum of a floating-point type: a finite number, an infinity or a NaN.
The two zeros are not told apart. -/
inductive Fp
  | finite (x : ℝ)
  | infinite (negative : Bool)
  | nan

/-- The integer nearest to `y`, the even one of the two when `y` lies half
way between two integers. -/
noncomputable def roundEven (y : ℝ) : Int :=
  if y - (⌊y⌋ : ℝ) < 1 / 2 then ⌊y⌋
  else if 1 / 2 < y - (⌊y⌋ : ℝ) then ⌊y⌋ + 1
  else if ⌊y⌋ % 2 = 0 then ⌊y⌋ else ⌊y⌋ + 1

namespace FloatFormat

/-- The exponent of the unit in the last place of the numbers of the format
near `x`: with `2 ^ e ≤ |x| < 2 ^ (e + 1)` it is `e - (prec - 1)`, and
`emin - (prec - 1)` for the subnormal numbers. -/
noncomputable def ulpExp (f : FloatFormat) (x : ℝ) : Int :=
  max (Int.log 2 |x|) f.emin - ((f.prec : Int) - 1)

/-- The real `x` rounded to the nearest number of the format, ties to even,
with no bound on the exponent from above. -/
noncomputable def roundReal (f : FloatFormat) (x : ℝ) : ℝ :=
  (roundEven (x / (2 : ℝ) ^ f.ulpExp x) : ℝ) * (2 : ℝ) ^ f.ulpExp x

/-- The largest finite number of the format (`FLT_MAX`, `DBL_MAX`). -/
noncomputable def maxFinite (f : FloatFormat) : ℝ :=
  ((2 : ℝ) ^ f.prec - 1) * (2 : ℝ) ^ (f.emax - ((f.prec : Int) - 1))

/-- The result of an operation of the format whose exact value is `x`:
`x` rounded to nearest, ties to even, and the infinity with the sign of `x`
when the rounded value is beyond the largest finite number. -/
noncomputable def round (f : FloatFormat) (x : ℝ) : Fp :=
  if |f.roundReal x| ≤ f.maxFinite then Fp.finite (f.roundReal x)
  else Fp.infinite (decide (x < 0))

/-- The conversion of a datum to the format. -/
noncomputable def convert (f : FloatFormat) : Fp → Fp
  | Fp.finite x => f.round x
  | Fp.infinite s => Fp.infinite s
  | Fp.nan => Fp.nan

/-- The sum `a + b`. -/
noncomputable def add (f : FloatFormat) : Fp → Fp → Fp
  | Fp.finite x, Fp.finite y => f.round (x + y)
  | Fp.finite _, Fp.infinite t => Fp.infinite t
  | Fp.infinite s, Fp.finite _ => Fp.infinite s
  | Fp.infinite s, Fp.infinite t => if s = t then Fp.infinite s else Fp.nan
  | _, _ => Fp.nan

/-- The difference `a - b`. -/
noncomputable def sub (f : FloatFormat) : Fp → Fp → Fp
  | Fp.finite x, Fp.finite y => f.round (x - y)
  | Fp.finite _, Fp.infinite t => Fp.infinite (!t)
  | Fp.infinite s, Fp.finite _ => Fp.infinite s
  | Fp.infinite s, Fp.infinite t => if s = t then Fp.nan else Fp.infinite s
  | _, _ => Fp.nan

/-- The product `a * b`. -/
noncomputable def mul (f : FloatFormat) : Fp → Fp → Fp
  | Fp.finite x, Fp.finite y => f.round (x * y)
  | Fp.finite x, Fp.infinite t => if x = 0 then Fp.nan else Fp.infinite (xor (decide (x < 0)) t)
  | Fp.infinite s, Fp.finite y => if y = 0 then Fp.nan else Fp.infinite (xor s (decide (y < 0)))
  | Fp.infinite s, Fp.infinite t => Fp.infinite (xor s t)
  | _, _ => Fp.nan

/-- The quotient `a / b`.  A zero divisor is taken as `+0`. -/
noncomputable def div (f : FloatFormat) : Fp → Fp → Fp
  | Fp.finite x, Fp.finite y =>
    if y = 0 then (if x = 0 then Fp.nan else Fp.infinite (decide (x < 0)))
    else f.round (x / y)
  | Fp.finite _, Fp.infinite _ => Fp.finite 0
  | Fp.infinite s, Fp.finite y => Fp.infinite (xor s (decide (y < 0)))
  | _, _ => Fp.nan

/-- The square root. -/
noncomputable def sqrt (f : FloatFormat) : Fp → Fp
  | Fp.finite x => if x < 0 then Fp.nan else f.round (Real.sqrt x)
  | Fp.infinite s => if s then Fp.nan else Fp.infinite false
  | Fp.nan => Fp.nan

end FloatFormat

namespace Fp

/-- The datum `-a`. -/
noncomputable def neg : Fp → Fp
  | finite x => finite (-x)
  | infinite s => infinite (!s)
  | nan => nan

/-- A datum that compares greater than zero. -/
def IsPos : Fp → Prop
  | finite x => 0 < x
  | infinite s => s = false
  | nan => False

end Fp

/-! ## The programs in floating-point arithmetic

The definitions of this section follow the arithmetic of the source type by
type: every operation on `float`s is an operation of `binary32`, every
operation on `double`s one of `binary64`, each rounded to its own format
(`FLT_EVAL_METHOD` is `0`, and a product and a sum are not fused).  The
library function `asin` on `float`, whose last bit the standard leaves open,
is a parameter. -/

namespace Floating

/-- A matrix of `float`s: `m i j` is `m[i][j]`. -/
def Matrix := Int → Nat → Fp

/-- The matrix `m` after the assignment `m[i][j] = v`. -/
def Matrix.set (m : Matrix) (i : Int) (j : Nat) (v : Fp) : Matrix :=
  fun i2 j2 => if i2 = i ∧ j2 = j then v else m i2 j2

/-- The three matrices of a program. -/
structure Arrays where
  mainArray : Matrix
  distanceArray : Matrix
  angleArray : Matrix

/-- The macro `DEGREES_PER_RADIAN`: the `double` that the literal `57.2958`
denotes. -/
noncomputable def DEGREES_PER_RADIAN : Fp :=
  binary64.round ((Threading.DEGREES_PER_RADIAN : ℚ) : ℝ)

/-- The call `pow(x, 2)` of `<cmath>` on `double`s: the square of `x`,
correctly rounded. -/
noncomputable def pow2 (x : Fp) : Fp := binary64.mul x x

/-- What the theorems assume of the library function `asin` on `float`: it
maps zero to zero, it is odd, and on a `float` `0 < x ≤ 1` it returns a
`float` `0 < t ≤ 1.5708` (a little more than `π / 2`). -/
def AsinSpec (asin : Fp → Fp) : Prop :=
  asin (Fp.finite 0) = Fp.finite 0 ∧
  (∀ x : Fp, asin (Fp.neg x) = Fp.neg (asin x)) ∧
  ∀ x : ℝ, 0 < x → x ≤ 1 → binary32.roundReal x = x →
    ∃ t : ℝ, asin (Fp.finite x) = Fp.finite t ∧ 0 < t ∧ t ≤ 1.5708 ∧ binary32.roundReal t = t

/-- An `asin` on `float` that returns the `float` nearest to the arc sine. -/
noncomputable def asinNearest : Fp → Fp
  | Fp.finite x => if |x| ≤ 1 then Fp.finite (binary32.roundReal (Real.arcsin x)) else Fp.nan
  | _ => Fp.nan

namespace cw1Part3

/-- The distance and the angle that the body of the column loop of
`processRows` computes from `mainArray[currentRow][j]` (`height`) and
`mainArray[currentRow][nextColumn]` (`next`). -/
noncomputable def kernel (asin : Fp → Fp) (height next : Fp) : Fp × Fp :=
  let verticalDist := binary32.sub next height
  let hypotenuse := binary32.sqrt (binary32.add (binary32.mul verticalDist verticalDist)
    (binary32.round ((HORIZONTAL_POINT_DIST * HORIZONTAL_POINT_DIST : Int) : ℝ)))
  (hypotenuse,
    binary32.convert
      (binary64.mul DEGREES_PER_RADIAN (asin (binary32.div verticalDist hypotenuse))))

/-- One execution of the body of the column loop of `processRows`, at row
`currentRow` and column `j`. -/
noncomputable def cellBody (asin : Fp → Fp) (W : Nat) (a : Arrays) (currentRow : Int)
    (j : Nat) : Arrays :=
  let nextColumn := nextColumn W j
  let verticalDist := binary32.sub (a.mainArray currentRow nextColumn) (a.mainArray currentRow j)
  let hypotenuse := binary32.sqrt (binary32.add (binary32.mul verticalDist verticalDist)
    (binary32.round ((HORIZONTAL_POINT_DIST * HORIZONTAL_POINT_DIST : Int) : ℝ)))
  { a with
    distanceArray := a.distanceArray.set currentRow j hypotenuse
    angleArray := a.angleArray.set currentRow j
      (binary32.convert
        (binary64.mul DEGREES_PER_RADIAN (asin (binary32.div verticalDist hypotenuse)))) }

/-- The loop `for (int j = 0; j < ARRAY_WIDTH; j++)` of `processRows`. -/
noncomputable def forLoop (asin : Fp → Fp) (W : Nat) (a : Arrays) (currentRow : Int) : Arrays :=
  (List.range W).foldl (fun acc j => cellBody asin W acc currentRow j) a

/-- The loop `while (currentRow < ARRAY_HEIGHT && rowsToProcess != 0)` of
`processRows`; the first argument bounds the number of iterations. -/
noncomputable def whileLoop (asin : Fp → Fp) (H W : Nat) : Nat → Arrays → Int → Int → Arrays
  | 0, a, _, _ => a
  | fuel + 1, a, currentRow, rowsToProcess =>
    if currentRow < (H : Int) ∧ rowsToProcess ≠ 0 then
      whileLoop asin H W fuel (forLoop asin W a currentRow) (currentRow + 1) (rowsToProcess - 1)
    else a

/-- What a thread leaves behind: the matrices, and whether it ended with
`return` (`returned = true`) or with `pthread_exit(NULL)` after the out of
bounds message. -/
structure ThreadResult where
  arrays : Arrays
  returned : Bool

/-- The thread function `processRows` on the matrices (its timing is in
`Threading.cw1Part3.processRows`). -/
noncomputable def processRows (asin : Fp → Fp) (H W : Nat) (arrays : Arrays)
    (threadData : Threading.cw1Part3.ThreadData) : ThreadResult :=
  let currentRow := threadData.currentRow
  let rowsToProcess := threadData.rowsToProcess
  if currentRow ≥ (H : Int) then { arrays := arrays, returned := false }
  else
    { arrays := whileLoop asin H W ((H : Int) - currentRow).toNat arrays currentRow rowsToProcess
      returned := true }

/-- The threads run one after the other, each on its `ThreadData`, the
matrices being handed from one to the next: the matrices at the end, and
whether every thread has ended with `return`. -/
noncomputable def runThreads (asin : Fp → Fp) (H W : Nat) :
    List Threading.cw1Part3.ThreadData → Arrays → Arrays × Bool
  | [], a => (a, true)
  | d :: ds, a =>
    ((runThreads asin H W ds (processRows asin H W a d).arrays).1,
      (processRows asin H W a d).returned &&
        (runThreads asin H W ds (processRows asin H W a d).arrays).2)

/-- The matrices that `main` of cw1Part3 has computed when it returns `0`;
`none` when it ends otherwise (see `Threading.cw1Part3.main`): with the value
`1` for `N > H`, in a division by zero for `N = 0`, in the dereference of
`NULL` when a thread has not ended with `return`. -/
noncomputable def main (asin : Fp → Fp) (H W N : Nat) (mainArray distance0 angle0 : Matrix) :
    Option Arrays :=
  if N > H then none
  else if N = 0 then none
  else
    let r := runThreads asin H W (Threading.cw1Part3.threadData H N)
      { mainArray := mainArray, distanceArray := distance0, angleArray := angle0 }
    if r.2 then some r.1 else none

end cw1Part3

namespace cw1Part1

/-- The distance and the angle that the body of the loops of `main` computes
from `mainArray[i][j]` (`height`) and `mainArray[i][nextColumn]` (`next`):
the two calls of `pow`, their sum and the square root are computed on
`double`s, and the root is converted to `float`. -/
noncomputable def kernel (asin : Fp → Fp) (height next : Fp) : Fp × Fp :=
  let verticalDist := binary32.sub next height
  let hypotenuse := binary32.convert (binary64.sqrt (binary64.add (pow2 verticalDist)
    (pow2 (binary64.round ((HORIZONTAL_POINT_DIST : Int) : ℝ)))))
  (hypotenuse,
    binary32.convert
      (binary64.mul DEGREES_PER_RADIAN (asin (binary32.div verticalDist hypotenuse))))

/-- One execution of the body of the inner loop of `main`, at row `i` and
column `j`. -/
noncomputable def cellBody (asin : Fp → Fp) (W : Nat) (a : Arrays) (i : Int) (j : Nat) :
    Arrays :=
  let nextColumn := nextColumn W j
  let verticalDist := binary32.sub (a.mainArray i nextColumn) (a.mainArray i j)
  let hypotenuse := binary32.convert (binary64.sqrt (binary64.add (pow2 verticalDist)
    (pow2 (binary64.round ((HORIZONTAL_POINT_DIST : Int) : ℝ)))))
  { a with
    distanceArray := a.distanceArray.set i j hypotenuse
    angleArray := a.angleArray.set i j
      (binary32.convert
        (binary64.mul DEGREES_PER_RADIAN (asin (binary32.div verticalDist hypotenuse)))) }

/-- The loop `for (int j = 0; j < ARRAY_WIDTH; j++)` of `main`. -/
noncomputable def forLoop (asin : Fp → Fp) (W : Nat) (a : Arrays) (i : Int) : Arrays :=
  (List.range W).foldl (fun acc j => cellBody asin W acc i j) a

/-- The matrices after the two nested loops of `main` of cw1Part1. -/
noncomputable def main (asin : Fp → Fp) (H W : Nat) (mainArray distance0 angle0 : Matrix) :
    Arrays :=
  (List.range H).foldl (fun acc (i : Nat) => forLoop asin W acc (i : Int))
    { mainArray := mainArray, distanceArray := distance0, angleArray := angle0 }

end cw1Part1

end Floating

namespace Floating

/-- The distance and the angle that `processRows` of cw1Part3 computes for
the cell `(i, j)` of the height matrix `h`. -/
noncomputable def cw1Part3.kernelAt (asin : Fp → Fp) (W : Nat) (h : Matrix) (i : Int)
    (j : Nat) : Fp × Fp :=
  cw1Part3.kernel asin (h i j) (h i (nextColumn W j))

/-- The distance and the angle that `main` of cw1Part1 computes for the cell
`(i, j)` of the height matrix `h`. -/
noncomputable def cw1Part1.kernelAt (asin : Fp → Fp) (W : Nat) (h : Matrix) (i : Int)
    (j : Nat) : Fp × Fp :=
  cw1Part1.kernel asin (h i j) (h i (nextColumn W j))

end Floating

/-! ### The loader with `float` cells, and `std::stof` -/

namespace Floating

namespace Loader

/-- The loop `for (int j = 0; j < ARRAY_WIDTH; j++)` of the conversion, for
the `n` cells of row `i` from column `j` on:
`mainArray[i][j] = stof(numbersAsStrings[i][j])`. -/
def convertCells (stof : List Char → Option Fp) (numbersAsStrings : Nat → Nat → List Char)
    (i : Nat) : Nat → Nat → Matrix → Except LoadError Matrix
  | 0, _, mainArray => Except.ok mainArray
  | n + 1, j, mainArray =>
    match stof (numbersAsStrings i j) with
    | none => Except.error LoadError.invalidArgument
    | some v => convertCells stof numbersAsStrings i n (j + 1) (mainArray.set (i : Int) j v)

/-- The loop `for (int i = 0; i < ARRAY_HEIGHT; i++)` of the conversion, for
the `n` rows from row `i` on. -/
def convertRows (stof : List Char → Option Fp) (W : Nat)
    (numbersAsStrings : Nat → Nat → List Char) : Nat → Nat → Matrix → Except LoadError Matrix
  | 0, _, mainArray => Except.ok mainArray
  | n + 1, i, mainArray =>
    match convertCells stof numbersAsStrings i W 0 mainArray with
    | Except.error e => Except.error e
    | Except.ok m => convertRows stof W numbersAsStrings n (i + 1) m

end Loader

/-- The function `setupMainArray` with the cells of `mainArray` as `float`
values.  `stof` is the library function `std::stof`, with `none` for a throw
(of `std::invalid_argument` or of `std::out_of_range`; nothing catches either,
and both end the program as `LoadError.invalidArgument`). -/
def setupMainArray (stof : List Char → Option Fp) (H W : Nat) (inFile : List Char)
    (mainArray : Matrix) : Except LoadError Matrix :=
  match Threading.Loader.readRows W H 0 inFile (fun _ _ => []) with
  | Except.error e => Except.error e
  | Except.ok numbersAsStrings => Loader.convertRows stof W numbersAsStrings H 0 mainArray

/-! #### The library function `std::stof`

`std::stof` calls `strtof` and throws `std::invalid_argument` when nothing is
converted and `std::out_of_range` when `strtof` reports a range error.  The
subject of `strtof` (C locale) is the longest initial part of the string of
the form: white space, an optional sign, and then a decimal numeral (digits
with an optional point, at least one digit, and an optional exponent `e`,
sign, digits), a hexadecimal numeral (`0x`, hexadecimal digits with an
optional point, at least one digit, and an optional binary exponent `p`, sign,
decimal digits), `inf` or `infinity`, or `nan` with an optional parenthesis,
letters in either case.  What follows the subject is ignored. -/

/-- A hexadecimal digit. -/
def isHexDigit (c : Char) : Bool :=
  c.isDigit || ('a'.toNat ≤ c.toNat && c.toNat ≤ 'f'.toNat) ||
    ('A'.toNat ≤ c.toNat && c.toNat ≤ 'F'.toNat)

/-- The value of a hexadecimal digit. -/
def hexDigitValue (c : Char) : Nat :=
  if c.isDigit then c.toNat - '0'.toNat
  else if 'a'.toNat ≤ c.toNat ∧ c.toNat ≤ 'f'.toNat then c.toNat - 'a'.toNat + 10
  else c.toNat - 'A'.toNat + 10

/-- The number that a string of hexadecimal digits denotes. -/
def natOfHexDigits (ds : List Char) : Nat :=
  ds.foldl (fun n c => 16 * n + hexDigitValue c) 0

/-- What follows a point at the head of `s`; `s` itself when it has no point
at its head. -/
def pointTail : List Char → List Char
  | '.' :: r => r
  | s => s

/-- The exponent written at the head of `s`: the letter `lower` or `upper`, an
optional sign and at least one decimal digit.  `0` when no exponent is
written there. -/
def exponentPart (lower upper : Char) : List Char → Int
  | [] => 0
  | c :: r =>
    if c = lower ∨ c = upper then
      if (splitSign r).2.takeWhile Char.isDigit = [] then 0
      else (if (splitSign r).1 then -1 else 1) *
        (natOfDigits ((splitSign r).2.takeWhile Char.isDigit) : Int)
    else 0

/-- What `strtof` has read: a number `± mantissa * base ^ exponent`, an
infinity, or a NaN. -/
inductive Literal
  | number (negative : Bool) (mantissa : Nat) (base : Nat) (exponent : Int)
  | infinity (negative : Bool)
  | notANumber
deriving DecidableEq

/-- The decimal numeral at the head of `body`: digits, an optional point and
digits, an optional exponent.  `none` when there is no digit. -/
def decimalLiteral (negative : Bool) (body : List Char) : Option Literal :=
  if body.takeWhile Char.isDigit = [] ∧
      (pointTail (body.dropWhile Char.isDigit)).takeWhile Char.isDigit = [] then
    none
  else
    some (Literal.number negative
      (natOfDigits (body.takeWhile Char.isDigit ++
        (pointTail (body.dropWhile Char.isDigit)).takeWhile Char.isDigit)) 10
      (exponentPart 'e' 'E' ((pointTail (body.dropWhile Char.isDigit)).dropWhile Char.isDigit) -
        (((pointTail (body.dropWhile Char.isDigit)).takeWhile Char.isDigit).length : Int)))

/-- The hexadecimal numeral at the head of `body`, which is what follows `0x`:
hexadecimal digits, an optional point and hexadecimal digits, an optional
binary exponent.  `none` when there is no digit. -/
def hexLiteral (negative : Bool) (body : List Char) : Option Literal :=
  if body.takeWhile isHexDigit = [] ∧
      (pointTail (body.dropWhile isHexDigit)).takeWhile isHexDigit = [] then
    none
  else
    some (Literal.number negative
      (natOfHexDigits (body.takeWhile isHexDigit ++
        (pointTail (body.dropWhile isHexDigit)).takeWhile isHexDigit)) 2
      (exponentPart 'p' 'P' ((pointTail (body.dropWhile isHexDigit)).dropWhile isHexDigit) -
        4 * (((pointTail (body.dropWhile isHexDigit)).takeWhile isHexDigit).length : Int)))

/-- The numeral after the white space and the sign: `inf`, `nan`, a hexadecimal
numeral after `0x`, or else a decimal numeral (so `0x` without a hexadecimal
digit is the decimal numeral `0`). -/
def unsignedLiteral (negative : Bool) (body : List Char) : Option Literal :=
  if (body.take 3).map Char.toLower = ['i', 'n', 'f'] then some (Literal.infinity negative)
  else if (body.take 3).map Char.toLower = ['n', 'a', 'n'] then some Literal.notANumber
  else
    match body with
    | '0' :: x :: r =>
      if x = 'x' ∨ x = 'X' then
        match hexLiteral negative r with
        | some l => some l
        | none => decimalLiteral negative body
      else decimalLiteral negative body
    | _ => decimalLiteral negative body

/-- The subject of `strtof` in the string `s`; `none` when nothing can be
converted. -/
def literal (s : List Char) : Option Literal :=
  unsignedLiteral (splitSign (s.dropWhile isSpaceChar)).1 (splitSign (s.dropWhile isSpaceChar)).2

/-- The characters with which a string that `strtof` converts can start: white
space, a sign, a digit, a point, and the first letter of `inf` or `nan`. -/
def startsNumeral (c : Char) : Bool :=
  isSpaceChar c || c == '+' || c == '-' || c.isDigit || c == '.' || c.toLower == 'i' ||
    c.toLower == 'n'

/-- The exact value of a number that `strtof` has read. -/
noncomputable def numberValue (negative : Bool) (mantissa base : Nat) (exponent : Int) : ℝ :=
  (if negative then -1 else 1) * ((mantissa : ℝ) * (base : ℝ) ^ exponent)

/-- The library function `std::stof` on the characters of its argument.  The
value of a numeral is the `float` nearest to it.  `none` is a throw:
`std::invalid_argument` when there is no numeral, `std::out_of_range` when the
value rounds to a magnitude above the largest `float`, and also where the
library reports a range error for a result that underflows: C leaves that to
the implementation, `underflow x` tells it for the value `x`, which is not
zero, of magnitude below `2 ^ (-126)` and not a `float`. -/
noncomputable def stof (underflow : ℝ → Bool) (s : List Char) : Option Fp :=
  match literal s with
  | none => none
  | some (Literal.infinity negative) => some (Fp.infinite negative)
  | some Literal.notANumber => some Fp.nan
  | some (Literal.number negative mantissa base exponent) =>
    if binary32.maxFinite < |binary32.roundReal (numberValue negative mantissa base exponent)| then
      none
    else if numberValue negative mantissa base exponent ≠ 0 ∧
        |numberValue negative mantissa base exponent| < (2 : ℝ) ^ (-126 : Int) ∧
        binary32.roundReal (numberValue negative mantissa base exponent) ≠
          numberValue negative mantissa base exponent ∧
        underflow (numberValue negative mantissa base exponent) = true then
      none
    else some (Fp.finite (binary32.roundReal (numberValue negative mantissa base exponent)))

end Floating

/-! ## Lemmas on the row partition -/

namespace cw1Part3

theorem createLoop_length (b : Int) (n : Nat) (cur rem : Int) :
    (createLoop b n cur rem).length = n := by
  induction n generalizing cur rem with
  | zero => rfl
  | succ n ih =>
    unfold createLoop
    split <;> simp [ih]

/-- Closed form of the entries of the creation loop. -/
theorem createLoop_getElem? (b : Int) (n : Nat) (cur rem : Int) (hrem : 0 ≤ rem)
    (k : Nat) (hk : k < n) :
    (createLoop b n cur rem)[k]? =
      some { currentRow := cur + k * b + min (k : Int) rem,
             rowsToProcess := b + (if (k : Int) < rem then 1 else 0),
             timeTaken := 0 } := by
  induction n generalizing cur rem k with
  | zero => omega
  | succ n ih =>
    unfold createLoop
    rcases k with _ | k
    · split
      · have : (0 : Int) < rem := by omega
        simp [this, hrem]
      · have : rem = 0 := by omega
        simp [this]
    · have hk2 : k < n := by omega
      split
      · rename_i hne
        have h0 : 0 ≤ rem - 1 := by omega
        rw [List.getElem?_cons_succ, ih _ _ h0 k hk2]
        have e1 : min ((k : Int) + 1) rem = min (k : Int) (rem - 1) + 1 := by omega
        have e2 : ((k : Int) + 1 < rem) ↔ ((k : Int) < rem - 1) := by omega
        simp only [Nat.cast_add, Nat.cast_one, e1, e2]
        congr 2
        ring
      · rename_i hne
        have hz : rem = 0 := by simpa using hne
        subst hz
        rw [List.getElem?_cons_succ, ih _ _ le_rfl k hk2]
        have e1 : min ((k : Int) + 1) 0 = 0 := by omega
        have e2 : min (k : Int) 0 = 0 := by omega
        have e3 : ¬ ((k : Int) + 1 < 0) := by omega
        have e4 : ¬ ((k : Int) < 0) := by omega
        simp only [Nat.cast_add, Nat.cast_one, e1, e2, e3, e4, if_false]
        congr 2
        ring


theorem createLoop_contiguous (b : Int) (n : Nat) (cur rem : Int) :
    Contiguous cur (createLoop b n cur rem) := by
  induction n generalizing cur rem with
  | zero => simp [createLoop, Contiguous]
  | succ n ih =>
    unfold createLoop
    split
    · exact ⟨rfl, ih _ _⟩
    · exact ⟨rfl, ih _ _⟩

theorem createLoop_totalRows (b : Int) (n : Nat) (cur rem : Int) (h0 : 0 ≤ rem)
    (hn : rem ≤ n) : totalRows (createLoop b n cur rem) = n * b + rem := by
  induction n generalizing cur rem with
  | zero =>
    have : rem = 0 := by omega
    simp [createLoop, totalRows, this]
  | succ n ih =>
    unfold createLoop
    split
    · have h1 : 0 ≤ rem - 1 := by omega
      have h2 : rem - 1 ≤ (n : Int) := by omega
      have := ih (cur + (b + 1)) (rem - 1) h1 h2
      simp only [totalRows, List.map_cons, List.sum_cons] at this ⊢
      rw [this]
      push_cast
      ring
    · rename_i hne
      have hz : rem = 0 := by simpa using hne
      subst hz
      have := ih (cur + b) 0 le_rfl (by omega)
      simp only [totalRows, List.map_cons, List.sum_cons] at this ⊢
      rw [this]
      push_cast
      ring

theorem contiguous_head {s : Int} {ds : List ThreadData} (h : Contiguous s ds)
    {d : ThreadData} (hd : ds[0]? = some d) : d.currentRow = s := by
  cases ds with
  | nil => simp at hd
  | cons e es =>
    simp at hd
    subst hd
    exact h.1

theorem contiguous_next {s : Int} {ds : List ThreadData} (h : Contiguous s ds)
    {i : Nat} {d e : ThreadData} (hd : ds[i]? = some d) (he : ds[i + 1]? = some e) :
    e.currentRow = d.currentRow + d.rowsToProcess := by
  induction ds generalizing s i with
  | nil => simp at hd
  | cons x xs ih =>
    cases i with
    | zero =>
      simp at hd
      subst hd
      rw [List.getElem?_cons_succ] at he
      rw [contiguous_head h.2 he, h.1]
    | succ i =>
      rw [List.getElem?_cons_succ] at hd he
      exact ih h.2 hd he

theorem contiguous_within {s : Int} {ds : List ThreadData} (h : Contiguous s ds)
    (hpos : ∀ d ∈ ds, 0 ≤ d.rowsToProcess) {k : Nat} {d : ThreadData}
    (hd : ds[k]? = some d) :
    s ≤ d.currentRow ∧ d.currentRow + d.rowsToProcess ≤ s + totalRows ds := by
  induction ds generalizing s k with
  | nil => simp at hd
  | cons x xs ih =>
    have hx : 0 ≤ x.rowsToProcess := hpos x (List.mem_cons_self _ _)
    have hxs : ∀ d ∈ xs, 0 ≤ d.rowsToProcess := fun d hd => hpos d (List.mem_cons_of_mem _ hd)
    have hsum : 0 ≤ totalRows xs := by
      unfold totalRows
      apply List.sum_nonneg
      intro v hv
      obtain ⟨d, hd, rfl⟩ := List.mem_map.1 hv
      exact hxs d hd
    have htot : totalRows (x :: xs) = x.rowsToProcess + totalRows xs := by
      simp [totalRows]
    cases k with
    | zero =>
      simp at hd
      subst hd
      rw [htot, h.1]
      constructor <;> omega
    | succ k =>
      rw [List.getElem?_cons_succ] at hd
      have := ih h.2 hxs hd
      rw [htot]
      constructor <;> omega

theorem contiguous_cover {s : Int} {ds : List ThreadData} (h : Contiguous s ds)
    (r : Int) (h1 : s ≤ r) (h2 : r < s + totalRows ds) :
    ∃ (k : Nat) (d : ThreadData), ds[k]? = some d ∧ d.owns r := by
  induction ds generalizing s with
  | nil => simp [totalRows] at h2; omega
  | cons x xs ih =>
    have htot : totalRows (x :: xs) = x.rowsToProcess + totalRows xs := by
      simp [totalRows]
    by_cases hr : r < s + x.rowsToProcess
    · refine ⟨0, x, by simp, ?_⟩
      unfold ThreadData.owns
      rw [h.1]
      exact ⟨h1, hr⟩
    · obtain ⟨k, d, hk, hd⟩ := ih h.2 (by omega) (by rw [htot] at h2; omega)
      exact ⟨k + 1, d, by simpa using hk, hd⟩

theorem contiguous_unique {s : Int} {ds : List ThreadData} (h : Contiguous s ds)
    (hpos : ∀ d ∈ ds, 0 ≤ d.rowsToProcess) {k l : Nat} {d e : ThreadData} {r : Int}
    (hd : ds[k]? = some d) (he : ds[l]? = some e) (hrd : d.owns r) (hre : e.owns r) :
    k = l := by
  induction ds generalizing s k l with
  | nil => simp at hd
  | cons x xs ih =>
    have hxs : ∀ d ∈ xs, 0 ≤ d.rowsToProcess := fun d hd => hpos d (List.mem_cons_of_mem _ hd)
    unfold ThreadData.owns at hrd hre
    cases k with
    | zero =>
      cases l with
      | zero => rfl
      | succ l =>
        exfalso
        simp at hd
        subst hd
        rw [List.getElem?_cons_succ] at he
        have := contiguous_within h.2 hxs he
        have := h.1
        omega
    | succ k =>
      cases l with
      | zero =>
        exfalso
        simp at he
        subst he
        rw [List.getElem?_cons_succ] at hd
        have := contiguous_within h.2 hxs hd
        have := h.1
        omega
      | succ l =>
        rw [List.getElem?_cons_succ] at hd he
        have := ih h.2 hxs hd he
        omega

theorem tdiv_natCast (H N : Nat) : Int.tdiv (H : Int) (N : Int) = ((H / N : Nat) : Int) := by
  rw [Int.tdiv_eq_ediv (Int.ofNat_nonneg H) (Int.ofNat_nonneg N)]
  norm_cast

theorem tmod_natCast (H N : Nat) : Int.tmod (H : Int) (N : Int) = ((H % N : Nat) : Int) := by
  rw [Int.tmod_eq_emod (Int.ofNat_nonneg H) (Int.ofNat_nonneg N)]
  norm_cast

/-- Closed form of `data[k]` as `main` fills it. -/
theorem threadData_getElem? (H N k : Nat) (hk : k < N) :
    (threadData H N)[k]? =
      some { currentRow := (k : Int) * ((H / N : Nat) : Int) + min (k : Int) ((H % N : Nat) : Int),
             rowsToProcess := ((H / N : Nat) : Int) + (if k < H % N then 1 else 0),
             timeTaken := 0 } := by
  unfold threadData
  rw [tdiv_natCast, tmod_natCast,
    createLoop_getElem? _ N 0 _ (Int.ofNat_nonneg _) k hk]
  simp only [zero_add, Nat.cast_lt]

theorem threadData_length (H N : Nat) : (threadData H N).length = N := by
  unfold threadData
  exact createLoop_length _ _ _ _

theorem threadData_contiguous (H N : Nat) : Contiguous 0 (threadData H N) :=
  createLoop_contiguous _ _ _ _

theorem threadData_totalRows (H N : Nat) (hN : 0 < N) : totalRows (threadData H N) = H := by
  unfold threadData
  rw [tdiv_natCast, tmod_natCast, createLoop_totalRows]
  · have := Nat.div_add_mod H N
    exact_mod_cast this
  · exact Int.ofNat_nonneg _
  · exact_mod_cast (Nat.mod_lt H hN).le

theorem threadData_pos (H N : Nat) (h1 : 1 ≤ N) (hN : N ≤ H) :
    ∀ d ∈ threadData H N, 0 < d.rowsToProcess := by
  intro d hd
  obtain ⟨k, hk, rfl⟩ := List.getElem_of_mem hd
  rw [threadData_length] at hk
  have h := threadData_getElem? H N k hk
  rw [List.getElem?_eq_getElem (by rw [threadData_length]; exact hk)] at h
  have hq : 1 ≤ H / N := (Nat.one_le_div_iff (by omega)).2 hN
  have hq2 : (1 : Int) ≤ ((H / N : Nat) : Int) := by exact_mod_cast hq
  injection h with h
  rw [h]
  simp only
  split <;> omega

theorem main_data (H W N : Nat) (clk : Clock) (m d0 a0 : Matrix) (h1 : 1 ≤ N) (hN : N ≤ H) :
    (main H W N clk m d0 a0).data = threadData H N := by
  unfold main
  have h2 : ¬ N > H := by omega
  have h3 : N ≠ 0 := by omega
  simp only [h2, h3, if_false]
  split <;> rfl

end cw1Part3

/-! ## Lemmas on the loops of cw1Part3 -/

theorem rowCells_succ_last (W : Nat) (lo : Int) (k : Nat) :
    rowCells W lo (k + 1) = rowCells W lo k ++ (List.range W).map (fun j => (lo + (k : Int), j)) := by
  induction k generalizing lo with
  | zero => simp [rowCells]
  | succ k ih =>
    rw [rowCells, ih (lo + 1), rowCells, List.append_assoc]
    have e : lo + 1 + (k : Int) = lo + ((k + 1 : Nat) : Int) := by push_cast; ring
    rw [e]

namespace cw1Part3

theorem cellBody_eq (W : Nat) (a : Arrays) (i : Int) (j : Nat) :
    cellBody W a i j =
      { mainArray := a.mainArray
        distanceArray := a.distanceArray.set i j (hypotenuseAt W a.mainArray i j)
        angleArray := a.angleArray.set i j (angleAt W a.mainArray i j)
        stores := a.stores ++ [(i, j)] } := rfl

/-- The column loop, run for its first `n` columns. -/
theorem foldl_cellBody (W : Nat) (a : Arrays) (i : Int) (n : Nat) :
    ((List.range n).foldl (fun acc j => cellBody W acc i j) a).mainArray = a.mainArray ∧
    (∀ (i2 : Int) (j2 : Nat),
      ((List.range n).foldl (fun acc j => cellBody W acc i j) a).distanceArray i2 j2 =
        if i2 = i ∧ j2 < n then hypotenuseAt W a.mainArray i j2 else a.distanceArray i2 j2) ∧
    (∀ (i2 : Int) (j2 : Nat),
      ((List.range n).foldl (fun acc j => cellBody W acc i j) a).angleArray i2 j2 =
        if i2 = i ∧ j2 < n then angleAt W a.mainArray i j2 else a.angleArray i2 j2) ∧
    ((List.range n).foldl (fun acc j => cellBody W acc i j) a).stores =
      a.stores ++ (List.range n).map (fun j => (i, j)) := by
  induction n with
  | zero => simp
  | succ n ih =>
    rw [List.range_succ, List.foldl_append, List.foldl_cons, List.foldl_nil]
    generalize (List.range n).foldl (fun acc j => cellBody W acc i j) a = b at ih ⊢
    obtain ⟨hm, hd, ha, hs⟩ := ih
    rw [cellBody_eq]
    simp only [hm, hs, List.map_append, List.map_cons, List.map_nil, List.append_assoc,
      true_and, and_true]
    refine ⟨?_, ?_⟩
    · intro i2 j2
      unfold Matrix.set
      rw [hd]
      by_cases h1 : i2 = i
      · by_cases h2 : j2 = n
        · simp [h1, h2]
        · by_cases h3 : j2 < n
          · have : j2 < n + 1 := by omega
            simp [h1, h2, h3, this]
          · have : ¬ j2 < n + 1 := by omega
            simp [h1, h2, h3, this]
      · simp [h1]
    · intro i2 j2
      unfold Matrix.set
      rw [ha]
      by_cases h1 : i2 = i
      · by_cases h2 : j2 = n
        · simp [h1, h2]
        · by_cases h3 : j2 < n
          · have : j2 < n + 1 := by omega
            simp [h1, h2, h3, this]
          · have : ¬ j2 < n + 1 := by omega
            simp [h1, h2, h3, this]
      · simp [h1]

theorem forLoop_mainArray (W : Nat) (a : Arrays) (i : Int) :
    (forLoop W a i).mainArray = a.mainArray :=
  (foldl_cellBody W a i W).1

theorem forLoop_distanceArray (W : Nat) (a : Arrays) (i : Int) (i2 : Int) (j2 : Nat) :
    (forLoop W a i).distanceArray i2 j2 =
      if i2 = i ∧ j2 < W then hypotenuseAt W a.mainArray i j2 else a.distanceArray i2 j2 :=
  (foldl_cellBody W a i W).2.1 i2 j2

theorem forLoop_angleArray (W : Nat) (a : Arrays) (i : Int) (i2 : Int) (j2 : Nat) :
    (forLoop W a i).angleArray i2 j2 =
      if i2 = i ∧ j2 < W then angleAt W a.mainArray i j2 else a.angleArray i2 j2 :=
  (foldl_cellBody W a i W).2.2.1 i2 j2

theorem forLoop_stores (W : Nat) (a : Arrays) (i : Int) :
    (forLoop W a i).stores = a.stores ++ (List.range W).map (fun j => (i, j)) :=
  (foldl_cellBody W a i W).2.2.2

/-- The row loop of `processRows`, for a non-negative `rowsToProcess` and
enough iterations to reach the end of the array. -/
theorem whileLoop_spec (H W : Nat) (fuel : Nat) (a : Arrays) (cur r : Int)
    (hfuel : ((H : Int) - cur).toNat ≤ fuel) (hr : 0 ≤ r) :
    (whileLoop H W fuel a cur r).mainArray = a.mainArray ∧
    (∀ (i : Int) (j : Nat), (whileLoop H W fuel a cur r).distanceArray i j =
      if cur ≤ i ∧ i < cur + r ∧ i < (H : Int) ∧ j < W then hypotenuseAt W a.mainArray i j
      else a.distanceArray i j) ∧
    (∀ (i : Int) (j : Nat), (whileLoop H W fuel a cur r).angleArray i j =
      if cur ≤ i ∧ i < cur + r ∧ i < (H : Int) ∧ j < W then angleAt W a.mainArray i j
      else a.angleArray i j) ∧
    (whileLoop H W fuel a cur r).stores =
      a.stores ++ rowCells W cur (min r ((H : Int) - cur)).toNat := by
  induction fuel generalizing a cur r with
  | zero =>
    have hcur : (H : Int) ≤ cur := by omega
    have hk : (min r ((H : Int) - cur)).toNat = 0 := by omega
    refine ⟨rfl, fun i j => ?_, fun i j => ?_, ?_⟩
    · show a.distanceArray i j = _
      rw [if_neg]
      omega
    · show a.angleArray i j = _
      rw [if_neg]
      omega
    · show a.stores = _
      rw [hk]
      simp [rowCells]
  | succ fuel ih =>
    unfold whileLoop
    split
    · rename_i hc
      obtain ⟨hm, hd, ha, hs⟩ := ih (forLoop W a cur) (cur + 1) (r - 1) (by omega) (by omega)
      have hk : (min r ((H : Int) - cur)).toNat =
          (min (r - 1) ((H : Int) - (cur + 1))).toNat + 1 := by omega
      refine ⟨by rw [hm, forLoop_mainArray], ?_, ?_, ?_⟩
      · intro i j
        rw [hd, forLoop_mainArray, forLoop_distanceArray]
        by_cases h1 : i = cur
        · subst h1
          by_cases h2 : j < W
          · have e1 : ¬ (i + 1 ≤ i ∧ i < i + 1 + (r - 1) ∧ i < (H : Int) ∧ j < W) := by omega
            have e2 : (i ≤ i ∧ i < i + r ∧ i < (H : Int) ∧ j < W) := by omega
            simp [e1, e2, h2]
          · have e1 : ¬ (i + 1 ≤ i ∧ i < i + 1 + (r - 1) ∧ i < (H : Int) ∧ j < W) := by omega
            have e2 : ¬ (i ≤ i ∧ i < i + r ∧ i < (H : Int) ∧ j < W) := by omega
            simp [e1, e2, h2]
        · have e0 : ¬ (i = cur ∧ j < W) := by tauto
          by_cases h3 : cur + 1 ≤ i ∧ i < cur + 1 + (r - 1) ∧ i < (H : Int) ∧ j < W
          · have e2 : (cur ≤ i ∧ i < cur + r ∧ i < (H : Int) ∧ j < W) := by omega
            rw [if_pos h3, if_pos e2]
          · have e2 : ¬ (cur ≤ i ∧ i < cur + r ∧ i < (H : Int) ∧ j < W) := by omega
            rw [if_neg h3, if_neg e2, if_neg e0]
      · intro i j
        rw [ha, forLoop_mainArray, forLoop_angleArray]
        by_cases h1 : i = cur
        · subst h1
          by_cases h2 : j < W
          · have e1 : ¬ (i + 1 ≤ i ∧ i < i + 1 + (r - 1) ∧ i < (H : Int) ∧ j < W) := by omega
            have e2 : (i ≤ i ∧ i < i + r ∧ i < (H : Int) ∧ j < W) := by omega
            simp [e1, e2, h2]
          · have e1 : ¬ (i + 1 ≤ i ∧ i < i + 1 + (r - 1) ∧ i < (H : Int) ∧ j < W) := by omega
            have e2 : ¬ (i ≤ i ∧ i < i + r ∧ i < (H : Int) ∧ j < W) := by omega
            simp [e1, e2, h2]
        · have e0 : ¬ (i = cur ∧ j < W) := by tauto
          by_cases h3 : cur + 1 ≤ i ∧ i < cur + 1 + (r - 1) ∧ i < (H : Int) ∧ j < W
          · have e2 : (cur ≤ i ∧ i < cur + r ∧ i < (H : Int) ∧ j < W) := by omega
            rw [if_pos h3, if_pos e2]
          · have e2 : ¬ (cur ≤ i ∧ i < cur + r ∧ i < (H : Int) ∧ j < W) := by omega
            rw [if_neg h3, if_neg e2, if_neg e0]
      · rw [hs, forLoop_stores, hk, rowCells, List.append_assoc]
    · rename_i hc
      have hk : (min r ((H : Int) - cur)).toNat = 0 := by omega
      refine ⟨rfl, fun i j => ?_, fun i j => ?_, ?_⟩
      · rw [if_neg]
        omega
      · rw [if_neg]
        omega
      · rw [hk]
        simp [rowCells]

/-- The matrices after a thread with a non-negative `rowsToProcess`. -/
theorem processRows_spec (H W : Nat) (t : Int × Int) (a : Arrays) (d : ThreadData)
    (hr : 0 ≤ d.rowsToProcess) :
    (processRows H W t a d).arrays.mainArray = a.mainArray ∧
    (∀ (i : Int) (j : Nat), (processRows H W t a d).arrays.distanceArray i j =
      if d.owns i ∧ i < (H : Int) ∧ j < W then hypotenuseAt W a.mainArray i j
      else a.distanceArray i j) ∧
    (∀ (i : Int) (j : Nat), (processRows H W t a d).arrays.angleArray i j =
      if d.owns i ∧ i < (H : Int) ∧ j < W then angleAt W a.mainArray i j
      else a.angleArray i j) ∧
    (processRows H W t a d).arrays.stores =
      a.stores ++ rowCells W d.currentRow (min d.rowsToProcess ((H : Int) - d.currentRow)).toNat := by
  unfold processRows ThreadData.owns
  simp only
  split
  · rename_i hge
    have hk : (min d.rowsToProcess ((H : Int) - d.currentRow)).toNat = 0 := by omega
    refine ⟨rfl, fun i j => ?_, fun i j => ?_, ?_⟩
    · rw [if_neg]
      omega
    · rw [if_neg]
      omega
    · rw [hk]
      simp [rowCells]
  · obtain ⟨hm, hd, ha, hs⟩ :=
      whileLoop_spec H W ((H : Int) - d.currentRow).toNat a d.currentRow d.rowsToProcess
        le_rfl hr
    refine ⟨hm, fun i j => ?_, fun i j => ?_, hs⟩
    · rw [hd]
      simp only [and_assoc]
    · rw [ha]
      simp only [and_assoc]

theorem processRows_returned (H W : Nat) (t : Int × Int) (a : Arrays) (d : ThreadData) :
    (processRows H W t a d).returned = true ↔ d.currentRow < (H : Int) := by
  unfold processRows
  simp only
  split
  · simp only [Bool.false_eq_true, false_iff]
    omega
  · simp only [true_iff]
    omega

/-- The matrices after the threads of a gap-free list of ranges that starts
at row `s`. -/
theorem runThreadsArrays_spec (H W : Nat) (clk : Nat → Int × Int) (ds : List ThreadData)
    (n : Nat) (s : Int) (a : Arrays) (hc : Contiguous s ds)
    (hpos : ∀ d ∈ ds, 0 ≤ d.rowsToProcess) :
    (runThreadsArrays H W clk n ds a).mainArray = a.mainArray ∧
    (∀ (i : Int) (j : Nat), (runThreadsArrays H W clk n ds a).distanceArray i j =
      if s ≤ i ∧ i < s + totalRows ds ∧ i < (H : Int) ∧ j < W then
        hypotenuseAt W a.mainArray i j
      else a.distanceArray i j) ∧
    (∀ (i : Int) (j : Nat), (runThreadsArrays H W clk n ds a).angleArray i j =
      if s ≤ i ∧ i < s + totalRows ds ∧ i < (H : Int) ∧ j < W then
        angleAt W a.mainArray i j
      else a.angleArray i j) := by
  induction ds generalizing n s a with
  | nil =>
    refine ⟨rfl, fun i j => ?_, fun i j => ?_⟩
    · show a.distanceArray i j = _
      rw [if_neg]
      simp only [totalRows, List.map_nil, List.sum_nil]
      omega
    · show a.angleArray i j = _
      rw [if_neg]
      simp only [totalRows, List.map_nil, List.sum_nil]
      omega
  | cons x xs ih =>
    have hx : 0 ≤ x.rowsToProcess := hpos x (List.mem_cons_self _ _)
    have hxs : ∀ d ∈ xs, 0 ≤ d.rowsToProcess := fun d hd => hpos d (List.mem_cons_of_mem _ hd)
    have hsum : 0 ≤ totalRows xs := by
      unfold totalRows
      apply List.sum_nonneg
      intro v hv
      obtain ⟨d, hd, rfl⟩ := List.mem_map.1 hv
      exact hxs d hd
    have htot : totalRows (x :: xs) = x.rowsToProcess + totalRows xs := by
      simp [totalRows]
    obtain ⟨pm, pd, pa, _⟩ := processRows_spec H W (clk n) a x hx
    obtain ⟨hm, hd, ha⟩ := ih (n + 1) (s + x.rowsToProcess) (processRows H W (clk n) a x).arrays
      hc.2 hxs
    have hxs0 := hc.1
    unfold runThreadsArrays
    refine ⟨by rw [hm, pm], fun i j => ?_, fun i j => ?_⟩
    · rw [hd, pm, pd, htot]
      unfold ThreadData.owns
      by_cases h1 : s + x.rowsToProcess ≤ i ∧ i < s + x.rowsToProcess + totalRows xs ∧
          i < (H : Int) ∧ j < W
      · have e2 : s ≤ i ∧ i < s + (x.rowsToProcess + totalRows xs) ∧ i < (H : Int) ∧ j < W := by
          omega
        rw [if_pos h1, if_pos e2]
      · rw [if_neg h1]
        by_cases h2 : (x.currentRow ≤ i ∧ i < x.currentRow + x.rowsToProcess) ∧
            i < (H : Int) ∧ j < W
        · have e2 : s ≤ i ∧ i < s + (x.rowsToProcess + totalRows xs) ∧ i < (H : Int) ∧ j < W := by
            omega
          rw [if_pos h2, if_pos e2]
        · have e2 : ¬ (s ≤ i ∧ i < s + (x.rowsToProcess + totalRows xs) ∧ i < (H : Int) ∧
              j < W) := by omega
          rw [if_neg h2, if_neg e2]
    · rw [ha, pm, pa, htot]
      unfold ThreadData.owns
      by_cases h1 : s + x.rowsToProcess ≤ i ∧ i < s + x.rowsToProcess + totalRows xs ∧
          i < (H : Int) ∧ j < W
      · have e2 : s ≤ i ∧ i < s + (x.rowsToProcess + totalRows xs) ∧ i < (H : Int) ∧ j < W := by
          omega
        rw [if_pos h1, if_pos e2]
      · rw [if_neg h1]
        by_cases h2 : (x.currentRow ≤ i ∧ i < x.currentRow + x.rowsToProcess) ∧
            i < (H : Int) ∧ j < W
        · have e2 : s ≤ i ∧ i < s + (x.rowsToProcess + totalRows xs) ∧ i < (H : Int) ∧ j < W := by
            omega
          rw [if_pos h2, if_pos e2]
        · have e2 : ¬ (s ≤ i ∧ i < s + (x.rowsToProcess + totalRows xs) ∧ i < (H : Int) ∧
              j < W) := by omega
          rw [if_neg h2, if_neg e2]

/-- Every thread of a list whose ranges start below row `H` returns. -/
theorem joinLoop_runThreads (H W : Nat) (clk : Nat → Int × Int) (ds : List ThreadData)
    (n : Nat) (a : Arrays) (hlt : ∀ d ∈ ds, d.currentRow < (H : Int)) :
    (joinLoop n (runThreads H W clk n ds a)).2 = true := by
  induction ds generalizing n a with
  | nil => rfl
  | cons x xs ih =>
    unfold runThreads joinLoop
    have hx := (processRows_returned H W (clk n) a x).2 (hlt x (List.mem_cons_self _ _))
    rw [if_pos hx]
    exact ih (n + 1) _ (fun d hd => hlt d (List.mem_cons_of_mem _ hd))

theorem threadData_lt (H N : Nat) (h1 : 1 ≤ N) (hN : N ≤ H) :
    ∀ d ∈ threadData H N, 0 ≤ d.currentRow ∧ d.currentRow + d.rowsToProcess ≤ (H : Int) := by
  intro d hd
  obtain ⟨k, hk⟩ := List.mem_iff_getElem?.1 hd
  have hnn : ∀ d ∈ threadData H N, 0 ≤ d.rowsToProcess :=
    fun d hd => (threadData_pos H N h1 hN d hd).le
  have := contiguous_within (threadData_contiguous H N) hnn hk
  rw [threadData_totalRows H N (by omega)] at this
  omega

/-- For `1 ≤ N ≤ H`, `main` of cw1Part3 returns `0` and leaves every cell of
the rows `0 .. H - 1` computed. -/
theorem parallel_main_spec (H W N : Nat) (clk : Clock) (m d0 a0 : Matrix) (h1 : 1 ≤ N) (hN : N ≤ H) :
    (main H W N clk m d0 a0).termination = Termination.exit 0 ∧
    ∃ a : Arrays, (main H W N clk m d0 a0).arrays = some a ∧
      a.mainArray = m ∧
      (∀ (i : Int) (j : Nat), a.distanceArray i j =
        if 0 ≤ i ∧ i < (H : Int) ∧ j < W then hypotenuseAt W m i j else d0 i j) ∧
      (∀ (i : Int) (j : Nat), a.angleArray i j =
        if 0 ≤ i ∧ i < (H : Int) ∧ j < W then angleAt W m i j else a0 i j) := by
  have hnn : ∀ d ∈ threadData H N, 0 ≤ d.rowsToProcess :=
    fun d hd => (threadData_pos H N h1 hN d hd).le
  have hlt : ∀ d ∈ threadData H N, d.currentRow < (H : Int) := by
    intro d hd
    have := threadData_lt H N h1 hN d hd
    have := threadData_pos H N h1 hN d hd
    omega
  have hj := joinLoop_runThreads H W clk.thread (threadData H N) 0
    { mainArray := m, distanceArray := d0, angleArray := a0, stores := [] } hlt
  obtain ⟨hm, hd, ha⟩ := runThreadsArrays_spec H W clk.thread (threadData H N) 0 0
    { mainArray := m, distanceArray := d0, angleArray := a0, stores := [] }
    (threadData_contiguous H N) hnn
  rw [threadData_totalRows H N (by omega)] at hd ha
  have h2 : ¬ N > H := by omega
  have h3 : N ≠ 0 := by omega
  unfold main
  simp only [h2, h3, if_false, hj, if_true, true_and]
  refine ⟨_, rfl, hm, fun i j => ?_, fun i j => ?_⟩
  · rw [hd]
    by_cases h : 0 ≤ i ∧ i < (H : Int) ∧ j < W
    · have e : 0 ≤ i ∧ i < 0 + (H : Int) ∧ i < (H : Int) ∧ j < W := by omega
      rw [if_pos h, if_pos e]
    · have e : ¬ (0 ≤ i ∧ i < 0 + (H : Int) ∧ i < (H : Int) ∧ j < W) := by omega
      rw [if_neg h, if_neg e]
  · rw [ha]
    by_cases h : 0 ≤ i ∧ i < (H : Int) ∧ j < W
    · have e : 0 ≤ i ∧ i < 0 + (H : Int) ∧ i < (H : Int) ∧ j < W := by omega
      rw [if_pos h, if_pos e]
    · have e : ¬ (0 ≤ i ∧ i < 0 + (H : Int) ∧ i < (H : Int) ∧ j < W) := by omega
      rw [if_neg h, if_neg e]

end cw1Part3

/-! ## Lemmas on the loops of cw1Part1 -/

namespace cw1Part1

/-- Over the real numbers `pow(v, 2) + pow(50, 2)` and `v * v + 50 * 50` are
the same number, so the loop bodies of cw1Part1 and cw1Part3 agree. -/
theorem cellBody_eq_part3 (W : Nat) (a : Arrays) (i : Int) (j : Nat) :
    cellBody W a i j = cw1Part3.cellBody W a i j := by
  unfold cellBody cw1Part3.cellBody
  have e : ∀ v : ℝ, v ^ 2 + (HORIZONTAL_POINT_DIST : ℝ) ^ 2 =
      v * v + ((HORIZONTAL_POINT_DIST * HORIZONTAL_POINT_DIST : Int) : ℝ) := by
    intro v
    push_cast
    ring
  simp only [e]

theorem forLoop_eq_part3 (W : Nat) (a : Arrays) (i : Int) :
    forLoop W a i = cw1Part3.forLoop W a i := by
  unfold forLoop cw1Part3.forLoop
  simp only [cellBody_eq_part3]

/-- The row loop of `main`, run for its first `n` rows. -/
theorem foldl_forLoop (W : Nat) (a : Arrays) (n : Nat) :
    ((List.range n).foldl (fun acc (i : Nat) => forLoop W acc (i : Int)) a).mainArray = a.mainArray ∧
    (∀ (i : Int) (j : Nat),
      ((List.range n).foldl (fun acc (i : Nat) => forLoop W acc (i : Int)) a).distanceArray i j =
        if 0 ≤ i ∧ i < (n : Int) ∧ j < W then cw1Part3.hypotenuseAt W a.mainArray i j
        else a.distanceArray i j) ∧
    (∀ (i : Int) (j : Nat),
      ((List.range n).foldl (fun acc (i : Nat) => forLoop W acc (i : Int)) a).angleArray i j =
        if 0 ≤ i ∧ i < (n : Int) ∧ j < W then cw1Part3.angleAt W a.mainArray i j
        else a.angleArray i j) ∧
    ((List.range n).foldl (fun acc (i : Nat) => forLoop W acc (i : Int)) a).stores =
      a.stores ++ rowCells W 0 n := by
  induction n with
  | zero =>
    refine ⟨rfl, fun i j => ?_, fun i j => ?_, ?_⟩
    · show a.distanceArray i j = _
      rw [if_neg]
      omega
    · show a.angleArray i j = _
      rw [if_neg]
      omega
    · simp [rowCells]
  | succ n ih =>
    rw [List.range_succ, List.foldl_append, List.foldl_cons, List.foldl_nil]
    generalize (List.range n).foldl (fun acc (i : Nat) => forLoop W acc (i : Int)) a = b at ih ⊢
    obtain ⟨hm, hd, ha, hs⟩ := ih
    rw [forLoop_eq_part3]
    refine ⟨by rw [cw1Part3.forLoop_mainArray, hm], fun i j => ?_, fun i j => ?_, ?_⟩
    · rw [cw1Part3.forLoop_distanceArray, hm, hd]
      by_cases h1 : i = (n : Int) ∧ j < W
      · have e : 0 ≤ i ∧ i < ((n + 1 : Nat) : Int) ∧ j < W := by omega
        rw [if_pos h1, if_pos e, h1.1]
      · rw [if_neg h1]
        by_cases h2 : 0 ≤ i ∧ i < (n : Int) ∧ j < W
        · have e : 0 ≤ i ∧ i < ((n + 1 : Nat) : Int) ∧ j < W := by omega
          rw [if_pos h2, if_pos e]
        · have e : ¬ (0 ≤ i ∧ i < ((n + 1 : Nat) : Int) ∧ j < W) := by omega
          rw [if_neg h2, if_neg e]
    · rw [cw1Part3.forLoop_angleArray, hm, ha]
      by_cases h1 : i = (n : Int) ∧ j < W
      · have e : 0 ≤ i ∧ i < ((n + 1 : Nat) : Int) ∧ j < W := by omega
        rw [if_pos h1, if_pos e, h1.1]
      · rw [if_neg h1]
        by_cases h2 : 0 ≤ i ∧ i < (n : Int) ∧ j < W
        · have e : 0 ≤ i ∧ i < ((n + 1 : Nat) : Int) ∧ j < W := by omega
          rw [if_pos h2, if_pos e]
        · have e : ¬ (0 ≤ i ∧ i < ((n + 1 : Nat) : Int) ∧ j < W) := by omega
          rw [if_neg h2, if_neg e]
    · rw [cw1Part3.forLoop_stores, hs, rowCells_succ_last, List.append_assoc, zero_add]

/-- Closed form of the matrices `main` of cw1Part1 leaves behind. -/
theorem sequential_main_spec (H W : Nat) (m d0 a0 : Matrix) :
    (main H W m d0 a0).mainArray = m ∧
    (∀ (i : Int) (j : Nat), (main H W m d0 a0).distanceArray i j =
      if 0 ≤ i ∧ i < (H : Int) ∧ j < W then cw1Part3.hypotenuseAt W m i j else d0 i j) ∧
    (∀ (i : Int) (j : Nat), (main H W m d0 a0).angleArray i j =
      if 0 ≤ i ∧ i < (H : Int) ∧ j < W then cw1Part3.angleAt W m i j else a0 i j) ∧
    (main H W m d0 a0).stores = rowCells W 0 H := by
  obtain ⟨hm, hd, ha, hs⟩ := foldl_forLoop W
    { mainArray := m, distanceArray := d0, angleArray := a0, stores := [] } H
  exact ⟨hm, hd, ha, by rw [main, hs, List.nil_append]⟩

end cw1Part1

/-! ## Lemmas on the loops of cw1Part2 -/

theorem mem_rowCells (W : Nat) (lo : Int) (k : Nat) (i : Int) (j : Nat) :
    (i, j) ∈ rowCells W lo k ↔ lo ≤ i ∧ i < lo + (k : Int) ∧ j < W := by
  induction k generalizing lo with
  | zero =>
    simp only [rowCells, List.not_mem_nil, false_iff]
    omega
  | succ k ih =>
    rw [rowCells, List.mem_append, ih (lo + 1)]
    simp only [List.mem_map, List.mem_range, Prod.mk.injEq]
    constructor
    · rintro (⟨c, hc, h1, h2⟩ | h)
      · subst h1 h2
        exact ⟨le_rfl, by omega, hc⟩
      · exact ⟨by omega, by omega, h.2.2⟩
    · rintro ⟨h1, h2, h3⟩
      by_cases h : i = lo
      · exact Or.inl ⟨j, h3, h.symm, rfl⟩
      · exact Or.inr ⟨by omega, by omega, h3⟩

namespace cw1Part2

theorem rowsDone_zero (W n : Nat) : rowsDone W n 0 = 0 := by
  cases n <;> simp [rowsDone]

/-- With a counter that never meets zero the row loop runs to the end of the
array. -/
theorem rowsDone_all (W n : Nat) (r : Int) (h : ∀ k : Nat, k < n → r ≠ (k : Int) * (W : Int)) :
    rowsDone W n r = n := by
  induction n generalizing r with
  | zero => simp [rowsDone]
  | succ n ih =>
    unfold rowsDone
    have h0 : r ≠ 0 := by
      have := h 0 (by omega)
      simpa using this
    rw [if_pos h0, ih]
    intro k hk hr
    apply h (k + 1) (by omega)
    push_cast
    linarith

/-- With `rowsToProcess = W ≥ 1` the row loop processes a single row. -/
theorem rowsDone_width (W n : Nat) (hW : 1 ≤ W) : rowsDone W (n + 1) (W : Int) = 1 := by
  unfold rowsDone
  have h0 : (W : Int) ≠ 0 := by omega
  rw [if_pos h0, sub_self, rowsDone_zero]

theorem rowsDone_pos (W n : Nat) (r : Int) (hr : r ≠ 0) : 1 ≤ rowsDone W (n + 1) r := by
  unfold rowsDone
  rw [if_pos hr]
  omega

theorem cellBody_arrays (W : Nat) (s : Locals) (i : Int) (j : Nat) :
    (cellBody W s i j).arrays = cw1Part3.cellBody W s.arrays i j := by
  unfold cellBody cw1Part3.cellBody
  have e : ∀ v : ℝ, v ^ 2 + (HORIZONTAL_POINT_DIST : ℝ) ^ 2 =
      v * v + ((HORIZONTAL_POINT_DIST * HORIZONTAL_POINT_DIST : Int) : ℝ) := by
    intro v
    push_cast
    ring
  simp only [e]

/-- The column loop of cw1Part2, run for its first `n` columns: the matrices
are those of the column loop of cw1Part3, and each counter has moved by `n`. -/
theorem foldl_cellBody_locals (W : Nat) (s : Locals) (i : Int) (n : Nat) :
    ((List.range n).foldl (fun acc j => cellBody W acc i j) s).arrays =
      (List.range n).foldl (fun acc j => cw1Part3.cellBody W acc i j) s.arrays ∧
    ((List.range n).foldl (fun acc j => cellBody W acc i j) s).rowsToProcess =
      s.rowsToProcess - (n : Int) ∧
    ((List.range n).foldl (fun acc j => cellBody W acc i j) s).rowsProcessed =
      s.rowsProcessed + (n : Int) := by
  induction n with
  | zero => simp
  | succ n ih =>
    rw [List.range_succ, List.foldl_append, List.foldl_append, List.foldl_cons, List.foldl_nil,
      List.foldl_cons, List.foldl_nil]
    generalize (List.range n).foldl (fun acc j => cellBody W acc i j) s = b at ih ⊢
    obtain ⟨h1, h2, h3⟩ := ih
    refine ⟨by rw [cellBody_arrays, h1], ?_, ?_⟩
    · show b.rowsToProcess - 1 = _
      rw [h2]
      push_cast
      ring
    · show b.rowsProcessed + 1 = _
      rw [h3]
      push_cast
      ring

theorem forLoop_arrays (W : Nat) (s : Locals) (i : Int) :
    (forLoop W s i).arrays = cw1Part3.forLoop W s.arrays i :=
  (foldl_cellBody_locals W s i W).1

theorem forLoop_rowsToProcess (W : Nat) (s : Locals) (i : Int) :
    (forLoop W s i).rowsToProcess = s.rowsToProcess - (W : Int) :=
  (foldl_cellBody_locals W s i W).2.1

theorem forLoop_rowsProcessed (W : Nat) (s : Locals) (i : Int) :
    (forLoop W s i).rowsProcessed = s.rowsProcessed + (W : Int) :=
  (foldl_cellBody_locals W s i W).2.2

/-- The row loop of `processRows` of cw1Part2 with enough iterations to
reach the end of the array: it processes the `rowsDone` rows that start at
`cur`, and its counters have moved by `W` for each of them. -/
theorem whileLoop_locals_spec (H W : Nat) (fuel : Nat) (s : Locals) (cur : Int)
    (hfuel : ((H : Int) - cur).toNat ≤ fuel) :
    (whileLoop H W fuel s cur).arrays.mainArray = s.arrays.mainArray ∧
    (∀ (i : Int) (j : Nat), (whileLoop H W fuel s cur).arrays.distanceArray i j =
      if cur ≤ i ∧ i < cur + (rowsDone W ((H : Int) - cur).toNat s.rowsToProcess : Int) ∧ j < W
      then cw1Part3.hypotenuseAt W s.arrays.mainArray i j else s.arrays.distanceArray i j) ∧
    (∀ (i : Int) (j : Nat), (whileLoop H W fuel s cur).arrays.angleArray i j =
      if cur ≤ i ∧ i < cur + (rowsDone W ((H : Int) - cur).toNat s.rowsToProcess : Int) ∧ j < W
      then cw1Part3.angleAt W s.arrays.mainArray i j else s.arrays.angleArray i j) ∧
    (whileLoop H W fuel s cur).arrays.stores =
      s.arrays.stores ++ rowCells W cur (rowsDone W ((H : Int) - cur).toNat s.rowsToProcess) ∧
    (whileLoop H W fuel s cur).rowsToProcess =
      s.rowsToProcess -
        (rowsDone W ((H : Int) - cur).toNat s.rowsToProcess : Int) * (W : Int) ∧
    (whileLoop H W fuel s cur).rowsProcessed =
      s.rowsProcessed +
        (rowsDone W ((H : Int) - cur).toNat s.rowsToProcess : Int) * (W : Int) := by
  induction fuel generalizing s cur with
  | zero =>
    have hn : ((H : Int) - cur).toNat = 0 := by omega
    rw [hn]
    simp only [whileLoop, rowsDone, rowCells, List.append_nil, Nat.cast_zero, zero_mul,
      sub_zero, add_zero, and_true, true_and]
    constructor
    · intro i j
      rw [if_neg]
      omega
    · intro i j
      rw [if_neg]
      omega
  | succ fuel ih =>
    unfold whileLoop
    split
    · rename_i hc
      obtain ⟨n, hn⟩ : ∃ n : Nat, ((H : Int) - cur).toNat = n + 1 := ⟨((H : Int) - cur).toNat - 1, by omega⟩
      have hn1 : ((H : Int) - (cur + 1)).toNat = n := by omega
      obtain ⟨hm, hd, ha, hs, hr, hp⟩ := ih (forLoop W s cur) (cur + 1) (by omega)
      rw [hn1, forLoop_rowsToProcess] at hd ha hs hr hp
      rw [forLoop_arrays] at hm hd ha hs
      rw [hn, rowsDone, if_pos hc.2]
      refine ⟨by rw [hm, cw1Part3.forLoop_mainArray], fun i j => ?_, fun i j => ?_, ?_, ?_, ?_⟩
      · rw [hd, cw1Part3.forLoop_mainArray, cw1Part3.forLoop_distanceArray]
        push_cast
        by_cases h1 : i = cur ∧ j < W
        · have e1 : ¬ (cur + 1 ≤ i ∧ i < cur + 1 + (rowsDone W n (s.rowsToProcess - (W : Int)) : Int)
              ∧ j < W) := by omega
          have e2 : cur ≤ i ∧ i < cur + ((rowsDone W n (s.rowsToProcess - (W : Int)) : Int) + 1)
              ∧ j < W := by omega
          rw [if_neg e1, if_pos h1, if_pos e2, h1.1]
        · rw [if_neg h1]
          by_cases h2 : cur + 1 ≤ i ∧ i < cur + 1 + (rowsDone W n (s.rowsToProcess - (W : Int)) : Int)
              ∧ j < W
          · have e2 : cur ≤ i ∧ i < cur + ((rowsDone W n (s.rowsToProcess - (W : Int)) : Int) + 1)
                ∧ j < W := by omega
            rw [if_pos h2, if_pos e2]
          · have e2 : ¬ (cur ≤ i ∧ i < cur + ((rowsDone W n (s.rowsToProcess - (W : Int)) : Int) + 1)
                ∧ j < W) := by omega
            rw [if_neg h2, if_neg e2]
      · rw [ha, cw1Part3.forLoop_mainArray, cw1Part3.forLoop_angleArray]
        push_cast
        by_cases h1 : i = cur ∧ j < W
        · have e1 : ¬ (cur + 1 ≤ i ∧ i < cur + 1 + (rowsDone W n (s.rowsToProcess - (W : Int)) : Int)
              ∧ j < W) := by omega
          have e2 : cur ≤ i ∧ i < cur + ((rowsDone W n (s.rowsToProcess - (W : Int)) : Int) + 1)
              ∧ j < W := by omega
          rw [if_neg e1, if_pos h1, if_pos e2, h1.1]
        · rw [if_neg h1]
          by_cases h2 : cur + 1 ≤ i ∧ i < cur + 1 + (rowsDone W n (s.rowsToProcess - (W : Int)) : Int)
              ∧ j < W
          · have e2 : cur ≤ i ∧ i < cur + ((rowsDone W n (s.rowsToProcess - (W : Int)) : Int) + 1)
                ∧ j < W := by omega
            rw [if_pos h2, if_pos e2]
          · have e2 : ¬ (cur ≤ i ∧ i < cur + ((rowsDone W n (s.rowsToProcess - (W : Int)) : Int) + 1)
                ∧ j < W) := by omega
            rw [if_neg h2, if_neg e2]
      · rw [hs, cw1Part3.forLoop_stores, rowCells, List.append_assoc]
      · rw [hr]
        push_cast
        ring
      · rw [hp, forLoop_rowsProcessed]
        push_cast
        ring
    · rename_i hc
      have hk : rowsDone W ((H : Int) - cur).toNat s.rowsToProcess = 0 := by
        by_cases h : cur < (H : Int)
        · have : s.rowsToProcess = 0 := by
            by_contra h0
            exact hc ⟨h, h0⟩
          rw [this, rowsDone_zero]
        · have hn : ((H : Int) - cur).toNat = 0 := by omega
          rw [hn, rowsDone]
      rw [hk]
      simp only [rowCells, List.append_nil, Nat.cast_zero, zero_mul, sub_zero, add_zero,
        and_true, true_and]
      constructor
      · intro i j
        rw [if_neg]
        omega
      · intro i j
        rw [if_neg]
        omega

/-- A call of `processRows` of cw1Part2 at a row below the end of the array:
it processes the `k = rowsDone ...` rows that start at `cur`, and it returns
`k * W`. -/
theorem processRows_batched_spec (H W : Nat) (a : Arrays) (cur r : Int)
    (hlt : cur < (H : Int)) :
    ∃ a2 : Arrays,
      processRows H W a cur r =
        some (a2, (rowsDone W ((H : Int) - cur).toNat r : Int) * (W : Int)) ∧
      a2.mainArray = a.mainArray ∧
      (∀ (i : Int) (j : Nat), a2.distanceArray i j =
        if cur ≤ i ∧ i < cur + (rowsDone W ((H : Int) - cur).toNat r : Int) ∧ j < W
        then cw1Part3.hypotenuseAt W a.mainArray i j else a.distanceArray i j) ∧
      (∀ (i : Int) (j : Nat), a2.angleArray i j =
        if cur ≤ i ∧ i < cur + (rowsDone W ((H : Int) - cur).toNat r : Int) ∧ j < W
        then cw1Part3.angleAt W a.mainArray i j else a.angleArray i j) ∧
      a2.stores = a.stores ++ rowCells W cur (rowsDone W ((H : Int) - cur).toNat r) := by
  obtain ⟨hm, hd, ha, hs, _, hp⟩ := whileLoop_locals_spec H W ((H : Int) - cur).toNat
    { arrays := a, rowsToProcess := r, rowsProcessed := 0 } cur le_rfl
  refine ⟨_, ?_, hm, hd, ha, hs⟩
  unfold processRows
  rw [if_neg (by omega)]
  simp only [hp, zero_add]

/-- The driver loop of cw1Part2 with `W ≥ 1` and a batch size other than
zero finishes within as many calls as there are rows left, and it leaves the
rows above its starting row as they are. -/
theorem mainLoop_finishes (H W : Nat) (r : Int) (hW : 1 ≤ W) (hr : r ≠ 0) (fuel : Nat)
    (a : Arrays) (cur : Int) (hfuel : ((H : Int) - cur).toNat ≤ fuel) :
    ∃ a2 : Arrays, mainLoop H W r fuel a cur = Outcome.finished a2 ∧
      a2.mainArray = a.mainArray ∧
      ∀ (i : Int) (j : Nat), i < cur →
        a2.distanceArray i j = a.distanceArray i j ∧ a2.angleArray i j = a.angleArray i j := by
  induction fuel generalizing a cur with
  | zero =>
    refine ⟨a, ?_, rfl, fun i j _ => ⟨rfl, rfl⟩⟩
    unfold mainLoop
    rw [if_neg (by omega)]
  | succ fuel ih =>
    unfold mainLoop
    split
    · rename_i hlt
      obtain ⟨b, hb, bm, bd, ba, _⟩ := processRows_batched_spec H W a cur r hlt
      obtain ⟨n, hn⟩ : ∃ n : Nat, ((H : Int) - cur).toNat = n + 1 :=
        ⟨((H : Int) - cur).toNat - 1, by omega⟩
      have hk : 1 ≤ rowsDone W ((H : Int) - cur).toNat r := by
        rw [hn]
        exact rowsDone_pos W n r hr
      have hadv : (1 : Int) ≤ (rowsDone W ((H : Int) - cur).toNat r : Int) * (W : Int) := by
        have := Nat.mul_le_mul hk hW
        exact_mod_cast this
      rw [hb]
      simp only
      obtain ⟨c, hc, cm, cf⟩ := ih b
        (cur + (rowsDone W ((H : Int) - cur).toNat r : Int) * (W : Int)) (by omega)
      refine ⟨c, hc, by rw [cm, bm], fun i j hi => ?_⟩
      obtain ⟨c1, c2⟩ := cf i j (by omega)
      rw [c1, c2, bd, ba]
      have e : ¬ (cur ≤ i ∧ i < cur + (rowsDone W ((H : Int) - cur).toNat r : Int) ∧ j < W) := by
        omega
      rw [if_neg e, if_neg e]
      exact ⟨rfl, rfl⟩
    · exact ⟨a, rfl, rfl, fun i j _ => ⟨rfl, rfl⟩⟩

/-- With a batch size equal to the width `W ≥ 2` of a grid of at least two
rows, the batched program finishes without ever writing to row `1`. -/
theorem main_skips_row (H W : Nat) (hH : 2 ≤ H) (hW : 2 ≤ W) (fuel : Nat) (hfuel : H ≤ fuel)
    (m d0 a0 : Matrix) :
    ∃ a : Arrays, main H W (W : Int) fuel m d0 a0 = Outcome.finished a ∧
      ∀ j : Nat, a.distanceArray 1 j = d0 1 j ∧ a.angleArray 1 j = a0 1 j := by
  obtain ⟨f, rfl⟩ : ∃ f : Nat, fuel = f + 1 := ⟨fuel - 1, by omega⟩
  obtain ⟨n, hn⟩ : ∃ n : Nat, ((H : Int) - 0).toNat = n + 1 := ⟨H - 1, by omega⟩
  obtain ⟨b, hb, bm, bd, ba, _⟩ := processRows_batched_spec H W
    { mainArray := m, distanceArray := d0, angleArray := a0, stores := [] } 0 (W : Int)
    (by omega)
  rw [hn, rowsDone_width W n (by omega)] at hb bd ba
  have hWne : (W : Int) ≠ 0 := by omega
  obtain ⟨c, hc, _, cf⟩ := mainLoop_finishes H W (W : Int) (by omega) hWne f b
    (0 + ((1 : Nat) : Int) * (W : Int)) (by omega)
  refine ⟨c, ?_, fun j => ?_⟩
  · unfold main mainLoop
    rw [if_pos (by omega), hb]
    exact hc
  · obtain ⟨c1, c2⟩ := cf 1 j (by omega)
    rw [c1, c2, bd, ba]
    have e : ¬ ((0 : Int) ≤ 1 ∧ (1 : Int) < 0 + ((1 : Nat) : Int) ∧ j < W) := by omega
    rw [if_neg e, if_neg e]
    exact ⟨rfl, rfl⟩

end cw1Part2

/-! ## The row partition of cw1Part3 -/

namespace cw1Part3

/-- C1, partition coverage.  For `1 ≤ N ≤ H` the array `data` that `main` of
cw1Part3 hands to its threads holds exactly `N` row ranges
`[currentRow, currentRow + rowsToProcess)`; the first starts at row `0`, each
next one starts where the previous one ends and strictly after the previous
start, the counts sum to `H`, two different ranges share no row, and a row
lies in some range exactly when it is a row of `[0, H)`. -/
theorem partition_coverage (H W N : Nat) (clk : Clock) (m d0 a0 : Matrix)
    (h1 : 1 ≤ N) (hN : N ≤ H) :
    (main H W N clk m d0 a0).data.length = N ∧
    (∀ d : ThreadData, (main H W N clk m d0 a0).data[0]? = some d → d.currentRow = 0) ∧
    (∀ (i : Nat) (d e : ThreadData), (main H W N clk m d0 a0).data[i]? = some d →
      (main H W N clk m d0 a0).data[i + 1]? = some e →
      e.currentRow = d.currentRow + d.rowsToProcess ∧ d.currentRow < e.currentRow) ∧
    ((main H W N clk m d0 a0).data.map ThreadData.rowsToProcess).sum = (H : Int) ∧
    (∀ (i j : Nat) (d e : ThreadData), (main H W N clk m d0 a0).data[i]? = some d →
      (main H W N clk m d0 a0).data[j]? = some e → i ≠ j →
      ∀ r : Int, ¬ (d.owns r ∧ e.owns r)) ∧
    (∀ r : Int, (∃ (i : Nat) (d : ThreadData),
      (main H W N clk m d0 a0).data[i]? = some d ∧ d.owns r) ↔ (0 ≤ r ∧ r < (H : Int))) := by
  rw [main_data H W N clk m d0 a0 h1 hN]
  have hc := threadData_contiguous H N
  have hpos := threadData_pos H N h1 hN
  have hnn : ∀ d ∈ threadData H N, 0 ≤ d.rowsToProcess := fun d hd => (hpos d hd).le
  have htot := threadData_totalRows H N (by omega)
  refine ⟨threadData_length H N, fun d hd => contiguous_head hc hd, ?_, htot, ?_, ?_⟩
  · intro i d e hd he
    have hn := contiguous_next hc hd he
    have := hpos d (List.getElem?_mem hd)
    exact ⟨hn, by omega⟩
  · intro i j d e hd he hij r hr
    exact hij (contiguous_unique hc hnn hd he hr.1 hr.2)
  · intro r
    constructor
    · rintro ⟨i, d, hd, hr⟩
      have := contiguous_within hc hnn hd
      unfold ThreadData.owns at hr
      rw [htot] at this
      omega
    · rintro ⟨hr0, hrH⟩
      exact contiguous_cover hc r (by omega) (by rw [htot]; omega)

/-- C2, partition fairness.  For `1 ≤ N ≤ H` thread `i < N` receives
`H / N + 1` rows when `i < H % N` and `H / N` rows otherwise (`/` is the
floor division of natural numbers); so its count is one of the two values,
and it is never zero. -/
theorem partition_fairness (H W N : Nat) (clk : Clock) (m d0 a0 : Matrix)
    (h1 : 1 ≤ N) (hN : N ≤ H) (i : Nat) (hi : i < N) :
    ∃ d : ThreadData, (main H W N clk m d0 a0).data[i]? = some d ∧
      d.rowsToProcess = ((if i < H % N then H / N + 1 else H / N : Nat) : Int) ∧
      (d.rowsToProcess = ((H / N : Nat) : Int) ∨ d.rowsToProcess = ((H / N : Nat) : Int) + 1) ∧
      0 < d.rowsToProcess := by
  rw [main_data H W N clk m d0 a0 h1 hN]
  refine ⟨_, threadData_getElem? H N i hi, ?_, ?_, ?_⟩
  · simp only
    split <;> simp
  · simp only
    split <;> simp
  · have hq : 1 ≤ H / N := (Nat.one_le_div_iff (by omega)).2 hN
    have hq2 : (1 : Int) ≤ ((H / N : Nat) : Int) := by exact_mod_cast hq
    simp only
    split <;> omega

/-- The partition of five rows between two threads has counts that sum to five. -/
theorem partition_coverage_witness :
    1 ≤ 2 ∧ 2 ≤ 5 ∧
    ((main 5 3 2 ⟨0, 1, 2, 3, 4, fun _ => (0, 1)⟩ (fun _ _ => 0) (fun _ _ => 0)
      (fun _ _ => 0)).data.map ThreadData.rowsToProcess).sum = ((5 : Nat) : Int) :=
  ⟨by decide, by decide,
    (partition_coverage 5 3 2 ⟨0, 1, 2, 3, 4, fun _ => (0, 1)⟩ (fun _ _ => 0) (fun _ _ => 0)
      (fun _ _ => 0) (by decide) (by decide)).2.2.2.1⟩

/-- The shipped configuration, `H = 50000` rows and `N = 50000` threads: the
last thread, like every other, receives exactly one row. -/
theorem partition_fairness_witness :
    ∃ d : ThreadData,
      (main 50000 1000 50000 ⟨0, 1, 2, 3, 4, fun _ => (0, 1)⟩ (fun _ _ => 0) (fun _ _ => 0)
        (fun _ _ => 0)).data[49999]? = some d ∧ d.rowsToProcess = 1 := by
  obtain ⟨d, hd, hc, _, _⟩ :=
    partition_fairness 50000 1000 50000 ⟨0, 1, 2, 3, 4, fun _ => (0, 1)⟩ (fun _ _ => 0)
      (fun _ _ => 0) (fun _ _ => 0) (by norm_num) (by norm_num) 49999 (by norm_num)
  refine ⟨d, hd, ?_⟩
  rw [hc]
  norm_num

end cw1Part3

/-! ## The column to the right of a cell -/

theorem nextColumn_eq_mod (W j : Nat) (hj : j < W) : nextColumn W j = (j + 1) % W := by
  unfold nextColumn
  split
  · rename_i h
    have : j + 1 = W := by omega
    rw [this, Nat.mod_self]
  · rename_i h
    have : j + 1 < W := by omega
    rw [Nat.mod_eq_of_lt this]

/-! ## The angle -/

theorem Matrix.set_same (m : Matrix) (i : Int) (j : Nat) (v : ℝ) : m.set i j v i j = v := by
  simp [Matrix.set]

theorem degreesPerRadian_cast : ((DEGREES_PER_RADIAN : ℚ) : ℝ) = 57.2958 := by
  unfold DEGREES_PER_RADIAN
  norm_num

/-- The literal `57.2958` is larger than `180 / π`, by less than `0.00003`. -/
theorem degreesPerRadian_bounds :
    180 / Real.pi < ((DEGREES_PER_RADIAN : ℚ) : ℝ) ∧
    ((DEGREES_PER_RADIAN : ℚ) : ℝ) - 180 / Real.pi < 0.00003 := by
  rw [degreesPerRadian_cast]
  have h1 := Real.pi_gt_d6
  have h2 := Real.pi_lt_d6
  have hpos := Real.pi_pos
  constructor
  · rw [div_lt_iff₀ hpos]
    nlinarith
  · have : (57.29577 : ℝ) < 180 / Real.pi := by
      rw [lt_div_iff₀ hpos]
      nlinarith
    linarith

/-- C6 as stated fails.  Program cw1Part3 on a grid of one row with the two
heights `0` and `1`: the angle it stores for cell `(0, 0)` is not
`arcsin (verticalDiff / distance) * (180 / π)`. -/
theorem angle_formula_counterexample :
    (cw1Part3.cellBody 2
      { mainArray := fun _ j => (j : ℝ), distanceArray := fun _ _ => 0,
        angleArray := fun _ _ => 0, stores := [] } 0 0).angleArray 0 0 ≠
    Real.arcsin (((1 : ℝ) - 0) /
      (cw1Part3.cellBody 2
        { mainArray := fun _ j => (j : ℝ), distanceArray := fun _ _ => 0,
          angleArray := fun _ _ => 0, stores := [] } 0 0).distanceArray 0 0) *
      (180 / Real.pi) := by
  rw [cw1Part3.cellBody_eq]
  simp only [Matrix.set_same, cw1Part3.angleAt]
  have hn : nextColumn 2 0 = 1 := by decide
  rw [hn]
  simp only [Nat.cast_one, Nat.cast_zero]
  intro h
  have hh : 0 < cw1Part3.hypotenuseAt 2 (fun _ j => (j : ℝ)) 0 0 := by
    unfold cw1Part3.hypotenuseAt
    apply Real.sqrt_pos.2
    rw [hn]
    simp only [HORIZONTAL_POINT_DIST]
    norm_num
  have hx : Real.arcsin (((1 : ℝ) - 0) / cw1Part3.hypotenuseAt 2 (fun _ j => (j : ℝ)) 0 0) ≠ 0 := by
    rw [Ne, Real.arcsin_eq_zero_iff]
    have : ((1 : ℝ) - 0) / cw1Part3.hypotenuseAt 2 (fun _ j => (j : ℝ)) 0 0 =
        1 / cw1Part3.hypotenuseAt 2 (fun _ j => (j : ℝ)) 0 0 := by norm_num
    rw [this]
    exact (one_div_pos.2 hh).ne.symm
  have hb := degreesPerRadian_bounds.1
  have : ((DEGREES_PER_RADIAN : ℚ) : ℝ) = 180 / Real.pi := by
    have h3 : (((DEGREES_PER_RADIAN : ℚ) : ℝ) - 180 / Real.pi) *
        Real.arcsin (((1 : ℝ) - 0) / cw1Part3.hypotenuseAt 2 (fun _ j => (j : ℝ)) 0 0) = 0 := by
      linear_combination h
    rcases mul_eq_zero.1 h3 with h4 | h4
    · linarith
    · exact absurd h4 hx
  linarith

/-- C6, amended.  In each of the three programs the loop body stores, for the
cell it computes, the angle `DEGREES_PER_RADIAN * arcsin (verticalDist /
distance)`, where `verticalDist` is the height of the next column minus the
height of the cell, `distance` is the distance stored for that cell, and
`DEGREES_PER_RADIAN` is the literal `57.2958`, which is larger than `180 / π`
by less than `0.00003`. -/
theorem angle_formula (W : Nat) (a : Arrays) (s : cw1Part2.Locals) (i : Int) (j : Nat) :
    (cw1Part1.cellBody W a i j).angleArray i j =
      (57.2958 : ℝ) * Real.arcsin ((a.mainArray i (nextColumn W j) - a.mainArray i j) /
        (cw1Part1.cellBody W a i j).distanceArray i j) ∧
    (cw1Part2.cellBody W s i j).arrays.angleArray i j =
      (57.2958 : ℝ) * Real.arcsin
        ((s.arrays.mainArray i (nextColumn W j) - s.arrays.mainArray i j) /
        (cw1Part2.cellBody W s i j).arrays.distanceArray i j) ∧
    (cw1Part3.cellBody W a i j).angleArray i j =
      (57.2958 : ℝ) * Real.arcsin ((a.mainArray i (nextColumn W j) - a.mainArray i j) /
        (cw1Part3.cellBody W a i j).distanceArray i j) ∧
    180 / Real.pi < (57.2958 : ℝ) ∧ (57.2958 : ℝ) - 180 / Real.pi < 0.00003 := by
  have hb := degreesPerRadian_bounds
  rw [degreesPerRadian_cast] at hb
  refine ⟨?_, ?_, ?_, hb.1, hb.2⟩
  · simp only [cw1Part1.cellBody, Matrix.set_same, degreesPerRadian_cast]
  · simp only [cw1Part2.cellBody, Matrix.set_same, degreesPerRadian_cast]
  · simp only [cw1Part3.cellBody, Matrix.set_same, degreesPerRadian_cast]

/-! ## The guards of cw1Part3 -/

namespace cw1Part3

/-- C7, configuration guard.  For `N ≥ 1`, `main` of cw1Part3 returns a
non-zero code exactly when `N > H`.  When `N > H` it returns `1` after the
error message alone: no matrix has been loaded or allocated and no thread has
been created.  When `N ≤ H` it returns `0` and every cell of the grid holds
its computed distance and angle. -/
theorem configuration_guard (H W N : Nat) (clk : Clock) (m d0 a0 : Matrix) (h1 : 1 ≤ N) :
    ((∃ c : Int, (main H W N clk m d0 a0).termination = Termination.exit c ∧ c ≠ 0) ↔ N > H) ∧
    (N > H →
      (main H W N clk m d0 a0).termination = Termination.exit 1 ∧
      (main H W N clk m d0 a0).events = [Event.printError] ∧
      (main H W N clk m d0 a0).arrays = none ∧
      (main H W N clk m d0 a0).data = []) ∧
    (N ≤ H →
      (main H W N clk m d0 a0).termination = Termination.exit 0 ∧
      ∃ a : Arrays, (main H W N clk m d0 a0).arrays = some a ∧
        ∀ (i : Int) (j : Nat), 0 ≤ i → i < (H : Int) → j < W →
          a.distanceArray i j = hypotenuseAt W m i j ∧ a.angleArray i j = angleAt W m i j) := by
  have hgt : N > H →
      (main H W N clk m d0 a0).termination = Termination.exit 1 ∧
      (main H W N clk m d0 a0).events = [Event.printError] ∧
      (main H W N clk m d0 a0).arrays = none ∧
      (main H W N clk m d0 a0).data = [] := by
    intro h
    unfold main
    rw [if_pos h]
    exact ⟨rfl, rfl, rfl, rfl⟩
  refine ⟨?_, hgt, ?_⟩
  · constructor
    · rintro ⟨c, hc, hne⟩
      by_contra hle
      have := (parallel_main_spec H W N clk m d0 a0 h1 (by omega)).1
      rw [this] at hc
      injection hc with hc
      exact hne hc.symm
    · intro h
      exact ⟨1, (hgt h).1, by decide⟩
  · intro hle
    obtain ⟨ht, a, ha, _, hd, hg⟩ := parallel_main_spec H W N clk m d0 a0 h1 hle
    refine ⟨ht, a, ha, fun i j hi hi2 hj => ?_⟩
    have hc : 0 ≤ i ∧ i < (H : Int) ∧ j < W := ⟨hi, hi2, hj⟩
    rw [hd, hg]
    simp only [if_pos hc, and_self]

/-- Three threads for two rows: `main` returns `1` and has done nothing but
print its message. -/
theorem configuration_guard_witness :
    1 ≤ 3 ∧
    (main 2 4 3 ⟨0, 1, 2, 3, 4, fun _ => (0, 1)⟩ (fun _ _ => 0) (fun _ _ => 0)
      (fun _ _ => 0)).events = [Event.printError] :=
  ⟨by decide,
    ((configuration_guard 2 4 3 ⟨0, 1, 2, 3, 4, fun _ => (0, 1)⟩ (fun _ _ => 0) (fun _ _ => 0)
      (fun _ _ => 0) (by decide)).2.1 (by decide)).2.1⟩

/-- C10 as stated fails.  A thread started at row `2` with five rows to
process on a grid of three rows: its range `[2, 7)` is not contained in
`[0, 3)`, yet it returns normally after computing the cell of row `2`. -/
theorem worker_range_counterexample :
    (processRows 3 1 (0, 1)
      { mainArray := fun _ _ => 0, distanceArray := fun _ _ => 0,
        angleArray := fun _ _ => 0, stores := [] }
      { currentRow := 2, rowsToProcess := 5, timeTaken := 0 }).returned = true ∧
    (processRows 3 1 (0, 1)
      { mainArray := fun _ _ => 0, distanceArray := fun _ _ => 0,
        angleArray := fun _ _ => 0, stores := [] }
      { currentRow := 2, rowsToProcess := 5, timeTaken := 0 }).arrays.stores = [(2, 0)] ∧
    ¬ ((0 : Int) ≤ 2 ∧ (2 : Int) + 5 ≤ ((3 : Nat) : Int)) := by
  refine ⟨?_, ?_, by decide⟩
  · rw [processRows_returned]
    decide
  · rw [(processRows_spec 3 1 (0, 1) _ _ (by decide)).2.2.2]
    decide

/-- C10, amended.  A thread of cw1Part3 started at a row `currentRow ≥ 0`
with `rowsToProcess ≥ 1` ends in the out of bounds branch exactly when
`currentRow ≥ H`, and then it has changed nothing.  Otherwise it returns
normally having computed the rows from `currentRow` up to, but not including,
the smaller of `currentRow + rowsToProcess` and `H`: a range that reaches
beyond the last row is cut at the last row. -/
theorem worker_range_guard (H W : Nat) (t : Int × Int) (a : Arrays) (d : ThreadData)
    (_hs : 0 ≤ d.currentRow) (hc : 1 ≤ d.rowsToProcess) :
    ((processRows H W t a d).returned = false ↔ (H : Int) ≤ d.currentRow) ∧
    ((H : Int) ≤ d.currentRow →
      (processRows H W t a d).arrays = a ∧ (processRows H W t a d).threadData = d) ∧
    (d.currentRow < (H : Int) →
      (processRows H W t a d).arrays.stores =
        a.stores ++ rowCells W d.currentRow
          (min (d.currentRow + d.rowsToProcess) (H : Int) - d.currentRow).toNat ∧
      ∀ (i : Int) (j : Nat), j < W →
        ((d.currentRow ≤ i ∧ i < min (d.currentRow + d.rowsToProcess) (H : Int)) →
          (processRows H W t a d).arrays.distanceArray i j = hypotenuseAt W a.mainArray i j ∧
          (processRows H W t a d).arrays.angleArray i j = angleAt W a.mainArray i j) ∧
        (¬ (d.currentRow ≤ i ∧ i < min (d.currentRow + d.rowsToProcess) (H : Int)) →
          (processRows H W t a d).arrays.distanceArray i j = a.distanceArray i j ∧
          (processRows H W t a d).arrays.angleArray i j = a.angleArray i j)) := by
  obtain ⟨_, hd, hg, hst⟩ := processRows_spec H W t a d (by omega)
  refine ⟨?_, ?_, ?_⟩
  · have := processRows_returned H W t a d
    constructor
    · intro h
      by_contra hlt
      rw [this.2 (by omega)] at h
      exact Bool.noConfusion h
    · intro h
      cases hret : (processRows H W t a d).returned with
      | false => rfl
      | true =>
        have := this.1 hret
        omega
  · intro h
    unfold processRows
    simp only
    rw [if_pos (by omega)]
    exact ⟨rfl, rfl⟩
  · intro hlt
    constructor
    · rw [hst]
      congr 2
      omega
    · intro i j hj
      unfold ThreadData.owns at hd hg
      constructor
      · intro hi
        have hcnd : (d.currentRow ≤ i ∧ i < d.currentRow + d.rowsToProcess) ∧
            i < (H : Int) ∧ j < W := by omega
        rw [hd, hg]
        simp only [if_pos hcnd, and_self]
      · intro hi
        have hcnd : ¬ ((d.currentRow ≤ i ∧ i < d.currentRow + d.rowsToProcess) ∧
            i < (H : Int) ∧ j < W) := by omega
        rw [hd, hg]
        simp only [if_neg hcnd, and_self]

/-- The thread of the counterexample: started at row `2` of three rows, it
returns normally. -/
theorem worker_range_guard_witness :
    (0 : Int) ≤ 2 ∧ (1 : Int) ≤ 5 ∧
    ((processRows 3 1 (0, 1)
      { mainArray := fun _ _ => 0, distanceArray := fun _ _ => 0,
        angleArray := fun _ _ => 0, stores := [] }
      { currentRow := 2, rowsToProcess := 5, timeTaken := 0 }).returned = false ↔
        ((3 : Nat) : Int) ≤ 2) :=
  ⟨by decide, by decide,
    (worker_range_guard 3 1 (0, 1)
      { mainArray := fun _ _ => 0, distanceArray := fun _ _ => 0,
        angleArray := fun _ _ => 0, stores := [] }
      { currentRow := 2, rowsToProcess := 5, timeTaken := 0 } (by decide) (by decide)).1⟩

end cw1Part3

/-! ## The batched program cw1Part2 -/

namespace cw1Part2

theorem rowsDone_shipped : rowsDone 1000 50000 7 = 50000 := by
  apply rowsDone_all
  intro k _
  omega

theorem toNat_shipped : (((50000 : Nat) : Int) - 0).toNat = 50000 := by
  omega

/-- The shipped batch size `ROWS_TO_PROCESS = 7` on the shipped grid: the
counter of `processRows` goes `7, -993, -1993, ...` and never meets zero, so
the first call runs through all rows and returns `50000000`, which ends the
driver loop; every cell of the grid then holds the value the single pass of
cw1Part1 computes. -/
theorem batched_shipped (m d0 a0 d1 a1 : Matrix) :
    ∃ a : Arrays, main 50000 1000 7 1 m d0 a0 = Outcome.finished a ∧
      ∀ (i : Int) (j : Nat), 0 ≤ i → i < 50000 → j < 1000 →
        a.distanceArray i j = (cw1Part1.main 50000 1000 m d1 a1).distanceArray i j ∧
        a.angleArray i j = (cw1Part1.main 50000 1000 m d1 a1).angleArray i j := by
  obtain ⟨b, hb, _, hd, hg, _⟩ := processRows_batched_spec 50000 1000
    { mainArray := m, distanceArray := d0, angleArray := a0, stores := [] } 0 7 (by omega)
  rw [toNat_shipped, rowsDone_shipped] at hb hd hg
  obtain ⟨_, sd, sg, _⟩ := cw1Part1.sequential_main_spec 50000 1000 m d1 a1
  refine ⟨b, ?_, fun i j hi hi2 hj => ?_⟩
  · unfold main mainLoop
    rw [if_pos (by omega), hb]
    simp only
    unfold mainLoop
    rw [if_neg (by omega)]
  · have c1 : (0 : Int) ≤ i ∧ i < 0 + ((50000 : Nat) : Int) ∧ j < 1000 := by omega
    have c2 : 0 ≤ i ∧ i < ((50000 : Nat) : Int) ∧ j < 1000 := by omega
    rw [hd, hg, sd, sg]
    simp only [if_pos c1, if_pos c2, and_self]

/-- C4 on the code.  The shipped grid (`50000` rows of `1000` columns, here
with all heights `0`) processed in batches of `ROWS_TO_PROCESS = 1000` rows:
the driver loop finishes, but it has never written to row `1`, whose first
distance cell still holds its initial value `0`, while the single pass of
cw1Part1 stores `50` there. -/
theorem batched_skips_rows :
    ∃ a : Arrays,
      main 50000 1000 ((1000 : Nat) : Int) 50000 (fun _ _ => 0) (fun _ _ => 0) (fun _ _ => 0) =
        Outcome.finished a ∧
      a.distanceArray 1 0 = 0 ∧
      (cw1Part1.main 50000 1000 (fun _ _ => 0) (fun _ _ => 0) (fun _ _ => 0)).distanceArray 1 0 =
        50 := by
  obtain ⟨a, ha, hrow⟩ := main_skips_row 50000 1000 (by omega) (by omega) 50000 le_rfl
    (fun _ _ => 0) (fun _ _ => 0) (fun _ _ => 0)
  refine ⟨a, ha, (hrow 0).1, ?_⟩
  rw [(cw1Part1.sequential_main_spec 50000 1000 _ _ _).2.1]
  have hc : (0 : Int) ≤ 1 ∧ (1 : Int) < ((50000 : Nat) : Int) ∧ 0 < 1000 := by omega
  rw [if_pos hc]
  unfold cw1Part3.hypotenuseAt HORIZONTAL_POINT_DIST
  have e : ((0 : ℝ) - 0) * (0 - 0) + (((50 : Int) * 50 : Int) : ℝ) = (50 : ℝ) ^ 2 := by
    push_cast
    norm_num
  rw [e, Real.sqrt_sq (by norm_num)]

/-- C8 on the code.  The first call of the shipped program,
`processRows(arrays, 0, 7)` on `50000` rows of `1000` columns: it computes the
cells of `50000` rows and returns `50000000`, the number of cells. -/
theorem processRows_returns_cells (a : Arrays) :
    ∃ a2 : Arrays, processRows 50000 1000 a 0 7 = some (a2, 50000000) ∧
      a2.stores = a.stores ++ rowCells 1000 0 50000 := by
  obtain ⟨b, hb, _, _, _, hs⟩ := processRows_batched_spec 50000 1000 a 0 7 (by omega)
  rw [toNat_shipped, rowsDone_shipped] at hb hs
  refine ⟨b, ?_, hs⟩
  rw [hb]
  norm_num

/-- C9 on the code.  The same call `processRows(arrays, 0, 7)`: it also
computes cell `(7, 0)`, which lies outside the seven rows `0 .. 6` it was
asked to process. -/
theorem processRows_overruns_batch (a : Arrays) :
    ∃ (a2 : Arrays) (n : Int), processRows 50000 1000 a 0 7 = some (a2, n) ∧
      (∃ l : List (Int × Nat), a2.stores = a.stores ++ l ∧ ((7 : Int), 0) ∈ l) ∧
      a2.distanceArray 7 0 = cw1Part3.hypotenuseAt 1000 a.mainArray 7 0 ∧
      ¬ ((7 : Int) < 0 + min 7 (((50000 : Nat) : Int) - 0)) := by
  obtain ⟨b, hb, _, hd, _, hs⟩ := processRows_batched_spec 50000 1000 a 0 7 (by omega)
  rw [toNat_shipped, rowsDone_shipped] at hb hs hd
  refine ⟨b, _, hb, ⟨_, hs, ?_⟩, ?_, by omega⟩
  · rw [mem_rowCells]
    omega
  · rw [hd, if_pos]
    omega

end cw1Part2

/-! ## The kernel -/

theorem nextColumn_lt (W j : Nat) (hj : j < W) : nextColumn W j < W := by
  rw [nextColumn_eq_mod W j hj]
  exact Nat.mod_lt _ (by omega)

theorem nextColumn_last (W : Nat) (hW : 1 ≤ W) : nextColumn W (W - 1) = 0 := by
  unfold nextColumn
  rw [if_pos]
  omega

/-- The loop body of cw1Part3 stores the two components of `kernel` at the
shipped spacing. -/
theorem cw1Part3.kernel_at_cell (W : Nat) (h : Matrix) (i : Int) (j : Nat) :
    cw1Part3.kernel (HORIZONTAL_POINT_DIST : ℝ) (h i j) (h i (nextColumn W j)) =
      (cw1Part3.hypotenuseAt W h i j, cw1Part3.angleAt W h i j) := by
  unfold cw1Part3.kernel cw1Part3.angleAt cw1Part3.hypotenuseAt
  simp only [Int.cast_mul]

/-- The loop body of cw1Part1 stores the two components of its `kernel` at
the shipped spacing. -/
theorem cw1Part1.kernel_stored (W : Nat) (a : Arrays) (i : Int) (j : Nat) :
    (cw1Part1.cellBody W a i j).distanceArray i j =
      (cw1Part1.kernel (HORIZONTAL_POINT_DIST : ℝ) (a.mainArray i j)
        (a.mainArray i (nextColumn W j))).1 ∧
    (cw1Part1.cellBody W a i j).angleArray i j =
      (cw1Part1.kernel (HORIZONTAL_POINT_DIST : ℝ) (a.mainArray i j)
        (a.mainArray i (nextColumn W j))).2 := by
  simp only [cw1Part1.cellBody, cw1Part1.kernel, Matrix.set_same, and_self]

/-- Over the real numbers the two kernels are the same function. -/
theorem kernel_pow_eq_mul (hs height next : ℝ) :
    cw1Part1.kernel hs height next = cw1Part3.kernel hs height next := by
  unfold cw1Part1.kernel cw1Part3.kernel
  have e : (next - height) ^ 2 + hs ^ 2 = (next - height) * (next - height) + hs * hs := by
    ring
  simp only [e]

theorem sqrt_2525_bounds : (50.24 : ℝ) < Real.sqrt 2525 ∧ Real.sqrt 2525 < 50.25 := by
  constructor
  · rw [Real.lt_sqrt (by norm_num)]
    norm_num
  · rw [Real.sqrt_lt' (by norm_num)]
    norm_num

theorem arcsin_wrap_bounds :
    (0.0995 : ℝ) < Real.arcsin (5 / Real.sqrt 2525) ∧
    Real.arcsin (5 / Real.sqrt 2525) < 0.0998 := by
  obtain ⟨hd1, hd2⟩ := sqrt_2525_bounds
  have hdpos : (0 : ℝ) < Real.sqrt 2525 := by linarith
  have hx1 : (0.0995 : ℝ) < 5 / Real.sqrt 2525 := by
    rw [lt_div_iff₀ hdpos]
    linarith
  have hx2 : 5 / Real.sqrt 2525 < (0.09953 : ℝ) := by
    rw [div_lt_iff₀ hdpos]
    linarith
  have hxI : 5 / Real.sqrt 2525 ∈ Set.Icc (-1 : ℝ) 1 := ⟨by linarith, by linarith⟩
  constructor
  · have h0 : 0 ≤ Real.arcsin (5 / Real.sqrt 2525) := Real.arcsin_nonneg.2 (by linarith)
    have h1 := Real.sin_le h0
    rw [Real.sin_arcsin hxI.1 hxI.2] at h1
    linarith
  · have hy : (0.0998 : ℝ) ∈ Set.Icc (-(Real.pi / 2)) (Real.pi / 2) := by
      have := Real.pi_gt_three
      constructor <;> linarith
    rw [Real.arcsin_lt_iff_lt_sin hxI hy]
    have h2 := Real.sin_gt_sub_cube (x := (0.0998 : ℝ)) (by norm_num) (by norm_num)
    have h3 : (0.09953 : ℝ) < 0.0998 - 0.0998 ^ 3 / 4 := by norm_num
    linarith

/-- C11, kernel wraparound.  For a column `j < W` the loop bodies of cw1Part3
and of cw1Part1 store the kernel of the heights of column `j` and of column
`(j + 1) mod W` of the row, a column below `W`; for the last column `W - 1`
that column is column `0`.  In a row with the heights `10, 10, 10, 15`
(`W = 4`), cell `3` is computed from `15` and from `10`, the height of column
`0`: the vertical distance is `-5`, the distance is `sqrt 2525`, between
`50.24` and `50.26`, and the angle lies between `-5.72` and `-5.70`. -/
theorem kernel_wraparound (W j : Nat) (hj : j < W) (a : Arrays) (i : Int) (d0 a0 : Matrix)
    (stores : List (Int × Nat)) :
    (cw1Part3.cellBody W a i j).distanceArray i j =
      (cw1Part3.kernel (HORIZONTAL_POINT_DIST : ℝ) (a.mainArray i j)
        (a.mainArray i ((j + 1) % W))).1 ∧
    (cw1Part3.cellBody W a i j).angleArray i j =
      (cw1Part3.kernel (HORIZONTAL_POINT_DIST : ℝ) (a.mainArray i j)
        (a.mainArray i ((j + 1) % W))).2 ∧
    (cw1Part1.cellBody W a i j).distanceArray i j =
      (cw1Part1.kernel (HORIZONTAL_POINT_DIST : ℝ) (a.mainArray i j)
        (a.mainArray i ((j + 1) % W))).1 ∧
    (cw1Part1.cellBody W a i j).angleArray i j =
      (cw1Part1.kernel (HORIZONTAL_POINT_DIST : ℝ) (a.mainArray i j)
        (a.mainArray i ((j + 1) % W))).2 ∧
    (j + 1) % W < W ∧ (W - 1 + 1) % W = 0 ∧
    nextColumn 4 3 = 0 ∧
    (if nextColumn 4 3 = 3 then (15 : ℝ) else 10) - (if (3 : Nat) = 3 then (15 : ℝ) else 10) =
      -5 ∧
    (cw1Part3.cellBody 4
      { mainArray := fun _ k => if k = 3 then 15 else 10, distanceArray := d0,
        angleArray := a0, stores := stores } i 3).distanceArray i 3 = Real.sqrt 2525 ∧
    (50.24 : ℝ) < Real.sqrt 2525 ∧ Real.sqrt 2525 < 50.26 ∧
    (-5.72 : ℝ) < (cw1Part3.cellBody 4
      { mainArray := fun _ k => if k = 3 then 15 else 10, distanceArray := d0,
        angleArray := a0, stores := stores } i 3).angleArray i 3 ∧
    (cw1Part3.cellBody 4
      { mainArray := fun _ k => if k = 3 then 15 else 10, distanceArray := d0,
        angleArray := a0, stores := stores } i 3).angleArray i 3 < -5.70 := by
  have hW : 1 ≤ W := by omega
  have hlast : (W - 1 + 1) % W = 0 := by
    rw [Nat.sub_add_cancel hW, Nat.mod_self]
  have hn : nextColumn W j = (j + 1) % W := nextColumn_eq_mod W j hj
  obtain ⟨hd1, hd2⟩ := sqrt_2525_bounds
  obtain ⟨ha1, ha2⟩ := arcsin_wrap_bounds
  have hn4 : nextColumn 4 3 = 0 := by decide
  have hdist : cw1Part3.hypotenuseAt 4 (fun _ k => if k = 3 then (15 : ℝ) else 10) i 3 =
      Real.sqrt 2525 := by
    unfold cw1Part3.hypotenuseAt HORIZONTAL_POINT_DIST
    rw [hn4]
    congr 1
    norm_num
  have hang : cw1Part3.angleAt 4 (fun _ k => if k = 3 then (15 : ℝ) else 10) i 3 =
      -(57.2958 * Real.arcsin (5 / Real.sqrt 2525)) := by
    unfold cw1Part3.angleAt
    rw [hdist, hn4, degreesPerRadian_cast]
    have e : ((if (0 : Nat) = 3 then (15 : ℝ) else 10) - (if (3 : Nat) = 3 then (15 : ℝ) else 10)) /
        Real.sqrt 2525 = -(5 / Real.sqrt 2525) := by
      norm_num
      ring
    rw [e, Real.arcsin_neg]
    ring
  refine ⟨?_, ?_, ?_, ?_, Nat.mod_lt _ (by omega), hlast, hn4, by rw [hn4]; norm_num, ?_, hd1,
    by linarith, ?_, ?_⟩
  · rw [← hn, cw1Part3.kernel_at_cell]
    simp only [cw1Part3.cellBody_eq, Matrix.set_same]
  · rw [← hn, cw1Part3.kernel_at_cell]
    simp only [cw1Part3.cellBody_eq, Matrix.set_same]
  · rw [← hn]
    exact (cw1Part1.kernel_stored W a i j).1
  · rw [← hn]
    exact (cw1Part1.kernel_stored W a i j).2
  · simp only [cw1Part3.cellBody_eq, Matrix.set_same]
    exact hdist
  · simp only [cw1Part3.cellBody_eq, Matrix.set_same]
    rw [hang]
    linarith
  · simp only [cw1Part3.cellBody_eq, Matrix.set_same]
    rw [hang]
    linarith

/-- The last column of a row of four columns, in row `7`. -/
theorem kernel_wraparound_witness :
    3 < 4 ∧
    (cw1Part3.cellBody 4
      { mainArray := fun _ k => if k = 3 then 15 else 10, distanceArray := fun _ _ => 0,
        angleArray := fun _ _ => 0, stores := [] } 7 3).distanceArray 7 3 = Real.sqrt 2525 :=
  ⟨by decide,
    (kernel_wraparound 4 3 (by decide)
      { mainArray := fun _ k => if k = 3 then 15 else 10, distanceArray := fun _ _ => 0,
        angleArray := fun _ _ => 0, stores := [] } 7 (fun _ _ => 0) (fun _ _ => 0)
      []).2.2.2.2.2.2.2.2.1⟩

/-! ## Flat rows -/

theorem flat_kernel (W : Nat) (m : Matrix) (i : Int) (c : ℝ)
    (hflat : ∀ k : Nat, k < W → m i k = c) (j : Nat) (hj : j < W) :
    cw1Part3.hypotenuseAt W m i j = 50 ∧ cw1Part3.angleAt W m i j = 0 := by
  have h1 : cw1Part3.hypotenuseAt W m i j = 50 := by
    unfold cw1Part3.hypotenuseAt HORIZONTAL_POINT_DIST
    rw [hflat j hj, hflat _ (nextColumn_lt W j hj)]
    have e : (c - c) * (c - c) + (((50 : Int) * 50 : Int) : ℝ) = (50 : ℝ) ^ 2 := by
      push_cast
      ring
    rw [e, Real.sqrt_sq (by norm_num)]
  refine ⟨h1, ?_⟩
  unfold cw1Part3.angleAt
  rw [h1, hflat j hj, hflat _ (nextColumn_lt W j hj), sub_self, zero_div, Real.arcsin_zero,
    mul_zero]

/-- C12, flat input.  In a row `i` of the grid whose `W` heights are all equal
to some `c`, every distance that the single pass of cw1Part1, that a thread
of cw1Part3 owning the row, and that the loop body of cw1Part2 computes for
the row equals the horizontal spacing `HORIZONTAL_POINT_DIST = 50` exactly,
and every angle equals `0`. -/
theorem flat_row (H W : Nat) (a : Arrays) (d0 a0 : Matrix) (i : Int) (c : ℝ) (t : Int × Int)
    (d : cw1Part3.ThreadData) (r p : Int) (hflat : ∀ k : Nat, k < W → a.mainArray i k = c)
    (hi0 : 0 ≤ i) (hiH : i < (H : Int)) (hr : 0 ≤ d.rowsToProcess) (hown : d.owns i)
    (j : Nat) (hj : j < W) :
    (cw1Part1.main H W a.mainArray d0 a0).distanceArray i j = (HORIZONTAL_POINT_DIST : ℝ) ∧
    (cw1Part1.main H W a.mainArray d0 a0).angleArray i j = 0 ∧
    (cw1Part3.processRows H W t a d).arrays.distanceArray i j = (HORIZONTAL_POINT_DIST : ℝ) ∧
    (cw1Part3.processRows H W t a d).arrays.angleArray i j = 0 ∧
    (cw1Part2.cellBody W { arrays := a, rowsToProcess := r, rowsProcessed := p } i j
      ).arrays.distanceArray i j = (HORIZONTAL_POINT_DIST : ℝ) ∧
    (cw1Part2.cellBody W { arrays := a, rowsToProcess := r, rowsProcessed := p } i j
      ).arrays.angleArray i j = 0 ∧
    (HORIZONTAL_POINT_DIST : ℝ) = 50 := by
  obtain ⟨k1, k2⟩ := flat_kernel W a.mainArray i c hflat j hj
  obtain ⟨_, sd, sg, _⟩ := cw1Part1.sequential_main_spec H W a.mainArray d0 a0
  obtain ⟨_, pd, pg, _⟩ := cw1Part3.processRows_spec H W t a d hr
  have c1 : 0 ≤ i ∧ i < (H : Int) ∧ j < W := ⟨hi0, hiH, hj⟩
  have c2 : d.owns i ∧ i < (H : Int) ∧ j < W := ⟨hown, hiH, hj⟩
  have e : (HORIZONTAL_POINT_DIST : ℝ) = 50 := by
    unfold HORIZONTAL_POINT_DIST
    norm_num
  rw [sd, sg, pd, pg, e, cw1Part2.cellBody_arrays]
  simp only [if_pos c1, if_pos c2, k1, k2, cw1Part3.cellBody_eq, Matrix.set_same, and_self]

/-- Row `1` of a grid of three rows, all of whose heights are `7`, in a thread
that owns the rows `1` and `2`. -/
theorem flat_row_witness :
    (cw1Part1.main 3 2 (fun _ _ => 7) (fun _ _ => 1) (fun _ _ => 1)).angleArray 1 0 = 0 :=
  (flat_row 3 2
    { mainArray := fun _ _ => 7, distanceArray := fun _ _ => 1, angleArray := fun _ _ => 1,
      stores := [] }
    (fun _ _ => 1) (fun _ _ => 1) 1 7 (0, 1)
    { currentRow := 1, rowsToProcess := 2, timeTaken := 0 } 7 0
    (fun _ _ => rfl) (by decide) (by decide) (by decide) (by decide) 0 (by decide)).2.1

/-! ## What a thread leaves untouched -/

namespace cw1Part3

/-- C13, worker write frame.  A thread of cw1Part3 run on a range
`[currentRow, currentRow + rowsToProcess)` inside `[0, H)` leaves the height
matrix as it is, leaves every cell of the distance and of the angle matrix in
a row outside its range as it is, and does not change the members
`currentRow` and `rowsToProcess` of its `ThreadData`. -/
theorem worker_frame (H W : Nat) (t : Int × Int) (a : Arrays) (d : ThreadData)
    (_hs : 0 ≤ d.currentRow) (hc : 0 ≤ d.rowsToProcess)
    (_hH : d.currentRow + d.rowsToProcess ≤ (H : Int)) :
    (processRows H W t a d).arrays.mainArray = a.mainArray ∧
    (∀ (i : Int) (j : Nat), ¬ (d.currentRow ≤ i ∧ i < d.currentRow + d.rowsToProcess) →
      (processRows H W t a d).arrays.distanceArray i j = a.distanceArray i j ∧
      (processRows H W t a d).arrays.angleArray i j = a.angleArray i j) ∧
    (processRows H W t a d).threadData.currentRow = d.currentRow ∧
    (processRows H W t a d).threadData.rowsToProcess = d.rowsToProcess := by
  obtain ⟨hm, hd, hg, _⟩ := processRows_spec H W t a d hc
  refine ⟨hm, fun i j hi => ?_, ?_, ?_⟩
  · have hn : ¬ (d.owns i ∧ i < (H : Int) ∧ j < W) := fun h => hi h.1
    rw [hd, hg]
    simp only [if_neg hn, and_self]
  · unfold processRows
    simp only
    split <;> rfl
  · unfold processRows
    simp only
    split <;> rfl

/-- The thread that owns the rows `1` and `2` of a grid of four rows. -/
theorem worker_frame_witness :
    (processRows 4 3 (0, 1)
      { mainArray := fun i j => (i : ℝ) + (j : ℝ), distanceArray := fun _ _ => 0,
        angleArray := fun _ _ => 0, stores := [] }
      { currentRow := 1, rowsToProcess := 2, timeTaken := 0 }).threadData.rowsToProcess = 2 :=
  (worker_frame 4 3 (0, 1)
      { mainArray := fun i j => (i : ℝ) + (j : ℝ), distanceArray := fun _ _ => 0,
        angleArray := fun _ _ => 0, stores := [] }
      { currentRow := 1, rowsToProcess := 2, timeTaken := 0 }
      (by decide) (by decide) (by decide)).2.2.2

end cw1Part3

/-! ## Every cell is written once -/

theorem rowCells_append (W : Nat) (lo : Int) (k1 k2 : Nat) :
    rowCells W lo (k1 + k2) = rowCells W lo k1 ++ rowCells W (lo + (k1 : Int)) k2 := by
  induction k1 generalizing lo with
  | zero => simp [rowCells]
  | succ k ih =>
    have e : k + 1 + k2 = (k + k2) + 1 := by omega
    rw [e, rowCells, rowCells, ih (lo + 1), List.append_assoc]
    have e2 : lo + 1 + (k : Int) = lo + ((k + 1 : Nat) : Int) := by
      push_cast
      ring
    rw [e2]

theorem count_eq_one_of_nodup {α : Type} [BEq α] [LawfulBEq α] {a : α} {l : List α}
    (hn : l.Nodup) (hm : a ∈ l) : l.count a = 1 := by
  induction l with
  | nil => simp at hm
  | cons x xs ih =>
    rw [List.nodup_cons] at hn
    rw [List.count_cons]
    by_cases h : x = a
    · subst h
      have : List.count x xs = 0 := List.count_eq_zero.2 hn.1
      simp [this]
    · have hm2 : a ∈ xs := by
        rcases List.mem_cons.1 hm with h2 | h2
        · exact absurd h2.symm h
        · exact h2
      have hb : (x == a) = false := by simpa using h
      simp [ih hn.2 hm2, hb]

theorem rowCells_nodup (W : Nat) (lo : Int) (k : Nat) : (rowCells W lo k).Nodup := by
  induction k generalizing lo with
  | zero => simp [rowCells]
  | succ k ih =>
    rw [rowCells]
    apply List.Nodup.append
    · apply List.Nodup.map _ (List.nodup_range W)
      intro x y hxy
      exact (Prod.mk.inj hxy).2
    · exact ih (lo + 1)
    · rw [List.disjoint_left]
      rintro ⟨i, j⟩ h1 h2
      rw [mem_rowCells] at h2
      simp only [List.mem_map, List.mem_range, Prod.mk.injEq] at h1
      obtain ⟨c, _, hc, _⟩ := h1
      omega

namespace cw1Part3

/-- The log of the stores after the threads of a gap-free list of ranges that
ends at or before row `H`. -/
theorem runThreadsArrays_stores (H W : Nat) (clk : Nat → Int × Int) (ds : List ThreadData)
    (n : Nat) (s : Int) (a : Arrays) (hc : Contiguous s ds)
    (hpos : ∀ d ∈ ds, 0 ≤ d.rowsToProcess) (hH : s + totalRows ds ≤ (H : Int)) :
    (runThreadsArrays H W clk n ds a).stores =
      a.stores ++ rowCells W s (totalRows ds).toNat := by
  induction ds generalizing n s a with
  | nil => simp [runThreadsArrays, totalRows, rowCells]
  | cons x xs ih =>
    have hx : 0 ≤ x.rowsToProcess := hpos x (List.mem_cons_self _ _)
    have hxs : ∀ d ∈ xs, 0 ≤ d.rowsToProcess := fun d hd => hpos d (List.mem_cons_of_mem _ hd)
    have hsum : 0 ≤ totalRows xs := by
      unfold totalRows
      apply List.sum_nonneg
      intro v hv
      obtain ⟨d, hd, rfl⟩ := List.mem_map.1 hv
      exact hxs d hd
    have htot : totalRows (x :: xs) = x.rowsToProcess + totalRows xs := by
      simp [totalRows]
    rw [htot] at hH
    obtain ⟨_, _, _, ps⟩ := processRows_spec H W (clk n) a x hx
    have hmin : (min x.rowsToProcess ((H : Int) - x.currentRow)).toNat = x.rowsToProcess.toNat := by
      have := hc.1
      omega
    unfold runThreadsArrays
    rw [ih (n + 1) (s + x.rowsToProcess) _ hc.2 hxs (by omega), ps, hmin, hc.1, htot,
      List.append_assoc]
    have e1 : (x.rowsToProcess + totalRows xs).toNat =
        x.rowsToProcess.toNat + (totalRows xs).toNat := by omega
    have e2 : s + x.rowsToProcess = s + ((x.rowsToProcess.toNat : Nat) : Int) := by omega
    rw [e1, rowCells_append, ← e2]

/-- What each thread has stored: the cells of the rows of its range that lie
below row `H`. -/
theorem threadStores_eq (H W : Nat) (clk : Nat → Int × Int) (ds : List ThreadData)
    (n : Nat) (a : Arrays) (hpos : ∀ d ∈ ds, 0 ≤ d.rowsToProcess) :
    threadStores H W clk n ds a =
      ds.map (fun d => rowCells W d.currentRow
        (min d.rowsToProcess ((H : Int) - d.currentRow)).toNat) := by
  induction ds generalizing n a with
  | nil => rfl
  | cons x xs ih =>
    have hx : 0 ≤ x.rowsToProcess := hpos x (List.mem_cons_self _ _)
    have hxs : ∀ d ∈ xs, 0 ≤ d.rowsToProcess := fun d hd => hpos d (List.mem_cons_of_mem _ hd)
    obtain ⟨_, _, _, ps⟩ := processRows_spec H W (clk n) a x hx
    unfold threadStores
    rw [ih (n + 1) _ hxs, ps, List.drop_left, List.map_cons]

/-- The log of the stores is the concatenation of what the threads have
stored. -/
theorem runThreadsArrays_stores_flatten (H W : Nat) (clk : Nat → Int × Int)
    (ds : List ThreadData) (n : Nat) (a : Arrays) (hpos : ∀ d ∈ ds, 0 ≤ d.rowsToProcess) :
    (runThreadsArrays H W clk n ds a).stores =
      a.stores ++ (threadStores H W clk n ds a).flatten := by
  induction ds generalizing n a with
  | nil => simp [runThreadsArrays, threadStores]
  | cons x xs ih =>
    have hx : 0 ≤ x.rowsToProcess := hpos x (List.mem_cons_self _ _)
    have hxs : ∀ d ∈ xs, 0 ≤ d.rowsToProcess := fun d hd => hpos d (List.mem_cons_of_mem _ hd)
    obtain ⟨_, _, _, ps⟩ := processRows_spec H W (clk n) a x hx
    unfold runThreadsArrays threadStores
    rw [ih (n + 1) _ hxs, List.flatten_cons, ps, List.drop_left, List.append_assoc]

theorem main_arrays (H W N : Nat) (clk : Clock) (m d0 a0 : Matrix) (h1 : 1 ≤ N) (hN : N ≤ H) :
    (main H W N clk m d0 a0).arrays =
      some (runThreadsArrays H W clk.thread 0 (threadData H N)
        { mainArray := m, distanceArray := d0, angleArray := a0, stores := [] }) := by
  unfold main
  have h2 : ¬ N > H := by omega
  have h3 : N ≠ 0 := by omega
  simp only [h2, h3, if_false]
  split <;> rfl

/-- C14, write exactly once.  In a run of cw1Part3 with `1 ≤ N ≤ H` threads
the log of all stores is the concatenation of the stores of the threads, and
each cell `(i, j)` of the grid, `0 ≤ i < H`, `j < W`, occurs in it exactly
once (a log entry stands for the store to the distance matrix and the store
to the angle matrix of one execution of the loop body): it is stored once by
the thread whose range contains row `i`, and by no other thread. -/
theorem write_exactly_once (H W N : Nat) (clk : Clock) (m d0 a0 : Matrix)
    (h1 : 1 ≤ N) (hN : N ≤ H) (i : Int) (j : Nat) (hi0 : 0 ≤ i) (hiH : i < (H : Int))
    (hj : j < W) :
    ∃ a : Arrays, (main H W N clk m d0 a0).arrays = some a ∧
      a.stores = (threadStores H W clk.thread 0 (main H W N clk m d0 a0).data
        { mainArray := m, distanceArray := d0, angleArray := a0, stores := [] }).flatten ∧
      a.stores.count (i, j) = 1 ∧
      ∃ (k : Nat) (d : ThreadData) (l : List (Int × Nat)),
        (main H W N clk m d0 a0).data[k]? = some d ∧ d.owns i ∧
        (threadStores H W clk.thread 0 (main H W N clk m d0 a0).data
          { mainArray := m, distanceArray := d0, angleArray := a0, stores := [] })[k]? =
            some l ∧
        l.count (i, j) = 1 ∧
        ∀ (k2 : Nat) (l2 : List (Int × Nat)), k2 ≠ k →
          (threadStores H W clk.thread 0 (main H W N clk m d0 a0).data
            { mainArray := m, distanceArray := d0, angleArray := a0, stores := [] })[k2]? =
              some l2 → (i, j) ∉ l2 := by
  have hcont := threadData_contiguous H N
  have hpos := threadData_pos H N h1 hN
  have hnn : ∀ d ∈ threadData H N, 0 ≤ d.rowsToProcess := fun d hd => (hpos d hd).le
  have htot := threadData_totalRows H N (by omega)
  have hlt := threadData_lt H N h1 hN
  rw [main_data H W N clk m d0 a0 h1 hN, main_arrays H W N clk m d0 a0 h1 hN,
    threadStores_eq H W clk.thread _ 0 _ hnn]
  refine ⟨_, rfl, ?_, ?_, ?_⟩
  · rw [runThreadsArrays_stores_flatten H W clk.thread _ 0 _ hnn,
      threadStores_eq H W clk.thread _ 0 _ hnn, List.nil_append]
  · rw [runThreadsArrays_stores H W clk.thread _ 0 0 _ hcont hnn (by rw [htot]; omega), htot,
      List.nil_append]
    apply count_eq_one_of_nodup (rowCells_nodup _ _ _)
    rw [mem_rowCells]
    omega
  · obtain ⟨k, d, hk, hown⟩ := contiguous_cover hcont i (by omega) (by rw [htot]; omega)
    have hd := hlt d (List.getElem?_mem hk)
    have hmin : (min d.rowsToProcess ((H : Int) - d.currentRow)).toNat = d.rowsToProcess.toNat := by
      omega
    refine ⟨k, d, rowCells W d.currentRow
      (min d.rowsToProcess ((H : Int) - d.currentRow)).toNat, hk, hown, ?_, ?_, ?_⟩
    · rw [List.getElem?_map, hk]
      rfl
    · apply count_eq_one_of_nodup (rowCells_nodup _ _ _)
      rw [mem_rowCells, hmin]
      unfold ThreadData.owns at hown
      omega
    · intro k2 l2 hne hl2 hmem
      rw [List.getElem?_map] at hl2
      cases hk2 : (threadData H N)[k2]? with
      | none =>
        rw [hk2] at hl2
        exact Option.noConfusion hl2
      | some e =>
        rw [hk2] at hl2
        simp only [Option.map_some', Option.some.injEq] at hl2
        subst hl2
        rw [mem_rowCells] at hmem
        have he := hlt e (List.getElem?_mem hk2)
        have hown2 : e.owns i := by
          unfold ThreadData.owns
          omega
        exact hne (contiguous_unique hcont hnn hk2 hk hown2 hown)

/-- Five rows of three columns, split between two threads: the cell `(3, 2)`
occurs once in the log of the stores. -/
theorem write_exactly_once_witness :
    ∃ a : Arrays,
      (main 5 3 2 ⟨0, 1, 2, 3, 4, fun _ => (0, 1)⟩ (fun _ _ => 0) (fun _ _ => 0)
        (fun _ _ => 0)).arrays = some a ∧ a.stores.count (3, 2) = 1 := by
  obtain ⟨a, ha, _, hc, _⟩ :=
    write_exactly_once 5 3 2 ⟨0, 1, 2, 3, 4, fun _ => (0, 1)⟩ (fun _ _ => 0) (fun _ _ => 0)
      (fun _ _ => 0) (by decide) (by decide) 3 2 (by decide) (by decide) (by decide)
  exact ⟨a, ha, hc⟩

end cw1Part3

/-! ## The events of `main` of cw1Part3 -/

namespace cw1Part3

/-- The events of a run of `main` with `1 ≤ N ≤ H`, in program order. -/
theorem main_events (H W N : Nat) (clk : Clock) (m d0 a0 : Matrix) (h1 : 1 ≤ N) (hN : N ≤ H) :
    (main H W N clk m d0 a0).events =
      [Event.setupMainArray, Event.allocDistanceArray, Event.allocAngleArray,
        Event.printAllocTime (seconds (clk.afterAlloc - clk.start))] ++
      createEvents 0 (threadData H N) ++
      [Event.printUpToJoin (seconds (clk.afterCreate - clk.start))] ++
      (joinLoop 0 (runThreads H W clk.thread 0 (threadData H N)
        { mainArray := m, distanceArray := d0, angleArray := a0, stores := [] })).1 ++
      [Event.printJoinTime (seconds (clk.afterJoin - (clk.afterCreate - clk.start))),
        Event.deleteArrays, Event.printTotal (seconds (clk.atEnd - clk.start))] := by
  have hlt : ∀ d ∈ threadData H N, d.currentRow < (H : Int) := by
    intro d hd
    have := threadData_lt H N h1 hN d hd
    have := threadData_pos H N h1 hN d hd
    omega
  have hj := joinLoop_runThreads H W clk.thread (threadData H N) 0
    { mainArray := m, distanceArray := d0, angleArray := a0, stores := [] } hlt
  have h2 : ¬ N > H := by omega
  have h3 : N ≠ 0 := by omega
  unfold main
  simp only [h2, h3, if_false, hj, if_true]

theorem createEvents_mem (ds : List ThreadData) (n k : Nat) (d : ThreadData)
    (hk : ds[k]? = some d) : Event.create (n + k) d ∈ createEvents n ds := by
  induction ds generalizing n k with
  | nil => simp at hk
  | cons x xs ih =>
    unfold createEvents
    cases k with
    | zero =>
      simp at hk
      subst hk
      simp
    | succ k =>
      rw [List.getElem?_cons_succ] at hk
      have := ih (n + 1) k hk
      have e : n + (k + 1) = n + 1 + k := by omega
      rw [e]
      exact List.mem_cons_of_mem _ this

theorem rowCells_width_zero (lo : Int) (k : Nat) : rowCells 0 lo k = [] := by
  induction k generalizing lo with
  | zero => rfl
  | succ k ih => simp [rowCells, ih]

/-- C16 as stated fails.  With one row, one thread and a width of `0`, `main`
loads and allocates the matrices, creates its thread and returns `0`.  With
one row and no thread at all the guard does not fire either: the matrices
have been loaded and allocated when `main` reaches the division by zero. -/
theorem zero_dimension_counterexample :
    ((main 1 0 1 ⟨0, 1, 2, 3, 4, fun _ => (0, 1)⟩ (fun _ _ => 0) (fun _ _ => 0)
      (fun _ _ => 0)).termination = Termination.exit 0 ∧
     Event.setupMainArray ∈ (main 1 0 1 ⟨0, 1, 2, 3, 4, fun _ => (0, 1)⟩ (fun _ _ => 0)
      (fun _ _ => 0) (fun _ _ => 0)).events ∧
     Event.create 0 { currentRow := 0, rowsToProcess := 1, timeTaken := 0 } ∈
      (main 1 0 1 ⟨0, 1, 2, 3, 4, fun _ => (0, 1)⟩ (fun _ _ => 0) (fun _ _ => 0)
        (fun _ _ => 0)).events) ∧
    ((main 1 1 0 ⟨0, 1, 2, 3, 4, fun _ => (0, 1)⟩ (fun _ _ => 0) (fun _ _ => 0)
      (fun _ _ => 0)).termination = Termination.divideByZero ∧
     (main 1 1 0 ⟨0, 1, 2, 3, 4, fun _ => (0, 1)⟩ (fun _ _ => 0) (fun _ _ => 0)
      (fun _ _ => 0)).events =
        [Event.setupMainArray, Event.allocDistanceArray, Event.allocAngleArray,
          Event.printAllocTime (seconds (1 - 0))]) := by
  refine ⟨⟨?_, ?_, ?_⟩, ?_, ?_⟩
  · exact (parallel_main_spec 1 0 1 _ _ _ _ (by decide) (by decide)).1
  · rw [main_events 1 0 1 _ _ _ _ (by decide) (by decide)]
    simp
  · rw [main_events 1 0 1 _ _ _ _ (by decide) (by decide)]
    have : Event.create (0 + 0) { currentRow := 0, rowsToProcess := 1, timeTaken := 0 } ∈
        createEvents 0 (threadData 1 1) :=
      createEvents_mem _ 0 0 _ (by decide)
    simp only [List.mem_append]
    exact Or.inl (Or.inl (Or.inl (Or.inr this)))
  · unfold main
    simp
  · unfold main
    simp

/-- C16, amended.  For a thread count `N ≥ 1`: when `N > H`, in particular
when the height is `0`, `main` of cw1Part3 returns `1` after the error message
alone, before any matrix is loaded or allocated, before the division and the
remainder are evaluated and before any thread is created.  A width of `0` is
not an error: when `N ≤ H` and `W = 0`, `main` loads and allocates the
matrices, creates each of its `N` threads, none of which stores a cell, and
returns `0`. -/
theorem zero_dimension (H W N : Nat) (clk : Clock) (m d0 a0 : Matrix) (h1 : 1 ≤ N) :
    (H = 0 → N > H) ∧
    (N > H →
      (main H W N clk m d0 a0).termination = Termination.exit 1 ∧
      (main H W N clk m d0 a0).events = [Event.printError] ∧
      (main H W N clk m d0 a0).arrays = none ∧
      (main H W N clk m d0 a0).data = []) ∧
    (N ≤ H → W = 0 →
      (main H W N clk m d0 a0).termination = Termination.exit 0 ∧
      Event.setupMainArray ∈ (main H W N clk m d0 a0).events ∧
      Event.allocDistanceArray ∈ (main H W N clk m d0 a0).events ∧
      Event.allocAngleArray ∈ (main H W N clk m d0 a0).events ∧
      (main H W N clk m d0 a0).data.length = N ∧
      (∀ (k : Nat) (d : ThreadData), (main H W N clk m d0 a0).data[k]? = some d →
        Event.create k d ∈ (main H W N clk m d0 a0).events) ∧
      ∃ a : Arrays, (main H W N clk m d0 a0).arrays = some a ∧ a.stores = [] ∧
        a.distanceArray = d0 ∧ a.angleArray = a0) := by
  refine ⟨fun h => by omega, ?_, ?_⟩
  · intro h
    unfold main
    rw [if_pos h]
    exact ⟨rfl, rfl, rfl, rfl⟩
  · intro hN hW
    subst hW
    obtain ⟨ht, a, ha, _, hd, hg⟩ := parallel_main_spec H 0 N clk m d0 a0 h1 hN
    have hev := main_events H 0 N clk m d0 a0 h1 hN
    have hpos := threadData_pos H N h1 hN
    have hnn : ∀ d ∈ threadData H N, 0 ≤ d.rowsToProcess := fun d hd => (hpos d hd).le
    refine ⟨ht, ?_, ?_, ?_, ?_, ?_, a, ha, ?_, ?_, ?_⟩
    · rw [hev]
      simp
    · rw [hev]
      simp
    · rw [hev]
      simp
    · rw [main_data H 0 N clk m d0 a0 h1 hN, threadData_length]
    · intro k d hk
      rw [main_data H 0 N clk m d0 a0 h1 hN] at hk
      rw [hev]
      have := createEvents_mem _ 0 k d hk
      rw [zero_add] at this
      simp only [List.mem_append]
      exact Or.inl (Or.inl (Or.inl (Or.inr this)))
    · rw [main_arrays H 0 N clk m d0 a0 h1 hN] at ha
      injection ha with ha
      rw [← ha, runThreadsArrays_stores H 0 clk.thread _ 0 0 _ (threadData_contiguous H N) hnn
        (by rw [threadData_totalRows H N (by omega)]; omega), rowCells_width_zero]
      rfl
    · funext i j
      rw [hd, if_neg]
      omega
    · funext i j
      rw [hg, if_neg]
      omega

/-- One thread for no row at all: `main` returns `1` and has done nothing but
print its message. -/
theorem zero_dimension_witness :
    1 ≤ 1 ∧
    (main 0 4 1 ⟨0, 1, 2, 3, 4, fun _ => (0, 1)⟩ (fun _ _ => 0) (fun _ _ => 0)
      (fun _ _ => 0)).events = [Event.printError] :=
  ⟨by decide,
    ((zero_dimension 0 4 1 ⟨0, 1, 2, 3, 4, fun _ => (0, 1)⟩ (fun _ _ => 0) (fun _ _ => 0)
      (fun _ _ => 0) (by decide)).2.1 (by decide)).2.1⟩

theorem createEvents_not_join (ds : List ThreadData) (n : Nat) (t : ℚ) :
    Event.printJoinTime t ∉ createEvents n ds := by
  induction ds generalizing n with
  | nil => simp [createEvents]
  | cons x xs ih =>
    unfold createEvents
    simp only [List.mem_cons, not_or]
    exact ⟨by intro h; exact Event.noConfusion h, ih (n + 1)⟩

theorem joinLoop_not_join (rs : List ThreadResult) (n : Nat) (t : ℚ) :
    Event.printJoinTime t ∉ (joinLoop n rs).1 := by
  induction rs generalizing n with
  | nil => simp [joinLoop]
  | cons x xs ih =>
    unfold joinLoop
    split
    · simp only [List.mem_cons, not_or]
      exact ⟨by intro h; exact Event.noConfusion h, by intro h; exact Event.noConfusion h,
        ih (n + 1)⟩
    · simp only [List.mem_cons, List.mem_nil_iff, or_false]
      intro h
      exact Event.noConfusion h

/-- The one join time that a run of `main` with `1 ≤ N ≤ H` prints. -/
theorem main_join_time (H W N : Nat) (clk : Clock) (m d0 a0 : Matrix) (h1 : 1 ≤ N)
    (hN : N ≤ H) (t : ℚ) :
    Event.printJoinTime t ∈ (main H W N clk m d0 a0).events ↔
      t = seconds (clk.afterJoin - (clk.afterCreate - clk.start)) := by
  rw [main_events H W N clk m d0 a0 h1 hN]
  simp [createEvents_not_join, joinLoop_not_join]

/-- C19 on the code.  A run of cw1Part3 (one row, one thread) whose clock
reads `1000` ticks at the start of `main`, `5000000` right after the thread
has been created and `8000000` right after it has been joined: the joins
have taken `3` seconds, the one join time that `main` prints is `3.001`
seconds, the reading at the start being added to it. -/
theorem join_time_printed :
    (∀ t : ℚ, Event.printJoinTime t ∈
      (main 1 1 1 ⟨1000, 2000, 5000000, 8000000, 9000000, fun _ => (3000, 4000)⟩
        (fun _ _ => 0) (fun _ _ => 0) (fun _ _ => 0)).events ↔ t = 3001 / 1000) ∧
    seconds (8000000 - 5000000) = 3 ∧
    seconds (8000000 - 5000000) + seconds 1000 = 3001 / 1000 := by
  refine ⟨fun t => ?_, ?_, ?_⟩
  · rw [main_join_time 1 1 1 _ _ _ _ (by decide) (by decide)]
    have : seconds ((8000000 : Int) - (5000000 - 1000)) = 3001 / 1000 := by
      unfold seconds CLOCKS_PER_SEC
      norm_num
    rw [this]
  · unfold seconds CLOCKS_PER_SEC
    norm_num
  · unfold seconds CLOCKS_PER_SEC
    norm_num

end cw1Part3

/-! ## The loader on text in the format of the generator -/

namespace Loader

/-- The row loop on a token without space and newline that is followed by a
space: the token is appended to the string of the current column, and the loop
goes on with the next column. -/
theorem rowLoop_token (W : Nat) (t rest : List Char) (c : Nat) (row : Nat → List Char)
    (ht : cleanToken t) (hc : t = [] ∨ c < W) :
    rowLoop W (t ++ ' ' :: rest) c row =
      rowLoop W rest (c + 1) (fun k => if k = c then row k ++ t else row k) := by
  induction t generalizing row with
  | nil =>
    have e : (fun k => if k = c then row k ++ [] else row k) = row := by
      funext k
      split <;> simp
    rw [e, List.nil_append, rowLoop]
    simp
  | cons x xs ih =>
    have hcW : c < W := by
      rcases hc with h | h
      · exact absurd h (List.cons_ne_nil _ _)
      · exact h
    have hx1 : x ≠ '\n' := fun h => ht.2 (by rw [h]; exact List.mem_cons_self _ _)
    have hx2 : x ≠ ' ' := fun h => ht.1 (by rw [h]; exact List.mem_cons_self _ _)
    have hxs : cleanToken xs :=
      ⟨fun h => ht.1 (List.mem_cons_of_mem _ h), fun h => ht.2 (List.mem_cons_of_mem _ h)⟩
    rw [List.cons_append, rowLoop]
    simp only [hx1, hx2, hcW, ne_eq, not_false_eq_true, if_true]
    rw [ih (appendChar row c x) hxs (Or.inr hcW)]
    congr 1
    funext k
    unfold appendChar
    split <;> simp

/-- The row loop on a line of at most `W - c` tokens in the format of the
generator, started at column `c`. -/
theorem rowLoop_tokens (W : Nat) (tokens : List (List Char)) (rest : List Char) (c : Nat)
    (row : Nat → List Char) (hlen : c + tokens.length ≤ W)
    (htok : ∀ t ∈ tokens, cleanToken t) :
    rowLoop W (tokens.flatMap (fun t => t ++ [' ']) ++ '\n' :: rest) c row =
      Except.ok (fun k => if c ≤ k ∧ k < c + tokens.length then row k ++ tokens.getD (k - c) []
        else row k, rest) := by
  induction tokens generalizing c row with
  | nil =>
    rw [List.flatMap_nil, List.nil_append, rowLoop]
    simp only [ne_eq, not_true_eq_false, if_false]
    congr 2
    funext k
    rw [if_neg]
    simp
  | cons t ts ih =>
    have hlen2 : c + 1 + ts.length ≤ W := by
      simp only [List.length_cons] at hlen
      omega
    have hcW : c < W := by
      simp only [List.length_cons] at hlen
      omega
    rw [List.flatMap_cons, List.append_assoc, List.append_assoc, List.singleton_append,
      rowLoop_token W t _ c row (htok t (List.mem_cons_self _ _)) (Or.inr hcW),
      ih (c + 1) _ hlen2 (fun u hu => htok u (List.mem_cons_of_mem _ hu))]
    congr 2
    funext k
    simp only [List.length_cons]
    by_cases h1 : k = c
    · subst h1
      have e1 : ¬ (k + 1 ≤ k ∧ k < k + 1 + ts.length) := by omega
      have e2 : k ≤ k ∧ k < k + (ts.length + 1) := by omega
      rw [if_neg e1, if_pos e2, if_pos rfl, Nat.sub_self]
      rfl
    · by_cases h2 : c + 1 ≤ k ∧ k < c + 1 + ts.length
      · have e2 : c ≤ k ∧ k < c + (ts.length + 1) := by omega
        obtain ⟨n, hn⟩ : ∃ n : Nat, k - c = n + 1 := ⟨k - c - 1, by omega⟩
        have hn2 : k - (c + 1) = n := by omega
        rw [if_pos h2, if_pos e2, if_neg h1, hn, hn2, List.getD_cons_succ]
      · have e2 : ¬ (c ≤ k ∧ k < c + (ts.length + 1)) := by omega
        rw [if_neg h2, if_neg e2, if_neg h1]

/-- The row loop on a line of at most `W` tokens, started at column `0` on
empty strings: column `k` receives token `k`, the other columns stay empty,
and the file is left at the start of the next line. -/
theorem rowLoop_rowText (W : Nat) (tokens : List (List Char)) (rest : List Char)
    (hlen : tokens.length ≤ W) (htok : ∀ t ∈ tokens, cleanToken t) :
    rowLoop W (rowText tokens ++ rest) 0 (fun _ => []) =
      Except.ok (fun k => tokens.getD k [], rest) := by
  unfold rowText
  rw [List.append_assoc, List.singleton_append,
    rowLoop_tokens W tokens rest 0 _ (by omega) htok]
  congr 2
  funext k
  by_cases h : k < tokens.length
  · rw [if_pos ⟨Nat.zero_le _, by omega⟩, List.nil_append, Nat.sub_zero]
  · rw [if_neg (by omega), List.getD_eq_getElem?_getD, List.getElem?_eq_none (by omega)]
    rfl

/-- The reading loop on a file of lines in the format of the generator, each
of at most `W` tokens: string `k` of row `i` is token `k` of line `i`, or empty
when the line has no such token. -/
theorem readRows_rows (W : Nat) (rows : List (List (List Char))) (rest : List Char) (i : Nat)
    (strings : Nat → Nat → List Char)
    (hrows : ∀ r ∈ rows, r.length ≤ W ∧ ∀ t ∈ r, cleanToken t)
    (hempty : ∀ k : Nat, i ≤ k → strings k = fun _ => []) :
    readRows W rows.length i (rows.flatMap rowText ++ rest) strings =
      Except.ok (fun k => if i ≤ k ∧ k < i + rows.length then
        (fun c => (rows.getD (k - i) []).getD c []) else strings k) := by
  induction rows generalizing i strings with
  | nil =>
    rw [List.length_nil, readRows]
    congr 1
    funext k
    rw [if_neg]
    omega
  | cons r rs ih =>
    obtain ⟨hr1, hr2⟩ := hrows r (List.mem_cons_self _ _)
    rw [List.length_cons, readRows, List.flatMap_cons, List.append_assoc, hempty i le_rfl,
      rowLoop_rowText W r _ hr1 hr2]
    simp only
    rw [ih (i + 1) _ (fun u hu => hrows u (List.mem_cons_of_mem _ hu))]
    · congr 1
      funext k
      by_cases h1 : k = i
      · subst h1
        have e1 : ¬ (k + 1 ≤ k ∧ k < k + 1 + rs.length) := by omega
        have e2 : k ≤ k ∧ k < k + (rs.length + 1) := by omega
        rw [if_neg e1, if_pos e2, if_pos rfl, Nat.sub_self]
        rfl
      · by_cases h2 : i + 1 ≤ k ∧ k < i + 1 + rs.length
        · have e2 : i ≤ k ∧ k < i + (rs.length + 1) := by omega
          obtain ⟨n, hn⟩ : ∃ n : Nat, k - i = n + 1 := ⟨k - i - 1, by omega⟩
          have hn2 : k - (i + 1) = n := by omega
          rw [if_pos h2, if_pos e2, hn, hn2, List.getD_cons_succ]
        · have e2 : ¬ (i ≤ k ∧ k < i + (rs.length + 1)) := by omega
          rw [if_neg h2, if_neg e2, if_neg h1]
    · intro k hk
      rw [if_neg (by omega)]
      exact hempty k (by omega)

end Loader

namespace generateRandomNumberFile

theorem digitChar_isDigit : ∀ d : Nat, d < 10 → (Nat.digitChar d).isDigit = true := by
  decide

theorem decimal_isDigit (n : Nat) : ∀ c ∈ decimal n, c.isDigit = true := by
  intro c hc
  unfold decimal at hc
  split at hc
  · simp only [List.mem_singleton] at hc
    subst hc
    decide
  · simp only [List.mem_map, List.mem_reverse] at hc
    obtain ⟨d, hd, rfl⟩ := hc
    exact digitChar_isDigit d (Nat.digits_lt_base (by decide) hd)

theorem decimal_ne_nil (n : Nat) : decimal n ≠ [] := by
  unfold decimal
  split
  · exact List.cons_ne_nil _ _
  · rename_i h
    intro h0
    have := (@Nat.digits_ne_nil_iff_ne_zero 10 n).2 h
    simp only [List.map_eq_nil_iff, List.reverse_eq_nil_iff] at h0
    exact this h0

theorem token_isDecimal (r0 r1 : Nat) : Loader.isDecimal (token r0 r1) :=
  ⟨decimal r0, decimal r1, rfl, decimal_ne_nil r0, decimal_ne_nil r1, decimal_isDigit r0,
    decimal_isDigit r1⟩

theorem token_clean (r0 r1 : Nat) : token r0 r1 ≠ [] ∧ Loader.cleanToken (token r0 r1) := by
  have hdig : ∀ c ∈ token r0 r1, c.isDigit = true ∨ c = '.' := by
    intro c hc
    unfold token at hc
    rcases List.mem_append.1 hc with h | h
    · exact Or.inl (decimal_isDigit r0 c h)
    · rcases List.mem_cons.1 h with h | h
      · exact Or.inr h
      · exact Or.inl (decimal_isDigit r1 c h)
  refine ⟨?_, ?_, ?_⟩
  · unfold token
    simp
  · intro h
    rcases hdig _ h with h2 | h2
    · exact absurd h2 (by decide)
    · exact absurd h2 (by decide)
  · intro h
    rcases hdig _ h with h2 | h2
    · exact absurd h2 (by decide)
    · exact absurd h2 (by decide)

theorem cellText_eq (r0 r1 : Nat) : cellText r0 r1 = token r0 r1 ++ [' '] := by
  unfold cellText token
  simp

/-- The file that `main` writes consists of `H` lines of `W` tokens in the
format `rowText`. -/
theorem main_eq (H W : Nat) (rand : Nat → Nat) :
    main H W rand = (fileTokens H W rand).flatMap Loader.rowText := by
  unfold main fileTokens
  rw [List.flatMap_map]
  congr 1
  funext i
  unfold Loader.rowText
  rw [List.flatMap_map]
  congr 2
  funext j
  rw [cellText_eq]
  rfl

theorem fileTokens_getD_row (H W : Nat) (rand : Nat → Nat) (i : Nat) (hi : i < H) :
    (fileTokens H W rand).getD i [] = (List.range W).map (fun j => cellToken W rand i j) := by
  unfold fileTokens
  rw [List.getD_eq_getElem?_getD, List.getElem?_map, List.getElem?_range hi]
  rfl

theorem fileTokens_getD (H W : Nat) (rand : Nat → Nat) (i j : Nat) (hi : i < H) (hj : j < W) :
    ((fileTokens H W rand).getD i []).getD j [] = cellToken W rand i j := by
  rw [fileTokens_getD_row H W rand i hi, List.getD_eq_getElem?_getD, List.getElem?_map,
    List.getElem?_range hj]
  rfl

theorem fileTokens_getD_beyond (H W : Nat) (rand : Nat → Nat) (i k : Nat) (hi : i < H)
    (hk : W ≤ k) : ((fileTokens H W rand).getD i []).getD k [] = [] := by
  rw [fileTokens_getD_row H W rand i hi, List.getD_eq_getElem?_getD,
    List.getElem?_eq_none (by simpa using hk)]
  rfl

end generateRandomNumberFile

/-- C17, round trip between the generator and the loader.  On a line of `W`
tokens, none of them empty or containing a space or a newline, each followed
by one space, with a newline at the end, the tokenising loop of
`setupMainArray` stores token `k` in the string of column `k` for every
`k < W`, leaves every string of a column `k ≥ W` empty, and stops behind the
newline of the line.  On the file that the generator writes the reading loop
succeeds, and the string of every cell `(i, j)` of the grid is the token
`a.b` that the generator has written for it, with `a` and `b` the decimal
digits of two numbers between `1` and `999`: a well-formed decimal. -/
theorem loader_roundtrip (W : Nat) (tokens : List (List Char)) (rest : List Char)
    (hlen : tokens.length = W) (htok : ∀ t ∈ tokens, t ≠ [] ∧ ' ' ∉ t ∧ '\n' ∉ t)
    (H : Nat) (rand : Nat → Nat) :
    (∃ row : Nat → List Char,
      Loader.rowLoop W (Loader.rowText tokens ++ rest) 0 (fun _ => []) = Except.ok (row, rest) ∧
      (∀ k : Nat, k < W → tokens[k]? = some (row k)) ∧
      (∀ k : Nat, W ≤ k → row k = [])) ∧
    (∃ strings : Nat → Nat → List Char,
      Loader.readRows W H 0 (generateRandomNumberFile.main H W rand) (fun _ _ => []) =
        Except.ok strings ∧
      ∀ i : Nat, i < H →
        (∀ j : Nat, j < W →
          strings i j = generateRandomNumberFile.decimal (rand (2 * (i * W + j)) % 999 + 1) ++
            '.' :: generateRandomNumberFile.decimal (rand (2 * (i * W + j) + 1) % 999 + 1) ∧
          1 ≤ rand (2 * (i * W + j)) % 999 + 1 ∧ rand (2 * (i * W + j)) % 999 + 1 ≤ 999 ∧
          1 ≤ rand (2 * (i * W + j) + 1) % 999 + 1 ∧
          rand (2 * (i * W + j) + 1) % 999 + 1 ≤ 999 ∧
          Loader.isDecimal (strings i j)) ∧
        ∀ k : Nat, W ≤ k → strings i k = []) := by
  constructor
  · refine ⟨_, Loader.rowLoop_rowText W tokens rest (by omega)
      (fun t ht => ⟨(htok t ht).2.1, (htok t ht).2.2⟩), fun k hk => ?_, fun k hk => ?_⟩
    · have hk2 : k < tokens.length := by omega
      rw [List.getD_eq_getElem?_getD, List.getElem?_eq_getElem hk2]
      rfl
    · rw [List.getD_eq_getElem?_getD, List.getElem?_eq_none (by omega)]
      rfl
  · have hl : (generateRandomNumberFile.fileTokens H W rand).length = H := by
      unfold generateRandomNumberFile.fileTokens
      simp
    have hrows : ∀ r ∈ generateRandomNumberFile.fileTokens H W rand,
        r.length ≤ W ∧ ∀ t ∈ r, Loader.cleanToken t := by
      intro r hr
      unfold generateRandomNumberFile.fileTokens at hr
      simp only [List.mem_map, List.mem_range] at hr
      obtain ⟨i, _, rfl⟩ := hr
      refine ⟨by simp, fun t ht => ?_⟩
      simp only [List.mem_map, List.mem_range] at ht
      obtain ⟨j, _, rfl⟩ := ht
      exact (generateRandomNumberFile.token_clean _ _).2
    have hread := Loader.readRows_rows W (generateRandomNumberFile.fileTokens H W rand) [] 0
      (fun _ _ => []) hrows (fun _ _ => rfl)
    rw [List.append_nil, ← generateRandomNumberFile.main_eq, hl] at hread
    refine ⟨_, hread, fun i hi => ⟨fun j hj => ?_, fun k hk => ?_⟩⟩
    · have hc : 0 ≤ i ∧ i < 0 + H := by omega
      simp only [if_pos hc, Nat.sub_zero]
      rw [generateRandomNumberFile.fileTokens_getD H W rand i j hi hj]
      refine ⟨rfl, by omega, ?_, by omega, ?_, generateRandomNumberFile.token_isDecimal _ _⟩
      · have := Nat.mod_lt (rand (2 * (i * W + j))) (by decide : 0 < 999)
        omega
      · have := Nat.mod_lt (rand (2 * (i * W + j) + 1)) (by decide : 0 < 999)
        omega
    · have hc : 0 ≤ i ∧ i < 0 + H := by omega
      simp only [if_pos hc, Nat.sub_zero]
      exact generateRandomNumberFile.fileTokens_getD_beyond H W rand i k hi hk

/-- A line with the two tokens `1.5` and `22.7`, followed by the start of the
next line. -/
theorem loader_roundtrip_witness :
    ∃ row : Nat → List Char,
      Loader.rowLoop 2 (Loader.rowText [['1', '.', '5'], ['2', '2', '.', '7']] ++ ['3'])
        0 (fun _ => []) = Except.ok (row, ['3']) ∧
      row 0 = ['1', '.', '5'] ∧ row 1 = ['2', '2', '.', '7'] ∧ row 2 = [] := by
  obtain ⟨row, h1, h2, h3⟩ :=
    (loader_roundtrip 2 [['1', '.', '5'], ['2', '2', '.', '7']] ['3'] rfl (by decide) 1
      (fun _ => 0)).1
  refine ⟨row, h1, ?_, ?_, h3 2 le_rfl⟩
  · have := h2 0 (by decide)
    simp only [List.getElem?_cons_zero, Option.some.injEq] at this
    exact this.symm
  · have := h2 1 (by decide)
    simp only [List.getElem?_cons_succ, List.getElem?_cons_zero, Option.some.injEq] at this
    exact this.symm

/-! ## The conversion of the strings by `stof` -/

namespace Loader

/-- A successful conversion of `n` cells of row `i` from column `j` on: each
of the cells holds what `stof` returns for its string, every other cell is
unchanged. -/
theorem convertCells_ok (stof : List Char → Option ℝ) (strings : Nat → Nat → List Char)
    (i n j : Nat) (m m2 : Matrix) (h : convertCells stof strings i n j m = Except.ok m2) :
    (∀ c : Nat, j ≤ c → c < j + n → stof (strings i c) = some (m2 (i : Int) c)) ∧
    (∀ (r : Int) (c : Nat), ¬ (r = (i : Int) ∧ j ≤ c ∧ c < j + n) → m2 r c = m r c) := by
  induction n generalizing j m with
  | zero =>
    rw [convertCells] at h
    injection h with h
    subst h
    exact ⟨fun c h1 h2 => by omega, fun r c _ => rfl⟩
  | succ n ih =>
    rw [convertCells] at h
    cases hs : stof (strings i j) with
    | none =>
      rw [hs] at h
      exact Except.noConfusion h
    | some v =>
      rw [hs] at h
      obtain ⟨h1, h2⟩ := ih (j + 1) _ h
      constructor
      · intro c hc1 hc2
        by_cases hcj : c = j
        · subst hcj
          rw [h2 (i : Int) c (by omega), Matrix.set_same]
          exact hs
        · exact h1 c (by omega) (by omega)
      · intro r c hrc
        rw [h2 r c (by omega)]
        unfold Matrix.set
        rw [if_neg]
        omega

/-- The conversion of a row fails with `invalidArgument` as soon as `stof`
throws for one of its strings. -/
theorem convertCells_error (stof : List Char → Option ℝ) (strings : Nat → Nat → List Char)
    (i n j : Nat) (m : Matrix)
    (h : ∃ c : Nat, j ≤ c ∧ c < j + n ∧ stof (strings i c) = none) :
    convertCells stof strings i n j m = Except.error LoadError.invalidArgument := by
  induction n generalizing j m with
  | zero =>
    obtain ⟨c, h1, h2, _⟩ := h
    omega
  | succ n ih =>
    rw [convertCells]
    cases hs : stof (strings i j) with
    | none => rfl
    | some v =>
      simp only
      apply ih
      obtain ⟨c, h1, h2, h3⟩ := h
      have : c ≠ j := by
        intro hcj
        rw [hcj, hs] at h3
        exact Option.noConfusion h3
      exact ⟨c, by omega, by omega, h3⟩

theorem convertCells_error_kind (stof : List Char → Option ℝ)
    (strings : Nat → Nat → List Char) (i n j : Nat) (m : Matrix) (e : LoadError)
    (h : convertCells stof strings i n j m = Except.error e) :
    e = LoadError.invalidArgument := by
  induction n generalizing j m with
  | zero =>
    rw [convertCells] at h
    exact Except.noConfusion h
  | succ n ih =>
    rw [convertCells] at h
    cases hs : stof (strings i j) with
    | none =>
      rw [hs] at h
      injection h with h
      exact h.symm
    | some v =>
      rw [hs] at h
      exact ih (j + 1) _ h

/-- A successful conversion of the `n` rows from row `i` on. -/
theorem convertRows_ok (stof : List Char → Option ℝ) (W : Nat)
    (strings : Nat → Nat → List Char) (n i : Nat) (m m2 : Matrix)
    (h : convertRows stof W strings n i m = Except.ok m2) :
    (∀ r c : Nat, i ≤ r → r < i + n → c < W → stof (strings r c) = some (m2 (r : Int) c)) ∧
    (∀ (r : Int) (c : Nat), ¬ ((i : Int) ≤ r ∧ r < (i : Int) + (n : Int) ∧ c < W) →
      m2 r c = m r c) := by
  induction n generalizing i m with
  | zero =>
    rw [convertRows] at h
    injection h with h
    subst h
    exact ⟨fun r c h1 h2 => by omega, fun r c _ => rfl⟩
  | succ n ih =>
    rw [convertRows] at h
    cases hs : convertCells stof strings i W 0 m with
    | error e =>
      rw [hs] at h
      exact Except.noConfusion h
    | ok m1 =>
      rw [hs] at h
      obtain ⟨c1, c2⟩ := convertCells_ok stof strings i W 0 m m1 hs
      obtain ⟨h1, h2⟩ := ih (i + 1) m1 h
      constructor
      · intro r c hr1 hr2 hc
        by_cases hri : r = i
        · subst hri
          rw [h2 (r : Int) c (by push_cast; omega)]
          exact c1 c (by omega) (by omega)
        · exact h1 r c (by omega) (by omega) hc
      · intro r c hrc
        rw [h2 r c (by push_cast; omega), c2 r c (by push_cast at hrc; omega)]

/-- The conversion fails with `invalidArgument` as soon as `stof` throws for
the string of one cell. -/
theorem convertRows_error (stof : List Char → Option ℝ) (W : Nat)
    (strings : Nat → Nat → List Char) (n i : Nat) (m : Matrix)
    (h : ∃ r c : Nat, i ≤ r ∧ r < i + n ∧ c < W ∧ stof (strings r c) = none) :
    convertRows stof W strings n i m = Except.error LoadError.invalidArgument := by
  induction n generalizing i m with
  | zero =>
    obtain ⟨r, c, h1, h2, _⟩ := h
    omega
  | succ n ih =>
    rw [convertRows]
    cases hs : convertCells stof strings i W 0 m with
    | error e =>
      rw [convertCells_error_kind stof strings i W 0 m e hs]
    | ok m1 =>
      simp only
      apply ih
      obtain ⟨r, c, h1, h2, h3, h4⟩ := h
      have hri : r ≠ i := by
        intro hri
        subst hri
        have := (convertCells_ok stof strings r W 0 m m1 hs).1 c (by omega) (by omega)
        rw [h4] at this
        exact Option.noConfusion this
      exact ⟨r, c, by omega, by omega, h3, h4⟩

end Loader

/-- A matrix that `setupMainArray` returns holds, in every cell of the grid,
what `stof` has returned for the string of the cell. -/
theorem setupMainArray_ok (stof : List Char → Option ℝ) (H W : Nat) (inFile : List Char)
    (m0 m : Matrix) (h : setupMainArray stof H W inFile m0 = Except.ok m) :
    ∃ strings : Nat → Nat → List Char,
      Loader.readRows W H 0 inFile (fun _ _ => []) = Except.ok strings ∧
      ∀ i j : Nat, i < H → j < W → stof (strings i j) = some (m (i : Int) j) := by
  unfold setupMainArray at h
  cases hr : Loader.readRows W H 0 inFile (fun _ _ => []) with
  | error e =>
    rw [hr] at h
    exact Except.noConfusion h
  | ok strings =>
    rw [hr] at h
    refine ⟨strings, rfl, fun i j hi hj => ?_⟩
    exact (Loader.convertRows_ok stof W strings H 0 m0 m h).1 i j (by omega) (by omega) hj

/-- When the reading loop succeeds and `stof` throws for the string of some
cell of the grid, `setupMainArray` ends with that exception. -/
theorem setupMainArray_error (stof : List Char → Option ℝ) (H W : Nat) (inFile : List Char)
    (m0 : Matrix) (strings : Nat → Nat → List Char)
    (hr : Loader.readRows W H 0 inFile (fun _ _ => []) = Except.ok strings)
    (h : ∃ i j : Nat, i < H ∧ j < W ∧ stof (strings i j) = none) :
    setupMainArray stof H W inFile m0 = Except.error LoadError.invalidArgument := by
  unfold setupMainArray
  rw [hr]
  simp only
  apply Loader.convertRows_error
  obtain ⟨i, j, hi, hj, hs⟩ := h
  exact ⟨i, j, by omega, by omega, hj, hs⟩

/-! ## The threads of cw1Part3 in any interleaving -/

namespace cw1Part3

theorem threadStep_inv (H W : Nat) (d : ThreadData) (hd : 0 ≤ d.rowsToProcess) (pc pc2 : Pc)
    (a a2 : Arrays) (hinv : pc.inv H d) (h : threadStep H W d pc a = some (pc2, a2)) :
    pc2.inv H d := by
  cases pc with
  | start =>
    simp only [threadStep] at h
    split at h
    · injection h with h
      injection h with h1 _
      subst h1
      trivial
    · injection h with h
      injection h with h1 _
      subst h1
      exact ⟨le_rfl, rfl, hd⟩
  | rowHead c r =>
    simp only [threadStep] at h
    simp only [Pc.inv] at hinv
    split at h
    · rename_i hc
      injection h with h
      injection h with h1 _
      subst h1
      simp only [Pc.inv]
      omega
    · injection h with h
      injection h with h1 _
      subst h1
      trivial
  | cell c r j =>
    simp only [threadStep] at h
    simp only [Pc.inv] at hinv
    split at h
    · injection h with h
      injection h with h1 _
      subst h1
      simp only [Pc.inv]
      omega
    · injection h with h
      injection h with h1 _
      subst h1
      simp only [Pc.inv]
      omega
  | done b =>
    simp only [threadStep] at h
    exact Option.noConfusion h

/-- A store that a thread is about to perform goes to a row of its range
that lies below row `H`, and to a column below `W`. -/
theorem store_owned (H W : Nat) (d : ThreadData) (pc : Pc) (c : Int × Nat)
    (hinv : pc.inv H d) (h : pc.store W = some c) :
    d.owns c.1 ∧ c.1 < (H : Int) ∧ c.2 < W := by
  cases pc with
  | start => exact Option.noConfusion h
  | rowHead c r => exact Option.noConfusion h
  | done b => exact Option.noConfusion h
  | cell rw r j =>
    simp only [Pc.store] at h
    split at h
    · rename_i hj
      injection h with h
      subst h
      simp only [Pc.inv] at hinv
      unfold ThreadData.owns
      exact ⟨⟨hinv.1, by omega⟩, hinv.2.2.2, hj⟩
    · exact Option.noConfusion h

/-- In every interleaving that starts with all threads at the start of
`processRows`, every thread stands where its invariant holds, and every store
performed so far went to a row of the range of the thread that performed
it. -/
theorem run_inv (H W : Nat) (data : List ThreadData) (hd : ∀ d ∈ data, 0 ≤ d.rowsToProcess)
    (s0 s : Config) (tr : List (Nat × (Int × Nat)))
    (h0 : ∀ (k : Nat) (pc : Pc), s0.pcs[k]? = some pc → pc = Pc.start)
    (hrun : Run H W data s0 tr s) :
    (∀ (k : Nat) (d : ThreadData) (pc : Pc), data[k]? = some d → s.pcs[k]? = some pc →
      pc.inv H d) ∧
    (∀ (k : Nat) (c : Int × Nat), (k, c) ∈ tr →
      ∃ d : ThreadData, data[k]? = some d ∧ d.owns c.1 ∧ c.1 < (H : Int) ∧ c.2 < W) := by
  induction hrun with
  | refl =>
    refine ⟨fun k d pc _ hpc => ?_, fun k c hc => ?_⟩
    · rw [h0 k pc hpc]
      trivial
    · simp at hc
  | step s2 s3 tr label _ hstep ih =>
    obtain ⟨ih1, ih2⟩ := ih
    cases hstep with
    | thread k d pc pc2 _ a2 hk hpc hts =>
      have hinv := ih1 k d pc hk hpc
      have hkd : 0 ≤ d.rowsToProcess := hd d (List.getElem?_mem hk)
      constructor
      · intro l e q hl hq
        simp only at hq
        by_cases hlk : l = k
        · subst hlk
          have hlen : l < s2.pcs.length := by
            rcases List.getElem?_eq_some.1 hpc with ⟨hl2, _⟩
            exact hl2
          rw [List.getElem?_set_self hlen] at hq
          injection hq with hq
          subst hq
          rw [hk] at hl
          injection hl with hl
          subst hl
          exact threadStep_inv H W d hkd pc pc2 _ a2 hinv hts
        · rw [List.getElem?_set_ne (fun h => hlk h.symm)] at hq
          exact ih1 l e q hl hq
      · intro l c hc
        rcases List.mem_append.1 hc with hc | hc
        · exact ih2 l c hc
        · cases hst : pc.store W with
          | none =>
            rw [hst] at hc
            simp at hc
          | some c2 =>
            rw [hst] at hc
            simp only [Option.map_some', Option.toList_some, List.mem_singleton,
              Prod.mk.injEq] at hc
            obtain ⟨rfl, rfl⟩ := hc
            exact ⟨d, hk, store_owned H W d pc c hinv hst⟩

/-- C15, concurrent write isolation.  Let the `N` threads of cw1Part3,
`2 ≤ N ≤ H`, run on the `data` that `main` hands to them, step by step and in
any interleaving, each step being a loop test followed by at most one
execution of the loop body.  Then every store to the distance and to the angle
matrix performed in the run goes to a cell of the grid in a row of the range
of the thread that performs it; no cell is stored to by two different
threads; and in no state of the run are two different threads about to store
to the same cell.  The threads never read the two matrices, so no two of them
access the same cell. -/
theorem no_data_race (H W N : Nat) (clk : Clock) (m d0 a0 : Matrix) (h2 : 2 ≤ N) (hN : N ≤ H)
    (tr : List (Nat × (Int × Nat))) (s : Config)
    (hrun : Run H W (main H W N clk m d0 a0).data
      { pcs := List.replicate N Pc.start
        arrays := { mainArray := m, distanceArray := d0, angleArray := a0, stores := [] } }
      tr s) :
    (∀ (k : Nat) (c : Int × Nat), (k, c) ∈ tr →
      ∃ d : ThreadData, (main H W N clk m d0 a0).data[k]? = some d ∧ d.owns c.1 ∧
        0 ≤ c.1 ∧ c.1 < (H : Int) ∧ c.2 < W) ∧
    (∀ (k l : Nat) (c : Int × Nat), (k, c) ∈ tr → (l, c) ∈ tr → k = l) ∧
    (∀ (k l : Nat) (p q : Pc) (c : Int × Nat), s.pcs[k]? = some p → s.pcs[l]? = some q →
      p.store W = some c → q.store W = some c → k = l) := by
  have hdata := main_data H W N clk m d0 a0 (by omega) hN
  rw [hdata] at hrun ⊢
  have hcont := threadData_contiguous H N
  have hpos := threadData_pos H N (by omega) hN
  have hnn : ∀ d ∈ threadData H N, 0 ≤ d.rowsToProcess := fun d hd => (hpos d hd).le
  have hlt := threadData_lt H N (by omega) hN
  obtain ⟨hinv, hown⟩ := run_inv H W (threadData H N) hnn _ s tr
    (fun k pc hk => by
      simp only at hk
      rcases List.getElem?_eq_some.1 hk with ⟨_, hk2⟩
      rw [← hk2]
      simp)
    hrun
  have hlen : s.pcs.length = N := by
    clear hinv hown
    generalize hs0 : ({ pcs := List.replicate N Pc.start, arrays :=
      { mainArray := m, distanceArray := d0, angleArray := a0, stores := [] } } : Config) = s0
      at hrun
    induction hrun with
    | refl =>
      rw [← hs0]
      simp
    | step s2 s3 tr label _ hstep ih =>
      cases hstep with
      | thread k d pc pc2 _ a2 hk hpc hts =>
        simp only [List.length_set]
        exact ih
  refine ⟨?_, ?_, ?_⟩
  · intro k c hc
    obtain ⟨d, hk, ho, hH, hW⟩ := hown k c hc
    have := hlt d (List.getElem?_mem hk)
    unfold ThreadData.owns at ho
    exact ⟨d, hk, ho, by omega, hH, hW⟩
  · intro k l c hk hl
    obtain ⟨d, hkd, hko, _⟩ := hown k c hk
    obtain ⟨e, hle, hlo, _⟩ := hown l c hl
    exact contiguous_unique hcont hnn hkd hle hko hlo
  · intro k l p q c hp hq hps hqs
    have hk : k < (threadData H N).length := by
      rw [threadData_length, ← hlen]
      exact (List.getElem?_eq_some.1 hp).1
    have hl : l < (threadData H N).length := by
      rw [threadData_length, ← hlen]
      exact (List.getElem?_eq_some.1 hq).1
    have hkd := List.getElem?_eq_getElem hk
    have hle := List.getElem?_eq_getElem hl
    have hko := (store_owned H W _ p c (hinv k _ p hkd hp) hps).1
    have hlo := (store_owned H W _ q c (hinv l _ q hle hq) hqs).1
    exact contiguous_unique hcont hnn hkd hle hko hlo

end cw1Part3

namespace cw1Part3

/-- Two rows of one column and two threads: the run in which thread `0` takes
its first three steps, the third of which stores to cell `(0, 0)`. -/
theorem no_data_race_witness :
    ∃ (tr : List (Nat × (Int × Nat))) (s : Config),
      Run 2 1 (main 2 1 2 ⟨0, 1, 2, 3, 4, fun _ => (0, 1)⟩ (fun _ _ => 0) (fun _ _ => 0)
          (fun _ _ => 0)).data
        { pcs := List.replicate 2 Pc.start
          arrays := { mainArray := fun _ _ => 0, distanceArray := fun _ _ => 0,
                      angleArray := fun _ _ => 0, stores := [] } }
        tr s ∧
      (0, ((0 : Int), 0)) ∈ tr ∧
      ∀ (k l : Nat) (c : Int × Nat), (k, c) ∈ tr → (l, c) ∈ tr → k = l := by
  have hdata : (main 2 1 2 ⟨0, 1, 2, 3, 4, fun _ => (0, 1)⟩ (fun _ _ => 0) (fun _ _ => 0)
      (fun _ _ => 0)).data[0]? = some { currentRow := 0, rowsToProcess := 1, timeTaken := 0 } := by
    rw [main_data 2 1 2 _ _ _ _ (by decide) (by decide), threadData_getElem? 2 2 0 (by decide)]
    rfl
  have r0 : Run 2 1 (main 2 1 2 ⟨0, 1, 2, 3, 4, fun _ => (0, 1)⟩ (fun _ _ => 0)
      (fun _ _ => 0) (fun _ _ => 0)).data
      { pcs := List.replicate 2 Pc.start
        arrays := { mainArray := fun _ _ => 0, distanceArray := fun _ _ => 0,
                    angleArray := fun _ _ => 0, stores := [] } } []
      { pcs := List.replicate 2 Pc.start
        arrays := { mainArray := fun _ _ => 0, distanceArray := fun _ _ => 0,
                    angleArray := fun _ _ => 0, stores := [] } } := Run.refl _
  have r1 := Run.step _ _ _ _ _ r0
    (Step.thread 0 _ Pc.start (Pc.rowHead 0 1) _
      { mainArray := fun _ _ => 0, distanceArray := fun _ _ => 0, angleArray := fun _ _ => 0,
        stores := [] } hdata rfl (by simp [threadStep]))
  have r2 := Run.step _ _ _ _ _ r1
    (Step.thread 0 _ (Pc.rowHead 0 1) (Pc.cell 0 1 0) _
      { mainArray := fun _ _ => 0, distanceArray := fun _ _ => 0, angleArray := fun _ _ => 0,
        stores := [] } hdata rfl (by simp [threadStep]))
  have r3 := Run.step _ _ _ _ _ r2
    (Step.thread 0 _ (Pc.cell 0 1 0) (Pc.cell 0 1 1) _
      (cellBody 1 { mainArray := fun _ _ => 0, distanceArray := fun _ _ => 0,
                    angleArray := fun _ _ => 0, stores := [] } 0 0)
      hdata rfl (by simp [threadStep]))
  refine ⟨_, _, r3, by simp [Pc.store], ?_⟩
  exact (no_data_race 2 1 2 _ _ _ _ (by decide) (by decide) _ _ r3).2.1

end cw1Part3

/-! ## A thread that runs alone, step by step, is `processRows` -/

namespace cw1Part3

theorem run_trans (H W : Nat) (data : List ThreadData) (s s2 s3 : Config)
    (tr tr2 : List (Nat × (Int × Nat))) (h1 : Run H W data s tr s2)
    (h2 : Run H W data s2 tr2 s3) : Run H W data s (tr ++ tr2) s3 := by
  induction h2 with
  | refl =>
    rw [List.append_nil]
    exact h1
  | step s4 s5 tr3 label _ hstep ih =>
    rw [← List.append_assoc]
    exact Run.step _ _ _ _ _ ih hstep

/-- One step of the only thread of a run. -/
theorem run_single (H W : Nat) (d : ThreadData) (pc pc2 : Pc) (a a2 : Arrays)
    (h : threadStep H W d pc a = some (pc2, a2)) :
    Run H W [d] { pcs := [pc], arrays := a } ((pc.store W).map (fun c => (0, c))).toList
      { pcs := [pc2], arrays := a2 } := by
  have hs := @Step.thread H W [d] 0 d pc pc2 { pcs := [pc], arrays := a } a2 rfl rfl h
  have := Run.step _ _ _ _ _ (Run.refl { pcs := [pc], arrays := a }) hs
  simpa using this

/-- The column loop, step by step, from column `j` on. -/
theorem run_cells (H W : Nat) (d : ThreadData) (c r : Int) (n j : Nat) (a : Arrays)
    (hn : j + n = W) :
    ∃ tr : List (Nat × (Int × Nat)),
      Run H W [d] { pcs := [Pc.cell c r j], arrays := a } tr
        { pcs := [Pc.cell c r W],
          arrays := (List.range' j n).foldl (fun acc k => cellBody W acc c k) a } ∧
      ((List.range' j n).foldl (fun acc k => cellBody W acc c k) a).stores =
        a.stores ++ tr.map Prod.snd := by
  induction n generalizing j a with
  | zero =>
    have hj : j = W := by omega
    subst hj
    exact ⟨[], Run.refl _, by simp⟩
  | succ n ih =>
    have hj : j < W := by omega
    have h1 := run_single H W d (Pc.cell c r j) (Pc.cell c r (j + 1)) a (cellBody W a c j)
      (by simp [threadStep, hj])
    obtain ⟨tr, h2, h3⟩ := ih (j + 1) (cellBody W a c j) (by omega)
    refine ⟨_, run_trans H W [d] _ _ _ _ _ h1 h2, ?_⟩
    rw [List.range'_succ, List.foldl_cons, h3]
    simp [Pc.store, hj, cellBody_eq]

/-- The row loop, step by step. -/
theorem run_rows (H W : Nat) (d : ThreadData) (fuel : Nat) (c r : Int) (a : Arrays)
    (hfuel : ((H : Int) - c).toNat ≤ fuel) :
    ∃ tr : List (Nat × (Int × Nat)),
      Run H W [d] { pcs := [Pc.rowHead c r], arrays := a } tr
        { pcs := [Pc.done true], arrays := whileLoop H W fuel a c r } ∧
      (whileLoop H W fuel a c r).stores = a.stores ++ tr.map Prod.snd := by
  induction fuel generalizing c r a with
  | zero =>
    have h1 := run_single H W d (Pc.rowHead c r) (Pc.done true) a a
      (by
        have : ¬ (c < (H : Int) ∧ r ≠ 0) := by omega
        simp [threadStep, this])
    exact ⟨_, h1, by simp [whileLoop, Pc.store]⟩
  | succ fuel ih =>
    by_cases hc : c < (H : Int) ∧ r ≠ 0
    · have h1 := run_single H W d (Pc.rowHead c r) (Pc.cell c r 0) a a
        (by simp only [threadStep, if_pos hc])
      obtain ⟨tr2, h2, h2s⟩ := run_cells H W d c r W 0 a (by omega)
      rw [← List.range_eq_range'] at h2 h2s
      have h3 := run_single H W d (Pc.cell c r W) (Pc.rowHead (c + 1) (r - 1))
        (forLoop W a c) (forLoop W a c) (by simp [threadStep])
      obtain ⟨tr4, h4, h4s⟩ := ih (c + 1) (r - 1) (forLoop W a c) (by omega)
      have e : whileLoop H W (fuel + 1) a c r =
          whileLoop H W fuel (forLoop W a c) (c + 1) (r - 1) := by
        rw [whileLoop, if_pos hc]
      rw [e]
      refine ⟨_, run_trans H W [d] _ _ _ _ _
        (run_trans H W [d] _ _ _ _ _ (run_trans H W [d] _ _ _ _ _ h1 h2) h3) h4, ?_⟩
      rw [h4s]
      unfold forLoop
      rw [h2s]
      simp [Pc.store]
    · have h1 := run_single H W d (Pc.rowHead c r) (Pc.done true) a a
        (by simp only [threadStep, if_neg hc])
      have e : whileLoop H W (fuel + 1) a c r = a := by
        rw [whileLoop, if_neg hc]
      rw [e]
      exact ⟨_, h1, by simp [Pc.store]⟩

/-- A thread that takes all its steps with no other thread in between ends
where `processRows` says, having changed the matrices as `processRows` says;
its stores are those that `processRows` has appended to the log. -/
theorem run_alone (H W : Nat) (t : Int × Int) (a : Arrays) (d : ThreadData) :
    ∃ tr : List (Nat × (Int × Nat)),
      Run H W [d] { pcs := [Pc.start], arrays := a } tr
        { pcs := [Pc.done (processRows H W t a d).returned],
          arrays := (processRows H W t a d).arrays } ∧
      (processRows H W t a d).arrays.stores = a.stores ++ tr.map Prod.snd := by
  by_cases hge : d.currentRow ≥ (H : Int)
  · have h1 := run_single H W d Pc.start (Pc.done false) a a
      (by simp only [threadStep, if_pos hge])
    have e : processRows H W t a d = { arrays := a, threadData := d, returned := false } := by
      unfold processRows
      simp only [if_pos hge]
    rw [e]
    exact ⟨_, h1, by simp [Pc.store]⟩
  · have h1 := run_single H W d Pc.start (Pc.rowHead d.currentRow d.rowsToProcess) a a
      (by simp only [threadStep, if_neg hge])
    obtain ⟨tr2, h2, h2s⟩ := run_rows H W d ((H : Int) - d.currentRow).toNat d.currentRow
      d.rowsToProcess a le_rfl
    have e : processRows H W t a d =
        { arrays := whileLoop H W ((H : Int) - d.currentRow).toNat a d.currentRow
            d.rowsToProcess
          threadData := { d with timeTaken := seconds (t.2 - t.1) }, returned := true } := by
      unfold processRows
      simp only [if_neg hge]
    rw [e]
    refine ⟨_, run_trans H W [d] _ _ _ _ _ h1 h2, ?_⟩
    simp only
    rw [h2s]
    simp [Pc.store]

end cw1Part3

/-! ## The ranges of the threads stay inside the matrix -/

namespace cw1Part3

theorem whileLoop_zero_rows (H W : Nat) (fuel : Nat) (a : Arrays) (c : Int) :
    whileLoop H W fuel a c 0 = a := by
  cases fuel with
  | zero => rfl
  | succ fuel =>
    rw [whileLoop, if_neg]
    exact fun h => h.2 rfl

/-- The row loop of a thread whose `n` rows end at or before row `H`, step by
step: the loop test is reached with `rowsToProcess = 0` after `n` rows. -/
theorem run_range (H W : Nat) (d : ThreadData) (n : Nat) (fuel : Nat) (c : Int) (a : Arrays)
    (hc : c + (n : Int) ≤ (H : Int)) (hfuel : ((H : Int) - c).toNat ≤ fuel) :
    ∃ tr : List (Nat × (Int × Nat)),
      Run H W [d] { pcs := [Pc.rowHead c (n : Int)], arrays := a } tr
        { pcs := [Pc.rowHead (c + (n : Int)) 0], arrays := whileLoop H W fuel a c (n : Int) } := by
  induction n generalizing fuel c a with
  | zero =>
    rw [Nat.cast_zero, whileLoop_zero_rows, add_zero]
    exact ⟨[], Run.refl _⟩
  | succ n ih =>
    have hlt : c < (H : Int) ∧ ((n + 1 : Nat) : Int) ≠ 0 := by
      constructor
      · push_cast at hc
        omega
      · omega
    obtain ⟨fuel, rfl⟩ : ∃ f, fuel = f + 1 := ⟨fuel - 1, by omega⟩
    have h1 := run_single H W d (Pc.rowHead c ((n + 1 : Nat) : Int))
      (Pc.cell c ((n + 1 : Nat) : Int) 0) a a (by simp only [threadStep, if_pos hlt])
    obtain ⟨tr2, h2, _⟩ := run_cells H W d c ((n + 1 : Nat) : Int) W 0 a (by omega)
    rw [← List.range_eq_range'] at h2
    have h3 := run_single H W d (Pc.cell c ((n + 1 : Nat) : Int) W)
      (Pc.rowHead (c + 1) (((n + 1 : Nat) : Int) - 1))
      (forLoop W a c) (forLoop W a c) (by simp [threadStep])
    have e1 : ((n + 1 : Nat) : Int) - 1 = (n : Int) := by
      push_cast
      ring
    rw [e1] at h3
    obtain ⟨tr4, h4⟩ := ih fuel (c + 1) (forLoop W a c)
      (by push_cast at hc; omega) (by omega)
    have e : whileLoop H W (fuel + 1) a c ((n + 1 : Nat) : Int) =
        whileLoop H W fuel (forLoop W a c) (c + 1) (n : Int) := by
      rw [whileLoop, if_pos hlt, e1]
    have e2 : c + ((n + 1 : Nat) : Int) = c + 1 + (n : Int) := by
      push_cast
      ring
    rw [e, e2]
    exact ⟨_, run_trans H W [d] _ _ _ _ _
      (run_trans H W [d] _ _ _ _ _ (run_trans H W [d] _ _ _ _ _ h1 h2) h3) h4⟩

/-- C21, partitions stay in bounds.  In a run of `main` of cw1Part3 with
`1 ≤ N ≤ H` there are `N` workers, the run returns `0`, and every worker `k`
with its `data[k] = d` has `0 ≤ d.currentRow`, `1 ≤ d.rowsToProcess` and
`d.currentRow + d.rowsToProcess ≤ H`.  Hence `processRows` on `d`, from any
state of the matrices, does not take its out of bounds branch (it ends with
`return`), stores exactly the cells of the `d.rowsToProcess` rows from
`d.currentRow` on, and taken step by step reaches the test of its `while`
loop with `rowsToProcess = 0` at row `d.currentRow + d.rowsToProcess`: the
loop is left because the range is exhausted, not because `currentRow` has
reached `ARRAY_HEIGHT` before.  In the run of `main` itself worker `k` has
stored exactly those cells. -/
theorem partitions_in_bounds (H W N : Nat) (clk : Clock) (m d0 a0 : Matrix)
    (h1 : 1 ≤ N) (hN : N ≤ H) (k : Nat) (d : ThreadData)
    (hk : (main H W N clk m d0 a0).data[k]? = some d) :
    (main H W N clk m d0 a0).data.length = N ∧
    (main H W N clk m d0 a0).termination = Termination.exit 0 ∧
    0 ≤ d.currentRow ∧ 1 ≤ d.rowsToProcess ∧ d.currentRow + d.rowsToProcess ≤ (H : Int) ∧
    (∀ (t : Int × Int) (a : Arrays),
      (processRows H W t a d).returned = true ∧
      (processRows H W t a d).arrays.stores =
        a.stores ++ rowCells W d.currentRow d.rowsToProcess.toNat ∧
      ∃ tr : List (Nat × (Int × Nat)),
        Run H W [d] { pcs := [Pc.start], arrays := a } tr
          { pcs := [Pc.rowHead (d.currentRow + d.rowsToProcess) 0],
            arrays := (processRows H W t a d).arrays }) ∧
    (threadStores H W clk.thread 0 (main H W N clk m d0 a0).data
      { mainArray := m, distanceArray := d0, angleArray := a0, stores := [] })[k]? =
      some (rowCells W d.currentRow d.rowsToProcess.toNat) := by
  rw [main_data H W N clk m d0 a0 h1 hN] at hk ⊢
  have hmem : d ∈ threadData H N := List.getElem?_mem hk
  have hpos := threadData_pos H N h1 hN d hmem
  obtain ⟨h0, hle⟩ := threadData_lt H N h1 hN d hmem
  have hnn : ∀ d ∈ threadData H N, 0 ≤ d.rowsToProcess :=
    fun d hd => (threadData_pos H N h1 hN d hd).le
  have hmin : min d.rowsToProcess ((H : Int) - d.currentRow) = d.rowsToProcess := by
    omega
  refine ⟨threadData_length H N, (parallel_main_spec H W N clk m d0 a0 h1 hN).1, h0,
    by omega, hle, fun t a => ⟨?_, ?_, ?_⟩, ?_⟩
  · exact (processRows_returned H W t a d).2 (by omega)
  · have := (processRows_spec H W t a d hpos.le).2.2.2
    rw [hmin] at this
    exact this
  · have hge : ¬ d.currentRow ≥ (H : Int) := by omega
    have s1 := run_single H W d Pc.start (Pc.rowHead d.currentRow d.rowsToProcess) a a
      (by simp only [threadStep, if_neg hge])
    have er : ((d.rowsToProcess.toNat : Nat) : Int) = d.rowsToProcess := by omega
    obtain ⟨tr2, s2⟩ := run_range H W d d.rowsToProcess.toNat
      ((H : Int) - d.currentRow).toNat d.currentRow a (by omega) le_rfl
    rw [er] at s2
    have e : (processRows H W t a d).arrays =
        whileLoop H W ((H : Int) - d.currentRow).toNat a d.currentRow d.rowsToProcess := by
      unfold processRows
      simp only [if_neg hge]
    rw [e]
    exact ⟨_, run_trans H W [d] _ _ _ _ _ s1 s2⟩
  · rw [threadStores_eq H W clk.thread (threadData H N) 0 _ hnn, List.getElem?_map, hk,
      Option.map_some', hmin]

/-- Five rows on two threads: worker `1` has the rows `3` and `4`. -/
theorem partitions_in_bounds_witness :
    (main 5 2 2 ⟨0, 0, 0, 0, 0, fun _ => (0, 0)⟩ (fun _ _ => 0) (fun _ _ => 0)
      (fun _ _ => 0)).data[1]? = some { currentRow := 3, rowsToProcess := 2, timeTaken := 0 } ∧
    (∀ (t : Int × Int) (a : Arrays),
      (processRows 5 2 t a { currentRow := 3, rowsToProcess := 2, timeTaken := 0 }).returned
        = true ∧
      (processRows 5 2 t a { currentRow := 3, rowsToProcess := 2, timeTaken := 0 }).arrays.stores
        = a.stores ++ [(3, 0), (3, 1), (4, 0), (4, 1)]) := by
  have hk : (main 5 2 2 ⟨0, 0, 0, 0, 0, fun _ => (0, 0)⟩ (fun _ _ => 0) (fun _ _ => 0)
      (fun _ _ => 0)).data[1]? = some { currentRow := 3, rowsToProcess := 2, timeTaken := 0 } := by
    rw [main_data 5 2 2 _ _ _ _ (by decide) (by decide)]
    decide
  have h := partitions_in_bounds 5 2 2 ⟨0, 0, 0, 0, 0, fun _ => (0, 0)⟩ (fun _ _ => 0)
    (fun _ _ => 0) (fun _ _ => 0) (by decide) (by decide) 1
    { currentRow := 3, rowsToProcess := 2, timeTaken := 0 } hk
  refine ⟨hk, fun t a => ⟨(h.2.2.2.2.2.1 t a).1, ?_⟩⟩
  have hs := (h.2.2.2.2.2.1 t a).2.1
  rw [hs]
  rfl

end cw1Part3

/-! ## The driver loop of cw1Part2 terminates -/

namespace cw1Part2

end cw1Part2

/-! ## The driver loop of cw1Part2 on machine integers -/

namespace Machine

namespace cw1Part2

end cw1Part2

end Machine

namespace Machine

namespace cw1Part2

end cw1Part2

end Machine

namespace cw1Part2

end cw1Part2

/-! ## Rounding to the nearest integer, ties to even -/

theorem roundEven_spec (y : ℝ) :
    |(roundEven y : ℝ) - y| ≤ 1 / 2 ∧ (|(roundEven y : ℝ) - y| = 1 / 2 → roundEven y % 2 = 0) := by
  have h1 := Int.floor_le y
  have h2 := Int.lt_floor_add_one y
  unfold roundEven
  split_ifs with c1 c2 c3
  · constructor
    · rw [abs_le]
      constructor <;> linarith
    · intro h
      rw [abs_sub_comm, abs_of_nonneg (by linarith)] at h
      linarith
  · constructor
    · rw [abs_le]
      push_cast
      constructor <;> linarith
    · intro h
      push_cast at h
      rw [abs_of_nonneg (by linarith)] at h
      linarith
  · constructor
    · rw [abs_le]
      constructor <;> linarith
    · intro _
      exact c3
  · constructor
    · rw [abs_le]
      push_cast
      constructor <;> linarith
    · intro _
      omega

theorem roundEven_unique (y : ℝ) (n : Int) (h1 : |(n : ℝ) - y| ≤ 1 / 2)
    (h2 : |(n : ℝ) - y| = 1 / 2 → n % 2 = 0) : roundEven y = n := by
  obtain ⟨s1, s2⟩ := roundEven_spec y
  rw [abs_le] at h1 s1
  have hle : roundEven y ≤ n + 1 := by
    have : (roundEven y : ℝ) < ((n + 1 + 1 : Int) : ℝ) := by
      push_cast
      linarith
    have := Int.cast_lt.1 this
    omega
  have hge : n ≤ roundEven y + 1 := by
    have : (n : ℝ) < ((roundEven y + 1 + 1 : Int) : ℝ) := by
      push_cast
      linarith
    have := Int.cast_lt.1 this
    omega
  by_contra hne
  rcases Int.lt_or_gt_of_ne hne with hlt | hgt
  · have e : n = roundEven y + 1 := by omega
    have e2 : (n : ℝ) = (roundEven y : ℝ) + 1 := by
      rw [e]
      push_cast
      rfl
    have a1 : |(n : ℝ) - y| = 1 / 2 := by
      rw [abs_of_nonneg (by linarith)]
      linarith
    have a2 : |(roundEven y : ℝ) - y| = 1 / 2 := by
      rw [abs_sub_comm, abs_of_nonneg (by linarith)]
      linarith
    have := h2 a1
    have := s2 a2
    omega
  · have e : roundEven y = n + 1 := by omega
    have e2 : (roundEven y : ℝ) = (n : ℝ) + 1 := by
      rw [e]
      push_cast
      rfl
    have a1 : |(n : ℝ) - y| = 1 / 2 := by
      rw [abs_sub_comm, abs_of_nonneg (by linarith)]
      linarith
    have a2 : |(roundEven y : ℝ) - y| = 1 / 2 := by
      rw [abs_of_nonneg (by linarith)]
      linarith
    have := h2 a1
    have := s2 a2
    omega

theorem roundEven_intCast (n : Int) : roundEven (n : ℝ) = n :=
  roundEven_unique _ n (by simp) (by simp)

theorem roundEven_neg (y : ℝ) : roundEven (-y) = -roundEven y := by
  obtain ⟨s1, s2⟩ := roundEven_spec y
  apply roundEven_unique
  · have : ((-roundEven y : Int) : ℝ) - -y = -((roundEven y : ℝ) - y) := by
      push_cast
      ring
    rw [this, abs_neg]
    exact s1
  · intro h
    have : ((-roundEven y : Int) : ℝ) - -y = -((roundEven y : ℝ) - y) := by
      push_cast
      ring
    rw [this, abs_neg] at h
    have := s2 h
    omega

theorem roundEven_mono (y z : ℝ) (h : y ≤ z) : roundEven y ≤ roundEven z := by
  obtain ⟨s1, s2⟩ := roundEven_spec y
  obtain ⟨t1, t2⟩ := roundEven_spec z
  rw [abs_le] at s1 t1
  have hle : roundEven y ≤ roundEven z + 1 := by
    have : (roundEven y : ℝ) < ((roundEven z + 1 + 1 : Int) : ℝ) := by
      push_cast
      linarith
    have := Int.cast_lt.1 this
    omega
  by_contra hlt
  have e : roundEven y = roundEven z + 1 := by omega
  have e2 : (roundEven y : ℝ) = (roundEven z : ℝ) + 1 := by
    rw [e]
    push_cast
    rfl
  have hyz : y = z := by linarith
  rw [hyz] at e
  omega

theorem roundEven_le (y : ℝ) (n : Int) (h : y ≤ (n : ℝ)) : roundEven y ≤ n := by
  have := roundEven_mono y n h
  rwa [roundEven_intCast] at this

theorem le_roundEven (y : ℝ) (n : Int) (h : (n : ℝ) ≤ y) : n ≤ roundEven y := by
  have := roundEven_mono n y h
  rwa [roundEven_intCast] at this

/-- The nearest integer of a real that is less than `1 / 2` away from `n`. -/
theorem roundEven_near (y : ℝ) (n : Int) (h1 : (n : ℝ) - 1 / 2 < y) (h2 : y < (n : ℝ) + 1 / 2) :
    roundEven y = n := by
  apply roundEven_unique
  · rw [abs_le]
    constructor <;> linarith
  · intro h
    exfalso
    rcases abs_cases ((n : ℝ) - y) with ⟨e, _⟩ | ⟨e, _⟩ <;> rw [e] at h <;> linarith

/-! ## Rounding to a floating-point format -/

namespace FloatFormat

theorem two_zpow_pos (k : Int) : (0 : ℝ) < (2 : ℝ) ^ k :=
  zpow_pos (by norm_num) k

theorem two_zpow_le (j k : Int) (h : j ≤ k) : (2 : ℝ) ^ j ≤ (2 : ℝ) ^ k :=
  zpow_le_zpow_right₀ (by norm_num) h

theorem two_zpow_lt (j k : Int) (h : j < k) : (2 : ℝ) ^ j < (2 : ℝ) ^ k :=
  zpow_lt_zpow_right₀ (by norm_num) h

/-- The binade of a real other than zero. -/
theorem log_bounds (x : ℝ) (hx : x ≠ 0) :
    (2 : ℝ) ^ Int.log 2 |x| ≤ |x| ∧ |x| < (2 : ℝ) ^ (Int.log 2 |x| + 1) := by
  have h0 : 0 < |x| := abs_pos.2 hx
  have h1 := @Int.zpow_log_le_self ℝ _ _ 2 |x| (by norm_num) h0
  have h2 := @Int.lt_zpow_succ_log_self ℝ _ _ 2 (by norm_num) |x|
  simp only [Nat.cast_ofNat] at h1 h2
  exact ⟨h1, h2⟩

theorem log_eq_of_bounds (x : ℝ) (n : Int) (h1 : (2 : ℝ) ^ n ≤ |x|)
    (h2 : |x| < (2 : ℝ) ^ (n + 1)) : Int.log 2 |x| = n := by
  have h0 : 0 < |x| := lt_of_lt_of_le (two_zpow_pos n) h1
  have a := (@Int.zpow_le_iff_le_log ℝ _ _ 2 (by norm_num) n |x| h0).1
    (by simpa only [Nat.cast_ofNat] using h1)
  have b := (@Int.lt_zpow_iff_log_lt ℝ _ _ 2 (by norm_num) (n + 1) |x| h0).1
    (by simpa only [Nat.cast_ofNat] using h2)
  omega

theorem ulpExp_neg (f : FloatFormat) (x : ℝ) : f.ulpExp (-x) = f.ulpExp x := by
  unfold ulpExp
  rw [abs_neg]

theorem ulpExp_ge (f : FloatFormat) (x : ℝ) : f.emin - ((f.prec : Int) - 1) ≤ f.ulpExp x := by
  unfold ulpExp
  have := le_max_right (Int.log 2 |x|) f.emin
  omega

theorem ulpExp_of_bounds (f : FloatFormat) (x : ℝ) (n : Int) (h1 : (2 : ℝ) ^ n ≤ |x|)
    (h2 : |x| < (2 : ℝ) ^ (n + 1)) (hn : f.emin ≤ n) :
    f.ulpExp x = n - ((f.prec : Int) - 1) := by
  unfold ulpExp
  rw [log_eq_of_bounds x n h1 h2, max_eq_left hn]

theorem ulpExp_of_small (f : FloatFormat) (x : ℝ) (hx : x ≠ 0) (h : |x| < (2 : ℝ) ^ f.emin) :
    f.ulpExp x = f.emin - ((f.prec : Int) - 1) := by
  unfold ulpExp
  rw [max_eq_right]
  have := (log_bounds x hx).1
  by_contra hc
  have := two_zpow_le f.emin (Int.log 2 |x|) (by omega)
  linarith

theorem ulpExp_mono (f : FloatFormat) (x y : ℝ) (hx : x ≠ 0) (h : |x| ≤ |y|) :
    f.ulpExp x ≤ f.ulpExp y := by
  unfold ulpExp
  have := @Int.log_mono_right ℝ _ _ 2 |x| |y| (abs_pos.2 hx) h
  have := max_le_max_right f.emin this
  omega

/-- A real is below the end of the range that its unit in the last place
belongs to. -/
theorem abs_lt_zpow (f : FloatFormat) (x : ℝ) :
    |x| < (2 : ℝ) ^ (f.ulpExp x + (f.prec : Int)) := by
  rcases eq_or_ne x 0 with rfl | hx
  · rw [abs_zero]
    exact two_zpow_pos _
  · refine lt_of_lt_of_le (log_bounds x hx).2 (two_zpow_le _ _ ?_)
    unfold ulpExp
    have := le_max_left (Int.log 2 |x|) f.emin
    omega

/-- A normal number is at least the start of its binade. -/
theorem zpow_le_abs (f : FloatFormat) (x : ℝ) (h : (2 : ℝ) ^ f.emin ≤ |x|) :
    (2 : ℝ) ^ (f.ulpExp x + (f.prec : Int) - 1) ≤ |x| := by
  have hx : x ≠ 0 := by
    intro h0
    rw [h0, abs_zero] at h
    have := two_zpow_pos f.emin
    linarith
  have hl : f.emin ≤ Int.log 2 |x| := by
    have := (@Int.zpow_le_iff_le_log ℝ _ _ 2 (by norm_num) f.emin |x| (abs_pos.2 hx)).1
      (by simpa only [Nat.cast_ofNat] using h)
    exact this
  have e : f.ulpExp x + (f.prec : Int) - 1 = Int.log 2 |x| := by
    unfold ulpExp
    rw [max_eq_left hl]
    ring
  rw [e]
  exact (log_bounds x hx).1

theorem roundReal_zero (f : FloatFormat) : f.roundReal 0 = 0 := by
  unfold roundReal
  rw [zero_div]
  have := roundEven_intCast 0
  rw [Int.cast_zero] at this
  rw [this, Int.cast_zero, zero_mul]

theorem roundReal_neg (f : FloatFormat) (x : ℝ) : f.roundReal (-x) = -f.roundReal x := by
  unfold roundReal
  rw [ulpExp_neg, neg_div, roundEven_neg]
  push_cast
  ring

/-- The rounding error is at most half a unit in the last place. -/
theorem abs_roundReal_sub_le (f : FloatFormat) (x : ℝ) :
    |f.roundReal x - x| ≤ (2 : ℝ) ^ f.ulpExp x / 2 := by
  have hp := two_zpow_pos (f.ulpExp x)
  have e : f.roundReal x - x =
      ((roundEven (x / (2 : ℝ) ^ f.ulpExp x) : ℝ) - x / (2 : ℝ) ^ f.ulpExp x) *
        (2 : ℝ) ^ f.ulpExp x := by
    unfold roundReal
    field_simp
  rw [e, abs_mul, abs_of_pos hp]
  have := (roundEven_spec (x / (2 : ℝ) ^ f.ulpExp x)).1
  nlinarith

/-- A number `m * 2 ^ k` whose significand `m` has at most `prec` bits and
whose exponent `k` is not below that of the subnormal numbers is a number of
the format: rounding leaves it as it is. -/
theorem roundReal_scaled (f : FloatFormat) (m k : Int)
    (hm : |(m : ℝ)| < (2 : ℝ) ^ f.prec) (hk : f.emin - ((f.prec : Int) - 1) ≤ k) :
    f.roundReal ((m : ℝ) * (2 : ℝ) ^ k) = (m : ℝ) * (2 : ℝ) ^ k := by
  rcases eq_or_ne m 0 with rfl | hm0
  · rw [Int.cast_zero, zero_mul]
    exact roundReal_zero f
  have hx : (m : ℝ) * (2 : ℝ) ^ k ≠ 0 :=
    mul_ne_zero (Int.cast_ne_zero.2 hm0) (two_zpow_pos k).ne'
  have hlt : |(m : ℝ) * (2 : ℝ) ^ k| < (2 : ℝ) ^ ((f.prec : Int) + k) := by
    rw [abs_mul, abs_of_pos (two_zpow_pos k), zpow_add₀ (by norm_num), zpow_natCast]
    exact mul_lt_mul_of_pos_right hm (two_zpow_pos k)
  have hlog : Int.log 2 |(m : ℝ) * (2 : ℝ) ^ k| < (f.prec : Int) + k := by
    have := lt_of_le_of_lt (log_bounds _ hx).1 hlt
    exact (zpow_lt_zpow_iff_right₀ (by norm_num : (1 : ℝ) < 2)).1 this
  have hu : f.ulpExp ((m : ℝ) * (2 : ℝ) ^ k) ≤ k := by
    unfold ulpExp
    have := max_le (by omega : Int.log 2 |(m : ℝ) * (2 : ℝ) ^ k| ≤ k + ((f.prec : Int) - 1))
      (by omega : f.emin ≤ k + ((f.prec : Int) - 1))
    omega
  unfold roundReal
  generalize f.ulpExp ((m : ℝ) * (2 : ℝ) ^ k) = u at hu
  obtain ⟨d, hd⟩ : ∃ d : Nat, k = u + (d : Int) := ⟨(k - u).toNat, by omega⟩
  have e : (m : ℝ) * (2 : ℝ) ^ k / (2 : ℝ) ^ u = ((m * 2 ^ d : Int) : ℝ) := by
    rw [hd, zpow_add₀ (by norm_num), zpow_natCast]
    push_cast
    field_simp
    ring
  rw [e, roundEven_intCast, hd, zpow_add₀ (by norm_num), zpow_natCast]
  push_cast
  ring

/-- The rounded value stays within the range that the unit in the last place
belongs to. -/
theorem abs_roundReal_le (f : FloatFormat) (x : ℝ) :
    |f.roundReal x| ≤ (2 : ℝ) ^ (f.ulpExp x + (f.prec : Int)) := by
  have hp := two_zpow_pos (f.ulpExp x)
  have hlt := abs_lt_zpow f x
  rw [zpow_add₀ (by norm_num), zpow_natCast] at hlt ⊢
  have hy : |x / (2 : ℝ) ^ f.ulpExp x| < (2 : ℝ) ^ f.prec := by
    rw [abs_div, abs_of_pos hp, div_lt_iff₀ hp]
    linarith
  rw [abs_lt] at hy
  have h1 : roundEven (x / (2 : ℝ) ^ f.ulpExp x) ≤ (2 ^ f.prec : Int) :=
    roundEven_le _ _ (by push_cast; linarith)
  have h2 : -(2 ^ f.prec : Int) ≤ roundEven (x / (2 : ℝ) ^ f.ulpExp x) :=
    le_roundEven _ _ (by push_cast; linarith)
  have h3 : |(roundEven (x / (2 : ℝ) ^ f.ulpExp x) : ℝ)| ≤ (2 : ℝ) ^ f.prec := by
    rw [abs_le]
    constructor
    · have := (Int.cast_le (R := ℝ)).2 h2
      push_cast at this
      linarith
    · have := (Int.cast_le (R := ℝ)).2 h1
      push_cast at this
      linarith
  unfold roundReal
  rw [abs_mul, abs_of_pos hp, mul_comm ((2 : ℝ) ^ f.ulpExp x)]
  exact mul_le_mul_of_nonneg_right h3 hp.le

/-- A rounded value is a number of the format. -/
theorem roundReal_idem (f : FloatFormat) (hp : 1 ≤ f.prec) (x : ℝ) :
    f.roundReal (f.roundReal x) = f.roundReal x := by
  have hle := abs_roundReal_le f x
  have hpos := two_zpow_pos (f.ulpExp x)
  have hval : f.roundReal x =
      (roundEven (x / (2 : ℝ) ^ f.ulpExp x) : ℝ) * (2 : ℝ) ^ f.ulpExp x := rfl
  rw [hval, abs_mul, abs_of_pos hpos, zpow_add₀ (by norm_num), zpow_natCast,
    mul_comm ((2 : ℝ) ^ f.ulpExp x)] at hle
  have hn : |(roundEven (x / (2 : ℝ) ^ f.ulpExp x) : ℝ)| ≤ (2 : ℝ) ^ f.prec :=
    le_of_mul_le_mul_right hle hpos
  rcases lt_or_eq_of_le hn with hlt | heq
  · rw [hval]
    exact roundReal_scaled f _ _ hlt (ulpExp_ge f x)
  · obtain ⟨q, hq⟩ : ∃ q : Nat, f.prec = q + 1 := ⟨f.prec - 1, by omega⟩
    have key : ∀ s : Int, (s = 1 ∨ s = -1) →
        (s : ℝ) * (2 : ℝ) ^ f.prec * (2 : ℝ) ^ f.ulpExp x =
          ((s * 2 ^ q : Int) : ℝ) * (2 : ℝ) ^ (f.ulpExp x + 1) := by
      intro s _
      rw [hq, zpow_add₀ (by norm_num)]
      push_cast
      ring
    have hq2 : ∀ s : Int, (s = 1 ∨ s = -1) → |((s * 2 ^ q : Int) : ℝ)| < (2 : ℝ) ^ f.prec := by
      intro s hs
      push_cast
      rw [abs_mul, abs_of_pos (by positivity : (0 : ℝ) < 2 ^ q), hq, pow_succ]
      have : |(s : ℝ)| = 1 := by
        rcases hs with rfl | rfl <;> simp
      rw [this]
      have : (0 : ℝ) < 2 ^ q := by positivity
      linarith
    have hk := ulpExp_ge f x
    rcases abs_cases (roundEven (x / (2 : ℝ) ^ f.ulpExp x) : ℝ) with ⟨e, _⟩ | ⟨e, _⟩
    · rw [e] at heq
      rw [hval, heq]
      have := key 1 (Or.inl rfl)
      rw [Int.cast_one, one_mul] at this
      rw [this]
      exact roundReal_scaled f _ _ (hq2 1 (Or.inl rfl)) (by omega)
    · rw [e] at heq
      have heq2 : (roundEven (x / (2 : ℝ) ^ f.ulpExp x) : ℝ) = -(2 : ℝ) ^ f.prec := by
        linarith
      rw [hval, heq2]
      have := key (-1) (Or.inr rfl)
      rw [Int.cast_neg, Int.cast_one, neg_one_mul] at this
      rw [this]
      exact roundReal_scaled f _ _ (hq2 (-1) (Or.inr rfl)) (by omega)

theorem roundReal_nonneg (f : FloatFormat) (x : ℝ) (hx : 0 ≤ x) : 0 ≤ f.roundReal x := by
  unfold roundReal
  have hp := two_zpow_pos (f.ulpExp x)
  have : (0 : Int) ≤ roundEven (x / (2 : ℝ) ^ f.ulpExp x) :=
    le_roundEven _ 0 (by rw [Int.cast_zero]; exact div_nonneg hx hp.le)
  have := (Int.cast_le (R := ℝ)).2 this
  rw [Int.cast_zero] at this
  exact mul_nonneg this hp.le

theorem roundReal_nonpos (f : FloatFormat) (x : ℝ) (hx : x ≤ 0) : f.roundReal x ≤ 0 := by
  have := roundReal_nonneg f (-x) (by linarith)
  rw [roundReal_neg] at this
  linarith

/-- A rounded normal number is at least the start of the binade of the
number. -/
theorem zpow_le_roundReal (f : FloatFormat) (hp : 1 ≤ f.prec) (x : ℝ) (hx : 0 < x)
    (h : (2 : ℝ) ^ f.emin ≤ x) :
    (2 : ℝ) ^ (f.ulpExp x + (f.prec : Int) - 1) ≤ f.roundReal x := by
  have hpos := two_zpow_pos (f.ulpExp x)
  have hb := zpow_le_abs f x (by rwa [abs_of_pos hx])
  rw [abs_of_pos hx] at hb
  obtain ⟨q, hq⟩ : ∃ q : Nat, f.prec = q + 1 := ⟨f.prec - 1, by omega⟩
  have e : (2 : ℝ) ^ (f.ulpExp x + (f.prec : Int) - 1) =
      ((2 ^ q : Int) : ℝ) * (2 : ℝ) ^ f.ulpExp x := by
    rw [hq]
    push_cast
    rw [show f.ulpExp x + ((q : Int) + 1) - 1 = (q : Int) + f.ulpExp x by ring,
      zpow_add₀ (by norm_num), zpow_natCast]
  rw [e] at hb ⊢
  have : (2 ^ q : Int) ≤ roundEven (x / (2 : ℝ) ^ f.ulpExp x) :=
    le_roundEven _ _ (by rw [le_div_iff₀ hpos]; exact hb)
  have := (Int.cast_le (R := ℝ)).2 this
  unfold roundReal
  exact mul_le_mul_of_nonneg_right this hpos.le

theorem roundReal_mono_pos (f : FloatFormat) (hp : 1 ≤ f.prec) (x y : ℝ) (hx : 0 < x)
    (h : x ≤ y) : f.roundReal x ≤ f.roundReal y := by
  have hy : 0 < y := lt_of_lt_of_le hx h
  have hu := ulpExp_mono f x y hx.ne' (by rwa [abs_of_pos hx, abs_of_pos hy])
  rcases eq_or_lt_of_le hu with he | hlt
  · unfold roundReal
    rw [he]
    have hpos := two_zpow_pos (f.ulpExp y)
    have := roundEven_mono (x / (2 : ℝ) ^ f.ulpExp y) (y / (2 : ℝ) ^ f.ulpExp y)
      (div_le_div_of_nonneg_right h hpos.le)
    have := (Int.cast_le (R := ℝ)).2 this
    exact mul_le_mul_of_nonneg_right this hpos.le
  · have h1 := abs_roundReal_le f x
    rw [abs_of_nonneg (roundReal_nonneg f x hx.le)] at h1
    have hnormal : (2 : ℝ) ^ f.emin ≤ y := by
      by_contra hc
      push_neg at hc
      have := ulpExp_of_small f y hy.ne' (by rwa [abs_of_pos hy])
      have := ulpExp_ge f x
      omega
    have h2 := zpow_le_roundReal f hp y hy hnormal
    have h3 := two_zpow_le (f.ulpExp x + (f.prec : Int)) (f.ulpExp y + (f.prec : Int) - 1)
      (by omega)
    linarith

/-- Rounding is monotone. -/
theorem roundReal_mono (f : FloatFormat) (hp : 1 ≤ f.prec) (x y : ℝ) (h : x ≤ y) :
    f.roundReal x ≤ f.roundReal y := by
  rcases lt_trichotomy 0 x with hx | hx | hx
  · exact roundReal_mono_pos f hp x y hx h
  · rw [← hx, roundReal_zero]
    exact roundReal_nonneg f y (by linarith)
  · rcases le_or_lt 0 y with hy | hy
    · exact le_trans (roundReal_nonpos f x hx.le) (roundReal_nonneg f y hy)
    · have := roundReal_mono_pos f hp (-y) (-x) (by linarith) (by linarith)
      rw [roundReal_neg, roundReal_neg] at this
      linarith

/-- The relative rounding error of a normal number is at most `2 ^ (-prec)`. -/
theorem abs_roundReal_sub_le_mul (f : FloatFormat) (x : ℝ) (h : (2 : ℝ) ^ f.emin ≤ |x|) :
    |f.roundReal x - x| ≤ (2 : ℝ) ^ (-(f.prec : Int)) * |x| := by
  have h1 := abs_roundReal_sub_le f x
  have h2 := zpow_le_abs f x h
  have e : (2 : ℝ) ^ f.ulpExp x / 2 =
      (2 : ℝ) ^ (-(f.prec : Int)) * (2 : ℝ) ^ (f.ulpExp x + (f.prec : Int) - 1) := by
    rw [← zpow_add₀ (by norm_num : (2 : ℝ) ≠ 0),
      show -(f.prec : Int) + (f.ulpExp x + (f.prec : Int) - 1) = f.ulpExp x - 1 by ring,
      zpow_sub_one₀ (by norm_num : (2 : ℝ) ≠ 0)]
    ring
  rw [e] at h1
  exact le_trans h1 (mul_le_mul_of_nonneg_left h2 (two_zpow_pos _).le)

/-- The absolute rounding error of a number below the normal range. -/
theorem abs_roundReal_sub_le_small (f : FloatFormat) (x : ℝ) (h : |x| < (2 : ℝ) ^ f.emin) :
    |f.roundReal x - x| ≤ (2 : ℝ) ^ (f.emin - (f.prec : Int)) := by
  rcases eq_or_ne x 0 with rfl | hx
  · rw [roundReal_zero, sub_zero, abs_zero]
    exact (two_zpow_pos _).le
  · have h1 := abs_roundReal_sub_le f x
    rw [ulpExp_of_small f x hx h] at h1
    have e : (2 : ℝ) ^ (f.emin - ((f.prec : Int) - 1)) / 2 = (2 : ℝ) ^ (f.emin - (f.prec : Int)) := by
      rw [show f.emin - (f.prec : Int) = f.emin - ((f.prec : Int) - 1) - 1 by ring,
        zpow_sub_one₀ (by norm_num : (2 : ℝ) ≠ 0)]
      ring
    rwa [e] at h1

end FloatFormat

/-! ## The operations on floating-point data -/

namespace Fp

theorem neg_neg (a : Fp) : neg (neg a) = a := by
  cases a with
  | finite x => simp [neg]
  | infinite s => simp [neg]
  | nan => rfl

end Fp

namespace FloatFormat

theorem maxFinite_eq (f : FloatFormat) :
    f.maxFinite = ((2 ^ f.prec - 1 : Int) : ℝ) * (2 : ℝ) ^ (f.emax - ((f.prec : Int) - 1)) := by
  unfold maxFinite
  push_cast
  rfl

theorem maxFinite_nonneg (f : FloatFormat) : 0 ≤ f.maxFinite := by
  unfold maxFinite
  have : (1 : ℝ) ≤ 2 ^ f.prec := one_le_pow₀ (by norm_num)
  exact mul_nonneg (by linarith) (two_zpow_pos _).le

/-- The largest finite number is a number of the format. -/
theorem roundReal_maxFinite (f : FloatFormat) (he : f.emin ≤ f.emax) :
    f.roundReal f.maxFinite = f.maxFinite := by
  rw [maxFinite_eq]
  apply roundReal_scaled
  · push_cast
    have : (1 : ℝ) ≤ 2 ^ f.prec := one_le_pow₀ (by norm_num)
    rw [abs_of_nonneg (by linarith)]
    linarith
  · omega

/-- An operation whose exact value is not beyond the largest finite number
returns that value, rounded. -/
theorem round_of_abs_le (f : FloatFormat) (hp : 1 ≤ f.prec) (he : f.emin ≤ f.emax) (x : ℝ)
    (h : |x| ≤ f.maxFinite) : f.round x = Fp.finite (f.roundReal x) := by
  unfold round
  rw [if_pos]
  rw [abs_le] at h ⊢
  constructor
  · have := roundReal_mono f hp _ _ h.1
    rwa [roundReal_neg, roundReal_maxFinite f he] at this
  · have := roundReal_mono f hp _ _ h.2
    rwa [roundReal_maxFinite f he] at this

theorem round_zero (f : FloatFormat) : f.round 0 = Fp.finite 0 := by
  unfold round
  rw [roundReal_zero, abs_zero, if_pos (maxFinite_nonneg f)]

theorem round_neg (f : FloatFormat) (x : ℝ) : f.round (-x) = Fp.neg (f.round x) := by
  unfold round
  rw [roundReal_neg, abs_neg]
  by_cases h : |f.roundReal x| ≤ f.maxFinite
  · rw [if_pos h, if_pos h]
    rfl
  · rw [if_neg h, if_neg h]
    have hx : x ≠ 0 := by
      intro h0
      rw [h0, roundReal_zero, abs_zero] at h
      exact h (maxFinite_nonneg f)
    show Fp.infinite (decide (-x < 0)) = Fp.infinite (!decide (x < 0))
    congr 1
    rcases lt_or_gt_of_ne hx with h1 | h1
    · have h2 : ¬ (-x < 0) := by linarith
      simp [h1, h2]
    · have h2 : ¬ (x < 0) := by linarith
      have h3 : -x < 0 := by linarith
      simp [h2, h3]

theorem convert_neg (f : FloatFormat) (a : Fp) : f.convert (Fp.neg a) = Fp.neg (f.convert a) := by
  cases a with
  | finite x => exact round_neg f x
  | infinite s => rfl
  | nan => rfl

theorem sub_swap (f : FloatFormat) (a b : Fp) : f.sub a b = Fp.neg (f.sub b a) := by
  cases a with
  | finite x =>
    cases b with
    | finite y =>
      show f.round (x - y) = Fp.neg (f.round (y - x))
      rw [← round_neg, neg_sub]
    | infinite t => simp [sub, Fp.neg]
    | nan => rfl
  | infinite s =>
    cases b with
    | finite y => simp [sub, Fp.neg]
    | infinite t =>
      simp only [sub]
      cases s <;> cases t <;> simp [Fp.neg]
    | nan => rfl
  | nan =>
    cases b <;> rfl

theorem mul_neg_neg (f : FloatFormat) (a : Fp) : f.mul (Fp.neg a) (Fp.neg a) = f.mul a a := by
  cases a with
  | finite x =>
    show f.round (-x * -x) = f.round (x * x)
    rw [neg_mul_neg]
  | infinite s => cases s <;> rfl
  | nan => rfl

theorem decide_neg_lt (x : ℝ) (hx : x ≠ 0) : decide (-x < 0) = !decide (x < 0) := by
  rcases lt_or_gt_of_ne hx with h1 | h1
  · have h2 : ¬ (-x < 0) := by linarith
    simp [h1, h2]
  · have h2 : ¬ (x < 0) := by linarith
    have h3 : -x < 0 := by linarith
    simp [h2, h3]

theorem mul_neg_right (f : FloatFormat) (a b : Fp) :
    f.mul a (Fp.neg b) = Fp.neg (f.mul a b) := by
  cases a with
  | finite x =>
    cases b with
    | finite y =>
      show f.round (x * -y) = Fp.neg (f.round (x * y))
      rw [mul_neg, round_neg]
    | infinite t =>
      simp only [mul, Fp.neg]
      by_cases hx : x = 0
      · simp [hx, Fp.neg]
      · simp only [if_neg hx, Fp.neg]
        cases t <;> cases decide (x < 0) <;> rfl
    | nan => rfl
  | infinite s =>
    cases b with
    | finite y =>
      simp only [mul, Fp.neg, neg_eq_zero]
      by_cases hy : y = 0
      · simp [hy, Fp.neg]
      · simp only [if_neg hy, Fp.neg, decide_neg_lt y hy]
        cases s <;> cases decide (y < 0) <;> rfl
    | infinite t => cases s <;> cases t <;> rfl
    | nan => rfl
  | nan => cases b <;> rfl

theorem div_neg_left (f : FloatFormat) (a b : Fp) :
    f.div (Fp.neg a) b = Fp.neg (f.div a b) := by
  cases a with
  | finite x =>
    cases b with
    | finite y =>
      show f.div (Fp.finite (-x)) (Fp.finite y) = Fp.neg (f.div (Fp.finite x) (Fp.finite y))
      simp only [div, neg_eq_zero]
      by_cases hy : y = 0
      · simp only [if_pos hy]
        by_cases hx : x = 0
        · simp [hx, Fp.neg]
        · simp only [if_neg hx, Fp.neg, decide_neg_lt x hx]
      · simp only [if_neg hy]
        rw [neg_div, round_neg]
    | infinite t => simp [div, Fp.neg]
    | nan => rfl
  | infinite s =>
    cases b with
    | finite y =>
      simp only [div, Fp.neg]
      cases s <;> cases decide (y < 0) <;> rfl
    | infinite t => rfl
    | nan => rfl
  | nan => cases b <;> rfl

end FloatFormat

/-! ## The kernel with its arguments swapped -/

namespace Floating

theorem pow2_neg (a : Fp) : pow2 (Fp.neg a) = pow2 a :=
  FloatFormat.mul_neg_neg binary64 a

/-- Swapping the two heights leaves the distance of the kernel of cw1Part3 as
it is and negates the angle, for an odd `asin`. -/
theorem cw1Part3.kernel_swap (asin : Fp → Fp) (hodd : ∀ x : Fp, asin (Fp.neg x) = Fp.neg (asin x))
    (a b : Fp) :
    (cw1Part3.kernel asin b a).1 = (cw1Part3.kernel asin a b).1 ∧
    (cw1Part3.kernel asin b a).2 = Fp.neg (cw1Part3.kernel asin a b).2 := by
  unfold cw1Part3.kernel
  simp only
  rw [FloatFormat.sub_swap binary32 a b, FloatFormat.mul_neg_neg]
  refine ⟨rfl, ?_⟩
  rw [FloatFormat.div_neg_left, hodd, FloatFormat.mul_neg_right, FloatFormat.convert_neg]

/-- Swapping the two heights leaves the distance of the kernel of cw1Part1 as
it is and negates the angle, for an odd `asin`. -/
theorem cw1Part1.kernel_swap_double (asin : Fp → Fp) (hodd : ∀ x : Fp, asin (Fp.neg x) = Fp.neg (asin x))
    (a b : Fp) :
    (cw1Part1.kernel asin b a).1 = (cw1Part1.kernel asin a b).1 ∧
    (cw1Part1.kernel asin b a).2 = Fp.neg (cw1Part1.kernel asin a b).2 := by
  unfold cw1Part1.kernel
  simp only
  rw [FloatFormat.sub_swap binary32 a b, pow2_neg]
  refine ⟨rfl, ?_⟩
  rw [FloatFormat.div_neg_left, hodd, FloatFormat.mul_neg_right, FloatFormat.convert_neg]

end Floating

/-! ## Numbers of the two formats -/

namespace FloatFormat

theorem roundReal_zpow (f : FloatFormat) (hp : 1 ≤ f.prec) (k : Int)
    (hk : f.emin - ((f.prec : Int) - 1) ≤ k) : f.roundReal ((2 : ℝ) ^ k) = (2 : ℝ) ^ k := by
  have := roundReal_scaled f 1 k
    (by
      rw [Int.cast_one, abs_one]
      exact one_lt_pow₀ (by norm_num) (by omega)) hk
  rwa [Int.cast_one, one_mul] at this

theorem roundReal_intCast (f : FloatFormat) (n : Int) (hn : |(n : ℝ)| < (2 : ℝ) ^ f.prec)
    (he : f.emin - ((f.prec : Int) - 1) ≤ 0) : f.roundReal (n : ℝ) = (n : ℝ) := by
  have := roundReal_scaled f n 0 hn he
  rwa [zpow_zero, mul_one] at this

/-- A rounded value is not above a number of the format that the real is
not above. -/
theorem roundReal_le_of_le (f : FloatFormat) (hp : 1 ≤ f.prec) (x B : ℝ)
    (hB : f.roundReal B = B) (h : x ≤ B) : f.roundReal x ≤ B := by
  have := roundReal_mono f hp x B h
  rwa [hB] at this

theorem le_roundReal_of_le (f : FloatFormat) (hp : 1 ≤ f.prec) (x B : ℝ)
    (hB : f.roundReal B = B) (h : B ≤ x) : B ≤ f.roundReal x := by
  have := roundReal_mono f hp B x h
  rwa [hB] at this

theorem abs_roundReal_le_of_le (f : FloatFormat) (hp : 1 ≤ f.prec) (x B : ℝ)
    (hB : f.roundReal B = B) (h : |x| ≤ B) : |f.roundReal x| ≤ B := by
  rw [abs_le] at h ⊢
  constructor
  · have := roundReal_mono f hp (-B) x h.1
    rwa [roundReal_neg, hB] at this
  · exact roundReal_le_of_le f hp x B hB h.2

/-- A number of the format in the form `n * 2 ^ u`. -/
theorem exists_scaled (f : FloatFormat) (x : ℝ) (hx : f.roundReal x = x) :
    ∃ n : Int, x = (n : ℝ) * (2 : ℝ) ^ f.ulpExp x ∧ |(n : ℝ)| ≤ (2 : ℝ) ^ f.prec := by
  refine ⟨roundEven (x / (2 : ℝ) ^ f.ulpExp x), hx.symm, ?_⟩
  have h := abs_roundReal_le f x
  have hpos := two_zpow_pos (f.ulpExp x)
  unfold roundReal at h
  rw [abs_mul, abs_of_pos hpos, zpow_add₀ (by norm_num), zpow_natCast,
    mul_comm ((2 : ℝ) ^ f.ulpExp x)] at h
  exact le_of_mul_le_mul_right h hpos

/-- The value of a rounding, when the binade of the real and the integer
nearest to its significand are known. -/
theorem roundReal_eq (f : FloatFormat) (x : ℝ) (e n : Int) (h1 : (2 : ℝ) ^ e ≤ |x|)
    (h2 : |x| < (2 : ℝ) ^ (e + 1)) (he : f.emin ≤ e)
    (h3 : ((n : ℝ) - 1 / 2) * (2 : ℝ) ^ (e - ((f.prec : Int) - 1)) < x)
    (h4 : x < ((n : ℝ) + 1 / 2) * (2 : ℝ) ^ (e - ((f.prec : Int) - 1))) :
    f.roundReal x = (n : ℝ) * (2 : ℝ) ^ (e - ((f.prec : Int) - 1)) := by
  unfold roundReal
  rw [ulpExp_of_bounds f x e h1 h2 he]
  have hpos := two_zpow_pos (e - ((f.prec : Int) - 1))
  rw [roundEven_near _ n (by rwa [lt_div_iff₀ hpos]) (by rwa [div_lt_iff₀ hpos])]

end FloatFormat

theorem binary32_maxFinite :
    binary32.maxFinite = 340282346638528859811704183484516925440 := by
  unfold FloatFormat.maxFinite binary32
  norm_num

theorem binary64_maxFinite : (2 : ℝ) ^ (1023 : Int) ≤ binary64.maxFinite := by
  unfold FloatFormat.maxFinite binary64
  have e : (2 : ℝ) ^ (1023 : Int) = 2 ^ 52 * (2 : ℝ) ^ ((1023 : Int) - (((53 : Nat) : Int) - 1)) := by
    rw [show ((1023 : Int) - (((53 : Nat) : Int) - 1)) = 971 by norm_num,
      show (1023 : Int) = 52 + 971 by norm_num, zpow_add₀ (by norm_num)]
    norm_num
  rw [e]
  apply mul_le_mul_of_nonneg_right _ (FloatFormat.two_zpow_pos _).le
  norm_num

theorem binary32_prec : 1 ≤ binary32.prec := by decide

theorem binary32_range : binary32.emin ≤ binary32.emax := by decide

theorem binary64_prec : 1 ≤ binary64.prec := by decide

theorem binary64_range : binary64.emin ≤ binary64.emax := by decide

/-- A `float` is a `double`. -/
theorem binary64_of_binary32 (x : ℝ) (hx : binary32.roundReal x = x) :
    binary64.roundReal x = x := by
  obtain ⟨n, hn, hb⟩ := FloatFormat.exists_scaled binary32 x hx
  have hu := FloatFormat.ulpExp_ge binary32 x
  rw [hn]
  apply FloatFormat.roundReal_scaled
  · refine lt_of_le_of_lt hb ?_
    show (2 : ℝ) ^ 24 < 2 ^ 53
    norm_num
  · have : binary32.emin - ((binary32.prec : Int) - 1) = -149 := by decide
    have : binary64.emin - ((binary64.prec : Int) - 1) = -1074 := by decide
    omega

/-- The square of a `float` is a `double`. -/
theorem binary64_sq_of_binary32 (x : ℝ) (hx : binary32.roundReal x = x) :
    binary64.roundReal (x * x) = x * x := by
  obtain ⟨n, hn, hb⟩ := FloatFormat.exists_scaled binary32 x hx
  have hu := FloatFormat.ulpExp_ge binary32 x
  have e : x * x = ((n * n : Int) : ℝ) * (2 : ℝ) ^ (binary32.ulpExp x + binary32.ulpExp x) := by
    rw [zpow_add₀ (by norm_num)]
    push_cast
    nth_rewrite 1 [hn]
    nth_rewrite 2 [hn]
    ring
  rw [e]
  apply FloatFormat.roundReal_scaled
  · push_cast
    rw [abs_mul]
    have h0 := abs_nonneg (n : ℝ)
    have : |(n : ℝ)| * |(n : ℝ)| ≤ 2 ^ 24 * 2 ^ 24 := mul_le_mul hb hb h0 (by norm_num)
    refine lt_of_le_of_lt this ?_
    show (2 : ℝ) ^ 24 * 2 ^ 24 < 2 ^ 53
    norm_num
  · have : binary32.emin - ((binary32.prec : Int) - 1) = -149 := by decide
    have : binary64.emin - ((binary64.prec : Int) - 1) = -1074 := by decide
    omega

/-! ## The square root of the square of a `float` -/

/-- In `float` arithmetic the square root of the square of a `float` `w` is
not below `w`, when the square neither underflows nor overflows. -/
theorem le_roundReal_sqrt_sq (w : ℝ) (hrep : binary32.roundReal w = w) (h32 : 32 ≤ w) :
    w ≤ binary32.roundReal (Real.sqrt (binary32.roundReal (w * w))) := by
  have hw : 0 < w := by linarith
  have hw0 : w ≠ 0 := hw.ne'
  have habs : |w| = w := abs_of_pos hw
  obtain ⟨b1, b2⟩ := FloatFormat.log_bounds w hw0
  rw [habs] at b1 b2
  -- the exponent of `w`
  have he5 : (5 : Int) ≤ Int.log 2 |w| := by
    have h : (2 : ℝ) ^ (5 : Int) ≤ |w| := by
      rw [habs]
      norm_num
      linarith
    exact (@Int.zpow_le_iff_le_log ℝ _ _ 2 (by norm_num) 5 |w| (abs_pos.2 hw0)).1
      (by simpa only [Nat.cast_ofNat] using h)
  rw [habs] at he5
  generalize he : Int.log 2 w = e at b1 b2 he5
  have hu : binary32.ulpExp w = e - 23 := by
    have := FloatFormat.ulpExp_of_bounds binary32 w e (by rwa [habs]) (by rwa [habs])
      (by show (-126 : Int) ≤ e; omega)
    rw [this]
    show e - (((24 : Nat) : Int) - 1) = e - 23
    norm_num
  have hk := FloatFormat.two_zpow_pos (e - 23)
  have hsplit : (2 : ℝ) ^ e = 8388608 * (2 : ℝ) ^ (e - 23) := by
    rw [show e = 23 + (e - 23) by ring, zpow_add₀ (by norm_num)]
    norm_num
  have hsplit2 : (2 : ℝ) ^ (e + 1) = 16777216 * (2 : ℝ) ^ (e - 23) := by
    rw [show e + 1 = 24 + (e - 23) by ring, zpow_add₀ (by norm_num)]
    norm_num
  -- the significand of `w`
  have hn : w = (roundEven (w / (2 : ℝ) ^ (e - 23)) : ℝ) * (2 : ℝ) ^ (e - 23) := by
    have := hrep
    unfold FloatFormat.roundReal at this
    rw [hu] at this
    exact this.symm
  generalize roundEven (w / (2 : ℝ) ^ (e - 23)) = n at hn
  have hn1 : (8388608 : ℝ) ≤ (n : ℝ) := by
    rw [hsplit, hn] at b1
    exact le_of_mul_le_mul_right b1 hk
  have hn2 : (n : ℝ) < 16777216 := by
    rw [hsplit2] at b2
    nth_rewrite 1 [hn] at b2
    exact lt_of_mul_lt_mul_right b2 hk.le
  rcases eq_or_lt_of_le hn1 with heq | hgt
  · -- `w` is a power of two
    have hw2 : w = (2 : ℝ) ^ e := by
      rw [hn, ← heq, hsplit]
    have hsq : w * w = (2 : ℝ) ^ (e + e) := by
      rw [hw2, zpow_add₀ (by norm_num)]
    rw [hsq, FloatFormat.roundReal_zpow binary32 binary32_prec _
      (by show (-126 : Int) - (((24 : Nat) : Int) - 1) ≤ e + e; omega), ← hsq,
      Real.sqrt_mul_self hw.le, hrep]
  · -- the significand is larger than `2 ^ 23`
    have hn3 : (8388609 : ℝ) ≤ (n : ℝ) := by
      have : (8388608 : Int) < n := by exact_mod_cast hgt
      have : (8388609 : Int) ≤ n := by omega
      exact_mod_cast this
    have hx0 : w * w ≠ 0 := mul_ne_zero hw0 hw0
    have hxpos : 0 < w * w := mul_pos hw hw
    have hxlt : w * w < (2 : ℝ) ^ (e + e + 2) := by
      have : w * w < (2 : ℝ) ^ (e + 1) * (2 : ℝ) ^ (e + 1) :=
        mul_lt_mul'' b2 b2 hw.le hw.le
      rwa [← zpow_add₀ (by norm_num : (2 : ℝ) ≠ 0), show e + 1 + (e + 1) = e + e + 2 by ring]
        at this
    have hlog : Int.log 2 |w * w| < e + e + 2 :=
      (@Int.lt_zpow_iff_log_lt ℝ _ _ 2 (by norm_num) (e + e + 2) |w * w|
        (abs_pos.2 hx0)).1 (by
          rw [abs_of_pos hxpos]
          simpa only [Nat.cast_ofNat] using hxlt)
    have hux : binary32.ulpExp (w * w) ≤ (e - 23) + (e - 23) + 24 := by
      unfold FloatFormat.ulpExp
      have := max_le (by omega : Int.log 2 |w * w| ≤ e + e + 1)
        (by show (-126 : Int) ≤ e + e + 1; omega)
      show max (Int.log 2 |w * w|) (-126) - (((24 : Nat) : Int) - 1) ≤ _
      push_cast
      omega
    have herr := FloatFormat.abs_roundReal_sub_le binary32 (w * w)
    have hpow : (2 : ℝ) ^ binary32.ulpExp (w * w) / 2 ≤
        8388608 * ((2 : ℝ) ^ (e - 23) * (2 : ℝ) ^ (e - 23)) := by
      have := FloatFormat.two_zpow_le _ _ hux
      rw [zpow_add₀ (by norm_num), zpow_add₀ (by norm_num)] at this
      have e24 : (2 : ℝ) ^ (24 : Int) = 16777216 := by norm_num
      rw [e24] at this
      linarith
    have hp : (((n : ℝ) - 1 / 2) * (2 : ℝ) ^ (e - 23)) ^ 2 <
        binary32.roundReal (w * w) := by
      have h1 : w * w - 8388608 * ((2 : ℝ) ^ (e - 23) * (2 : ℝ) ^ (e - 23)) ≤
          binary32.roundReal (w * w) := by
        have := (abs_le.1 (le_trans herr hpow)).1
        linarith
      have hkk : 0 < (2 : ℝ) ^ (e - 23) * (2 : ℝ) ^ (e - 23) := mul_pos hk hk
      have h2 : (((n : ℝ) - 1 / 2) * (2 : ℝ) ^ (e - 23)) ^ 2 <
          w * w - 8388608 * ((2 : ℝ) ^ (e - 23) * (2 : ℝ) ^ (e - 23)) := by
        have hww : w * w = (n : ℝ) * (n : ℝ) * ((2 : ℝ) ^ (e - 23) * (2 : ℝ) ^ (e - 23)) := by
          conv_lhs => rw [hn]
          ring
        rw [hww]
        have : ((n : ℝ) - 1 / 2) ^ 2 < (n : ℝ) * (n : ℝ) - 8388608 := by nlinarith
        have := mul_lt_mul_of_pos_right this hkk
        nlinarith
      linarith
    have hz0 : 0 ≤ ((n : ℝ) - 1 / 2) * (2 : ℝ) ^ (e - 23) :=
      mul_nonneg (by linarith) hk.le
    have hz : ((n : ℝ) - 1 / 2) * (2 : ℝ) ^ (e - 23) <
        Real.sqrt (binary32.roundReal (w * w)) := (Real.lt_sqrt hz0).2 hp
    rcases le_or_lt w (Real.sqrt (binary32.roundReal (w * w))) with hge | hlt
    · exact FloatFormat.le_roundReal_of_le binary32 binary32_prec _ w hrep hge
    · have hzpos : 0 < Real.sqrt (binary32.roundReal (w * w)) := lt_of_le_of_lt hz0 hz
      have c1 : (2 : ℝ) ^ e ≤ |Real.sqrt (binary32.roundReal (w * w))| := by
        rw [abs_of_pos hzpos, hsplit]
        have : 8388608 * (2 : ℝ) ^ (e - 23) ≤ ((n : ℝ) - 1 / 2) * (2 : ℝ) ^ (e - 23) :=
          mul_le_mul_of_nonneg_right (by linarith) hk.le
        linarith
      have c2 : |Real.sqrt (binary32.roundReal (w * w))| < (2 : ℝ) ^ (e + 1) := by
        rw [abs_of_pos hzpos]
        linarith
      have := FloatFormat.roundReal_eq binary32 _ e n c1 c2 (by show (-126 : Int) ≤ e; omega)
        (by
          show ((n : ℝ) - 1 / 2) * (2 : ℝ) ^ (e - (((24 : Nat) : Int) - 1)) < _
          rw [show e - (((24 : Nat) : Int) - 1) = e - 23 by norm_num]
          exact hz)
        (by
          show _ < ((n : ℝ) + 1 / 2) * (2 : ℝ) ^ (e - (((24 : Nat) : Int) - 1))
          rw [show e - (((24 : Nat) : Int) - 1) = e - 23 by norm_num]
          have : (n : ℝ) * (2 : ℝ) ^ (e - 23) < ((n : ℝ) + 1 / 2) * (2 : ℝ) ^ (e - 23) :=
            mul_lt_mul_of_pos_right (by linarith) hk
          rw [← hn] at this
          linarith)
      have e23 : e - ((binary32.prec : Int) - 1) = e - 23 := by
        show e - (((24 : Nat) : Int) - 1) = e - 23
        norm_num
      rw [this, e23, ← hn]

/-! ## The kernel on finite heights -/

namespace Floating

theorem binary32_le_max (x : ℝ) (h : |x| ≤ (2 : ℝ) ^ (127 : Int)) : |x| ≤ binary32.maxFinite := by
  rw [binary32_maxFinite]
  refine le_trans h ?_
  norm_num

theorem binary64_le_max (x : ℝ) (h : |x| ≤ (2 : ℝ) ^ (127 : Int)) : |x| ≤ binary64.maxFinite := by
  refine le_trans h (le_trans ?_ binary64_maxFinite)
  exact FloatFormat.two_zpow_le _ _ (by norm_num)

theorem spacing_sq : ((HORIZONTAL_POINT_DIST * HORIZONTAL_POINT_DIST : Int) : ℝ) = 2500 := by
  unfold HORIZONTAL_POINT_DIST
  norm_num

theorem binary32_2500 : binary32.roundReal 2500 = 2500 := by
  have := FloatFormat.roundReal_intCast binary32 2500
    (by show |((2500 : Int) : ℝ)| < (2 : ℝ) ^ 24; norm_num) (by decide)
  simpa using this

theorem binary32_50 : binary32.roundReal 50 = 50 := by
  have := FloatFormat.roundReal_intCast binary32 50
    (by show |((50 : Int) : ℝ)| < (2 : ℝ) ^ 24; norm_num) (by decide)
  simpa using this

theorem binary32_one : binary32.roundReal 1 = 1 := by
  have := FloatFormat.roundReal_intCast binary32 1
    (by show |((1 : Int) : ℝ)| < (2 : ℝ) ^ 24; norm_num) (by decide)
  simpa using this

theorem binary32_zpow (k : Int) (hk : -149 ≤ k) :
    binary32.roundReal ((2 : ℝ) ^ k) = (2 : ℝ) ^ k :=
  FloatFormat.roundReal_zpow binary32 binary32_prec k
    (by show (-126 : Int) - (((24 : Nat) : Int) - 1) ≤ k; omega)

theorem binary64_zpow (k : Int) (hk : -1074 ≤ k) :
    binary64.roundReal ((2 : ℝ) ^ k) = (2 : ℝ) ^ k :=
  FloatFormat.roundReal_zpow binary64 binary64_prec k
    (by show (-1022 : Int) - (((53 : Nat) : Int) - 1) ≤ k; omega)

/-- The difference of two heights that are at most `2 ^ 63` apart. -/
theorem sub_finite (a b : ℝ) (hV : |b - a| ≤ (2 : ℝ) ^ (63 : Int)) :
    binary32.sub (Fp.finite b) (Fp.finite a) = Fp.finite (binary32.roundReal (b - a)) ∧
    |binary32.roundReal (b - a)| ≤ (2 : ℝ) ^ (63 : Int) := by
  constructor
  · show binary32.round (b - a) = _
    apply FloatFormat.round_of_abs_le binary32 binary32_prec binary32_range
    apply binary32_le_max
    exact le_trans hV (FloatFormat.two_zpow_le _ _ (by norm_num))
  · exact FloatFormat.abs_roundReal_le_of_le binary32 binary32_prec _ _
      (binary32_zpow 63 (by norm_num)) hV

/-- The quotient of a difference by a distance that is not below it. -/
theorem div_finite (v d : ℝ) (hd : 50 ≤ d) (hvd : |v| ≤ d) :
    binary32.div (Fp.finite v) (Fp.finite d) = Fp.finite (binary32.roundReal (v / d)) ∧
    |binary32.roundReal (v / d)| ≤ 1 := by
  have hd0 : d ≠ 0 := by
    intro h
    rw [h] at hd
    norm_num at hd
  have hq : |v / d| ≤ 1 := by
    rw [abs_div, abs_of_pos (by linarith : 0 < d)]
    exact (div_le_one (by linarith)).2 hvd
  constructor
  · show (if d = 0 then _ else binary32.round (v / d)) = _
    rw [if_neg hd0]
    apply FloatFormat.round_of_abs_le binary32 binary32_prec binary32_range
    apply binary32_le_max
    refine le_trans hq ?_
    norm_num
  · exact FloatFormat.abs_roundReal_le_of_le binary32 binary32_prec _ _ binary32_one hq

namespace cw1Part3

/-- The distance that the kernel of cw1Part3 computes from a difference `v`
with `|v| ≤ 2 ^ 63`: it is finite, and neither below `50` nor below `|v|`. -/
theorem distance_finite (v : ℝ) (hv : |v| ≤ (2 : ℝ) ^ (63 : Int))
    (hvrep : binary32.roundReal v = v) :
    ∃ d : ℝ,
      d = binary32.roundReal (Real.sqrt (binary32.roundReal (binary32.roundReal (v * v) + 2500))) ∧
      binary32.sqrt (binary32.add (binary32.mul (Fp.finite v) (Fp.finite v))
        (binary32.round ((HORIZONTAL_POINT_DIST * HORIZONTAL_POINT_DIST : Int) : ℝ))) =
        Fp.finite d ∧
      50 ≤ d ∧ |v| ≤ d ∧ d ≤ (2 : ℝ) ^ (64 : Int) ∧ (|v| ≤ 64 → d ≤ 128) := by
  have hvv : 0 ≤ v * v := mul_self_nonneg v
  have hvv2 : v * v ≤ (2 : ℝ) ^ (126 : Int) := by
    have h1 : v * v = |v| * |v| := (abs_mul_abs_self v).symm
    have h2 : |v| * |v| ≤ (2 : ℝ) ^ (63 : Int) * (2 : ℝ) ^ (63 : Int) :=
      mul_le_mul hv hv (abs_nonneg v) (FloatFormat.two_zpow_pos _).le
    rw [← zpow_add₀ (by norm_num : (2 : ℝ) ≠ 0)] at h2
    rw [h1]
    exact h2
  have hp0 : 0 ≤ binary32.roundReal (v * v) := FloatFormat.roundReal_nonneg binary32 _ hvv
  have hp1 : binary32.roundReal (v * v) ≤ (2 : ℝ) ^ (126 : Int) :=
    FloatFormat.roundReal_le_of_le binary32 binary32_prec _ _
      (binary32_zpow 126 (by norm_num)) hvv2
  have hmul : binary32.mul (Fp.finite v) (Fp.finite v) =
      Fp.finite (binary32.roundReal (v * v)) := by
    show binary32.round (v * v) = _
    apply FloatFormat.round_of_abs_le binary32 binary32_prec binary32_range
    apply binary32_le_max
    rw [abs_of_nonneg hvv]
    exact le_trans hvv2 (FloatFormat.two_zpow_le _ _ (by norm_num))
  have hc : binary32.round ((HORIZONTAL_POINT_DIST * HORIZONTAL_POINT_DIST : Int) : ℝ) =
      Fp.finite 2500 := by
    rw [spacing_sq, FloatFormat.round_of_abs_le binary32 binary32_prec binary32_range,
      binary32_2500]
    apply binary32_le_max
    norm_num
  obtain ⟨p, hpdef⟩ : ∃ p : ℝ, p = binary32.roundReal (v * v) := ⟨_, rfl⟩
  rw [← hpdef] at hp0 hp1 hmul
  have e126 : (2 : ℝ) ^ (126 : Int) + 2500 ≤ (2 : ℝ) ^ (127 : Int) := by norm_num
  have hs0 : 2500 ≤ binary32.roundReal (p + 2500) :=
    FloatFormat.le_roundReal_of_le binary32 binary32_prec _ _ binary32_2500 (by linarith)
  have hs1 : binary32.roundReal (p + 2500) ≤ (2 : ℝ) ^ (127 : Int) :=
    FloatFormat.roundReal_le_of_le binary32 binary32_prec _ _
      (binary32_zpow 127 (by norm_num)) (by linarith)
  have hadd : binary32.add (Fp.finite p) (Fp.finite 2500) =
      Fp.finite (binary32.roundReal (p + 2500)) := by
    show binary32.round (p + 2500) = _
    apply FloatFormat.round_of_abs_le binary32 binary32_prec binary32_range
    apply binary32_le_max
    rw [abs_of_nonneg (by linarith)]
    linarith
  have hr0 : 50 ≤ Real.sqrt (binary32.roundReal (p + 2500)) := by
    refine (Real.le_sqrt' (by norm_num)).2 ?_
    have : (50 : ℝ) ^ 2 = 2500 := by norm_num
    rw [this]
    exact hs0
  have hr1 : Real.sqrt (binary32.roundReal (p + 2500)) ≤ (2 : ℝ) ^ (64 : Int) := by
    rw [Real.sqrt_le_left (FloatFormat.two_zpow_pos _).le]
    refine le_trans hs1 ?_
    norm_num
  have hd0 : 50 ≤ binary32.roundReal (Real.sqrt (binary32.roundReal (p + 2500))) :=
    FloatFormat.le_roundReal_of_le binary32 binary32_prec _ _ binary32_50 hr0
  have hsqrt : binary32.sqrt (Fp.finite (binary32.roundReal (p + 2500))) =
      Fp.finite (binary32.roundReal (Real.sqrt (binary32.roundReal (p + 2500)))) := by
    show (if binary32.roundReal (p + 2500) < 0 then Fp.nan else binary32.round _) = _
    rw [if_neg (by linarith)]
    apply FloatFormat.round_of_abs_le binary32 binary32_prec binary32_range
    apply binary32_le_max
    rw [abs_of_nonneg (by linarith)]
    exact le_trans hr1 (FloatFormat.two_zpow_le _ _ (by norm_num))
  refine ⟨_, by rw [← hpdef], by rw [hmul, hc, hadd, hsqrt], hd0, ?_,
    FloatFormat.roundReal_le_of_le binary32 binary32_prec _ _
      (binary32_zpow 64 (by norm_num)) hr1, ?_⟩
  swap
  · intro h64
    have h1 : v * v ≤ 4096 := by
      have h1 : v * v = |v| * |v| := (abs_mul_abs_self v).symm
      have h2 : |v| * |v| ≤ 64 * 64 := mul_le_mul h64 h64 (abs_nonneg v) (by norm_num)
      rw [h1]
      linarith
    have h2 : p ≤ (2 : ℝ) ^ (12 : Int) := by
      rw [hpdef]
      refine FloatFormat.roundReal_le_of_le binary32 binary32_prec _ _
        (binary32_zpow 12 (by norm_num)) ?_
      norm_num
      exact h1
    have h3 : binary32.roundReal (p + 2500) ≤ (2 : ℝ) ^ (13 : Int) := by
      refine FloatFormat.roundReal_le_of_le binary32 binary32_prec _ _
        (binary32_zpow 13 (by norm_num)) ?_
      norm_num at h2 ⊢
      linarith
    have h4 : Real.sqrt (binary32.roundReal (p + 2500)) ≤ (2 : ℝ) ^ (7 : Int) := by
      rw [Real.sqrt_le_left (FloatFormat.two_zpow_pos _).le]
      refine le_trans h3 ?_
      norm_num
    have h5 := FloatFormat.roundReal_le_of_le binary32 binary32_prec _ _
      (binary32_zpow 7 (by norm_num)) h4
    norm_num at h5
    exact h5
  rcases le_or_lt |v| 50 with hsmall | hbig
  · linarith
  · have hwrep : binary32.roundReal |v| = |v| := by
      rcases abs_cases v with ⟨e, _⟩ | ⟨e, _⟩
      · rw [e, hvrep]
      · rw [e, FloatFormat.roundReal_neg, hvrep]
    have hkey := le_roundReal_sqrt_sq |v| hwrep (by linarith)
    rw [abs_mul_abs_self, ← hpdef] at hkey
    have hprep : binary32.roundReal p = p := by
      rw [hpdef]
      exact FloatFormat.roundReal_idem binary32 binary32_prec _
    have hps : p ≤ binary32.roundReal (p + 2500) :=
      FloatFormat.le_roundReal_of_le binary32 binary32_prec _ _ hprep (by linarith)
    exact le_trans hkey
      (FloatFormat.roundReal_mono binary32 binary32_prec _ _ (Real.sqrt_le_sqrt hps))

/-- The kernel of cw1Part3 on two finite heights at most `2 ^ 63` apart:
the difference `v`, and the distance `d`, which is finite and neither below
`50` nor below `|v|`, so that the quotient `v / d` is finite and in
`[-1, 1]`. -/
theorem kernel_finite (asin : Fp → Fp) (a b : ℝ) (hV : |b - a| ≤ (2 : ℝ) ^ (63 : Int)) :
    ∃ v d : ℝ,
      v = binary32.roundReal (b - a) ∧
      binary32.sub (Fp.finite b) (Fp.finite a) = Fp.finite v ∧
      d = binary32.roundReal (Real.sqrt (binary32.roundReal (binary32.roundReal (v * v) + 2500))) ∧
      (kernel asin (Fp.finite a) (Fp.finite b)).1 = Fp.finite d ∧
      50 ≤ d ∧ |v| ≤ d ∧ d ≤ (2 : ℝ) ^ (64 : Int) ∧ (|v| ≤ 64 → d ≤ 128) ∧
      binary32.div (Fp.finite v) (Fp.finite d) = Fp.finite (binary32.roundReal (v / d)) ∧
      |binary32.roundReal (v / d)| ≤ 1 ∧
      (kernel asin (Fp.finite a) (Fp.finite b)).2 =
        binary32.convert (binary64.mul DEGREES_PER_RADIAN
          (asin (Fp.finite (binary32.roundReal (v / d))))) := by
  obtain ⟨hsub, hv⟩ := sub_finite a b hV
  generalize hvd : binary32.roundReal (b - a) = v at hsub hv
  have hvrep : binary32.roundReal v = v := by
    rw [← hvd]
    exact FloatFormat.roundReal_idem binary32 binary32_prec _
  obtain ⟨d, hd, hk1, h50, hvd2, h64, hsm⟩ := distance_finite v hv hvrep
  obtain ⟨hdiv, hq⟩ := div_finite v d h50 hvd2
  refine ⟨v, d, rfl, hsub, hd, ?_, h50, hvd2, h64, hsm, hdiv, hq, ?_⟩
  · unfold kernel
    simp only
    rw [hsub]
    exact hk1
  · unfold kernel
    simp only
    rw [hsub, hk1, hdiv]

end cw1Part3

end Floating

namespace Floating

theorem binary64_2500 : binary64.roundReal 2500 = 2500 := by
  have := FloatFormat.roundReal_intCast binary64 2500
    (by show |((2500 : Int) : ℝ)| < (2 : ℝ) ^ 53; norm_num) (by decide)
  simpa using this

theorem binary64_50 : binary64.roundReal 50 = 50 := by
  have := FloatFormat.roundReal_intCast binary64 50
    (by show |((50 : Int) : ℝ)| < (2 : ℝ) ^ 53; norm_num) (by decide)
  simpa using this

theorem round64_50 : binary64.round ((HORIZONTAL_POINT_DIST : Int) : ℝ) = Fp.finite 50 := by
  have e : ((HORIZONTAL_POINT_DIST : Int) : ℝ) = 50 := by
    unfold HORIZONTAL_POINT_DIST
    norm_num
  rw [e, FloatFormat.round_of_abs_le binary64 binary64_prec binary64_range, binary64_50]
  apply binary64_le_max
  norm_num

theorem pow2_50 : pow2 (Fp.finite 50) = Fp.finite 2500 := by
  show binary64.round (50 * 50) = _
  rw [show (50 : ℝ) * 50 = 2500 by norm_num,
    FloatFormat.round_of_abs_le binary64 binary64_prec binary64_range, binary64_2500]
  apply binary64_le_max
  norm_num

namespace cw1Part1

/-- The distance that the kernel of cw1Part1 computes from a difference `v`
with `|v| ≤ 2 ^ 63`: it is finite, and neither below `50` nor below `|v|`. -/
theorem distance_finite_double (v : ℝ) (hv : |v| ≤ (2 : ℝ) ^ (63 : Int))
    (hvrep : binary32.roundReal v = v) :
    ∃ d : ℝ,
      d = binary32.roundReal (binary64.roundReal (Real.sqrt
        (binary64.roundReal (v * v + 2500)))) ∧
      binary32.convert (binary64.sqrt (binary64.add (pow2 (Fp.finite v))
        (pow2 (binary64.round ((HORIZONTAL_POINT_DIST : Int) : ℝ))))) = Fp.finite d ∧
      50 ≤ d ∧ |v| ≤ d ∧ d ≤ (2 : ℝ) ^ (64 : Int) ∧ (|v| ≤ 64 → d ≤ 128) := by
  have hvv : 0 ≤ v * v := mul_self_nonneg v
  have hvv2 : v * v ≤ (2 : ℝ) ^ (126 : Int) := by
    have h1 : v * v = |v| * |v| := (abs_mul_abs_self v).symm
    have h2 : |v| * |v| ≤ (2 : ℝ) ^ (63 : Int) * (2 : ℝ) ^ (63 : Int) :=
      mul_le_mul hv hv (abs_nonneg v) (FloatFormat.two_zpow_pos _).le
    rw [← zpow_add₀ (by norm_num : (2 : ℝ) ≠ 0)] at h2
    rw [h1]
    exact h2
  have hsq := binary64_sq_of_binary32 v hvrep
  have hpow : pow2 (Fp.finite v) = Fp.finite (v * v) := by
    show binary64.round (v * v) = _
    rw [FloatFormat.round_of_abs_le binary64 binary64_prec binary64_range, hsq]
    apply binary64_le_max
    rw [abs_of_nonneg hvv]
    exact le_trans hvv2 (FloatFormat.two_zpow_le _ _ (by norm_num))
  have e126 : (2 : ℝ) ^ (126 : Int) + 2500 ≤ (2 : ℝ) ^ (127 : Int) := by norm_num
  have ha0 : 2500 ≤ binary64.roundReal (v * v + 2500) :=
    FloatFormat.le_roundReal_of_le binary64 binary64_prec _ _ binary64_2500 (by linarith)
  have ha1 : binary64.roundReal (v * v + 2500) ≤ (2 : ℝ) ^ (127 : Int) :=
    FloatFormat.roundReal_le_of_le binary64 binary64_prec _ _
      (binary64_zpow 127 (by norm_num)) (by linarith)
  have ha2 : v * v ≤ binary64.roundReal (v * v + 2500) :=
    FloatFormat.le_roundReal_of_le binary64 binary64_prec _ _ hsq (by linarith)
  have hadd : binary64.add (Fp.finite (v * v)) (Fp.finite 2500) =
      Fp.finite (binary64.roundReal (v * v + 2500)) := by
    show binary64.round (v * v + 2500) = _
    apply FloatFormat.round_of_abs_le binary64 binary64_prec binary64_range
    apply binary64_le_max
    rw [abs_of_nonneg (by linarith)]
    linarith
  obtain ⟨a1, ha⟩ : ∃ a1 : ℝ, a1 = binary64.roundReal (v * v + 2500) := ⟨_, rfl⟩
  rw [← ha] at ha0 ha1 ha2 hadd ⊢
  have hr0 : 50 ≤ Real.sqrt a1 := by
    refine (Real.le_sqrt' (by norm_num)).2 ?_
    have : (50 : ℝ) ^ 2 = 2500 := by norm_num
    rw [this]
    exact ha0
  have hr1 : Real.sqrt a1 ≤ (2 : ℝ) ^ (64 : Int) := by
    rw [Real.sqrt_le_left (FloatFormat.two_zpow_pos _).le]
    refine le_trans ha1 ?_
    norm_num
  have hr2 : |v| ≤ Real.sqrt a1 := by
    rw [← Real.sqrt_mul_self (abs_nonneg v), abs_mul_abs_self]
    exact Real.sqrt_le_sqrt ha2
  have hwrep : binary32.roundReal |v| = |v| := by
    rcases abs_cases v with ⟨e, _⟩ | ⟨e, _⟩
    · rw [e, hvrep]
    · rw [e, FloatFormat.roundReal_neg, hvrep]
  have hs0 : 50 ≤ binary64.roundReal (Real.sqrt a1) :=
    FloatFormat.le_roundReal_of_le binary64 binary64_prec _ _ binary64_50 hr0
  have hs1 : binary64.roundReal (Real.sqrt a1) ≤ (2 : ℝ) ^ (64 : Int) :=
    FloatFormat.roundReal_le_of_le binary64 binary64_prec _ _
      (binary64_zpow 64 (by norm_num)) hr1
  have hs2 : |v| ≤ binary64.roundReal (Real.sqrt a1) :=
    FloatFormat.le_roundReal_of_le binary64 binary64_prec _ _
      (binary64_of_binary32 _ hwrep) hr2
  have hsqrt : binary64.sqrt (Fp.finite a1) = Fp.finite (binary64.roundReal (Real.sqrt a1)) := by
    show (if a1 < 0 then Fp.nan else binary64.round _) = _
    rw [if_neg (by linarith)]
    apply FloatFormat.round_of_abs_le binary64 binary64_prec binary64_range
    apply binary64_le_max
    rw [abs_of_nonneg (by linarith)]
    exact le_trans hr1 (FloatFormat.two_zpow_le _ _ (by norm_num))
  obtain ⟨r1, hr⟩ : ∃ r1 : ℝ, r1 = binary64.roundReal (Real.sqrt a1) := ⟨_, rfl⟩
  rw [← hr] at hs0 hs1 hs2 hsqrt ⊢
  have hconv : binary32.convert (Fp.finite r1) = Fp.finite (binary32.roundReal r1) := by
    show binary32.round r1 = _
    apply FloatFormat.round_of_abs_le binary32 binary32_prec binary32_range
    apply binary32_le_max
    rw [abs_of_nonneg (by linarith)]
    exact le_trans hs1 (FloatFormat.two_zpow_le _ _ (by norm_num))
  refine ⟨_, rfl, by rw [hpow, round64_50, pow2_50, hadd, hsqrt, hconv],
    FloatFormat.le_roundReal_of_le binary32 binary32_prec _ _ binary32_50 hs0,
    FloatFormat.le_roundReal_of_le binary32 binary32_prec _ _ hwrep hs2,
    FloatFormat.roundReal_le_of_le binary32 binary32_prec _ _
      (binary32_zpow 64 (by norm_num)) hs1, ?_⟩
  intro h64
  have h1 : v * v ≤ 4096 := by
    have h1 : v * v = |v| * |v| := (abs_mul_abs_self v).symm
    have h2 : |v| * |v| ≤ 64 * 64 := mul_le_mul h64 h64 (abs_nonneg v) (by norm_num)
    rw [h1]
    linarith
  have h3 : a1 ≤ (2 : ℝ) ^ (13 : Int) := by
    rw [ha]
    refine FloatFormat.roundReal_le_of_le binary64 binary64_prec _ _
      (binary64_zpow 13 (by norm_num)) ?_
    norm_num
    linarith
  have h4 : Real.sqrt a1 ≤ (2 : ℝ) ^ (7 : Int) := by
    rw [Real.sqrt_le_left (FloatFormat.two_zpow_pos _).le]
    refine le_trans h3 ?_
    norm_num
  have h5 : r1 ≤ (2 : ℝ) ^ (7 : Int) := by
    rw [hr]
    exact FloatFormat.roundReal_le_of_le binary64 binary64_prec _ _
      (binary64_zpow 7 (by norm_num)) h4
  have h6 := FloatFormat.roundReal_le_of_le binary32 binary32_prec _ _
    (binary32_zpow 7 (by norm_num)) h5
  norm_num at h6
  exact h6

/-- The kernel of cw1Part1 on two finite heights at most `2 ^ 63` apart:
the difference `v`, and the distance `d`, which is finite and neither below
`50` nor below `|v|`, so that the quotient `v / d` is finite and in
`[-1, 1]`. -/
theorem kernel_finite_double (asin : Fp → Fp) (a b : ℝ)
    (hV : |b - a| ≤ (2 : ℝ) ^ (63 : Int)) :
    ∃ v d : ℝ,
      v = binary32.roundReal (b - a) ∧
      binary32.sub (Fp.finite b) (Fp.finite a) = Fp.finite v ∧
      d = binary32.roundReal (binary64.roundReal (Real.sqrt
        (binary64.roundReal (v * v + 2500)))) ∧
      (kernel asin (Fp.finite a) (Fp.finite b)).1 = Fp.finite d ∧
      50 ≤ d ∧ |v| ≤ d ∧ d ≤ (2 : ℝ) ^ (64 : Int) ∧ (|v| ≤ 64 → d ≤ 128) ∧
      binary32.div (Fp.finite v) (Fp.finite d) = Fp.finite (binary32.roundReal (v / d)) ∧
      |binary32.roundReal (v / d)| ≤ 1 ∧
      (kernel asin (Fp.finite a) (Fp.finite b)).2 =
        binary32.convert (binary64.mul DEGREES_PER_RADIAN
          (asin (Fp.finite (binary32.roundReal (v / d))))) := by
  obtain ⟨hsub, hv⟩ := sub_finite a b hV
  generalize hvd : binary32.roundReal (b - a) = v at hsub hv
  have hvrep : binary32.roundReal v = v := by
    rw [← hvd]
    exact FloatFormat.roundReal_idem binary32 binary32_prec _
  obtain ⟨d, hd, hk1, h50, hvd2, h64, hsm⟩ := distance_finite_double v hv hvrep
  obtain ⟨hdiv, hq⟩ := div_finite v d h50 hvd2
  refine ⟨v, d, rfl, hsub, hd, ?_, h50, hvd2, h64, hsm, hdiv, hq, ?_⟩
  · unfold kernel
    simp only
    rw [hsub]
    exact hk1
  · unfold kernel
    simp only
    rw [hsub, hk1, hdiv]

end cw1Part1

/-! ## The angle -/

/-- A positive `float` is at least the smallest subnormal number. -/
theorem pos_float_ge (x : ℝ) (hx : 0 < x) (hrep : binary32.roundReal x = x) :
    (2 : ℝ) ^ (-149 : Int) ≤ x := by
  obtain ⟨n, hn, _⟩ := FloatFormat.exists_scaled binary32 x hrep
  have hu := FloatFormat.ulpExp_ge binary32 x
  have hu2 : (-149 : Int) ≤ binary32.ulpExp x := by
    have : binary32.emin - ((binary32.prec : Int) - 1) = -149 := by decide
    omega
  have hpos := FloatFormat.two_zpow_pos (binary32.ulpExp x)
  have hn0 : (0 : ℝ) < (n : ℝ) := by
    by_contra hc
    push_neg at hc
    have : (n : ℝ) * (2 : ℝ) ^ binary32.ulpExp x ≤ 0 :=
      mul_nonpos_of_nonpos_of_nonneg hc hpos.le
    linarith
  have hn1 : (1 : ℝ) ≤ (n : ℝ) := by
    have : (0 : Int) < n := by exact_mod_cast hn0
    have : (1 : Int) ≤ n := by omega
    exact_mod_cast this
  have h1 := FloatFormat.two_zpow_le _ _ hu2
  have h2 : 1 * (2 : ℝ) ^ binary32.ulpExp x ≤ (n : ℝ) * (2 : ℝ) ^ binary32.ulpExp x :=
    mul_le_mul_of_nonneg_right hn1 hpos.le
  rw [hn]
  linarith

/-- The macro `DEGREES_PER_RADIAN` is a finite `double` between `57` and
`57.296875`. -/
theorem degreesPerRadian_finite :
    ∃ D : ℝ, DEGREES_PER_RADIAN = Fp.finite D ∧ 57 ≤ D ∧ D ≤ 3667 / 64 := by
  have e57 : binary64.roundReal 57 = 57 := by
    have := FloatFormat.roundReal_intCast binary64 57
      (by show |((57 : Int) : ℝ)| < (2 : ℝ) ^ 53; norm_num) (by decide)
    simpa using this
  have eup : binary64.roundReal (3667 / 64) = 3667 / 64 := by
    have := FloatFormat.roundReal_scaled binary64 3667 (-6)
      (by show |((3667 : Int) : ℝ)| < (2 : ℝ) ^ 53; norm_num) (by decide)
    have e : ((3667 : Int) : ℝ) * (2 : ℝ) ^ (-6 : Int) = 3667 / 64 := by norm_num
    rwa [e] at this
  refine ⟨binary64.roundReal ((Threading.DEGREES_PER_RADIAN : ℚ) : ℝ), ?_, ?_, ?_⟩
  · unfold DEGREES_PER_RADIAN
    apply FloatFormat.round_of_abs_le binary64 binary64_prec binary64_range
    apply binary64_le_max
    rw [degreesPerRadian_cast, abs_of_pos (by norm_num)]
    norm_num
  · apply FloatFormat.le_roundReal_of_le binary64 binary64_prec _ _ e57
    rw [degreesPerRadian_cast]
    norm_num
  · apply FloatFormat.roundReal_le_of_le binary64 binary64_prec _ _ eup
    rw [degreesPerRadian_cast]
    norm_num

/-- The angle that both kernels compute from a positive quotient. -/
theorem angle_pos (asin : Fp → Fp) (hs : AsinSpec asin) (q : ℝ) (hq0 : 0 < q) (hq1 : q ≤ 1)
    (hrep : binary32.roundReal q = q) :
    ∃ t : ℝ, binary32.convert (binary64.mul DEGREES_PER_RADIAN (asin (Fp.finite q))) =
      Fp.finite t ∧ 0 < t ∧ t ≤ 92163 / 1024 := by
  obtain ⟨τ, hτ, hτ0, hτ1, hτrep⟩ := hs.2.2 q hq0 hq1 hrep
  obtain ⟨D, hD, hD0, hD1⟩ := degreesPerRadian_finite
  have hτ2 := pos_float_ge τ hτ0 hτrep
  have hprod0 : (2 : ℝ) ^ (-149 : Int) ≤ D * τ := by
    have : 1 * τ ≤ D * τ := mul_le_mul_of_nonneg_right (by linarith) hτ0.le
    linarith
  have hprod1 : D * τ ≤ 92163 / 1024 := by
    have h1 : D * τ ≤ 3667 / 64 * τ := mul_le_mul_of_nonneg_right hD1 hτ0.le
    have h2 : (3667 / 64 : ℝ) * τ ≤ 3667 / 64 * 1.5708 :=
      mul_le_mul_of_nonneg_left hτ1 (by norm_num)
    have h3 : (3667 / 64 : ℝ) * 1.5708 ≤ 92163 / 1024 := by norm_num
    linarith
  have hpos149 := FloatFormat.two_zpow_pos (-149)
  have eup64 : binary64.roundReal (92163 / 1024) = 92163 / 1024 := by
    have := FloatFormat.roundReal_scaled binary64 92163 (-10)
      (by show |((92163 : Int) : ℝ)| < (2 : ℝ) ^ 53; norm_num) (by decide)
    have e : ((92163 : Int) : ℝ) * (2 : ℝ) ^ (-10 : Int) = 92163 / 1024 := by norm_num
    rwa [e] at this
  have eup32 : binary32.roundReal (92163 / 1024) = 92163 / 1024 := by
    have := FloatFormat.roundReal_scaled binary32 92163 (-10)
      (by show |((92163 : Int) : ℝ)| < (2 : ℝ) ^ 24; norm_num) (by decide)
    have e : ((92163 : Int) : ℝ) * (2 : ℝ) ^ (-10 : Int) = 92163 / 1024 := by norm_num
    rwa [e] at this
  have hy0 : (2 : ℝ) ^ (-149 : Int) ≤ binary64.roundReal (D * τ) :=
    FloatFormat.le_roundReal_of_le binary64 binary64_prec _ _
      (binary64_zpow (-149) (by norm_num)) hprod0
  have hy1 : binary64.roundReal (D * τ) ≤ 92163 / 1024 :=
    FloatFormat.roundReal_le_of_le binary64 binary64_prec _ _ eup64 hprod1
  have hmul : binary64.mul (Fp.finite D) (Fp.finite τ) =
      Fp.finite (binary64.roundReal (D * τ)) := by
    show binary64.round (D * τ) = _
    apply FloatFormat.round_of_abs_le binary64 binary64_prec binary64_range
    apply binary64_le_max
    rw [abs_of_nonneg (by linarith)]
    refine le_trans hprod1 ?_
    norm_num
  have hconv : binary32.convert (Fp.finite (binary64.roundReal (D * τ))) =
      Fp.finite (binary32.roundReal (binary64.roundReal (D * τ))) := by
    show binary32.round _ = _
    apply FloatFormat.round_of_abs_le binary32 binary32_prec binary32_range
    apply binary32_le_max
    rw [abs_of_nonneg (by linarith)]
    refine le_trans hy1 ?_
    norm_num
  refine ⟨_, by rw [hD, hτ, hmul, hconv], ?_, ?_⟩
  · have := FloatFormat.le_roundReal_of_le binary32 binary32_prec _ _
      (binary32_zpow (-149) (by norm_num)) hy0
    linarith
  · exact FloatFormat.roundReal_le_of_le binary32 binary32_prec _ _ eup32 hy1

/-- The angle that both kernels compute from a quotient in `[-1, 1]`: a
finite number of at most `92163 / 1024 < 90.003` degrees, with the sign of
the quotient. -/
theorem angle_finite (asin : Fp → Fp) (hs : AsinSpec asin) (q : ℝ) (hq : |q| ≤ 1)
    (hrep : binary32.roundReal q = q) :
    ∃ t : ℝ, binary32.convert (binary64.mul DEGREES_PER_RADIAN (asin (Fp.finite q))) =
      Fp.finite t ∧ |t| ≤ 92163 / 1024 ∧ (0 < t ↔ 0 < q) := by
  rw [abs_le] at hq
  rcases lt_trichotomy 0 q with h | h | h
  · obtain ⟨t, h1, h2, h3⟩ := angle_pos asin hs q h hq.2 hrep
    refine ⟨t, h1, ?_, ?_⟩
    · rw [abs_of_pos h2]
      exact h3
    · exact ⟨fun _ => h, fun _ => h2⟩
  · obtain ⟨D, hD, _, _⟩ := degreesPerRadian_finite
    refine ⟨0, ?_, by norm_num, ?_⟩
    · rw [← h, hs.1, hD]
      show binary32.convert (binary64.round (D * 0)) = _
      rw [mul_zero, FloatFormat.round_zero]
      exact FloatFormat.round_zero binary32
    · rw [← h]
  · have hrep2 : binary32.roundReal (-q) = -q := by
      rw [FloatFormat.roundReal_neg, hrep]
    obtain ⟨t, h1, h2, h3⟩ := angle_pos asin hs (-q) (by linarith) (by linarith) hrep2
    refine ⟨-t, ?_, ?_, ?_⟩
    · have e : Fp.finite q = Fp.neg (Fp.finite (-q)) := by
        show _ = Fp.finite (- -q)
        rw [neg_neg]
      rw [e, hs.2.1, FloatFormat.mul_neg_right, FloatFormat.convert_neg, h1]
      rfl
    · rw [abs_neg, abs_of_pos h2]
      exact h3
    · constructor
      · intro h4
        linarith
      · intro h4
        linarith

end Floating

namespace Floating

/-! ## The sign of the angle -/

/-- The quotient of a difference `v` of at least `2 ^ (-140)` by its
distance does not round to zero. -/
theorem quotient_pos (v d : ℝ) (hv : (2 : ℝ) ^ (-140 : Int) ≤ v) (h50 : 50 ≤ d)
    (h64 : d ≤ (2 : ℝ) ^ (64 : Int)) (hsm : |v| ≤ 64 → d ≤ 128) :
    0 < binary32.roundReal (v / d) := by
  have hv0 : 0 < v := lt_of_lt_of_le (FloatFormat.two_zpow_pos _) hv
  have hd0 : 0 < d := by linarith
  have key : (2 : ℝ) ^ (-149 : Int) ≤ v / d := by
    rw [le_div_iff₀ hd0]
    rcases le_or_lt v 64 with h | h
    · have hd1 := hsm (by rw [abs_of_pos hv0]; exact h)
      have h1 : (2 : ℝ) ^ (-149 : Int) * d ≤ (2 : ℝ) ^ (-149 : Int) * 128 :=
        mul_le_mul_of_nonneg_left hd1 (FloatFormat.two_zpow_pos _).le
      have h2 : (2 : ℝ) ^ (-149 : Int) * 128 ≤ (2 : ℝ) ^ (-140 : Int) := by
        rw [show (128 : ℝ) = (2 : ℝ) ^ (7 : Int) by norm_num,
          ← zpow_add₀ (by norm_num : (2 : ℝ) ≠ 0)]
        exact FloatFormat.two_zpow_le _ _ (by norm_num)
      linarith
    · have h1 : (2 : ℝ) ^ (-149 : Int) * d ≤ (2 : ℝ) ^ (-149 : Int) * (2 : ℝ) ^ (64 : Int) :=
        mul_le_mul_of_nonneg_left h64 (FloatFormat.two_zpow_pos _).le
      have h2 : (2 : ℝ) ^ (-149 : Int) * (2 : ℝ) ^ (64 : Int) ≤ 1 := by
        rw [← zpow_add₀ (by norm_num : (2 : ℝ) ≠ 0)]
        have := FloatFormat.two_zpow_le (-149 + 64) 0 (by norm_num)
        rwa [zpow_zero] at this
      linarith
  have := FloatFormat.le_roundReal_of_le binary32 binary32_prec _ _
    (binary32_zpow (-149) (by norm_num)) key
  exact lt_of_lt_of_le (FloatFormat.two_zpow_pos _) this

/-- The sign of the quotient, from the results of `kernel_finite`. -/
theorem quotient_sign (a b v d : ℝ) (hvd : v = binary32.roundReal (b - a))
    (hlow : a = b ∨ (2 : ℝ) ^ (-140 : Int) ≤ |b - a|) (h50 : 50 ≤ d)
    (h64 : d ≤ (2 : ℝ) ^ (64 : Int)) (hsm : |v| ≤ 64 → d ≤ 128) :
    0 < binary32.roundReal (v / d) ↔ a < b := by
  have hd0 : 0 < d := by linarith
  constructor
  · intro h
    by_contra hc
    push_neg at hc
    have h1 : v ≤ 0 := by
      rw [hvd]
      exact FloatFormat.roundReal_nonpos binary32 _ (by linarith)
    have h2 : v / d ≤ 0 := div_nonpos_of_nonpos_of_nonneg h1 hd0.le
    have := FloatFormat.roundReal_nonpos binary32 _ h2
    linarith
  · intro h
    rcases hlow with e | hl
    · rw [e] at h
      exact absurd h (lt_irrefl b)
    · rw [abs_of_pos (by linarith)] at hl
      have hv : (2 : ℝ) ^ (-140 : Int) ≤ v := by
        rw [hvd]
        exact FloatFormat.le_roundReal_of_le binary32 binary32_prec _ _
          (binary32_zpow (-140) (by norm_num)) hl
      exact quotient_pos v d hv h50 h64 hsm

/-- The angle of the kernel of cw1Part3 on two finite heights at most
`2 ^ 63` apart: finite, at most `92163 / 1024` in magnitude, and positive
exactly when the next column is higher, if the heights are equal or at least
`2 ^ (-140)` apart. -/
theorem cw1Part3.kernel_angle (asin : Fp → Fp) (hs : AsinSpec asin) (a b : ℝ)
    (hV : |b - a| ≤ (2 : ℝ) ^ (63 : Int)) :
    ∃ t : ℝ, (cw1Part3.kernel asin (Fp.finite a) (Fp.finite b)).2 = Fp.finite t ∧
      |t| ≤ 92163 / 1024 ∧
      ((a = b ∨ (2 : ℝ) ^ (-140 : Int) ≤ |b - a|) → (0 < t ↔ a < b)) := by
  obtain ⟨v, d, hvd, _, _, _, h50, _, h64, hsm, _, hq, hang⟩ :=
    cw1Part3.kernel_finite asin a b hV
  obtain ⟨t, ht, hb, hsign⟩ := angle_finite asin hs _ hq
    (FloatFormat.roundReal_idem binary32 binary32_prec _)
  refine ⟨t, by rw [hang, ht], hb, fun hlow => ?_⟩
  rw [hsign]
  exact quotient_sign a b v d hvd hlow h50 h64 hsm

/-- The angle of the kernel of cw1Part1, as `kernel_angle` for cw1Part3. -/
theorem cw1Part1.kernel_angle_double (asin : Fp → Fp) (hs : AsinSpec asin) (a b : ℝ)
    (hV : |b - a| ≤ (2 : ℝ) ^ (63 : Int)) :
    ∃ t : ℝ, (cw1Part1.kernel asin (Fp.finite a) (Fp.finite b)).2 = Fp.finite t ∧
      |t| ≤ 92163 / 1024 ∧
      ((a = b ∨ (2 : ℝ) ^ (-140 : Int) ≤ |b - a|) → (0 < t ↔ a < b)) := by
  obtain ⟨v, d, hvd, _, _, _, h50, _, h64, hsm, _, hq, hang⟩ :=
    cw1Part1.kernel_finite_double asin a b hV
  obtain ⟨t, ht, hb, hsign⟩ := angle_finite asin hs _ hq
    (FloatFormat.roundReal_idem binary32 binary32_prec _)
  refine ⟨t, by rw [hang, ht], hb, fun hlow => ?_⟩
  rw [hsign]
  exact quotient_sign a b v d hvd hlow h50 h64 hsm

/-! ## An `asin` that meets the assumptions -/

theorem asinNearest_spec : AsinSpec asinNearest := by
  refine ⟨?_, ?_, ?_⟩
  · show (if |(0 : ℝ)| ≤ 1 then Fp.finite (binary32.roundReal (Real.arcsin 0)) else Fp.nan) = _
    rw [if_pos (by norm_num), Real.arcsin_zero, FloatFormat.roundReal_zero]
  · intro x
    cases x with
    | finite x =>
      show (if |(-x)| ≤ 1 then Fp.finite (binary32.roundReal (Real.arcsin (-x))) else Fp.nan) =
        Fp.neg (if |x| ≤ 1 then Fp.finite (binary32.roundReal (Real.arcsin x)) else Fp.nan)
      rw [abs_neg, Real.arcsin_neg, FloatFormat.roundReal_neg]
      split <;> rfl
    | infinite s => rfl
    | nan => rfl
  · intro x hx0 hx1 hrep
    refine ⟨binary32.roundReal (Real.arcsin x), ?_, ?_, ?_,
      FloatFormat.roundReal_idem binary32 binary32_prec _⟩
    · show (if |x| ≤ 1 then Fp.finite (binary32.roundReal (Real.arcsin x)) else Fp.nan) = _
      rw [if_pos (by rw [abs_of_pos hx0]; exact hx1)]
    · have h1 : x ≤ Real.arcsin x := by
        have h0 : 0 ≤ Real.arcsin x := Real.arcsin_nonneg.2 hx0.le
        have := Real.sin_le h0
        rwa [Real.sin_arcsin (by linarith) hx1] at this
      have h2 := pos_float_ge x hx0 hrep
      have := FloatFormat.le_roundReal_of_le binary32 binary32_prec _ _
        (binary32_zpow (-149) (by norm_num)) (le_trans h2 h1)
      exact lt_of_lt_of_le (FloatFormat.two_zpow_pos _) this
    · obtain ⟨B, hB⟩ : ∃ B : ℝ, B = 13176800 * (2 : ℝ) ^ (-23 : Int) := ⟨_, rfl⟩
      have eB : binary32.roundReal B = B := by
        have := FloatFormat.roundReal_scaled binary32 13176800 (-23)
          (by show |((13176800 : Int) : ℝ)| < (2 : ℝ) ^ 24; norm_num) (by decide)
        rw [hB]
        simpa using this
      have e1 : (3.141593 : ℝ) / 2 ≤ B := by
        rw [hB]
        norm_num
      have e2 : B ≤ 1.5708 := by
        rw [hB]
        norm_num
      have h1 : Real.arcsin x ≤ B := by
        have := Real.arcsin_le_pi_div_two x
        have hpi := Real.pi_lt_d6
        linarith
      have := FloatFormat.roundReal_le_of_le binary32 binary32_prec _ _ eB h1
      linarith

end Floating

/-! ## The kernel at some heights -/

namespace Floating

theorem binary32_roundReal_eq (x : ℝ) (e n : Int) (h1 : (2 : ℝ) ^ e ≤ |x|)
    (h2 : |x| < (2 : ℝ) ^ (e + 1)) (he : -126 ≤ e)
    (h3 : ((n : ℝ) - 1 / 2) * (2 : ℝ) ^ (e - 23) < x)
    (h4 : x < ((n : ℝ) + 1 / 2) * (2 : ℝ) ^ (e - 23)) :
    binary32.roundReal x = (n : ℝ) * (2 : ℝ) ^ (e - 23) := by
  have e23 : e - ((binary32.prec : Int) - 1) = e - 23 := by
    show e - (((24 : Nat) : Int) - 1) = e - 23
    norm_num
  have := FloatFormat.roundReal_eq binary32 x e n h1 h2 he (by rwa [e23]) (by rwa [e23])
  rwa [e23] at this

theorem binary64_roundReal_eq (x : ℝ) (e n : Int) (h1 : (2 : ℝ) ^ e ≤ |x|)
    (h2 : |x| < (2 : ℝ) ^ (e + 1)) (he : -1022 ≤ e)
    (h3 : ((n : ℝ) - 1 / 2) * (2 : ℝ) ^ (e - 52) < x)
    (h4 : x < ((n : ℝ) + 1 / 2) * (2 : ℝ) ^ (e - 52)) :
    binary64.roundReal x = (n : ℝ) * (2 : ℝ) ^ (e - 52) := by
  have e52 : e - ((binary64.prec : Int) - 1) = e - 52 := by
    show e - (((53 : Nat) : Int) - 1) = e - 52
    norm_num
  have := FloatFormat.roundReal_eq binary64 x e n h1 h2 he (by rwa [e52]) (by rwa [e52])
  rwa [e52] at this

/-- A `float` operation whose exact value is a `float`. -/
theorem round32_exact (x : ℝ) (hx : binary32.roundReal x = x)
    (h : |x| ≤ (2 : ℝ) ^ (127 : Int)) : binary32.round x = Fp.finite x := by
  rw [FloatFormat.round_of_abs_le binary32 binary32_prec binary32_range x (binary32_le_max x h),
    hx]

/-- A `double` operation whose exact value is a `double`. -/
theorem round64_exact (x : ℝ) (hx : binary64.roundReal x = x)
    (h : |x| ≤ (2 : ℝ) ^ (127 : Int)) : binary64.round x = Fp.finite x := by
  rw [FloatFormat.round_of_abs_le binary64 binary64_prec binary64_range x (binary64_le_max x h),
    hx]

theorem round32_exact_pos (x : ℝ) (hx : binary32.roundReal x = x) (h0 : 0 ≤ x)
    (h : x ≤ (2 : ℝ) ^ (127 : Int)) : binary32.round x = Fp.finite x :=
  round32_exact x hx (by rwa [abs_of_nonneg h0])

theorem round64_exact_pos (x : ℝ) (hx : binary64.roundReal x = x) (h0 : 0 ≤ x)
    (h : x ≤ (2 : ℝ) ^ (127 : Int)) : binary64.round x = Fp.finite x :=
  round64_exact x hx (by rwa [abs_of_nonneg h0])

theorem binary32_roundReal_pos (x : ℝ) (e n : Int) (h1 : (2 : ℝ) ^ e ≤ x)
    (h2 : x < (2 : ℝ) ^ (e + 1)) (he : -126 ≤ e)
    (h3 : ((n : ℝ) - 1 / 2) * (2 : ℝ) ^ (e - 23) < x)
    (h4 : x < ((n : ℝ) + 1 / 2) * (2 : ℝ) ^ (e - 23)) :
    binary32.roundReal x = (n : ℝ) * (2 : ℝ) ^ (e - 23) := by
  have h0 : 0 ≤ x := le_trans (FloatFormat.two_zpow_pos e).le h1
  exact binary32_roundReal_eq x e n (by rwa [abs_of_nonneg h0]) (by rwa [abs_of_nonneg h0]) he
    h3 h4

/-- A finite `float` as the result of an operation. -/
theorem round32_finite (x y : ℝ) (h : binary32.roundReal x = y) (h0 : 0 ≤ y)
    (h1 : y ≤ (2 : ℝ) ^ (127 : Int)) : binary32.round x = Fp.finite y := by
  unfold FloatFormat.round
  rw [h, if_pos]
  rw [abs_of_nonneg h0]
  have := binary32_le_max y (by rwa [abs_of_nonneg h0])
  rwa [abs_of_nonneg h0] at this

theorem spacing_float :
    binary32.round ((HORIZONTAL_POINT_DIST * HORIZONTAL_POINT_DIST : Int) : ℝ) =
      Fp.finite 2500 := by
  rw [spacing_sq]
  exact round32_exact 2500 binary32_2500 (by norm_num)

/-- A `float` operation that overflows. -/
theorem round32_overflow (k : Int) (hk : 128 ≤ k) :
    binary32.round ((2 : ℝ) ^ k) = Fp.infinite false := by
  unfold FloatFormat.round
  rw [binary32_zpow k (by omega), binary32_maxFinite]
  have h1 := FloatFormat.two_zpow_le 128 k hk
  have h2 := FloatFormat.two_zpow_pos k
  have h3 : (340282346638528859811704183484516925440 : ℝ) < (2 : ℝ) ^ (128 : Int) := by norm_num
  rw [if_neg (by rw [abs_of_pos h2]; linarith)]
  congr 1
  exact decide_eq_false (by linarith)

/-- The angle that both kernels compute from the quotient zero. -/
theorem angle_zero :
    binary32.convert (binary64.mul DEGREES_PER_RADIAN (asinNearest (Fp.finite 0))) =
      Fp.finite 0 := by
  obtain ⟨D, hD, _, _⟩ := degreesPerRadian_finite
  rw [asinNearest_spec.1, hD]
  show binary32.convert (binary64.round (D * 0)) = _
  rw [mul_zero, FloatFormat.round_zero]
  exact FloatFormat.round_zero binary32

/-- The kernel of cw1Part3 at the heights `0` and `2 ^ 67`: the square of
the difference overflows, the distance is `+∞` and the angle is `0`. -/
theorem cw1Part3.kernel_overflow :
    cw1Part3.kernel asinNearest (Fp.finite 0) (Fp.finite ((2 : ℝ) ^ (67 : Int))) =
      (Fp.infinite false, Fp.finite 0) := by
  have hsub : binary32.sub (Fp.finite ((2 : ℝ) ^ (67 : Int))) (Fp.finite 0) =
      Fp.finite ((2 : ℝ) ^ (67 : Int)) := by
    show binary32.round ((2 : ℝ) ^ (67 : Int) - 0) = _
    rw [sub_zero]
    exact round32_exact _ (binary32_zpow 67 (by norm_num))
      (by rw [abs_of_pos (FloatFormat.two_zpow_pos _)]
          exact FloatFormat.two_zpow_le _ _ (by norm_num))
  have hmul : binary32.mul (Fp.finite ((2 : ℝ) ^ (67 : Int))) (Fp.finite ((2 : ℝ) ^ (67 : Int))) =
      Fp.infinite false := by
    show binary32.round ((2 : ℝ) ^ (67 : Int) * (2 : ℝ) ^ (67 : Int)) = _
    rw [← zpow_add₀ (by norm_num : (2 : ℝ) ≠ 0)]
    exact round32_overflow _ (by norm_num)
  unfold cw1Part3.kernel
  simp only
  rw [hsub, hmul, spacing_float]
  show (Fp.infinite false, binary32.convert (binary64.mul DEGREES_PER_RADIAN
    (asinNearest (Fp.finite 0)))) = _
  rw [angle_zero]

/-- The kernel of cw1Part3 at the heights `0` and `2 ^ 20`: the distance is
`2 ^ 20`, and the quotient is `1`. -/
theorem cw1Part3.kernel_quotient_one (asin : Fp → Fp) :
    (cw1Part3.kernel asin (Fp.finite 0) (Fp.finite ((2 : ℝ) ^ (20 : Int)))).1 =
      Fp.finite ((2 : ℝ) ^ (20 : Int)) ∧
    binary32.div (binary32.sub (Fp.finite ((2 : ℝ) ^ (20 : Int))) (Fp.finite 0))
      (Fp.finite ((2 : ℝ) ^ (20 : Int))) = Fp.finite 1 := by
  have hsub : binary32.sub (Fp.finite ((2 : ℝ) ^ (20 : Int))) (Fp.finite 0) =
      Fp.finite ((2 : ℝ) ^ (20 : Int)) := by
    show binary32.round ((2 : ℝ) ^ (20 : Int) - 0) = _
    rw [sub_zero]
    exact round32_exact _ (binary32_zpow 20 (by norm_num))
      (by rw [abs_of_pos (FloatFormat.two_zpow_pos _)]
          exact FloatFormat.two_zpow_le _ _ (by norm_num))
  have hmul : binary32.mul (Fp.finite ((2 : ℝ) ^ (20 : Int))) (Fp.finite ((2 : ℝ) ^ (20 : Int))) =
      Fp.finite ((2 : ℝ) ^ (40 : Int)) := by
    show binary32.round ((2 : ℝ) ^ (20 : Int) * (2 : ℝ) ^ (20 : Int)) = _
    rw [← zpow_add₀ (by norm_num : (2 : ℝ) ≠ 0)]
    exact round32_exact _ (binary32_zpow 40 (by norm_num))
      (by rw [abs_of_pos (FloatFormat.two_zpow_pos _)]
          exact FloatFormat.two_zpow_le _ _ (by norm_num))
  have hs : binary32.roundReal ((2 : ℝ) ^ (40 : Int) + 2500) = (2 : ℝ) ^ (40 : Int) := by
    have := binary32_roundReal_eq ((2 : ℝ) ^ (40 : Int) + 2500) 40 8388608
      (by norm_num) (by norm_num) (by norm_num) (by norm_num) (by norm_num)
    rw [this]
    norm_num
  have hadd : binary32.add (Fp.finite ((2 : ℝ) ^ (40 : Int))) (Fp.finite 2500) =
      Fp.finite ((2 : ℝ) ^ (40 : Int)) := by
    show binary32.round ((2 : ℝ) ^ (40 : Int) + 2500) = _
    rw [FloatFormat.round_of_abs_le binary32 binary32_prec binary32_range _
      (binary32_le_max _ (by norm_num)), hs]
  have hroot : Real.sqrt ((2 : ℝ) ^ (40 : Int)) = (2 : ℝ) ^ (20 : Int) := by
    rw [show (2 : ℝ) ^ (40 : Int) = (2 : ℝ) ^ (20 : Int) * (2 : ℝ) ^ (20 : Int) by
      rw [← zpow_add₀ (by norm_num : (2 : ℝ) ≠ 0)]
      norm_num]
    exact Real.sqrt_mul_self (FloatFormat.two_zpow_pos _).le
  have hsqrt : binary32.sqrt (Fp.finite ((2 : ℝ) ^ (40 : Int))) =
      Fp.finite ((2 : ℝ) ^ (20 : Int)) := by
    show (if (2 : ℝ) ^ (40 : Int) < 0 then Fp.nan else binary32.round _) = _
    rw [if_neg (by norm_num), hroot]
    exact round32_exact _ (binary32_zpow 20 (by norm_num))
      (by rw [abs_of_pos (FloatFormat.two_zpow_pos _)]
          exact FloatFormat.two_zpow_le _ _ (by norm_num))
  constructor
  · unfold cw1Part3.kernel
    simp only
    rw [hsub, hmul, spacing_float, hadd, hsqrt]
  · rw [hsub]
    show (if (2 : ℝ) ^ (20 : Int) = 0 then _ else binary32.round _) = _
    rw [if_neg (by norm_num), div_self (by norm_num)]
    exact round32_exact 1 binary32_one (by norm_num)

/-- The kernels at the heights `-2 ^ 127` and `2 ^ 127`: the difference
overflows, the distance is `+∞`, and the quotient is a NaN. -/
theorem kernel_nan (asin : Fp → Fp) :
    binary32.sub (Fp.finite ((2 : ℝ) ^ (127 : Int))) (Fp.finite (-(2 : ℝ) ^ (127 : Int))) =
      Fp.infinite false ∧
    (cw1Part3.kernel asin (Fp.finite (-(2 : ℝ) ^ (127 : Int)))
      (Fp.finite ((2 : ℝ) ^ (127 : Int)))).1 = Fp.infinite false ∧
    (cw1Part1.kernel asin (Fp.finite (-(2 : ℝ) ^ (127 : Int)))
      (Fp.finite ((2 : ℝ) ^ (127 : Int)))).1 = Fp.infinite false ∧
    binary32.div (Fp.infinite false) (Fp.infinite false) = Fp.nan := by
  have hsub : binary32.sub (Fp.finite ((2 : ℝ) ^ (127 : Int)))
      (Fp.finite (-(2 : ℝ) ^ (127 : Int))) = Fp.infinite false := by
    show binary32.round ((2 : ℝ) ^ (127 : Int) - -(2 : ℝ) ^ (127 : Int)) = _
    rw [show (2 : ℝ) ^ (127 : Int) - -(2 : ℝ) ^ (127 : Int) = (2 : ℝ) ^ (128 : Int) by
      rw [show (128 : Int) = 127 + 1 by norm_num, zpow_add_one₀ (by norm_num)]
      ring]
    exact round32_overflow 128 le_rfl
  refine ⟨hsub, ?_, ?_, rfl⟩
  · unfold cw1Part3.kernel
    simp only
    rw [hsub, spacing_float]
    rfl
  · unfold cw1Part1.kernel
    simp only
    rw [hsub, round64_50, pow2_50]
    rfl

end Floating

/-! ## Swapping the two points of the kernel -/

/-- C23 as stated fails in `float` arithmetic.  With the heights `0` and
`2 ^ 67` the next column is the higher one, but in cw1Part3 the square of the
difference overflows: the distance is `+∞`, the quotient is `0`, and the
angle is `0`, which is not positive. -/
theorem kernel_antisymmetry_counterexample :
    Floating.cw1Part3.kernel Floating.asinNearest (Fp.finite 0)
      (Fp.finite ((2 : ℝ) ^ (67 : Int))) = (Fp.infinite false, Fp.finite 0) ∧
    (0 : ℝ) < (2 : ℝ) ^ (67 : Int) ∧ ¬ Fp.IsPos (Fp.finite 0) :=
  ⟨Floating.cw1Part3.kernel_overflow, FloatFormat.two_zpow_pos _, lt_irrefl (0 : ℝ)⟩

/-- C23, amended.  In `float` arithmetic, with an `asin` that meets
`AsinSpec`, in the kernel of cw1Part3 and in the kernel of cw1Part1: for all
data `a` and `b`, finite or not, the kernel of the heights `b`, `a` has the
distance of the kernel of the heights `a`, `b` and the negated angle (the
negation of a NaN being a NaN); and for finite heights that are equal or
between `2 ^ (-140)` and `2 ^ 63` apart, the angle of the kernel of `a`, `b`
(cell height `a`, next column `b`) is positive exactly when `a < b`. -/
theorem kernel_antisymmetry (asin : Fp → Fp) (hs : Floating.AsinSpec asin) :
    (∀ a b : Fp,
      ((Floating.cw1Part3.kernel asin b a).1 = (Floating.cw1Part3.kernel asin a b).1 ∧
        (Floating.cw1Part3.kernel asin b a).2 = Fp.neg (Floating.cw1Part3.kernel asin a b).2) ∧
      ((Floating.cw1Part1.kernel asin b a).1 = (Floating.cw1Part1.kernel asin a b).1 ∧
        (Floating.cw1Part1.kernel asin b a).2 =
          Fp.neg (Floating.cw1Part1.kernel asin a b).2)) ∧
    (∀ a b : ℝ, |b - a| ≤ (2 : ℝ) ^ (63 : Int) →
      (a = b ∨ (2 : ℝ) ^ (-140 : Int) ≤ |b - a|) →
      (Fp.IsPos (Floating.cw1Part3.kernel asin (Fp.finite a) (Fp.finite b)).2 ↔ a < b) ∧
      (Fp.IsPos (Floating.cw1Part1.kernel asin (Fp.finite a) (Fp.finite b)).2 ↔ a < b)) := by
  refine ⟨fun a b => ⟨Floating.cw1Part3.kernel_swap asin hs.2.1 a b,
    Floating.cw1Part1.kernel_swap_double asin hs.2.1 a b⟩, fun a b hV hlow => ⟨?_, ?_⟩⟩
  · obtain ⟨t, ht, _, hsign⟩ := Floating.cw1Part3.kernel_angle asin hs a b hV
    rw [ht]
    exact hsign hlow
  · obtain ⟨t, ht, _, hsign⟩ := Floating.cw1Part1.kernel_angle_double asin hs a b hV
    rw [ht]
    exact hsign hlow

/-- The heights `10` and `15` with the `asin` that rounds to nearest: the
next column is the higher one, and the angle is positive in both kernels. -/
theorem kernel_antisymmetry_witness :
    Floating.AsinSpec Floating.asinNearest ∧
    Fp.IsPos (Floating.cw1Part3.kernel Floating.asinNearest (Fp.finite 10) (Fp.finite 15)).2 ∧
    Fp.IsPos (Floating.cw1Part1.kernel Floating.asinNearest (Fp.finite 10) (Fp.finite 15)).2 :=
  ⟨Floating.asinNearest_spec,
    (((kernel_antisymmetry Floating.asinNearest Floating.asinNearest_spec).2 10 15
      (by norm_num) (Or.inr (by norm_num))).1).2 (by norm_num),
    (((kernel_antisymmetry Floating.asinNearest Floating.asinNearest_spec).2 10 15
      (by norm_num) (Or.inr (by norm_num))).2).2 (by norm_num)⟩

/-! ## The domain of the arc sine -/

/-- C20 as stated fails in `float` arithmetic.  In cw1Part3 the heights `0`
and `2 ^ 20` give the distance `2 ^ 20` and the quotient `1`, which is not
strictly inside `[-1, 1]`; the heights `-2 ^ 127` and `2 ^ 127`, both finite
`float`s, give in both kernels a difference and a distance `+∞`, and the
quotient `∞ / ∞` is a NaN. -/
theorem kernel_domain_safety_counterexample :
    ((Floating.cw1Part3.kernel Floating.asinNearest (Fp.finite 0)
        (Fp.finite ((2 : ℝ) ^ (20 : Int)))).1 = Fp.finite ((2 : ℝ) ^ (20 : Int)) ∧
      binary32.div (binary32.sub (Fp.finite ((2 : ℝ) ^ (20 : Int))) (Fp.finite 0))
        (Fp.finite ((2 : ℝ) ^ (20 : Int))) = Fp.finite 1 ∧ ¬ ((1 : ℝ) < 1)) ∧
    (binary32.sub (Fp.finite ((2 : ℝ) ^ (127 : Int))) (Fp.finite (-(2 : ℝ) ^ (127 : Int))) =
        Fp.infinite false ∧
      (Floating.cw1Part3.kernel Floating.asinNearest (Fp.finite (-(2 : ℝ) ^ (127 : Int)))
        (Fp.finite ((2 : ℝ) ^ (127 : Int)))).1 = Fp.infinite false ∧
      (Floating.cw1Part1.kernel Floating.asinNearest (Fp.finite (-(2 : ℝ) ^ (127 : Int)))
        (Fp.finite ((2 : ℝ) ^ (127 : Int)))).1 = Fp.infinite false ∧
      binary32.div (Fp.infinite false) (Fp.infinite false) = Fp.nan) :=
  ⟨⟨(Floating.cw1Part3.kernel_quotient_one Floating.asinNearest).1,
      (Floating.cw1Part3.kernel_quotient_one Floating.asinNearest).2, lt_irrefl 1⟩,
    Floating.kernel_nan Floating.asinNearest⟩

/-- C20, amended.  In `float` arithmetic, with an `asin` that meets
`AsinSpec`, for all finite heights at most `2 ^ 63` apart, in the kernel of
cw1Part3 and in the kernel of cw1Part1: the difference `v` and the distance
`d` are finite with `d ≥ 50` and `d ≥ |v|`, so the division is not by zero;
the quotient `q`, the argument of `asin`, is finite with `|q| ≤ 1` (it can
be `1` or `-1`), so it is in the domain of the arc sine without clamping;
and the angle `t` is finite with `|t| ≤ 92163 / 1024 < 90.003`. -/
theorem kernel_domain_safety (asin : Fp → Fp) (hs : Floating.AsinSpec asin) (a b : ℝ)
    (hV : |b - a| ≤ (2 : ℝ) ^ (63 : Int)) :
    (∃ v d q t : ℝ,
      binary32.sub (Fp.finite b) (Fp.finite a) = Fp.finite v ∧
      Floating.cw1Part3.kernel asin (Fp.finite a) (Fp.finite b) = (Fp.finite d, Fp.finite t) ∧
      50 ≤ d ∧ |v| ≤ d ∧
      binary32.div (Fp.finite v) (Fp.finite d) = Fp.finite q ∧ |q| ≤ 1 ∧
      |t| ≤ 92163 / 1024) ∧
    (∃ v d q t : ℝ,
      binary32.sub (Fp.finite b) (Fp.finite a) = Fp.finite v ∧
      Floating.cw1Part1.kernel asin (Fp.finite a) (Fp.finite b) = (Fp.finite d, Fp.finite t) ∧
      50 ≤ d ∧ |v| ≤ d ∧
      binary32.div (Fp.finite v) (Fp.finite d) = Fp.finite q ∧ |q| ≤ 1 ∧
      |t| ≤ 92163 / 1024) := by
  constructor
  · obtain ⟨v, d, _, hsub, _, hd, h50, hvd, _, _, hdiv, hq, _⟩ :=
      Floating.cw1Part3.kernel_finite asin a b hV
    obtain ⟨t, ht, hb, _⟩ := Floating.cw1Part3.kernel_angle asin hs a b hV
    exact ⟨v, d, _, t, hsub, Prod.ext hd ht, h50, hvd, hdiv, hq, hb⟩
  · obtain ⟨v, d, _, hsub, _, hd, h50, hvd, _, _, hdiv, hq, _⟩ :=
      Floating.cw1Part1.kernel_finite_double asin a b hV
    obtain ⟨t, ht, hb, _⟩ := Floating.cw1Part1.kernel_angle_double asin hs a b hV
    exact ⟨v, d, _, t, hsub, Prod.ext hd ht, h50, hvd, hdiv, hq, hb⟩

/-- The heights `10` and `15` with the `asin` that rounds to nearest. -/
theorem kernel_domain_safety_witness :
    Floating.AsinSpec Floating.asinNearest ∧ |(15 : ℝ) - 10| ≤ (2 : ℝ) ^ (63 : Int) ∧
    ∃ v d q t : ℝ,
      binary32.sub (Fp.finite 15) (Fp.finite 10) = Fp.finite v ∧
      Floating.cw1Part3.kernel Floating.asinNearest (Fp.finite 10) (Fp.finite 15) =
        (Fp.finite d, Fp.finite t) ∧
      50 ≤ d ∧ |v| ≤ d ∧
      binary32.div (Fp.finite v) (Fp.finite d) = Fp.finite q ∧ |q| ≤ 1 ∧
      |t| ≤ 92163 / 1024 :=
  ⟨Floating.asinNearest_spec, by norm_num,
    (kernel_domain_safety Floating.asinNearest Floating.asinNearest_spec 10 15
      (by norm_num)).1⟩

/-! ## The loops in floating-point arithmetic -/

namespace Floating

/-- A column loop whose body stores a pair computed from the height matrix,
run for its first `n` columns. -/
theorem foldl_body (body : Arrays → Int → Nat → Arrays) (g : Matrix → Int → Nat → Fp × Fp)
    (hbody : ∀ (a : Arrays) (i : Int) (j : Nat), body a i j =
      { mainArray := a.mainArray
        distanceArray := a.distanceArray.set i j (g a.mainArray i j).1
        angleArray := a.angleArray.set i j (g a.mainArray i j).2 })
    (a : Arrays) (i : Int) (n : Nat) :
    ((List.range n).foldl (fun acc j => body acc i j) a).mainArray = a.mainArray ∧
    (∀ (i2 : Int) (j2 : Nat),
      ((List.range n).foldl (fun acc j => body acc i j) a).distanceArray i2 j2 =
        if i2 = i ∧ j2 < n then (g a.mainArray i j2).1 else a.distanceArray i2 j2) ∧
    (∀ (i2 : Int) (j2 : Nat),
      ((List.range n).foldl (fun acc j => body acc i j) a).angleArray i2 j2 =
        if i2 = i ∧ j2 < n then (g a.mainArray i j2).2 else a.angleArray i2 j2) := by
  induction n with
  | zero => simp
  | succ n ih =>
    rw [List.range_succ, List.foldl_append, List.foldl_cons, List.foldl_nil]
    generalize (List.range n).foldl (fun acc j => body acc i j) a = b at ih ⊢
    obtain ⟨hm, hd, ha⟩ := ih
    rw [hbody]
    simp only [hm, true_and]
    refine ⟨?_, ?_⟩
    · intro i2 j2
      unfold Matrix.set
      rw [hd]
      by_cases h1 : i2 = i
      · by_cases h2 : j2 = n
        · simp [h1, h2]
        · by_cases h3 : j2 < n
          · have : j2 < n + 1 := by omega
            simp [h1, h2, h3, this]
          · have : ¬ j2 < n + 1 := by omega
            simp [h1, h2, h3, this]
      · simp [h1]
    · intro i2 j2
      unfold Matrix.set
      rw [ha]
      by_cases h1 : i2 = i
      · by_cases h2 : j2 = n
        · simp [h1, h2]
        · by_cases h3 : j2 < n
          · have : j2 < n + 1 := by omega
            simp [h1, h2, h3, this]
          · have : ¬ j2 < n + 1 := by omega
            simp [h1, h2, h3, this]
      · simp [h1]

namespace cw1Part3

theorem forLoop_spec (asin : Fp → Fp) (W : Nat) (a : Arrays) (i : Int) :
    (forLoop asin W a i).mainArray = a.mainArray ∧
    (∀ (i2 : Int) (j2 : Nat), (forLoop asin W a i).distanceArray i2 j2 =
      if i2 = i ∧ j2 < W then (kernelAt asin W a.mainArray i j2).1 else a.distanceArray i2 j2) ∧
    (∀ (i2 : Int) (j2 : Nat), (forLoop asin W a i).angleArray i2 j2 =
      if i2 = i ∧ j2 < W then (kernelAt asin W a.mainArray i j2).2 else a.angleArray i2 j2) :=
  foldl_body (fun a i j => cellBody asin W a i j) (kernelAt asin W) (fun _ _ _ => rfl) a i W

/-- The row loop of `processRows`, for a non-negative `rowsToProcess` and
enough iterations to reach the end of the array. -/
theorem whileLoop_float (asin : Fp → Fp) (H W : Nat) (fuel : Nat) (a : Arrays) (cur r : Int)
    (hfuel : ((H : Int) - cur).toNat ≤ fuel) (hr : 0 ≤ r) :
    (whileLoop asin H W fuel a cur r).mainArray = a.mainArray ∧
    (∀ (i : Int) (j : Nat), (whileLoop asin H W fuel a cur r).distanceArray i j =
      if cur ≤ i ∧ i < cur + r ∧ i < (H : Int) ∧ j < W then (kernelAt asin W a.mainArray i j).1
      else a.distanceArray i j) ∧
    (∀ (i : Int) (j : Nat), (whileLoop asin H W fuel a cur r).angleArray i j =
      if cur ≤ i ∧ i < cur + r ∧ i < (H : Int) ∧ j < W then (kernelAt asin W a.mainArray i j).2
      else a.angleArray i j) := by
  induction fuel generalizing a cur r with
  | zero =>
    have hcur : (H : Int) ≤ cur := by omega
    refine ⟨rfl, fun i j => ?_, fun i j => ?_⟩
    · show a.distanceArray i j = _
      rw [if_neg]
      omega
    · show a.angleArray i j = _
      rw [if_neg]
      omega
  | succ fuel ih =>
    unfold whileLoop
    split
    · rename_i hc
      obtain ⟨hm, hd, ha⟩ := ih (forLoop asin W a cur) (cur + 1) (r - 1) (by omega) (by omega)
      obtain ⟨fm, fd, fa⟩ := forLoop_spec asin W a cur
      refine ⟨by rw [hm, fm], ?_, ?_⟩
      · intro i j
        rw [hd, fm, fd]
        by_cases h1 : i = cur
        · subst h1
          by_cases h2 : j < W
          · have e1 : ¬ (i + 1 ≤ i ∧ i < i + 1 + (r - 1) ∧ i < (H : Int) ∧ j < W) := by omega
            have e2 : (i ≤ i ∧ i < i + r ∧ i < (H : Int) ∧ j < W) := by omega
            simp [e1, e2, h2]
          · have e1 : ¬ (i + 1 ≤ i ∧ i < i + 1 + (r - 1) ∧ i < (H : Int) ∧ j < W) := by omega
            have e2 : ¬ (i ≤ i ∧ i < i + r ∧ i < (H : Int) ∧ j < W) := by omega
            simp [e1, e2, h2]
        · have e0 : ¬ (i = cur ∧ j < W) := by tauto
          by_cases h3 : cur + 1 ≤ i ∧ i < cur + 1 + (r - 1) ∧ i < (H : Int) ∧ j < W
          · have e2 : (cur ≤ i ∧ i < cur + r ∧ i < (H : Int) ∧ j < W) := by omega
            rw [if_pos h3, if_pos e2]
          · have e2 : ¬ (cur ≤ i ∧ i < cur + r ∧ i < (H : Int) ∧ j < W) := by omega
            rw [if_neg h3, if_neg e2, if_neg e0]
      · intro i j
        rw [ha, fm, fa]
        by_cases h1 : i = cur
        · subst h1
          by_cases h2 : j < W
          · have e1 : ¬ (i + 1 ≤ i ∧ i < i + 1 + (r - 1) ∧ i < (H : Int) ∧ j < W) := by omega
            have e2 : (i ≤ i ∧ i < i + r ∧ i < (H : Int) ∧ j < W) := by omega
            simp [e1, e2, h2]
          · have e1 : ¬ (i + 1 ≤ i ∧ i < i + 1 + (r - 1) ∧ i < (H : Int) ∧ j < W) := by omega
            have e2 : ¬ (i ≤ i ∧ i < i + r ∧ i < (H : Int) ∧ j < W) := by omega
            simp [e1, e2, h2]
        · have e0 : ¬ (i = cur ∧ j < W) := by tauto
          by_cases h3 : cur + 1 ≤ i ∧ i < cur + 1 + (r - 1) ∧ i < (H : Int) ∧ j < W
          · have e2 : (cur ≤ i ∧ i < cur + r ∧ i < (H : Int) ∧ j < W) := by omega
            rw [if_pos h3, if_pos e2]
          · have e2 : ¬ (cur ≤ i ∧ i < cur + r ∧ i < (H : Int) ∧ j < W) := by omega
            rw [if_neg h3, if_neg e2, if_neg e0]
    · rename_i hc
      refine ⟨rfl, fun i j => ?_, fun i j => ?_⟩
      · rw [if_neg]
        omega
      · rw [if_neg]
        omega

/-- The matrices after a thread with a non-negative `rowsToProcess`, and how
the thread ends. -/
theorem processRows_float (asin : Fp → Fp) (H W : Nat) (a : Arrays)
    (d : Threading.cw1Part3.ThreadData) (hr : 0 ≤ d.rowsToProcess) :
    ((processRows asin H W a d).returned = true ↔ d.currentRow < (H : Int)) ∧
    (processRows asin H W a d).arrays.mainArray = a.mainArray ∧
    (∀ (i : Int) (j : Nat), (processRows asin H W a d).arrays.distanceArray i j =
      if d.owns i ∧ i < (H : Int) ∧ j < W then (kernelAt asin W a.mainArray i j).1
      else a.distanceArray i j) ∧
    (∀ (i : Int) (j : Nat), (processRows asin H W a d).arrays.angleArray i j =
      if d.owns i ∧ i < (H : Int) ∧ j < W then (kernelAt asin W a.mainArray i j).2
      else a.angleArray i j) := by
  unfold processRows Threading.cw1Part3.ThreadData.owns
  simp only
  split
  · rename_i hge
    refine ⟨?_, rfl, fun i j => ?_, fun i j => ?_⟩
    · simp only [Bool.false_eq_true, false_iff]
      omega
    · rw [if_neg]
      omega
    · rw [if_neg]
      omega
  · rename_i hlt
    obtain ⟨hm, hd, ha⟩ :=
      whileLoop_float asin H W ((H : Int) - d.currentRow).toNat a d.currentRow d.rowsToProcess
        le_rfl hr
    refine ⟨?_, hm, fun i j => ?_, fun i j => ?_⟩
    · simp only [true_iff]
      omega
    · rw [hd]
      simp only [and_assoc]
    · rw [ha]
      simp only [and_assoc]

/-- The matrices after the threads of a gap-free list of ranges that starts
at row `s`, each range starting below row `H`: every thread has ended with
`return`. -/
theorem runThreads_float (asin : Fp → Fp) (H W : Nat)
    (ds : List Threading.cw1Part3.ThreadData) (s : Int) (a : Arrays)
    (hc : Threading.cw1Part3.Contiguous s ds) (hpos : ∀ d ∈ ds, 0 ≤ d.rowsToProcess)
    (hlt : ∀ d ∈ ds, d.currentRow < (H : Int)) :
    (runThreads asin H W ds a).2 = true ∧
    (runThreads asin H W ds a).1.mainArray = a.mainArray ∧
    (∀ (i : Int) (j : Nat), (runThreads asin H W ds a).1.distanceArray i j =
      if s ≤ i ∧ i < s + Threading.cw1Part3.totalRows ds ∧ i < (H : Int) ∧ j < W then
        (kernelAt asin W a.mainArray i j).1
      else a.distanceArray i j) ∧
    (∀ (i : Int) (j : Nat), (runThreads asin H W ds a).1.angleArray i j =
      if s ≤ i ∧ i < s + Threading.cw1Part3.totalRows ds ∧ i < (H : Int) ∧ j < W then
        (kernelAt asin W a.mainArray i j).2
      else a.angleArray i j) := by
  induction ds generalizing s a with
  | nil =>
    refine ⟨rfl, rfl, fun i j => ?_, fun i j => ?_⟩
    · show a.distanceArray i j = _
      rw [if_neg]
      simp only [Threading.cw1Part3.totalRows, List.map_nil, List.sum_nil]
      omega
    · show a.angleArray i j = _
      rw [if_neg]
      simp only [Threading.cw1Part3.totalRows, List.map_nil, List.sum_nil]
      omega
  | cons x xs ih =>
    have hx : 0 ≤ x.rowsToProcess := hpos x (List.mem_cons_self _ _)
    have hxs : ∀ d ∈ xs, 0 ≤ d.rowsToProcess := fun d hd => hpos d (List.mem_cons_of_mem _ hd)
    have hsum : 0 ≤ Threading.cw1Part3.totalRows xs := by
      unfold Threading.cw1Part3.totalRows
      apply List.sum_nonneg
      intro v hv
      obtain ⟨d, hd, rfl⟩ := List.mem_map.1 hv
      exact hxs d hd
    have htot : Threading.cw1Part3.totalRows (x :: xs) =
        x.rowsToProcess + Threading.cw1Part3.totalRows xs := by
      simp [Threading.cw1Part3.totalRows]
    obtain ⟨pr, pm, pd, pa⟩ := processRows_float asin H W a x hx
    obtain ⟨hr, hm, hd, ha⟩ := ih (s + x.rowsToProcess) (processRows asin H W a x).arrays
      hc.2 hxs (fun d hd => hlt d (List.mem_cons_of_mem _ hd))
    have hxs0 := hc.1
    unfold runThreads
    refine ⟨?_, by rw [hm, pm], fun i j => ?_, fun i j => ?_⟩
    · simp only [Bool.and_eq_true]
      exact ⟨pr.2 (hlt x (List.mem_cons_self _ _)), hr⟩
    · show (runThreads asin H W xs (processRows asin H W a x).arrays).1.distanceArray i j = _
      rw [hd, pm, pd, htot]
      unfold Threading.cw1Part3.ThreadData.owns
      by_cases h1 : s + x.rowsToProcess ≤ i ∧
          i < s + x.rowsToProcess + Threading.cw1Part3.totalRows xs ∧ i < (H : Int) ∧ j < W
      · have e2 : s ≤ i ∧ i < s + (x.rowsToProcess + Threading.cw1Part3.totalRows xs) ∧
            i < (H : Int) ∧ j < W := by omega
        rw [if_pos h1, if_pos e2]
      · rw [if_neg h1]
        by_cases h2 : (x.currentRow ≤ i ∧ i < x.currentRow + x.rowsToProcess) ∧
            i < (H : Int) ∧ j < W
        · have e2 : s ≤ i ∧ i < s + (x.rowsToProcess + Threading.cw1Part3.totalRows xs) ∧
              i < (H : Int) ∧ j < W := by omega
          rw [if_pos h2, if_pos e2]
        · have e2 : ¬ (s ≤ i ∧ i < s + (x.rowsToProcess + Threading.cw1Part3.totalRows xs) ∧
              i < (H : Int) ∧ j < W) := by omega
          rw [if_neg h2, if_neg e2]
    · show (runThreads asin H W xs (processRows asin H W a x).arrays).1.angleArray i j = _
      rw [ha, pm, pa, htot]
      unfold Threading.cw1Part3.ThreadData.owns
      by_cases h1 : s + x.rowsToProcess ≤ i ∧
          i < s + x.rowsToProcess + Threading.cw1Part3.totalRows xs ∧ i < (H : Int) ∧ j < W
      · have e2 : s ≤ i ∧ i < s + (x.rowsToProcess + Threading.cw1Part3.totalRows xs) ∧
            i < (H : Int) ∧ j < W := by omega
        rw [if_pos h1, if_pos e2]
      · rw [if_neg h1]
        by_cases h2 : (x.currentRow ≤ i ∧ i < x.currentRow + x.rowsToProcess) ∧
            i < (H : Int) ∧ j < W
        · have e2 : s ≤ i ∧ i < s + (x.rowsToProcess + Threading.cw1Part3.totalRows xs) ∧
              i < (H : Int) ∧ j < W := by omega
          rw [if_pos h2, if_pos e2]
        · have e2 : ¬ (s ≤ i ∧ i < s + (x.rowsToProcess + Threading.cw1Part3.totalRows xs) ∧
              i < (H : Int) ∧ j < W) := by omega
          rw [if_neg h2, if_neg e2]

/-- For `1 ≤ N ≤ H`, `main` of cw1Part3 returns `0` and leaves in every cell
of the rows `0 .. H - 1` what the kernel computes from the heights. -/
theorem main_float (asin : Fp → Fp) (H W N : Nat) (m d0 a0 : Matrix) (h1 : 1 ≤ N)
    (hN : N ≤ H) :
    ∃ a : Arrays, main asin H W N m d0 a0 = some a ∧
      a.mainArray = m ∧
      (∀ (i : Int) (j : Nat), a.distanceArray i j =
        if 0 ≤ i ∧ i < (H : Int) ∧ j < W then (kernelAt asin W m i j).1 else d0 i j) ∧
      (∀ (i : Int) (j : Nat), a.angleArray i j =
        if 0 ≤ i ∧ i < (H : Int) ∧ j < W then (kernelAt asin W m i j).2 else a0 i j) := by
  have hnn : ∀ d ∈ Threading.cw1Part3.threadData H N, 0 ≤ d.rowsToProcess :=
    fun d hd => (Threading.cw1Part3.threadData_pos H N h1 hN d hd).le
  have hlt : ∀ d ∈ Threading.cw1Part3.threadData H N, d.currentRow < (H : Int) := by
    intro d hd
    have := Threading.cw1Part3.threadData_lt H N h1 hN d hd
    have := Threading.cw1Part3.threadData_pos H N h1 hN d hd
    omega
  obtain ⟨hr, hm, hd, ha⟩ := runThreads_float asin H W (Threading.cw1Part3.threadData H N) 0
    { mainArray := m, distanceArray := d0, angleArray := a0 }
    (Threading.cw1Part3.threadData_contiguous H N) hnn hlt
  rw [Threading.cw1Part3.threadData_totalRows H N (by omega)] at hd ha
  have h2 : ¬ N > H := by omega
  have h3 : N ≠ 0 := by omega
  unfold main
  simp only [h2, h3, if_false, hr, if_true]
  refine ⟨_, rfl, hm, fun i j => ?_, fun i j => ?_⟩
  · rw [hd]
    by_cases h : 0 ≤ i ∧ i < (H : Int) ∧ j < W
    · have e : 0 ≤ i ∧ i < 0 + (H : Int) ∧ i < (H : Int) ∧ j < W := by omega
      rw [if_pos h, if_pos e]
    · have e : ¬ (0 ≤ i ∧ i < 0 + (H : Int) ∧ i < (H : Int) ∧ j < W) := by omega
      rw [if_neg h, if_neg e]
  · rw [ha]
    by_cases h : 0 ≤ i ∧ i < (H : Int) ∧ j < W
    · have e : 0 ≤ i ∧ i < 0 + (H : Int) ∧ i < (H : Int) ∧ j < W := by omega
      rw [if_pos h, if_pos e]
    · have e : ¬ (0 ≤ i ∧ i < 0 + (H : Int) ∧ i < (H : Int) ∧ j < W) := by omega
      rw [if_neg h, if_neg e]

end cw1Part3

namespace cw1Part1

theorem forLoop_double (asin : Fp → Fp) (W : Nat) (a : Arrays) (i : Int) :
    (forLoop asin W a i).mainArray = a.mainArray ∧
    (∀ (i2 : Int) (j2 : Nat), (forLoop asin W a i).distanceArray i2 j2 =
      if i2 = i ∧ j2 < W then (kernelAt asin W a.mainArray i j2).1 else a.distanceArray i2 j2) ∧
    (∀ (i2 : Int) (j2 : Nat), (forLoop asin W a i).angleArray i2 j2 =
      if i2 = i ∧ j2 < W then (kernelAt asin W a.mainArray i j2).2 else a.angleArray i2 j2) :=
  foldl_body (fun a i j => cellBody asin W a i j) (kernelAt asin W) (fun _ _ _ => rfl) a i W

/-- The row loop of `main` of cw1Part1, run for its first `n` rows. -/
theorem foldl_forLoop_double (asin : Fp → Fp) (W : Nat) (a : Arrays) (n : Nat) :
    ((List.range n).foldl (fun acc (i : Nat) => forLoop asin W acc (i : Int)) a).mainArray =
      a.mainArray ∧
    (∀ (i : Int) (j : Nat),
      ((List.range n).foldl (fun acc (i : Nat) => forLoop asin W acc (i : Int))
        a).distanceArray i j =
        if 0 ≤ i ∧ i < (n : Int) ∧ j < W then (kernelAt asin W a.mainArray i j).1
        else a.distanceArray i j) ∧
    (∀ (i : Int) (j : Nat),
      ((List.range n).foldl (fun acc (i : Nat) => forLoop asin W acc (i : Int))
        a).angleArray i j =
        if 0 ≤ i ∧ i < (n : Int) ∧ j < W then (kernelAt asin W a.mainArray i j).2
        else a.angleArray i j) := by
  induction n with
  | zero =>
    refine ⟨rfl, fun i j => ?_, fun i j => ?_⟩
    · show a.distanceArray i j = _
      rw [if_neg]
      omega
    · show a.angleArray i j = _
      rw [if_neg]
      omega
  | succ n ih =>
    rw [List.range_succ, List.foldl_append, List.foldl_cons, List.foldl_nil]
    generalize (List.range n).foldl (fun acc (i : Nat) => forLoop asin W acc (i : Int)) a = b
      at ih ⊢
    obtain ⟨hm, hd, ha⟩ := ih
    obtain ⟨fm, fd, fa⟩ := forLoop_double asin W b (n : Int)
    refine ⟨by rw [fm, hm], fun i j => ?_, fun i j => ?_⟩
    · rw [fd, hm, hd]
      by_cases h1 : i = (n : Int) ∧ j < W
      · have e : 0 ≤ i ∧ i < ((n + 1 : Nat) : Int) ∧ j < W := by omega
        rw [if_pos h1, if_pos e, h1.1]
      · rw [if_neg h1]
        by_cases h2 : 0 ≤ i ∧ i < (n : Int) ∧ j < W
        · have e : 0 ≤ i ∧ i < ((n + 1 : Nat) : Int) ∧ j < W := by omega
          rw [if_pos h2, if_pos e]
        · have e : ¬ (0 ≤ i ∧ i < ((n + 1 : Nat) : Int) ∧ j < W) := by omega
          rw [if_neg h2, if_neg e]
    · rw [fa, hm, ha]
      by_cases h1 : i = (n : Int) ∧ j < W
      · have e : 0 ≤ i ∧ i < ((n + 1 : Nat) : Int) ∧ j < W := by omega
        rw [if_pos h1, if_pos e, h1.1]
      · rw [if_neg h1]
        by_cases h2 : 0 ≤ i ∧ i < (n : Int) ∧ j < W
        · have e : 0 ≤ i ∧ i < ((n + 1 : Nat) : Int) ∧ j < W := by omega
          rw [if_pos h2, if_pos e]
        · have e : ¬ (0 ≤ i ∧ i < ((n + 1 : Nat) : Int) ∧ j < W) := by omega
          rw [if_neg h2, if_neg e]

/-- Closed form of the matrices `main` of cw1Part1 leaves behind. -/
theorem main_double (asin : Fp → Fp) (H W : Nat) (m d0 a0 : Matrix) :
    (main asin H W m d0 a0).mainArray = m ∧
    (∀ (i : Int) (j : Nat), (main asin H W m d0 a0).distanceArray i j =
      if 0 ≤ i ∧ i < (H : Int) ∧ j < W then (kernelAt asin W m i j).1 else d0 i j) ∧
    (∀ (i : Int) (j : Nat), (main asin H W m d0 a0).angleArray i j =
      if 0 ≤ i ∧ i < (H : Int) ∧ j < W then (kernelAt asin W m i j).2 else a0 i j) :=
  foldl_forLoop_double asin W { mainArray := m, distanceArray := d0, angleArray := a0 } H

end cw1Part1

end Floating

/-! ## How far the computed distance is from the exact one -/

namespace Floating

/-- The rounding error of `float`: relative `2 ^ (-24)`, or absolute
`2 ^ (-150)` below the normal range. -/
theorem abs_round32_sub_le (x : ℝ) :
    |binary32.roundReal x - x| ≤ |x| / 16777216 + 1 / 2 ^ 150 := by
  have hx := abs_nonneg x
  by_cases h : (2 : ℝ) ^ binary32.emin ≤ |x|
  · have := FloatFormat.abs_roundReal_sub_le_mul binary32 x h
    have e : (2 : ℝ) ^ (-(binary32.prec : Int)) = 1 / 16777216 := by
      show (2 : ℝ) ^ (-((24 : Nat) : Int)) = 1 / 16777216
      norm_num
    rw [e] at this
    have h2 : (0 : ℝ) ≤ 1 / 2 ^ 150 := by positivity
    linarith
  · push_neg at h
    have := FloatFormat.abs_roundReal_sub_le_small binary32 x h
    have e : (2 : ℝ) ^ (binary32.emin - (binary32.prec : Int)) = 1 / 2 ^ 150 := by
      show (2 : ℝ) ^ ((-126 : Int) - ((24 : Nat) : Int)) = 1 / 2 ^ 150
      norm_num
    rw [e] at this
    have h2 : (0 : ℝ) ≤ |x| / 16777216 := by positivity
    linarith

theorem abs_round32_sub_le_normal (x : ℝ) (h1 : 1 ≤ |x|) :
    |binary32.roundReal x - x| ≤ |x| / 16777216 := by
  have h : (2 : ℝ) ^ binary32.emin ≤ |x| := by
    have : (2 : ℝ) ^ binary32.emin ≤ 1 := by
      have := FloatFormat.two_zpow_le binary32.emin 0 (by decide)
      rwa [zpow_zero] at this
    linarith
  have := FloatFormat.abs_roundReal_sub_le_mul binary32 x h
  have e : (2 : ℝ) ^ (-(binary32.prec : Int)) = 1 / 16777216 := by
    show (2 : ℝ) ^ (-((24 : Nat) : Int)) = 1 / 16777216
    norm_num
  rw [e] at this
  linarith

/-- The sum under the square root, computed in `float` from a difference
`v` that is the rounded `V`, against the exact `V ^ 2 + 2500`. -/
theorem sum_close (V : ℝ) (hV : |V| ≤ (2 : ℝ) ^ (63 : Int)) :
    |binary32.roundReal (binary32.roundReal (binary32.roundReal V * binary32.roundReal V) + 2500)
      - (V ^ 2 + 2500)| ≤ 13 / 2 / 16777216 * (V ^ 2 + 2500) := by
  have hM : |V| ≤ 9223372036854775808 := by
    have e : (2 : ℝ) ^ (63 : Int) = 9223372036854775808 := by norm_num
    rwa [e] at hV
  have hW0 := abs_nonneg V
  have hWW : |V| * |V| = V ^ 2 := by rw [abs_mul_abs_self, sq]
  -- the difference
  have h1 := abs_round32_sub_le V
  generalize binary32.roundReal V = v at h1
  have h2 : |v + V| ≤ (2 + 1 / 16777216) * |V| + 1 / 2 ^ 150 := by
    have : v + V = (v - V) + 2 * V := by ring
    rw [this]
    refine le_trans (abs_add _ _) ?_
    rw [abs_mul, abs_of_pos (by norm_num : (0 : ℝ) < 2)]
    linarith
  have h3 : |v * v - V ^ 2| ≤ 3 / 16777216 * V ^ 2 + 1 / 2 ^ 85 := by
    have e : v * v - V ^ 2 = (v - V) * (v + V) := by ring
    rw [e, abs_mul]
    have := mul_le_mul h1 h2 (abs_nonneg _) (by positivity)
    refine le_trans this ?_
    rw [← hWW]
    nlinarith [mul_nonneg hW0 hW0]
  have hvv0 : 0 ≤ v * v := mul_self_nonneg v
  have h4 : v * v ≤ (1 + 3 / 16777216) * V ^ 2 + 1 / 2 ^ 85 := by
    have := (abs_le.1 h3).2
    linarith
  -- the product
  have h5 := abs_round32_sub_le (v * v)
  rw [abs_of_nonneg hvv0] at h5
  have hp0 : 0 ≤ binary32.roundReal (v * v) := FloatFormat.roundReal_nonneg binary32 _ hvv0
  generalize binary32.roundReal (v * v) = p at h5 hp0
  have hsq : 0 ≤ V ^ 2 := sq_nonneg V
  have h6 : |p - V ^ 2| ≤ 5 / 16777216 * V ^ 2 + 2 / 2 ^ 85 := by
    have e : p - V ^ 2 = (p - v * v) + (v * v - V ^ 2) := by ring
    rw [e]
    refine le_trans (abs_add _ _) ?_
    have : (0 : ℝ) ≤ 1 / 2 ^ 85 := by positivity
    nlinarith
  -- the sum
  have h7 := abs_round32_sub_le_normal (p + 2500) (by rw [abs_of_nonneg (by linarith)]; linarith)
  rw [abs_of_nonneg (by linarith : 0 ≤ p + 2500)] at h7
  generalize binary32.roundReal (p + 2500) = s at h7
  have e : s - (V ^ 2 + 2500) = (s - (p + 2500)) + (p - V ^ 2) := by ring
  rw [e]
  refine le_trans (abs_add _ _) ?_
  have h8 := (abs_le.1 h6).2
  nlinarith

/-- The distance of the kernel of cw1Part3 on two finite heights at most
`2 ^ 63` apart is within the relative error `2 ^ (-21)` of the exact
`sqrt ((b - a) ^ 2 + 50 ^ 2)`. -/
theorem cw1Part3.distance_close (asin : Fp → Fp) (a b : ℝ)
    (hV : |b - a| ≤ (2 : ℝ) ^ (63 : Int)) :
    ∃ d : ℝ, (cw1Part3.kernel asin (Fp.finite a) (Fp.finite b)).1 = Fp.finite d ∧
      |d - Real.sqrt ((b - a) ^ 2 + 50 ^ 2)| ≤
        1 / 2097152 * Real.sqrt ((b - a) ^ 2 + 50 ^ 2) := by
  obtain ⟨v, d, hv, _, hd, hk, h50, _⟩ := cw1Part3.kernel_finite asin a b hV
  refine ⟨d, hk, ?_⟩
  have hs := sum_close (b - a) hV
  rw [← hv] at hs
  rw [show (50 : ℝ) ^ 2 = 2500 by norm_num]
  generalize binary32.roundReal (binary32.roundReal (v * v) + 2500) = s at hs hd
  have hA : (2500 : ℝ) ≤ (b - a) ^ 2 + 2500 := by
    have := sq_nonneg (b - a)
    linarith
  generalize (b - a) ^ 2 + 2500 = A at hs hA
  have hA0 : 0 < A := by linarith
  have hD0 : 0 < Real.sqrt A := Real.sqrt_pos.2 hA0
  have hDD : Real.sqrt A * Real.sqrt A = A := Real.mul_self_sqrt hA0.le
  have hs0 : 0 ≤ s := by
    have := (abs_le.1 hs).1
    nlinarith
  have hSS : Real.sqrt s * Real.sqrt s = s := Real.mul_self_sqrt hs0
  have hS0 : 0 ≤ Real.sqrt s := Real.sqrt_nonneg s
  -- the square root of the sum against the exact root
  have h9 : |Real.sqrt s - Real.sqrt A| ≤ 13 / 2 / 16777216 * Real.sqrt A := by
    have hprod : |Real.sqrt s - Real.sqrt A| * (Real.sqrt s + Real.sqrt A) = |s - A| := by
      have e : s - A = (Real.sqrt s - Real.sqrt A) * (Real.sqrt s + Real.sqrt A) := by
        have : (Real.sqrt s - Real.sqrt A) * (Real.sqrt s + Real.sqrt A) =
            Real.sqrt s * Real.sqrt s - Real.sqrt A * Real.sqrt A := by ring
        rw [this, hSS, hDD]
      rw [e, abs_mul, abs_of_pos (by linarith : 0 < Real.sqrt s + Real.sqrt A)]
    have h1 : |Real.sqrt s - Real.sqrt A| * Real.sqrt A ≤
        |Real.sqrt s - Real.sqrt A| * (Real.sqrt s + Real.sqrt A) :=
      mul_le_mul_of_nonneg_left (by linarith) (abs_nonneg _)
    have h2 : |Real.sqrt s - Real.sqrt A| * Real.sqrt A ≤
        13 / 2 / 16777216 * Real.sqrt A * Real.sqrt A := by
      rw [mul_assoc, hDD]
      linarith
    exact le_of_mul_le_mul_right h2 hD0
  -- the rounding of the root
  have hS50 : 1 ≤ |Real.sqrt s| := by
    rw [abs_of_nonneg hS0]
    have := (abs_le.1 h9).1
    have : (50 : ℝ) ≤ Real.sqrt A := by
      refine (Real.le_sqrt' (by norm_num)).2 ?_
      rw [show (50 : ℝ) ^ 2 = 2500 by norm_num]
      exact hA
    nlinarith
  have h10 := abs_round32_sub_le_normal (Real.sqrt s) hS50
  rw [abs_of_nonneg hS0, ← hd] at h10
  have e : d - Real.sqrt A = (d - Real.sqrt s) + (Real.sqrt s - Real.sqrt A) := by ring
  rw [e]
  refine le_trans (abs_add _ _) ?_
  have h11 := (abs_le.1 h9).2
  nlinarith

end Floating

/-! ## A cell in which the two programs differ -/

namespace Floating

theorem sub_small :
    binary32.sub (Fp.finite (259 / 256)) (Fp.finite 1) = Fp.finite (3 / 256) := by
  show binary32.round (259 / 256 - 1) = _
  have e : (259 / 256 - 1 : ℝ) = ((3 : Int) : ℝ) * (2 : ℝ) ^ (-8 : Int) := by norm_num
  have e2 : (3 / 256 : ℝ) = ((3 : Int) : ℝ) * (2 : ℝ) ^ (-8 : Int) := by norm_num
  rw [e2, e]
  apply round32_exact_pos
  · exact FloatFormat.roundReal_scaled binary32 3 (-8)
      (by show |((3 : Int) : ℝ)| < (2 : ℝ) ^ 24; norm_num) (by decide)
  · norm_num
  · norm_num

/-- The kernel of cw1Part3 at the heights `1` and `259 / 256`: the sum
`9 / 65536 + 2500` is rounded up to the next `float`, and the distance is the
`float` after `50`. -/
theorem cw1Part3.kernel_small (asin : Fp → Fp) :
    (cw1Part3.kernel asin (Fp.finite 1) (Fp.finite (259 / 256))).1 =
      Fp.finite (13107201 * (2 : ℝ) ^ (-18 : Int)) := by
  have hmul : binary32.mul (Fp.finite (3 / 256)) (Fp.finite (3 / 256)) =
      Fp.finite (9 / 65536) := by
    show binary32.round (3 / 256 * (3 / 256)) = _
    have e : (3 / 256 * (3 / 256) : ℝ) = ((9 : Int) : ℝ) * (2 : ℝ) ^ (-16 : Int) := by norm_num
    have e2 : (9 / 65536 : ℝ) = ((9 : Int) : ℝ) * (2 : ℝ) ^ (-16 : Int) := by norm_num
    rw [e2, e]
    apply round32_exact_pos
    · exact FloatFormat.roundReal_scaled binary32 9 (-16)
        (by show |((9 : Int) : ℝ)| < (2 : ℝ) ^ 24; norm_num) (by decide)
    · norm_num
    · norm_num
  have hs : binary32.roundReal (9 / 65536 + 2500) =
      ((10240001 : Int) : ℝ) * (2 : ℝ) ^ ((11 : Int) - 23) :=
    binary32_roundReal_pos _ 11 10240001 (by norm_num) (by norm_num) (by norm_num)
      (by norm_num) (by norm_num)
  have hadd : binary32.add (Fp.finite (9 / 65536)) (Fp.finite 2500) =
      Fp.finite (10240001 / 4096) := by
    show binary32.round (9 / 65536 + 2500) = _
    refine round32_finite _ _ ?_ (by norm_num) (by norm_num)
    rw [hs]
    norm_num
  have hroot : binary32.roundReal (Real.sqrt (10240001 / 4096)) =
      ((13107201 : Int) : ℝ) * (2 : ℝ) ^ ((5 : Int) - 23) := by
    have h0 : (0 : ℝ) ≤ Real.sqrt (10240001 / 4096) := Real.sqrt_nonneg _
    have hlo : (13107201 - 1 / 2 : ℝ) * (2 : ℝ) ^ ((5 : Int) - 23) <
        Real.sqrt (10240001 / 4096) := by
      refine (Real.lt_sqrt (by norm_num)).2 ?_
      norm_num
    have hhi : Real.sqrt (10240001 / 4096) <
        (13107201 + 1 / 2 : ℝ) * (2 : ℝ) ^ ((5 : Int) - 23) := by
      refine (Real.sqrt_lt' (by norm_num)).2 ?_
      norm_num
    refine binary32_roundReal_pos _ 5 13107201 ?_ ?_ (by norm_num) (by exact_mod_cast hlo)
      (by exact_mod_cast hhi)
    · refine le_trans ?_ hlo.le
      norm_num
    · refine lt_of_lt_of_le hhi ?_
      norm_num
  have hsqrt : binary32.sqrt (Fp.finite (10240001 / 4096)) =
      Fp.finite (13107201 * (2 : ℝ) ^ (-18 : Int)) := by
    show (if (10240001 / 4096 : ℝ) < 0 then Fp.nan else binary32.round _) = _
    rw [if_neg (by norm_num)]
    have hval : binary32.roundReal (Real.sqrt (10240001 / 4096)) =
        13107201 * (2 : ℝ) ^ (-18 : Int) := by
      rw [hroot]
      norm_num
    exact round32_finite _ _ hval (by norm_num) (by norm_num)
  unfold cw1Part3.kernel
  simp only
  rw [sub_small, hmul, spacing_float, hadd, hsqrt]

/-- The kernel of cw1Part1 at the heights `1` and `259 / 256`: the sum
`9 / 65536 + 2500` is exact in `double`, and the distance is `50`. -/
theorem cw1Part1.kernel_small_double (asin : Fp → Fp) :
    (cw1Part1.kernel asin (Fp.finite 1) (Fp.finite (259 / 256))).1 = Fp.finite 50 := by
  have hpow : pow2 (Fp.finite (3 / 256)) = Fp.finite (9 / 65536) := by
    show binary64.round (3 / 256 * (3 / 256)) = _
    have e : (3 / 256 * (3 / 256) : ℝ) = ((9 : Int) : ℝ) * (2 : ℝ) ^ (-16 : Int) := by norm_num
    have e2 : (9 / 65536 : ℝ) = ((9 : Int) : ℝ) * (2 : ℝ) ^ (-16 : Int) := by norm_num
    rw [e2, e]
    apply round64_exact_pos
    · exact FloatFormat.roundReal_scaled binary64 9 (-16)
        (by show |((9 : Int) : ℝ)| < (2 : ℝ) ^ 53; norm_num) (by decide)
    · norm_num
    · norm_num
  have hadd : binary64.add (Fp.finite (9 / 65536)) (Fp.finite 2500) =
      Fp.finite (163840009 / 65536) := by
    show binary64.round (9 / 65536 + 2500) = _
    have e : (9 / 65536 + 2500 : ℝ) = ((163840009 : Int) : ℝ) * (2 : ℝ) ^ (-16 : Int) := by
      norm_num
    have e2 : (163840009 / 65536 : ℝ) = ((163840009 : Int) : ℝ) * (2 : ℝ) ^ (-16 : Int) := by
      norm_num
    rw [e2, e]
    apply round64_exact_pos
    · exact FloatFormat.roundReal_scaled binary64 163840009 (-16)
        (by show |((163840009 : Int) : ℝ)| < (2 : ℝ) ^ 53; norm_num) (by decide)
    · norm_num
    · norm_num
  have hr0 : (50 : ℝ) ≤ Real.sqrt (163840009 / 65536) := by
    refine (Real.le_sqrt' (by norm_num)).2 ?_
    norm_num
  have hr1 : Real.sqrt (163840009 / 65536) ≤ 104857603 / 2097152 := by
    rw [Real.sqrt_le_left (by norm_num)]
    norm_num
  have eU : binary64.roundReal (104857603 / 2097152) = 104857603 / 2097152 := by
    have := FloatFormat.roundReal_scaled binary64 104857603 (-21)
      (by show |((104857603 : Int) : ℝ)| < (2 : ℝ) ^ 53; norm_num) (by decide)
    have e : ((104857603 : Int) : ℝ) * (2 : ℝ) ^ (-21 : Int) = 104857603 / 2097152 := by
      norm_num
    rwa [e] at this
  have hq0 : 50 ≤ binary64.roundReal (Real.sqrt (163840009 / 65536)) :=
    FloatFormat.le_roundReal_of_le binary64 binary64_prec _ _ binary64_50 hr0
  have hq1 : binary64.roundReal (Real.sqrt (163840009 / 65536)) ≤ 104857603 / 2097152 :=
    FloatFormat.roundReal_le_of_le binary64 binary64_prec _ _ eU hr1
  have hsqrt : binary64.sqrt (Fp.finite (163840009 / 65536)) =
      Fp.finite (binary64.roundReal (Real.sqrt (163840009 / 65536))) := by
    show (if (163840009 / 65536 : ℝ) < 0 then Fp.nan else binary64.round _) = _
    rw [if_neg (by norm_num)]
    apply FloatFormat.round_of_abs_le binary64 binary64_prec binary64_range
    apply binary64_le_max
    rw [abs_of_nonneg (by linarith)]
    refine le_trans hr1 ?_
    norm_num
  generalize binary64.roundReal (Real.sqrt (163840009 / 65536)) = r at hq0 hq1 hsqrt
  have hconv : binary32.convert (Fp.finite r) = Fp.finite 50 := by
    show binary32.round r = _
    have hval : binary32.roundReal r = ((13107200 : Int) : ℝ) * (2 : ℝ) ^ ((5 : Int) - 23) := by
      refine binary32_roundReal_pos r 5 13107200 ?_ ?_ (by norm_num) ?_ ?_
      · norm_num
        linarith
      · norm_num
        linarith
      · norm_num
        linarith
      · norm_num
        linarith
    have h50 : ((13107200 : Int) : ℝ) * (2 : ℝ) ^ ((5 : Int) - 23) = 50 := by norm_num
    rw [h50] at hval
    exact round32_finite _ _ hval (by norm_num) (by norm_num)
  unfold cw1Part1.kernel
  simp only
  rw [sub_small, hpow, round64_50, pow2_50, hadd, hsqrt, hconv]

end Floating

/-! ## How far the distance of cw1Part1 is from the exact one -/

namespace Floating

theorem abs_round64_sub_le_normal (x : ℝ) (h1 : 1 ≤ |x|) :
    |binary64.roundReal x - x| ≤ |x| / 9007199254740992 := by
  have h : (2 : ℝ) ^ binary64.emin ≤ |x| := by
    have : (2 : ℝ) ^ binary64.emin ≤ 1 := by
      have := FloatFormat.two_zpow_le binary64.emin 0 (by decide)
      rwa [zpow_zero] at this
    linarith
  have := FloatFormat.abs_roundReal_sub_le_mul binary64 x h
  have e : (2 : ℝ) ^ (-(binary64.prec : Int)) = 1 / 9007199254740992 := by
    show (2 : ℝ) ^ (-((53 : Nat) : Int)) = 1 / 9007199254740992
    norm_num
  rw [e] at this
  linarith

/-- The sum under the square root, computed in `double` from a difference
`v` that is the rounded `V`, against the exact `V ^ 2 + 2500`. -/
theorem sum_close_double (V : ℝ) (hV : |V| ≤ (2 : ℝ) ^ (63 : Int)) :
    |binary64.roundReal (binary32.roundReal V * binary32.roundReal V + 2500)
      - (V ^ 2 + 2500)| ≤ 4 / 16777216 * (V ^ 2 + 2500) := by
  have hM : |V| ≤ 9223372036854775808 := by
    have e : (2 : ℝ) ^ (63 : Int) = 9223372036854775808 := by norm_num
    rwa [e] at hV
  have hW0 := abs_nonneg V
  have hWW : |V| * |V| = V ^ 2 := by rw [abs_mul_abs_self, sq]
  have h1 := abs_round32_sub_le V
  generalize binary32.roundReal V = v at h1
  have h2 : |v + V| ≤ (2 + 1 / 16777216) * |V| + 1 / 2 ^ 150 := by
    have : v + V = (v - V) + 2 * V := by ring
    rw [this]
    refine le_trans (abs_add _ _) ?_
    rw [abs_mul, abs_of_pos (by norm_num : (0 : ℝ) < 2)]
    linarith
  have h3 : |v * v - V ^ 2| ≤ 3 / 16777216 * V ^ 2 + 1 / 2 ^ 85 := by
    have e : v * v - V ^ 2 = (v - V) * (v + V) := by ring
    rw [e, abs_mul]
    have := mul_le_mul h1 h2 (abs_nonneg _) (by positivity)
    refine le_trans this ?_
    rw [← hWW]
    nlinarith [mul_nonneg hW0 hW0]
  have hvv0 : 0 ≤ v * v := mul_self_nonneg v
  have hsq : 0 ≤ V ^ 2 := sq_nonneg V
  have h4 : v * v ≤ (1 + 3 / 16777216) * V ^ 2 + 1 / 2 ^ 85 := by
    have := (abs_le.1 h3).2
    linarith
  have h7 := abs_round64_sub_le_normal (v * v + 2500)
    (by rw [abs_of_nonneg (by linarith)]; linarith)
  rw [abs_of_nonneg (by linarith : 0 ≤ v * v + 2500)] at h7
  generalize binary64.roundReal (v * v + 2500) = s at h7
  have e : s - (V ^ 2 + 2500) = (s - (v * v + 2500)) + (v * v - V ^ 2) := by ring
  rw [e]
  refine le_trans (abs_add _ _) ?_
  have : (0 : ℝ) ≤ 1 / 2 ^ 85 := by positivity
  have h85 : (1 : ℝ) / 2 ^ 85 ≤ 1 / 2 ^ 30 := by
    apply one_div_le_one_div_of_le (by positivity)
    exact pow_le_pow_right₀ (by norm_num) (by norm_num)
  have e30 : (1 : ℝ) / 2 ^ 30 = 1 / 1073741824 := by norm_num
  rw [e30] at h85
  generalize (1 : ℝ) / 2 ^ 85 = t at *
  linarith

/-- The distance of the kernel of cw1Part1 on two finite heights at most
`2 ^ 63` apart is within the relative error `2 ^ (-21)` of the exact
`sqrt ((b - a) ^ 2 + 50 ^ 2)`. -/
theorem cw1Part1.distance_close_double (asin : Fp → Fp) (a b : ℝ)
    (hV : |b - a| ≤ (2 : ℝ) ^ (63 : Int)) :
    ∃ d : ℝ, (cw1Part1.kernel asin (Fp.finite a) (Fp.finite b)).1 = Fp.finite d ∧
      |d - Real.sqrt ((b - a) ^ 2 + 50 ^ 2)| ≤
        1 / 2097152 * Real.sqrt ((b - a) ^ 2 + 50 ^ 2) := by
  obtain ⟨v, d, hv, _, hd, hk, h50, _⟩ := cw1Part1.kernel_finite_double asin a b hV
  refine ⟨d, hk, ?_⟩
  have hs := sum_close_double (b - a) hV
  rw [← hv] at hs
  rw [show (50 : ℝ) ^ 2 = 2500 by norm_num]
  generalize binary64.roundReal (v * v + 2500) = s at hs hd
  have hA : (2500 : ℝ) ≤ (b - a) ^ 2 + 2500 := by
    have := sq_nonneg (b - a)
    linarith
  generalize (b - a) ^ 2 + 2500 = A at hs hA
  have hA0 : 0 < A := by linarith
  have hD0 : 0 < Real.sqrt A := Real.sqrt_pos.2 hA0
  have hDD : Real.sqrt A * Real.sqrt A = A := Real.mul_self_sqrt hA0.le
  have hs0 : 0 ≤ s := by
    have := (abs_le.1 hs).1
    nlinarith
  have hSS : Real.sqrt s * Real.sqrt s = s := Real.mul_self_sqrt hs0
  have hS0 : 0 ≤ Real.sqrt s := Real.sqrt_nonneg s
  have h9 : |Real.sqrt s - Real.sqrt A| ≤ 4 / 16777216 * Real.sqrt A := by
    have hprod : |Real.sqrt s - Real.sqrt A| * (Real.sqrt s + Real.sqrt A) = |s - A| := by
      have e : s - A = (Real.sqrt s - Real.sqrt A) * (Real.sqrt s + Real.sqrt A) := by
        have : (Real.sqrt s - Real.sqrt A) * (Real.sqrt s + Real.sqrt A) =
            Real.sqrt s * Real.sqrt s - Real.sqrt A * Real.sqrt A := by ring
        rw [this, hSS, hDD]
      rw [e, abs_mul, abs_of_pos (by linarith : 0 < Real.sqrt s + Real.sqrt A)]
    have h1 : |Real.sqrt s - Real.sqrt A| * Real.sqrt A ≤
        |Real.sqrt s - Real.sqrt A| * (Real.sqrt s + Real.sqrt A) :=
      mul_le_mul_of_nonneg_left (by linarith) (abs_nonneg _)
    have h2 : |Real.sqrt s - Real.sqrt A| * Real.sqrt A ≤
        4 / 16777216 * Real.sqrt A * Real.sqrt A := by
      rw [mul_assoc, hDD]
      linarith
    exact le_of_mul_le_mul_right h2 hD0
  have h50A : (50 : ℝ) ≤ Real.sqrt A := by
    refine (Real.le_sqrt' (by norm_num)).2 ?_
    rw [show (50 : ℝ) ^ 2 = 2500 by norm_num]
    exact hA
  have hS50 : 1 ≤ |Real.sqrt s| := by
    rw [abs_of_nonneg hS0]
    have := (abs_le.1 h9).1
    nlinarith
  -- the rounding of the root to `double`
  have h10 := abs_round64_sub_le_normal (Real.sqrt s) hS50
  rw [abs_of_nonneg hS0] at h10
  have hr0 : 0 ≤ binary64.roundReal (Real.sqrt s) :=
    FloatFormat.roundReal_nonneg binary64 _ hS0
  generalize binary64.roundReal (Real.sqrt s) = r at h10 hd hr0
  have hS1 : 49 ≤ Real.sqrt s := by
    have := (abs_le.1 h9).1
    linarith
  have hr1 : 1 ≤ |r| := by
    rw [abs_of_nonneg hr0]
    have := (abs_le.1 h10).1
    linarith
  -- the conversion to `float`
  have h11 := abs_round32_sub_le_normal r hr1
  rw [abs_of_nonneg hr0, ← hd] at h11
  have e : d - Real.sqrt A = (d - r) + (r - Real.sqrt s) + (Real.sqrt s - Real.sqrt A) := by
    ring
  rw [e]
  refine le_trans (abs_add _ _) ?_
  refine le_trans (add_le_add (abs_add _ _) le_rfl) ?_
  have h12 := (abs_le.1 h9).2
  have h13 := (abs_le.1 h10).2
  linarith

end Floating

/-! ## The result of one thread in floating-point arithmetic -/

namespace cw1Part3

/-- C5 as stated fails in `float` arithmetic.  A thread that owns the only
row of a grid of one row and two columns with the heights `0` and `2 ^ 67`
returns, and the cell `(0, 0)` of the distance matrix holds `+∞`, not the
number `sqrt ((2 ^ 67 - 0) ^ 2 + 50 ^ 2)`: the square of the difference
overflows. -/
theorem worker_result_counterexample :
    (Floating.cw1Part3.processRows Floating.asinNearest 1 2
      { mainArray := fun _ j => if j = 0 then Fp.finite 0 else Fp.finite ((2 : ℝ) ^ (67 : Int)),
        distanceArray := fun _ _ => Fp.finite 0, angleArray := fun _ _ => Fp.finite 0 }
      { currentRow := 0, rowsToProcess := 1, timeTaken := 0 }).returned = true ∧
    (Floating.cw1Part3.processRows Floating.asinNearest 1 2
      { mainArray := fun _ j => if j = 0 then Fp.finite 0 else Fp.finite ((2 : ℝ) ^ (67 : Int)),
        distanceArray := fun _ _ => Fp.finite 0, angleArray := fun _ _ => Fp.finite 0 }
      { currentRow := 0, rowsToProcess := 1, timeTaken := 0 }).arrays.distanceArray 0 0 =
      Fp.infinite false := by
  obtain ⟨hr, _, hd, _⟩ := Floating.cw1Part3.processRows_float Floating.asinNearest 1 2
    { mainArray := fun _ j => if j = 0 then Fp.finite 0 else Fp.finite ((2 : ℝ) ^ (67 : Int)),
      distanceArray := fun _ _ => Fp.finite 0, angleArray := fun _ _ => Fp.finite 0 }
    { currentRow := 0, rowsToProcess := 1, timeTaken := 0 } (by decide)
  refine ⟨hr.2 (by decide), ?_⟩
  rw [hd, if_pos (by
    unfold ThreadData.owns
    decide)]
  have hn : nextColumn 2 0 = 1 := by decide
  unfold Floating.cw1Part3.kernelAt
  simp only [hn, if_true, if_false, one_ne_zero]
  rw [Floating.cw1Part3.kernel_overflow]

/-- C5, amended.  In `float` arithmetic a thread of cw1Part3 whose range
`[currentRow, currentRow + rowsToProcess)` lies in `[0, H)` returns, and then
every cell `(i, j)` of its range, `j < W`, holds in the distance matrix what
the kernel computes in `float` from `h[i][j]` and `h[i][(j + 1) mod W]`
(`sqrt (v * v + 50 * 50)` with every operation rounded to `float`); when the
two heights are finite and at most `2 ^ 63` apart this is a finite number
within the relative error `2 ^ (-21)` of
`sqrt ((h[i][(j + 1) mod W] - h[i][j])^2 + HORIZONTAL_POINT_DIST^2)`, where
`HORIZONTAL_POINT_DIST` is `50`. -/
theorem worker_result (asin : Fp → Fp) (H W : Nat) (a : Floating.Arrays) (d : ThreadData)
    (_hs : 0 ≤ d.currentRow) (hc : 0 ≤ d.rowsToProcess)
    (hH : d.currentRow + d.rowsToProcess ≤ (H : Int))
    (i : Int) (j : Nat) (hi : d.currentRow ≤ i) (hi2 : i < d.currentRow + d.rowsToProcess)
    (hj : j < W) :
    (Floating.cw1Part3.processRows asin H W a d).returned = true ∧
    (Floating.cw1Part3.processRows asin H W a d).arrays.distanceArray i j =
      (Floating.cw1Part3.kernel asin (a.mainArray i j) (a.mainArray i ((j + 1) % W))).1 ∧
    HORIZONTAL_POINT_DIST = 50 ∧
    ∀ x y : ℝ, a.mainArray i j = Fp.finite x → a.mainArray i ((j + 1) % W) = Fp.finite y →
      |y - x| ≤ (2 : ℝ) ^ (63 : Int) →
      ∃ dist : ℝ,
        (Floating.cw1Part3.processRows asin H W a d).arrays.distanceArray i j = Fp.finite dist ∧
        |dist - Real.sqrt ((y - x) ^ 2 + (HORIZONTAL_POINT_DIST : ℝ) ^ 2)| ≤
          1 / 2097152 * Real.sqrt ((y - x) ^ 2 + (HORIZONTAL_POINT_DIST : ℝ) ^ 2) := by
  obtain ⟨hr, _, hd, _⟩ := Floating.cw1Part3.processRows_float asin H W a d hc
  have hcond : d.owns i ∧ i < (H : Int) ∧ j < W := ⟨⟨hi, hi2⟩, by omega, hj⟩
  have hcell : (Floating.cw1Part3.processRows asin H W a d).arrays.distanceArray i j =
      (Floating.cw1Part3.kernel asin (a.mainArray i j) (a.mainArray i ((j + 1) % W))).1 := by
    rw [hd, if_pos hcond, Floating.cw1Part3.kernelAt, nextColumn_eq_mod W j hj]
  refine ⟨hr.2 (by omega), hcell, rfl, fun x y hx hy hxy => ?_⟩
  obtain ⟨dist, h1, h2⟩ := Floating.cw1Part3.distance_close asin x y hxy
  refine ⟨dist, by rw [hcell, hx, hy, h1], ?_⟩
  have e : ((HORIZONTAL_POINT_DIST : Int) : ℝ) = 50 := by
    unfold HORIZONTAL_POINT_DIST
    norm_num
  rw [e]
  exact h2

/-- The thread that owns rows `1` and `2` of a grid of four rows and three
columns; the cell looked at is the last one of row `2`. -/
theorem worker_result_witness :
    (Floating.cw1Part3.processRows Floating.asinNearest 4 3
      { mainArray := fun i j => Fp.finite ((i : ℝ) + (j : ℝ)),
        distanceArray := fun _ _ => Fp.finite 0, angleArray := fun _ _ => Fp.finite 0 }
      { currentRow := 1, rowsToProcess := 2, timeTaken := 0 }).returned = true :=
  (worker_result Floating.asinNearest 4 3
      { mainArray := fun i j => Fp.finite ((i : ℝ) + (j : ℝ)),
        distanceArray := fun _ _ => Fp.finite 0, angleArray := fun _ _ => Fp.finite 0 }
      { currentRow := 1, rowsToProcess := 2, timeTaken := 0 }
      (by decide) (by decide) (by decide) 2 2 (by decide) (by decide) (by decide)).1

end cw1Part3

/-! ## The parallel and the sequential program in floating-point arithmetic -/

/-- C3 as stated fails in floating-point arithmetic.  On a grid of one row
and two columns with the heights `1` and `259 / 256`, cw1Part3 with one
thread leaves `13107201 / 2 ^ 18`, the `float` after `50`, in the cell
`(0, 0)` of its distance matrix, and cw1Part1 leaves `50` there: cw1Part3
rounds the sum `9 / 65536 + 2500` to `float` before it takes the root,
cw1Part1 computes the sum and the root in `double`. -/
theorem parallel_eq_sequential_counterexample :
    (∃ a : Floating.Arrays,
      Floating.cw1Part3.main Floating.asinNearest 1 2 1
        (fun _ j => if j = 0 then Fp.finite 1 else Fp.finite (259 / 256))
        (fun _ _ => Fp.finite 0) (fun _ _ => Fp.finite 0) = some a ∧
      a.distanceArray 0 0 = Fp.finite (13107201 * (2 : ℝ) ^ (-18 : Int))) ∧
    (Floating.cw1Part1.main Floating.asinNearest 1 2
      (fun _ j => if j = 0 then Fp.finite 1 else Fp.finite (259 / 256))
      (fun _ _ => Fp.finite 0) (fun _ _ => Fp.finite 0)).distanceArray 0 0 = Fp.finite 50 ∧
    (13107201 * (2 : ℝ) ^ (-18 : Int) ≠ 50) := by
  have hn : nextColumn 2 0 = 1 := by decide
  have hc : (0 : Int) ≤ 0 ∧ (0 : Int) < ((1 : Nat) : Int) ∧ 0 < 2 := by decide
  refine ⟨?_, ?_, by norm_num⟩
  · obtain ⟨a, ha, _, hd, _⟩ := Floating.cw1Part3.main_float Floating.asinNearest 1 2 1
      (fun _ j => if j = 0 then Fp.finite 1 else Fp.finite (259 / 256))
      (fun _ _ => Fp.finite 0) (fun _ _ => Fp.finite 0) le_rfl le_rfl
    refine ⟨a, ha, ?_⟩
    rw [hd, if_pos hc]
    unfold Floating.cw1Part3.kernelAt
    simp only [hn, if_true, if_false, one_ne_zero]
    exact Floating.cw1Part3.kernel_small _
  · obtain ⟨_, hd, _⟩ := Floating.cw1Part1.main_double Floating.asinNearest 1 2
      (fun _ j => if j = 0 then Fp.finite 1 else Fp.finite (259 / 256))
      (fun _ _ => Fp.finite 0) (fun _ _ => Fp.finite 0)
    rw [hd, if_pos hc]
    unfold Floating.cw1Part1.kernelAt
    simp only [hn, if_true, if_false, one_ne_zero]
    exact Floating.cw1Part1.kernel_small_double _

/-- C3, amended.  In floating-point arithmetic, for `1 ≤ N ≤ H` the `N`
thread program cw1Part3 returns `0`, and its distance and its angle matrix
are, cell for cell, those of the same program run with a single thread;
every cell `(i, j)` of the grid, `0 ≤ i < H`, `j < W`, holds what the kernel
of cw1Part3 computes from `h[i][j]` and `h[i][(j + 1) mod W]`, and the same
cell after the single pass of cw1Part1 holds what the kernel of cw1Part1
computes from them, so that the two programs agree in a cell exactly when the
two kernels agree on its heights.  When the two heights are finite and at
most `2 ^ 63` apart, the two distances of the cell are finite and each is
within the relative error `2 ^ (-21)` of
`sqrt ((h[i][(j + 1) mod W] - h[i][j])^2 + 50^2)`. -/
theorem parallel_eq_sequential (asin : Fp → Fp) (H W N : Nat)
    (m d0 a0 d1 a1 : Floating.Matrix) (h1 : 1 ≤ N) (hN : N ≤ H) :
    ∃ a single : Floating.Arrays,
      Floating.cw1Part3.main asin H W N m d0 a0 = some a ∧
      Floating.cw1Part3.main asin H W 1 m d0 a0 = some single ∧
      (∀ (i : Int) (j : Nat), a.distanceArray i j = single.distanceArray i j ∧
        a.angleArray i j = single.angleArray i j) ∧
      ∀ (i : Int) (j : Nat), 0 ≤ i → i < (H : Int) → j < W →
        a.distanceArray i j =
          (Floating.cw1Part3.kernel asin (m i j) (m i ((j + 1) % W))).1 ∧
        a.angleArray i j =
          (Floating.cw1Part3.kernel asin (m i j) (m i ((j + 1) % W))).2 ∧
        (Floating.cw1Part1.main asin H W m d1 a1).distanceArray i j =
          (Floating.cw1Part1.kernel asin (m i j) (m i ((j + 1) % W))).1 ∧
        (Floating.cw1Part1.main asin H W m d1 a1).angleArray i j =
          (Floating.cw1Part1.kernel asin (m i j) (m i ((j + 1) % W))).2 ∧
        ∀ x y : ℝ, m i j = Fp.finite x → m i ((j + 1) % W) = Fp.finite y →
          |y - x| ≤ (2 : ℝ) ^ (63 : Int) →
          ∃ parallel sequential : ℝ,
            a.distanceArray i j = Fp.finite parallel ∧
            (Floating.cw1Part1.main asin H W m d1 a1).distanceArray i j =
              Fp.finite sequential ∧
            |parallel - Real.sqrt ((y - x) ^ 2 + 50 ^ 2)| ≤
              1 / 2097152 * Real.sqrt ((y - x) ^ 2 + 50 ^ 2) ∧
            |sequential - Real.sqrt ((y - x) ^ 2 + 50 ^ 2)| ≤
              1 / 2097152 * Real.sqrt ((y - x) ^ 2 + 50 ^ 2) := by
  obtain ⟨a, ha, _, hd, hg⟩ := Floating.cw1Part3.main_float asin H W N m d0 a0 h1 hN
  obtain ⟨s, hs, _, sd, sg⟩ := Floating.cw1Part3.main_float asin H W 1 m d0 a0 le_rfl
    (by omega)
  obtain ⟨_, pd, pg⟩ := Floating.cw1Part1.main_double asin H W m d1 a1
  refine ⟨a, s, ha, hs, fun i j => ⟨by rw [hd, sd], by rw [hg, sg]⟩, fun i j hi hi2 hj => ?_⟩
  have hc : 0 ≤ i ∧ i < (H : Int) ∧ j < W := ⟨hi, hi2, hj⟩
  rw [hd, hg, pd, pg]
  simp only [if_pos hc, Floating.cw1Part3.kernelAt, Floating.cw1Part1.kernelAt,
    nextColumn_eq_mod W j hj, true_and]
  intro x y hx hy hxy
  obtain ⟨p, hp1, hp2⟩ := Floating.cw1Part3.distance_close asin x y hxy
  obtain ⟨q, hq1, hq2⟩ := Floating.cw1Part1.distance_close_double asin x y hxy
  rw [hx, hy]
  exact ⟨p, q, hp1, hq1, hp2, hq2⟩

/-- Five rows of three columns, split between two threads. -/
theorem parallel_eq_sequential_witness :
    1 ≤ 2 ∧ 2 ≤ 5 ∧
    ∃ a single : Floating.Arrays,
      Floating.cw1Part3.main Floating.asinNearest 5 3 2
        (fun i j => Fp.finite ((i : ℝ) * (j : ℝ))) (fun _ _ => Fp.finite 0)
        (fun _ _ => Fp.finite 0) = some a ∧
      Floating.cw1Part3.main Floating.asinNearest 5 3 1
        (fun i j => Fp.finite ((i : ℝ) * (j : ℝ))) (fun _ _ => Fp.finite 0)
        (fun _ _ => Fp.finite 0) = some single ∧
      ∀ (i : Int) (j : Nat), a.distanceArray i j = single.distanceArray i j ∧
        a.angleArray i j = single.angleArray i j := by
  obtain ⟨a, s, h1, h2, h3, _⟩ := parallel_eq_sequential Floating.asinNearest 5 3 2
    (fun i j => Fp.finite ((i : ℝ) * (j : ℝ))) (fun _ _ => Fp.finite 0)
    (fun _ _ => Fp.finite 0) (fun _ _ => Fp.finite 1) (fun _ _ => Fp.finite 1)
    (by decide) (by decide)
  exact ⟨by decide, by decide, a, s, h1, h2, h3⟩

/-! ## The loader with `float` cells -/

namespace Floating

theorem Matrix.set_float_same (m : Matrix) (i : Int) (j : Nat) (v : Fp) : m.set i j v i j = v := by
  simp [Matrix.set]

namespace Loader

/-- A successful conversion of `n` cells of row `i` from column `j` on: each
of the cells holds what `stof` returns for its string, every other cell is
unchanged. -/
theorem convertCells_float_ok (stof : List Char → Option Fp) (strings : Nat → Nat → List Char)
    (i n j : Nat) (m m2 : Matrix) (h : convertCells stof strings i n j m = Except.ok m2) :
    (∀ c : Nat, j ≤ c → c < j + n → stof (strings i c) = some (m2 (i : Int) c)) ∧
    (∀ (r : Int) (c : Nat), ¬ (r = (i : Int) ∧ j ≤ c ∧ c < j + n) → m2 r c = m r c) := by
  induction n generalizing j m with
  | zero =>
    rw [convertCells] at h
    injection h with h
    subst h
    exact ⟨fun c h1 h2 => by omega, fun r c _ => rfl⟩
  | succ n ih =>
    rw [convertCells] at h
    cases hs : stof (strings i j) with
    | none =>
      rw [hs] at h
      exact Except.noConfusion h
    | some v =>
      rw [hs] at h
      obtain ⟨h1, h2⟩ := ih (j + 1) _ h
      constructor
      · intro c hc1 hc2
        by_cases hcj : c = j
        · subst hcj
          rw [h2 (i : Int) c (by omega), Matrix.set_float_same]
          exact hs
        · exact h1 c (by omega) (by omega)
      · intro r c hrc
        rw [h2 r c (by omega)]
        unfold Matrix.set
        rw [if_neg]
        omega

/-- The conversion of a row fails as soon as `stof` throws for one of its
strings. -/
theorem convertCells_float_error (stof : List Char → Option Fp)
    (strings : Nat → Nat → List Char) (i n j : Nat) (m : Matrix)
    (h : ∃ c : Nat, j ≤ c ∧ c < j + n ∧ stof (strings i c) = none) :
    convertCells stof strings i n j m = Except.error LoadError.invalidArgument := by
  induction n generalizing j m with
  | zero =>
    obtain ⟨c, h1, h2, _⟩ := h
    omega
  | succ n ih =>
    rw [convertCells]
    cases hs : stof (strings i j) with
    | none => rfl
    | some v =>
      simp only
      apply ih
      obtain ⟨c, h1, h2, h3⟩ := h
      have : c ≠ j := by
        intro hcj
        rw [hcj, hs] at h3
        exact Option.noConfusion h3
      exact ⟨c, by omega, by omega, h3⟩

/-- The conversion of a row succeeds when `stof` returns for each of its
strings. -/
theorem convertCells_float_some (stof : List Char → Option Fp)
    (strings : Nat → Nat → List Char) (i n j : Nat) (m : Matrix)
    (h : ∀ c : Nat, j ≤ c → c < j + n → ∃ v, stof (strings i c) = some v) :
    ∃ m2, convertCells stof strings i n j m = Except.ok m2 := by
  induction n generalizing j m with
  | zero => exact ⟨m, rfl⟩
  | succ n ih =>
    rw [convertCells]
    obtain ⟨v, hv⟩ := h j le_rfl (by omega)
    rw [hv]
    exact ih (j + 1) _ (fun c h1 h2 => h c (by omega) (by omega))

theorem convertCells_float_kind (stof : List Char → Option Fp)
    (strings : Nat → Nat → List Char) (i n j : Nat) (m : Matrix) (e : LoadError)
    (h : convertCells stof strings i n j m = Except.error e) :
    e = LoadError.invalidArgument := by
  induction n generalizing j m with
  | zero =>
    rw [convertCells] at h
    exact Except.noConfusion h
  | succ n ih =>
    rw [convertCells] at h
    cases hs : stof (strings i j) with
    | none =>
      rw [hs] at h
      injection h with h
      exact h.symm
    | some v =>
      rw [hs] at h
      exact ih (j + 1) _ h

/-- A successful conversion of the `n` rows from row `i` on. -/
theorem convertRows_float_ok (stof : List Char → Option Fp) (W : Nat)
    (strings : Nat → Nat → List Char) (n i : Nat) (m m2 : Matrix)
    (h : convertRows stof W strings n i m = Except.ok m2) :
    (∀ r c : Nat, i ≤ r → r < i + n → c < W → stof (strings r c) = some (m2 (r : Int) c)) ∧
    (∀ (r : Int) (c : Nat), ¬ ((i : Int) ≤ r ∧ r < (i : Int) + (n : Int) ∧ c < W) →
      m2 r c = m r c) := by
  induction n generalizing i m with
  | zero =>
    rw [convertRows] at h
    injection h with h
    subst h
    exact ⟨fun r c h1 h2 => by omega, fun r c _ => rfl⟩
  | succ n ih =>
    rw [convertRows] at h
    cases hs : convertCells stof strings i W 0 m with
    | error e =>
      rw [hs] at h
      exact Except.noConfusion h
    | ok m1 =>
      rw [hs] at h
      obtain ⟨c1, c2⟩ := convertCells_float_ok stof strings i W 0 m m1 hs
      obtain ⟨h1, h2⟩ := ih (i + 1) m1 h
      constructor
      · intro r c hr1 hr2 hc
        by_cases hri : r = i
        · subst hri
          rw [h2 (r : Int) c (by push_cast; omega)]
          exact c1 c (by omega) (by omega)
        · exact h1 r c (by omega) (by omega) hc
      · intro r c hrc
        rw [h2 r c (by push_cast; omega), c2 r c (by push_cast at hrc; omega)]

/-- The conversion fails as soon as `stof` throws for the string of one
cell. -/
theorem convertRows_float_error (stof : List Char → Option Fp) (W : Nat)
    (strings : Nat → Nat → List Char) (n i : Nat) (m : Matrix)
    (h : ∃ r c : Nat, i ≤ r ∧ r < i + n ∧ c < W ∧ stof (strings r c) = none) :
    convertRows stof W strings n i m = Except.error LoadError.invalidArgument := by
  induction n generalizing i m with
  | zero =>
    obtain ⟨r, c, h1, h2, _⟩ := h
    omega
  | succ n ih =>
    rw [convertRows]
    cases hs : convertCells stof strings i W 0 m with
    | error e =>
      rw [convertCells_float_kind stof strings i W 0 m e hs]
    | ok m1 =>
      simp only
      apply ih
      obtain ⟨r, c, h1, h2, h3, h4⟩ := h
      have hri : r ≠ i := by
        intro hri
        subst hri
        have := (convertCells_float_ok stof strings r W 0 m m1 hs).1 c (by omega) (by omega)
        rw [h4] at this
        exact Option.noConfusion this
      exact ⟨r, c, by omega, by omega, h3, h4⟩

/-- The conversion succeeds when `stof` returns for the string of every
cell. -/
theorem convertRows_float_some (stof : List Char → Option Fp) (W : Nat)
    (strings : Nat → Nat → List Char) (n i : Nat) (m : Matrix)
    (h : ∀ r c : Nat, i ≤ r → r < i + n → c < W → ∃ v, stof (strings r c) = some v) :
    ∃ m2, convertRows stof W strings n i m = Except.ok m2 := by
  induction n generalizing i m with
  | zero => exact ⟨m, rfl⟩
  | succ n ih =>
    rw [convertRows]
    obtain ⟨m1, hm1⟩ := convertCells_float_some stof strings i W 0 m
      (fun c _ hc => h i c le_rfl (by omega) (by omega))
    rw [hm1]
    exact ih (i + 1) m1 (fun r c h1 h2 hc => h r c (by omega) (by omega) hc)

end Loader

/-- A matrix that `setupMainArray` returns holds, in every cell of the grid,
what `stof` has returned for the string of the cell. -/
theorem setupMainArray_float_ok (stof : List Char → Option Fp) (H W : Nat)
    (inFile : List Char) (m0 m : Matrix) (h : setupMainArray stof H W inFile m0 = Except.ok m) :
    ∃ strings : Nat → Nat → List Char,
      Threading.Loader.readRows W H 0 inFile (fun _ _ => []) = Except.ok strings ∧
      ∀ i j : Nat, i < H → j < W → stof (strings i j) = some (m (i : Int) j) := by
  unfold setupMainArray at h
  cases hr : Threading.Loader.readRows W H 0 inFile (fun _ _ => []) with
  | error e =>
    rw [hr] at h
    exact Except.noConfusion h
  | ok strings =>
    rw [hr] at h
    refine ⟨strings, rfl, fun i j hi hj => ?_⟩
    exact (Loader.convertRows_float_ok stof W strings H 0 m0 m h).1 i j (by omega) (by omega) hj

/-- When the reading loop succeeds and `stof` throws for the string of some
cell of the grid, `setupMainArray` ends with that exception. -/
theorem setupMainArray_float_error (stof : List Char → Option Fp) (H W : Nat)
    (inFile : List Char) (m0 : Matrix) (strings : Nat → Nat → List Char)
    (hr : Threading.Loader.readRows W H 0 inFile (fun _ _ => []) = Except.ok strings)
    (h : ∃ i j : Nat, i < H ∧ j < W ∧ stof (strings i j) = none) :
    setupMainArray stof H W inFile m0 = Except.error LoadError.invalidArgument := by
  unfold setupMainArray
  rw [hr]
  simp only
  apply Loader.convertRows_float_error
  obtain ⟨i, j, hi, hj, hs⟩ := h
  exact ⟨i, j, by omega, by omega, hj, hs⟩

/-- When the reading loop succeeds and `stof` returns for the string of every
cell of the grid, `setupMainArray` returns a matrix. -/
theorem setupMainArray_float_some (stof : List Char → Option Fp) (H W : Nat)
    (inFile : List Char) (m0 : Matrix) (strings : Nat → Nat → List Char)
    (hr : Threading.Loader.readRows W H 0 inFile (fun _ _ => []) = Except.ok strings)
    (h : ∀ i j : Nat, i < H → j < W → ∃ v, stof (strings i j) = some v) :
    ∃ m, setupMainArray stof H W inFile m0 = Except.ok m := by
  unfold setupMainArray
  rw [hr]
  simp only
  exact Loader.convertRows_float_some stof W strings H 0 m0
    (fun r c _ h2 hc => h r c (by omega) hc)

end Floating

/-! ## The model of `std::stof` -/

namespace Floating

theorem toLower_digit (c : Char) (h : c.isDigit = true) : c.toLower = c := by
  unfold Char.isDigit at h
  unfold Char.toLower
  simp only [Bool.and_eq_true, decide_eq_true_eq] at h
  rw [if_neg]
  intro h2
  have h3 : c.val.toNat ≤ 57 := h.2
  have h4 : c.val.toNat ≥ 65 := h2.1
  omega

theorem pointTail_of_ne (c : Char) (r : List Char) (h : c ≠ '.') :
    pointTail (c :: r) = c :: r := by
  unfold pointTail
  split
  · rename_i heq
    injection heq with h1 h2
    exact absurd h1 h
  · rfl

theorem pointTail_nil : pointTail [] = [] := rfl

theorem pointTail_point (r : List Char) : pointTail ('.' :: r) = r := rfl

theorem splitSign_of_ne (c : Char) (r : List Char) (h1 : c ≠ '-') (h2 : c ≠ '+') :
    splitSign (c :: r) = (false, c :: r) := by
  unfold splitSign
  split
  · rename_i heq
    injection heq with h _
    exact absurd h h1
  · rename_i heq
    injection heq with h _
    exact absurd h h2
  · rfl

/-- No numeral starts with a character that is not a digit, not a point and
not the first letter of `inf` or `nan`. -/
theorem unsignedLiteral_none (negative : Bool) (c : Char) (r : List Char)
    (h1 : c.isDigit = false) (h2 : c ≠ '.') (h3 : c.toLower ≠ 'i') (h4 : c.toLower ≠ 'n') :
    unsignedLiteral negative (c :: r) = none := by
  have hd : decimalLiteral negative (c :: r) = none := by
    unfold decimalLiteral
    rw [List.takeWhile_cons_of_neg (by simp [h1]), List.dropWhile_cons_of_neg (by simp [h1]),
      pointTail_of_ne c r h2, List.takeWhile_cons_of_neg (by simp [h1])]
    simp
  unfold unsignedLiteral
  have e : List.take 3 (c :: r) = c :: List.take 2 r := rfl
  rw [e, List.map_cons, if_neg, if_neg]
  · split
    · rename_i heq
      injection heq with h _
      rw [h] at h1
      exact absurd h1 (by decide)
    · exact hd
  · intro h
    injection h with h _
    exact h4 h
  · intro h
    injection h with h _
    exact h3 h

theorem unsignedLiteral_nil (negative : Bool) : unsignedLiteral negative [] = none := by
  cases negative <;> decide

/-- A numeral that starts with a digit is decimal, unless it starts with
`0x`. -/
theorem unsignedLiteral_decimal (negative : Bool) (c : Char) (r : List Char)
    (h1 : c.isDigit = true)
    (h2 : c = '0' → ∀ x ∈ r.head?, x ≠ 'x' ∧ x ≠ 'X') :
    unsignedLiteral negative (c :: r) = decimalLiteral negative (c :: r) := by
  unfold unsignedLiteral
  have e : List.take 3 (c :: r) = c :: List.take 2 r := rfl
  have hl := toLower_digit c h1
  rw [e, List.map_cons, hl, if_neg, if_neg]
  · split
    · rename_i x r2 heq
      injection heq with h hr
      have := h2 h x (by rw [hr]; rfl)
      rw [if_neg]
      intro hx
      rcases hx with hx | hx
      · exact this.1 hx
      · exact this.2 hx
    · rfl
  · intro h
    injection h with h _
    rw [h] at h1
    exact absurd h1 (by decide)
  · intro h
    injection h with h _
    rw [h] at h1
    exact absurd h1 (by decide)

theorem isSpaceChar_of_start (c : Char) (h : c.isDigit = true ∨ c = '.' ∨ c = '+' ∨ c = '-') :
    isSpaceChar c = false := by
  rcases h with h | h | h | h
  · cases hs : isSpaceChar c with
    | false => rfl
    | true =>
      exfalso
      unfold Char.isDigit at h
      simp only [Bool.and_eq_true, decide_eq_true_eq] at h
      have h3 : c.val.toNat ≥ 48 := h.1
      unfold isSpaceChar at hs
      simp only [Bool.or_eq_true, decide_eq_true_eq] at hs
      have h4 : c.toNat = c.val.toNat := rfl
      rcases hs with ((((hs | hs) | hs) | hs) | hs) | hs
      · rw [hs] at h3
        exact absurd h3 (by decide)
      · rw [hs] at h3
        exact absurd h3 (by decide)
      · rw [hs] at h3
        exact absurd h3 (by decide)
      · rw [hs] at h3
        exact absurd h3 (by decide)
      · omega
      · omega
  · rw [h]
    decide
  · rw [h]
    decide
  · rw [h]
    decide

theorem digit_ne (c x : Char) (h : c.isDigit = true) (hx : x.isDigit = false) : c ≠ x := by
  intro e
  rw [e, hx] at h
  exact Bool.noConfusion h

/-- The subject of a string that starts, after an optional sign, with a digit
or a point is a decimal numeral, unless the string starts with `0x`. -/
theorem literal_of_body (sign : List Char) (c : Char) (r : List Char)
    (hsign : sign = [] ∨ sign = ['+'] ∨ sign = ['-'])
    (h : c.isDigit = true ∨ c = '.')
    (hx : c = '0' → ∀ x ∈ r.head?, x ≠ 'x' ∧ x ≠ 'X') :
    literal (sign ++ c :: r) = decimalLiteral (decide (sign = ['-'])) (c :: r) := by
  have hi : c.toLower ≠ 'i' ∧ c.toLower ≠ 'n' ∧ c ≠ '-' ∧ c ≠ '+' := by
    rcases h with h | h
    · rw [toLower_digit c h]
      exact ⟨digit_ne c _ h (by decide), digit_ne c _ h (by decide),
        digit_ne c _ h (by decide), digit_ne c _ h (by decide)⟩
    · rw [h]
      decide
  have hu : ∀ negative : Bool,
      unsignedLiteral negative (c :: r) = decimalLiteral negative (c :: r) := by
    intro negative
    unfold unsignedLiteral
    have e : List.take 3 (c :: r) = c :: List.take 2 r := rfl
    rw [e, List.map_cons, if_neg, if_neg]
    · split
      · rename_i x r2 heq
        injection heq with h0 hr
        have := hx h0 x (by rw [hr]; rfl)
        rw [if_neg]
        intro hxx
        rcases hxx with hxx | hxx
        · exact this.1 hxx
        · exact this.2 hxx
      · rfl
    · intro h2
      injection h2 with h2 _
      exact hi.2.1 h2
    · intro h2
      injection h2 with h2 _
      exact hi.1 h2
  unfold literal
  rcases hsign with hs | hs | hs
  · subst hs
    rw [List.nil_append, List.dropWhile_cons_of_neg (by
      rw [isSpaceChar_of_start c (by tauto)]
      decide), splitSign_of_ne c r hi.2.2.1 hi.2.2.2]
    exact hu _
  · subst hs
    have e : List.dropWhile isSpaceChar (['+'] ++ c :: r) = '+' :: c :: r := by
      rw [List.singleton_append, List.dropWhile_cons_of_neg (by decide)]
    rw [e]
    exact hu _
  · subst hs
    have e : List.dropWhile isSpaceChar (['-'] ++ c :: r) = '-' :: c :: r := by
      rw [List.singleton_append, List.dropWhile_cons_of_neg (by decide)]
    rw [e]
    exact hu _

theorem takeWhile_digits (ds rest : List Char) (hd : ∀ c ∈ ds, c.isDigit = true)
    (hr : ∀ c ∈ rest.head?, c.isDigit = false) :
    (ds ++ rest).takeWhile Char.isDigit = ds ∧ (ds ++ rest).dropWhile Char.isDigit = rest := by
  rw [List.takeWhile_append_of_pos hd, List.dropWhile_append_of_pos hd]
  cases rest with
  | nil => simp
  | cons c r =>
    have := hr c rfl
    rw [List.takeWhile_cons_of_neg (by simp [this]), List.dropWhile_cons_of_neg (by simp [this])]
    simp

theorem exponentPart_of_ne (lower upper : Char) (tail : List Char)
    (h : ∀ c ∈ tail.head?, c ≠ lower ∧ c ≠ upper) : exponentPart lower upper tail = 0 := by
  cases tail with
  | nil => rfl
  | cons c r =>
    have := h c rfl
    unfold exponentPart
    simp only
    rw [if_neg]
    intro h2
    rcases h2 with h2 | h2
    · exact this.1 h2
    · exact this.2 h2

/-- The decimal numeral of digits, an optional point with digits, and a tail
that cannot continue the numeral. -/
theorem decimalLiteral_digits (negative : Bool) (ds frac tail : List Char)
    (hds : ∀ c ∈ ds, c.isDigit = true)
    (hfrac : frac = [] ∨ ∃ fs, frac = '.' :: fs ∧ ∀ c ∈ fs, c.isDigit = true)
    (hne : ds ++ frac.tail ≠ [])
    (htail : ∀ c ∈ tail.head?, c.isDigit = false ∧ c ≠ 'e' ∧ c ≠ 'E' ∧ (frac = [] → c ≠ '.')) :
    decimalLiteral negative (ds ++ frac ++ tail) =
      some (Literal.number negative (natOfDigits (ds ++ frac.tail)) 10
        (-(frac.tail.length : Int))) := by
  have hexp : exponentPart 'e' 'E' tail = 0 :=
    exponentPart_of_ne _ _ tail (fun c hc => ⟨(htail c hc).2.1, (htail c hc).2.2.1⟩)
  have htd := takeWhile_digits [] tail (fun _ h => absurd h (List.not_mem_nil _))
    (fun c hc => (htail c hc).1)
  rw [List.nil_append] at htd
  rcases hfrac with hf | ⟨fs, hf, hfs⟩
  · subst hf
    rw [List.tail_nil, List.append_nil] at hne
    rw [List.append_nil]
    have ht := takeWhile_digits ds tail hds (fun c hc => (htail c hc).1)
    have hp : pointTail tail = tail := by
      cases tail with
      | nil => rfl
      | cons c r => exact pointTail_of_ne c r ((htail c rfl).2.2.2 rfl)
    unfold decimalLiteral
    rw [ht.1, ht.2, hp, htd.1, htd.2, hexp, if_neg (by
      rintro ⟨h1, _⟩
      exact hne h1)]
    simp
  · subst hf
    have e : ds ++ '.' :: fs ++ tail = ds ++ ('.' :: (fs ++ tail)) := by simp
    have ht := takeWhile_digits ds ('.' :: (fs ++ tail)) hds (fun c hc => by
      have : c = '.' := by
        simp only [List.head?_cons, Option.mem_def, Option.some.injEq] at hc
        exact hc.symm
      rw [this]
      decide)
    have hf2 := takeWhile_digits fs tail hfs (fun c hc => (htail c hc).1)
    unfold decimalLiteral
    rw [e, ht.1, ht.2, pointTail_point, hf2.1, hf2.2, hexp, List.tail_cons, if_neg (by
      rintro ⟨h1, h2⟩
      rw [List.tail_cons, h1, h2] at hne
      exact hne rfl)]
    simp

/-- The subject of a string that consists of an optional sign, decimal digits
with an optional point, and a tail that cannot continue the numeral: the
decimal numeral, whatever the tail is. -/
theorem literal_decimal (sign ds frac tail : List Char)
    (hsign : sign = [] ∨ sign = ['+'] ∨ sign = ['-'])
    (hds : ∀ c ∈ ds, c.isDigit = true)
    (hfrac : frac = [] ∨ ∃ fs, frac = '.' :: fs ∧ ∀ c ∈ fs, c.isDigit = true)
    (hne : ds ++ frac.tail ≠ [])
    (htail : ∀ c ∈ tail.head?, c.isDigit = false ∧ c ≠ 'e' ∧ c ≠ 'E' ∧ (frac = [] → c ≠ '.') ∧
      (ds = ['0'] → frac = [] → c ≠ 'x' ∧ c ≠ 'X')) :
    literal (sign ++ ds ++ frac ++ tail) =
      some (Literal.number (decide (sign = ['-'])) (natOfDigits (ds ++ frac.tail)) 10
        (-(frac.tail.length : Int))) := by
  have hd := decimalLiteral_digits (decide (sign = ['-'])) ds frac tail hds hfrac hne
    (fun c hc => ⟨(htail c hc).1, (htail c hc).2.1, (htail c hc).2.2.1, (htail c hc).2.2.2.1⟩)
  rw [← hd]
  cases ds with
  | nil =>
    rcases hfrac with hf | ⟨fs, hf, hfs⟩
    · subst hf
      exact absurd rfl hne
    · subst hf
      have e : sign ++ [] ++ '.' :: fs ++ tail = sign ++ '.' :: (fs ++ tail) := by simp
      rw [e]
      exact literal_of_body sign '.' (fs ++ tail) hsign (Or.inr rfl) (fun h => absurd h (by decide))
  | cons d ds2 =>
    have e : sign ++ d :: ds2 ++ frac ++ tail = sign ++ d :: (ds2 ++ frac ++ tail) := by simp
    have e2 : d :: ds2 ++ frac ++ tail = d :: (ds2 ++ frac ++ tail) := by simp
    rw [e, e2]
    apply literal_of_body sign d _ hsign (Or.inl (hds d (List.mem_cons_self _ _)))
    intro hd0 x hx
    cases ds2 with
    | cons d2 ds3 =>
      have hx2 : x = d2 := by
        simp only [List.cons_append, List.head?_cons, Option.mem_def, Option.some.injEq] at hx
        exact hx.symm
      have hdig := hds d2 (List.mem_cons_of_mem _ (List.mem_cons_self _ _))
      rw [hx2]
      exact ⟨digit_ne d2 _ hdig (by decide), digit_ne d2 _ hdig (by decide)⟩
    | nil =>
      rcases hfrac with hf | ⟨fs, hf, hfs⟩
      · subst hf
        rw [List.nil_append, List.nil_append] at hx
        exact (htail x hx).2.2.2.2 (by rw [hd0]) rfl
      · subst hf
        have hx2 : x = '.' := by
          simp only [List.nil_append, List.cons_append, List.head?_cons, Option.mem_def,
            Option.some.injEq] at hx
          exact hx.symm
        rw [hx2]
        decide

/-- The value `std::stof` returns for a number in the range of the normal
`float` numbers, or zero. -/
theorem stof_number (underflow : ℝ → Bool) (s : List Char) (negative : Bool)
    (mantissa base : Nat) (exponent : Int)
    (hl : literal s = some (Literal.number negative mantissa base exponent))
    (hmax : |numberValue negative mantissa base exponent| ≤ binary32.maxFinite)
    (hmin : numberValue negative mantissa base exponent = 0 ∨
      (2 : ℝ) ^ (-126 : Int) ≤ |numberValue negative mantissa base exponent|) :
    stof underflow s =
      some (Fp.finite (binary32.roundReal (numberValue negative mantissa base exponent))) := by
  unfold stof
  rw [hl]
  simp only
  rw [if_neg, if_neg]
  · rintro ⟨h1, h2, _⟩
    rcases hmin with h | h
    · exact h1 h
    · exact absurd h2 (not_lt.2 h)
  · rw [not_lt]
    exact FloatFormat.abs_roundReal_le_of_le binary32 binary32_prec _ _
      (FloatFormat.roundReal_maxFinite binary32 binary32_range) hmax

/-- What `std::stof` does depends on the subject of the string alone. -/
theorem stof_congr (underflow : ℝ → Bool) (s t : List Char) (h : literal s = literal t) :
    stof underflow s = stof underflow t := by
  unfold stof
  rw [h]

/-- `std::stof` throws when the string is empty. -/
theorem stof_nil (underflow : ℝ → Bool) : stof underflow [] = none := by
  have h : literal [] = none := by decide
  unfold stof
  rw [h]

/-- `std::stof` throws when the string starts with a character with which no
numeral, sign or white space starts. -/
theorem stof_none (underflow : ℝ → Bool) (c : Char) (r : List Char)
    (h : startsNumeral c = false) : stof underflow (c :: r) = none := by
  unfold startsNumeral at h
  simp only [Bool.or_eq_false_iff, beq_eq_false_iff_ne, ne_eq] at h
  obtain ⟨⟨⟨⟨⟨⟨h1, h2⟩, h3⟩, h4⟩, h5⟩, h6⟩, h7⟩ := h
  have hl : literal (c :: r) = none := by
    unfold literal
    rw [List.dropWhile_cons_of_neg (by simp [h1]), splitSign_of_ne c r h3 h2]
    exact unsignedLiteral_none _ c r h4 h5 h6 h7
  unfold stof
  rw [hl]

end Floating

/-! ## Malformed input -/

namespace Floating

/-- The token `1x`: `std::stof` returns `1`. -/
theorem stof_one_x (underflow : ℝ → Bool) : stof underflow ['1', 'x'] = some (Fp.finite 1) := by
  have hl : literal ['1', 'x'] = some (Literal.number false 1 10 0) := by decide
  have hv : numberValue false 1 10 0 = 1 := by
    unfold numberValue
    norm_num
  have := stof_number underflow ['1', 'x'] false 1 10 0 hl
    (by rw [hv, binary32_maxFinite]; norm_num) (Or.inr (by
      rw [hv, abs_one]
      exact zpow_le_one_of_nonpos₀ (by norm_num) (by norm_num)))
  rw [this, hv, binary32_one]

/-- The token `1e3`: `std::stof` returns `1000`. -/
theorem stof_exponent (underflow : ℝ → Bool) :
    stof underflow ['1', 'e', '3'] = some (Fp.finite 1000) := by
  have hl : literal ['1', 'e', '3'] = some (Literal.number false 1 10 3) := by decide
  have hv : numberValue false 1 10 3 = 1000 := by
    unfold numberValue
    norm_num
  have h1000 : binary32.roundReal 1000 = 1000 := by
    have := FloatFormat.roundReal_intCast binary32 1000
      (by show |((1000 : Int) : ℝ)| < (2 : ℝ) ^ 24; norm_num) (by decide)
    simpa using this
  have := stof_number underflow ['1', 'e', '3'] false 1 10 3 hl
    (by rw [hv, binary32_maxFinite]; norm_num) (Or.inr (by
      rw [hv]
      refine le_trans (zpow_le_one_of_nonpos₀ (by norm_num) (by norm_num)) ?_
      norm_num))
  rw [this, hv, h1000]

end Floating

/-- C18 as stated fails.  A file of one line with the single token `1x`, which
is not a number because of its `x`: `setupMainArray` (one row, one column)
returns a matrix, and its cell holds `1`, the value of the prefix `1` of the
token. -/
theorem malformed_input_counterexample :
    ∃ m : Floating.Matrix,
      (∀ underflow : ℝ → Bool,
        Floating.setupMainArray (Floating.stof underflow) 1 1 ['1', 'x', ' ', '\n']
          (fun _ _ => Fp.finite 0) = Except.ok m) ∧
      m 0 0 = Fp.finite 1 ∧ 'x' ∈ ['1', 'x'] ∧ Char.isDigit 'x' = false := by
  have hfile : ['1', 'x', ' ', '\n'] = [[['1', 'x']]].flatMap Loader.rowText ++ [] := by
    decide
  have hread := Loader.readRows_rows 1 [[['1', 'x']]] [] 0 (fun _ _ => [])
    (by decide) (fun _ _ => rfl)
  rw [← hfile] at hread
  refine ⟨Floating.Matrix.set (fun _ _ => Fp.finite 0) 0 0 (Fp.finite 1), fun underflow => ?_,
    Floating.Matrix.set_float_same _ _ _ _, by decide, by decide⟩
  unfold Floating.setupMainArray
  rw [show ([[['1', 'x']]] : List (List (List Char))).length = 1 from rfl] at hread
  rw [hread]
  simp only [Floating.Loader.convertRows, Floating.Loader.convertCells]
  have hs : (List.getD (List.getD [[['1', 'x']]] (0 - 0) []) 0 [] : List Char) = ['1', 'x'] := by
    decide
  have hc : 0 ≤ 0 ∧ 0 < 0 + 1 := by decide
  simp only [if_pos hc, hs, Floating.stof_one_x]
  rfl

/-- C18, amended.  The cells are `float` values and `stof` is `std::stof`.
On every file, `setupMainArray` returns a matrix exactly when its reading
loop ends and `stof` returns a value for the string of every cell of the
grid; the matrix then holds in every cell of the grid the value that `stof`
has returned for the string of that cell, which is not empty.  On a file
whose lines have the format of the generator with at most
`W` tokens each, `setupMainArray` returns a matrix exactly when `stof` returns
a value for the token of every cell of the grid, and otherwise it ends with
the exception of `stof` and returns no matrix; `stof` throws for a cell when
its line has no token for it (the line has fewer than `W` values), when its
token is empty, and when its token starts with a character with which no
numeral, sign or white space starts (as in `abc`).  A token that consists of
a decimal numeral (an optional sign, digits, an optional point with digits)
and a tail that does not continue the numeral is not rejected: `stof` returns
for it what it returns for the numeral alone, the `float` nearest to the value
of the numeral when that lies in the range of the normal `float` numbers or
is zero. -/
theorem malformed_input (underflow : ℝ → Bool) (H W : Nat)
    (rows : List (List (List Char))) (rest : List Char) (m0 : Floating.Matrix)
    (hH : rows.length = H)
    (hrows : ∀ r ∈ rows, r.length ≤ W ∧ ∀ t ∈ r, ' ' ∉ t ∧ '\n' ∉ t) :
    (∀ inFile : List Char,
      (∃ m : Floating.Matrix,
        Floating.setupMainArray (Floating.stof underflow) H W inFile m0 = Except.ok m) ↔
      ∃ strings : Nat → Nat → List Char,
        Loader.readRows W H 0 inFile (fun _ _ => []) = Except.ok strings ∧
        ∀ i j : Nat, i < H → j < W →
          ∃ v : Fp, Floating.stof underflow (strings i j) = some v) ∧
    (∀ (inFile : List Char) (m : Floating.Matrix),
      Floating.setupMainArray (Floating.stof underflow) H W inFile m0 = Except.ok m →
      ∃ strings : Nat → Nat → List Char,
        Loader.readRows W H 0 inFile (fun _ _ => []) = Except.ok strings ∧
        ∀ i j : Nat, i < H → j < W →
          strings i j ≠ [] ∧ Floating.stof underflow (strings i j) = some (m (i : Int) j)) ∧
    ((∃ m : Floating.Matrix,
        Floating.setupMainArray (Floating.stof underflow) H W
          (rows.flatMap Loader.rowText ++ rest) m0 = Except.ok m) ↔
      ∀ i j : Nat, i < H → j < W →
        ∃ v : Fp, Floating.stof underflow ((rows.getD i []).getD j []) = some v) ∧
    (∀ m : Floating.Matrix,
      Floating.setupMainArray (Floating.stof underflow) H W
        (rows.flatMap Loader.rowText ++ rest) m0 = Except.ok m →
      ∀ i j : Nat, i < H → j < W →
        Floating.stof underflow ((rows.getD i []).getD j []) = some (m (i : Int) j)) ∧
    ((∃ i j : Nat, i < H ∧ j < W ∧
        ((rows.getD i []).length ≤ j ∨ (rows.getD i []).getD j [] = [] ∨
          (∃ (c : Char) (r : List Char), (rows.getD i []).getD j [] = c :: r ∧
            Floating.startsNumeral c = false) ∨
          Floating.stof underflow ((rows.getD i []).getD j []) = none)) →
      Floating.setupMainArray (Floating.stof underflow) H W
        (rows.flatMap Loader.rowText ++ rest) m0 = Except.error LoadError.invalidArgument) ∧
    (∀ sign ds frac tail : List Char,
      (sign = [] ∨ sign = ['+'] ∨ sign = ['-']) →
      (∀ c ∈ ds, c.isDigit = true) →
      (frac = [] ∨ ∃ fs : List Char, frac = '.' :: fs ∧ ∀ c ∈ fs, c.isDigit = true) →
      ds ++ frac.tail ≠ [] →
      (∀ c ∈ tail.head?, c.isDigit = false ∧ c ≠ 'e' ∧ c ≠ 'E' ∧ (frac = [] → c ≠ '.') ∧
        (ds = ['0'] → frac = [] → c ≠ 'x' ∧ c ≠ 'X')) →
      Floating.stof underflow (sign ++ ds ++ frac ++ tail) =
        Floating.stof underflow (sign ++ ds ++ frac) ∧
      (|Floating.numberValue (decide (sign = ['-'])) (natOfDigits (ds ++ frac.tail)) 10
          (-(frac.tail.length : Int))| ≤ binary32.maxFinite →
        (Floating.numberValue (decide (sign = ['-'])) (natOfDigits (ds ++ frac.tail)) 10
            (-(frac.tail.length : Int)) = 0 ∨
          (2 : ℝ) ^ (-126 : Int) ≤
            |Floating.numberValue (decide (sign = ['-'])) (natOfDigits (ds ++ frac.tail)) 10
              (-(frac.tail.length : Int))|) →
        Floating.stof underflow (sign ++ ds ++ frac ++ tail) =
          some (Fp.finite (binary32.roundReal
            (Floating.numberValue (decide (sign = ['-'])) (natOfDigits (ds ++ frac.tail)) 10
              (-(frac.tail.length : Int))))))) := by
  have hread := Loader.readRows_rows W rows rest 0 (fun _ _ => []) hrows (fun _ _ => rfl)
  rw [hH] at hread
  have hcell : ∀ i j : Nat, i < H →
      (fun k => if 0 ≤ k ∧ k < 0 + H then
        (fun c => (rows.getD (k - 0) []).getD c []) else (fun _ => [])) i j =
      (rows.getD i []).getD j [] := by
    intro i j hi
    have hc : 0 ≤ i ∧ i < 0 + H := by omega
    simp only [if_pos hc, Nat.sub_zero]
  have hnone : (∃ i j : Nat, i < H ∧ j < W ∧
      Floating.stof underflow ((rows.getD i []).getD j []) = none) →
      Floating.setupMainArray (Floating.stof underflow) H W
        (rows.flatMap Loader.rowText ++ rest) m0 = Except.error LoadError.invalidArgument := by
    rintro ⟨i, j, hi, hj, he⟩
    apply Floating.setupMainArray_float_error _ H W _ m0 _ hread
    refine ⟨i, j, hi, hj, ?_⟩
    have hc : 0 ≤ i ∧ i < 0 + H := by omega
    simp only [if_pos hc, Nat.sub_zero]
    exact he
  have hvalues : ∀ m : Floating.Matrix,
      Floating.setupMainArray (Floating.stof underflow) H W
        (rows.flatMap Loader.rowText ++ rest) m0 = Except.ok m →
      ∀ i j : Nat, i < H → j < W →
        Floating.stof underflow ((rows.getD i []).getD j []) = some (m (i : Int) j) := by
    intro m hm i j hi hj
    obtain ⟨strings, hs, hc⟩ := Floating.setupMainArray_float_ok _ H W _ m0 m hm
    rw [hread] at hs
    injection hs with hs
    have := hc i j hi hj
    rw [← hs, hcell i j hi] at this
    exact this
  refine ⟨fun inFile => ⟨?_, ?_⟩, ?_, ⟨?_, ?_⟩, hvalues, ?_, ?_⟩
  · rintro ⟨m, hm⟩
    obtain ⟨strings, hs, hc⟩ := Floating.setupMainArray_float_ok _ H W inFile m0 m hm
    exact ⟨strings, hs, fun i j hi hj => ⟨_, hc i j hi hj⟩⟩
  · rintro ⟨strings, hs, hc⟩
    exact Floating.setupMainArray_float_some _ H W inFile m0 strings hs hc
  · intro inFile m hm
    obtain ⟨strings, hs, hc⟩ := Floating.setupMainArray_float_ok _ H W inFile m0 m hm
    refine ⟨strings, hs, fun i j hi hj => ⟨?_, hc i j hi hj⟩⟩
    intro he
    have := hc i j hi hj
    rw [he, Floating.stof_nil] at this
    exact Option.noConfusion this
  · rintro ⟨m, hm⟩ i j hi hj
    exact ⟨_, hvalues m hm i j hi hj⟩
  · intro h
    apply Floating.setupMainArray_float_some _ H W _ m0 _ hread
    intro i j hi hj
    have hc : 0 ≤ i ∧ i < 0 + H := by omega
    simp only [if_pos hc, Nat.sub_zero]
    exact h i j hi hj
  · rintro ⟨i, j, hi, hj, hk⟩
    apply hnone
    refine ⟨i, j, hi, hj, ?_⟩
    rcases hk with hk | hk | ⟨c, r, hk, hc⟩ | hk
    · rw [List.getD_eq_getElem?_getD, List.getElem?_eq_none hk]
      exact Floating.stof_nil underflow
    · rw [hk]
      exact Floating.stof_nil underflow
    · rw [hk]
      exact Floating.stof_none underflow c r hc
    · exact hk
  · intro sign ds frac tail hsign hds hfrac hne htail
    have h1 := Floating.literal_decimal sign ds frac tail hsign hds hfrac hne htail
    have h2 := Floating.literal_decimal sign ds frac [] hsign hds hfrac hne
      (fun c hc => Option.noConfusion hc)
    rw [List.append_nil] at h2
    refine ⟨Floating.stof_congr underflow _ _ (by rw [h1, h2]), fun hmax hmin => ?_⟩
    exact Floating.stof_number underflow _ _ _ _ _ h1 hmax hmin

/-- A file of one line with the tokens `1.5` and `abc`, read as a grid of one
row and two columns: no numeral starts with `a`, and no matrix is returned. -/
theorem malformed_input_witness :
    Floating.setupMainArray (Floating.stof (fun _ => true)) 1 2
      ([[['1', '.', '5'], ['a', 'b', 'c']]].flatMap Loader.rowText ++ [])
      (fun _ _ => Fp.finite 0) = Except.error LoadError.invalidArgument :=
  (malformed_input (fun _ => true) 1 2 [[['1', '.', '5'], ['a', 'b', 'c']]] []
    (fun _ _ => Fp.finite 0) rfl (by decide)).2.2.2.2.1
    ⟨0, 1, by decide, by decide, Or.inr (Or.inr (Or.inl ⟨'a', ['b', 'c'], rfl, by decide⟩))⟩

end Threading
